import Mathlib

/-! ## TSQR combine kernel: `TSQR::CombineNative<Ordinal, Scalar, false>`

A shallow embedding of `packages/tpetra/tsqr/src/Tsqr_CombineNative.hpp`
(real-arithmetic specialisation).

* A C array is a map from the signed element offset to the stored scalar
  (`Buf K`); a pointer into an array is the shifted map (`ptr`).
* A `Kokkos::View<Scalar**, LayoutLeft>` is an index descriptor (`View`):
  entry `(i, j)` lives at `off + i + j * ld` of the underlying buffer.
* Scalars range over a linearly ordered field `K` (exact arithmetic); the
  definitions run on `ℚ` and are instantiated at `ℝ` in the theorems that
  speak about `sqrt`.
* `for (Ordinal i = 0; i < n; ++i)` is `loop n`, which runs the body for
  `i = 0` first and `i = n - 1` last.
-/

namespace TSQR

/-! ## Data model -/

/-- Raw column-major storage: the scalar stored at each signed offset from a base pointer. -/
abbrev Buf (K : Type) := Int → K

/-- Pointer arithmetic `&b[p]`: the array that starts `p` elements into `b`. -/
def ptr {K : Type} (b : Buf K) (p : Int) : Buf K := fun i => b (p + i)

/-- In-place result of a routine that overwrote `x[0 .. len)` behind the pointer `&b[p]`:
the `len` entries from offset `p` on come from `x`, every other entry of `b` is kept. -/
def poke {K : Type} (b : Buf K) (p : Int) (len : Nat) (x : Buf K) : Buf K :=
  fun q => if p ≤ q ∧ q < p + len then x (q - p) else b q

/-- The counting loop `for (Ordinal i = 0; i < n; ++i) s = body i s`. -/
def loop {σ : Type} (n : Nat) (body : Nat → σ → σ) (s : σ) : σ :=
  match n with
  | 0 => s
  | k + 1 => body k (loop k body s)

/-- The counting loop `for (Ordinal j = a; j < b; ++j) s = body j s`. -/
def loopFrom {σ : Type} (a b : Nat) (body : Nat → σ → σ) (s : σ) : σ :=
  loop (b - a) (fun t s => body (a + t) s) s

/-- The descending sweep `for (Ordinal j = n - 1; j != -1; j += -1) s = body j s`
(for `n ≥ 0`): runs the body for `j = n - 1` first and `j = 0` last. -/
def loopDown {σ : Type} (n : Nat) (body : Nat → σ → σ) (s : σ) : σ :=
  match n with
  | 0 => s
  | k + 1 => loopDown k body (body k s)

/-- Faults raised by the kernel (`TEUCHOS_TEST_FOR_EXCEPTION (..., std::logic_error, ...)`). -/
inductive Err where
  | logic_error : Err
  deriving DecidableEq, Repr

/-- The counting loop whose body may raise: the first fault ends the loop. -/
def loopM {σ : Type} (n : Nat) (body : Nat → σ → Except Err σ) (s : σ) : Except Err σ :=
  match n with
  | 0 => Except.ok s
  | k + 1 =>
    match loopM k body s with
    | Except.error e => Except.error e
    | Except.ok s1 => body k s1

/-- Modelled from the spec: `TSQR::ApplyType` (declared in `Tsqr_ApplyType.hpp`), the
enumeration passed to `apply_*`; §6 lists `NoTranspose` and `Transpose`. -/
inductive ApplyType where
  | NoTranspose : ApplyType
  | Transpose : ApplyType
  deriving DecidableEq, Repr

/-- Index descriptor of a `Kokkos::View<Scalar**, Kokkos::LayoutLeft>` over a raw buffer:
`dim0` rows, `dim1` columns, column stride `ld`, first entry at offset `off`. -/
structure View where
  off : Int
  dim0 : Nat
  dim1 : Nat
  ld : Nat
  deriving DecidableEq, Repr

/-- The view `Kokkos::View<Scalar**, LayoutLeft> V (p, d0, d1)` on a raw pointer. -/
def View.ofPtr (d0 d1 : Nat) : View := ⟨0, d0, d1, d0⟩

/-- The view `Kokkos::subview (V, std::pair (r0, r1), std::pair (c0, c1))`. -/
def View.subview (V : View) (r0 r1 c0 c1 : Nat) : View :=
  ⟨V.off + (r0 : Int) + (c0 : Int) * (V.ld : Int), r1 - r0, c1 - c0, V.ld⟩

/-- The view `Kokkos::subview (V, std::pair (r0, r1), Kokkos::ALL ())`. -/
def View.rows (V : View) (r0 r1 : Nat) : View := V.subview r0 r1 0 V.dim1

/-- Offset of entry `(i, j)` of a view in its buffer (`LayoutLeft`); the indices are signed,
as `Ordinal` is. -/
def View.idx (V : View) (i j : Int) : Int := V.off + i + j * (V.ld : Int)

variable {K : Type} [LinearOrderedField K]

/-! ## BLAS-2 micro-kernels -/

/-- `CombineNative::GER (alpha, x, incx, y, incy, A)`, lines 433-475: the rank-1 update of the
view `A` (index descriptor `V` over the buffer `A`).  `x` and `y` are read-only arrays that
do not overlap the entries of `A` that are written. -/
def GER (alpha : K) (x : Buf K) (incx : Int) (y : Buf K) (incy : Int) (V : View)
    (A : Buf K) : Buf K :=
  let m := V.dim0
  let n := V.dim1
  let jy0 : Int := if incy > 0 then 1 else 1 - ((n : Int) - 1) * incy
  if incx = 1 then
    (loop n (fun j (st : Buf K × Int) =>
      let A1 := st.1
      let jy := st.2
      let A2 :=
        if y (jy - 1) ≠ 0 then
          let temp := alpha * y (jy - 1)
          loop m (fun i (B : Buf K) =>
            Function.update B (V.idx i j) (B (V.idx i j) + x (i : Int) * temp)) A1
        else A1
      (A2, jy + incy)) (A, jy0)).1
  else
    let kx : Int := if incx > 0 then 1 else 1 - ((m : Int) - 1) * incx
    (loop n (fun j (st : Buf K × Int) =>
      let A1 := st.1
      let jy := st.2
      let A2 :=
        if y jy ≠ 0 then
          let temp := alpha * y (jy - 1)
          (loop m (fun i (st2 : Buf K × Int) =>
            (Function.update st2.1 (V.idx i j) (st2.1 (V.idx i j) + x (st2.2 - 1) * temp),
              st2.2 + incx)) (A1, kx)).1
        else A1
      (A2, jy + incy)) (A, jy0)).1

/-- Modelled from the spec: `KokkosBlas::gemv (trans, alpha, A, x, beta, y)` (declared in
`KokkosBlas2_gemv.hpp`), the dense matrix-vector kernel `y ← alpha · op(A) · x + beta · y`
with `op` the identity for `trans[0] ∈ {N, n}` and the transpose otherwise (§4.1). -/
def gemv (trans : Char) (alpha : K) (V : View) (A : Buf K) (x : Buf K) (beta : K)
    (y : Buf K) : Buf K :=
  if trans = 'N' ∨ trans = 'n' then
    loop V.dim0 (fun i (y1 : Buf K) =>
      Function.update y1 (i : Int)
        (alpha * loop V.dim1 (fun j acc => acc + A (V.idx i j) * x (j : Int)) 0
          + beta * y1 (i : Int))) y
  else
    loop V.dim1 (fun j (y1 : Buf K) =>
      Function.update y1 (j : Int)
        (alpha * loop V.dim0 (fun i acc => acc + A (V.idx i j) * x (i : Int)) 0
          + beta * y1 (j : Int))) y

/-- `CombineNative::GEMV (trans, alpha, A, x, incx, beta, y, incy)`, lines 478-505: raises
`std::logic_error` unless both strides are 1, then forwards to `KokkosBlas::gemv`. -/
def GEMV (trans : Char) (alpha : K) (V : View) (A : Buf K) (x : Buf K) (incx : Int)
    (beta : K) (y : Buf K) (incy : Int) : Except Err (Buf K) :=
  if incx ≠ 1 ∨ incy ≠ 1 then Except.error Err.logic_error
  else Except.ok (gemv trans alpha V A x beta y)

/-- Modelled from the spec: LAPACK `LARFG (N, alpha, x, 1, tau)` (reached through
`Teuchos::LAPACK`), by its contract in exact arithmetic.  With a zero tail `x[0 .. N-1)`:
`tau = 0` and nothing changes.  Otherwise `beta = -sign(alpha) · sqrt(alpha² + |x|²)` with
`sign(0) = +1`, `tau = (beta - alpha) / beta`, `x := x / (alpha - beta)`, `alpha := beta`.
Returns the new `alpha`, the new array `x` and `tau`; `sqrt` is the square root of `K`. -/
def LARFG (sqrt : K → K) (N : Nat) (alpha : K) (x : Buf K) : K × Buf K × K :=
  if ∀ i : Nat, i < N - 1 → x (i : Int) = 0 then (alpha, x, 0)
  else
    let xnorm2 : K := loop (N - 1) (fun i acc => acc + x (i : Int) * x (i : Int)) 0
    let beta : K := -((if 0 ≤ alpha then 1 else -1) * sqrt (alpha * alpha + xnorm2))
    (beta, fun p => if 0 ≤ p ∧ p < ((N - 1 : Nat) : Int) then x p / (alpha - beta) else x p,
      (beta - alpha) / beta)

/-! ## `factor_inner` and `apply_inner` -/

/-- The buffers `factor_inner` works on. -/
structure InnerState (K : Type) where
  R : Buf K
  A : Buf K
  tau : Buf K
  work : Buf K

/-- Body of the column sweep of `factor_inner` for column `k` (lines 530-545). -/
def factor_inner_step (sqrt : K → K) (m n ldr lda : Nat) (k : Nat) (s : InnerState K) :
    Except Err (InnerState K) :=
  let A_view := (View.ofPtr lda n).rows 0 m
  let A_1kp1 := A_view.subview 0 m (k + 1) n
  let p_kk : Int := (k : Int) + (k : Int) * (ldr : Int)
  let p_1k : Int := 0 + (k : Int) * (lda : Int)
  let r := LARFG sqrt (m + 1) (s.R p_kk) (ptr s.A p_1k)
  let R1 := Function.update s.R p_kk r.1
  let A1 := poke s.A p_1k m r.2.1
  let tau1 := Function.update s.tau (k : Int) r.2.2
  match GEMV 'T' 1 A_1kp1 A1 (ptr A1 p_1k) 1 0 s.work 1 with
  | Except.error e => Except.error e
  | Except.ok work1 =>
    let rw := loopFrom (k + 1) n (fun j (st : Buf K × Buf K) =>
      let p_kj : Int := (k : Int) + (j : Int) * (ldr : Int)
      let q : Int := (j : Int) - (k : Int) - 1
      let w2 := Function.update st.2 q (st.2 q + st.1 p_kj)
      (Function.update st.1 p_kj (st.1 p_kj - tau1 (k : Int) * w2 q), w2)) (R1, work1)
    Except.ok ⟨rw.1, GER (-(tau1 (k : Int))) (ptr A1 p_1k) 1 rw.2 1 A_1kp1 A1, tau1, rw.2⟩

/-- `CombineNative::factor_inner (m, n, R, ldr, A, lda, tau, work)`, lines 507-551. -/
def factor_inner (sqrt : K → K) (m n : Nat) (R : Buf K) (ldr : Nat) (A : Buf K) (lda : Nat)
    (tau work : Buf K) : Except Err (InnerState K) :=
  let work0 := loop n (fun k (w : Buf K) => Function.update w (k : Int) 0) work
  match loopM (n - 1) (factor_inner_step sqrt m n ldr lda) ⟨R, A, tau, work0⟩ with
  | Except.error e => Except.error e
  | Except.ok s =>
    let p_nn : Int := ((n : Int) - 1) + ((n : Int) - 1) * (ldr : Int)
    let p_1n : Int := 0 + ((n : Int) - 1) * (lda : Int)
    let r := LARFG sqrt (m + 1) (s.R p_nn) (ptr s.A p_1n)
    Except.ok ⟨Function.update s.R p_nn r.1, poke s.A p_1n m r.2.1,
      Function.update s.tau ((n : Int) - 1) r.2.2, s.work⟩

/-- The buffers `apply_inner` and `apply_pair` write. -/
structure ApplyState (K : Type) where
  C_top : Buf K
  C_bot : Buf K
  work : Buf K

/-- Body of the reflector sweep of `apply_inner` for reflector `j` (lines 597-612). -/
def apply_inner_step (m ncols_C : Nat) (A : Buf K) (lda : Nat) (tau : Buf K)
    (ldc_top ldc_bot : Nat) (j : Nat) (s : ApplyState K) : ApplyState K :=
  let C_bot_view := (View.ofPtr ldc_bot ncols_C).rows 0 m
  let A_1j := ptr A (0 + (j : Int) * (lda : Int))
  let work1 := loop ncols_C (fun i (w : Buf K) =>
    let w1 := Function.update w (i : Int) 0
    let w2 := loop m (fun k (w3 : Buf K) =>
      Function.update w3 (i : Int)
        (w3 (i : Int) + A_1j (k : Int) * s.C_bot (C_bot_view.idx k i))) w1
    Function.update w2 (i : Int)
      (w2 (i : Int) + s.C_top ((j : Int) + (i : Int) * (ldc_top : Int)))) s.work
  let C_top1 := loop ncols_C (fun k (C : Buf K) =>
    let p : Int := (j : Int) + (k : Int) * (ldc_top : Int)
    Function.update C p (C p - tau (j : Int) * work1 (k : Int))) s.C_top
  ⟨C_top1, GER (-(tau (j : Int))) A_1j 1 work1 1 C_bot_view s.C_bot, work1⟩

/-- `CombineNative::apply_inner (applyType, m, ncols_C, ncols_Q, A, lda, tau, C_top, ldc_top,
C_bot, ldc_bot, work)`, lines 554-614.  The sweep runs `j = ncols_Q - 1, ..., 0` for
`NoTranspose` and `j = 0, ..., ncols_Q - 1` otherwise. -/
def apply_inner (applyType : ApplyType) (m ncols_C ncols_Q : Nat) (A : Buf K) (lda : Nat)
    (tau : Buf K) (C_top : Buf K) (ldc_top : Nat) (C_bot : Buf K) (ldc_bot : Nat)
    (work : Buf K) : ApplyState K :=
  let work0 := loop ncols_C (fun i (w : Buf K) => Function.update w (i : Int) 0) work
  if applyType = ApplyType.NoTranspose then
    loopDown ncols_Q (apply_inner_step m ncols_C A lda tau ldc_top ldc_bot)
      ⟨C_top, C_bot, work0⟩
  else
    loop ncols_Q (apply_inner_step m ncols_C A lda tau ldc_top ldc_bot) ⟨C_top, C_bot, work0⟩

/-! ## `factor_pair` and `apply_pair` -/

/-- The buffers `factor_pair` works on. -/
structure PairState (K : Type) where
  R_top : Buf K
  R_bot : Buf K
  tau : Buf K
  work : Buf K

/-- Body of the column sweep of the view overload of `factor_pair` for column `k`
(lines 636-655); `VT` and `VB` are the views `R_top` and `R_bot`. -/
def factor_pair_step (sqrt : K → K) (VT VB : View) (k : Nat) (s : PairState K) :
    Except Err (PairState K) :=
  let n := VT.dim0
  let R_bot_1kp1 := VB.subview 0 (k + 1) (k + 1) n
  let p_kk : Int := VT.idx k k
  let p_1k : Int := VB.idx 0 k
  let r := LARFG sqrt (k + 2) (s.R_top p_kk) (ptr s.R_bot p_1k)
  let R_top1 := Function.update s.R_top p_kk r.1
  let R_bot1 := poke s.R_bot p_1k (k + 1) r.2.1
  let tau1 := Function.update s.tau (k : Int) r.2.2
  match GEMV 'T' 1 R_bot_1kp1 R_bot1 (ptr R_bot1 p_1k) 1 0 s.work 1 with
  | Except.error e => Except.error e
  | Except.ok work1 =>
    let rw := loopFrom (k + 1) n (fun j (st : Buf K × Buf K) =>
      let p_kj : Int := VT.idx k j
      let q : Int := (j : Int) - (k : Int) - 1
      let w2 := Function.update st.2 q (st.2 q + st.1 p_kj)
      (Function.update st.1 p_kj (st.1 p_kj - tau1 (k : Int) * w2 q), w2)) (R_top1, work1)
    Except.ok ⟨rw.1, GER (-(tau1 (k : Int))) (ptr R_bot1 p_1k) 1 rw.2 1 R_bot_1kp1 R_bot1,
      tau1, rw.2⟩

/-- View overload of `CombineNative::factor_pair (R_top, R_bot, tau, work)`, lines 617-663. -/
def factor_pair_view (sqrt : K → K) (VT VB : View) (R_top R_bot tau work : Buf K) :
    Except Err (PairState K) :=
  let n := VT.dim0
  let work0 := loop n (fun k (w : Buf K) => Function.update w (k : Int) 0) work
  match loopM (n - 1) (factor_pair_step sqrt VT VB) ⟨R_top, R_bot, tau, work0⟩ with
  | Except.error e => Except.error e
  | Except.ok s =>
    let p_nn : Int := VT.idx ((n : Int) - 1) ((n : Int) - 1)
    let p_1n : Int := VB.idx 0 ((n : Int) - 1)
    let r := LARFG sqrt (n + 1) (s.R_top p_nn) (ptr s.R_bot p_1n)
    Except.ok ⟨Function.update s.R_top p_nn r.1, poke s.R_bot p_1n n r.2.1,
      Function.update s.tau ((n : Int) - 1) r.2.2, s.work⟩

/-- Raw-buffer overload `CombineNative::factor_pair (n, R_top, ldr_top, R_bot, ldr_bot, tau,
work)`, lines 666-698: builds the views and dispatches on the leading dimensions. -/
def factor_pair (sqrt : K → K) (n : Nat) (R_top : Buf K) (ldr_top : Nat) (R_bot : Buf K)
    (ldr_bot : Nat) (tau work : Buf K) : Except Err (PairState K) :=
  let R_top_full := View.ofPtr ldr_top n
  let R_bot_full := View.ofPtr ldr_bot n
  if ldr_top = n then
    if ldr_bot = n then
      factor_pair_view sqrt R_top_full R_bot_full R_top R_bot tau work
    else
      let R_bot_view := R_bot_full.rows 0 n
      factor_pair_view sqrt R_top_full R_bot_view R_top R_bot tau work
  else
    let R_top_view := R_top_full.rows 0 n
    if ldr_bot = n then
      factor_pair_view sqrt R_top_view R_bot_full R_top R_bot tau work
    else
      let R_bot_view := R_bot_full.rows 0 n
      factor_pair_view sqrt R_top_view R_bot_view R_top R_bot tau work

/-- Body of the reflector sweep of the view overload of `apply_pair` for reflector `j_Q`
(lines 766-790); `VR`, `VT`, `VB` are the views `R_bot`, `C_top`, `C_bot`. -/
def apply_pair_step (VR VT VB : View) (R_bot tau : Buf K) (j_Q : Nat) (s : ApplyState K) :
    ApplyState K :=
  let ncols_C := VT.dim1
  let R_bot_col := ptr R_bot (VR.idx 0 j_Q)
  let work1 := loop ncols_C (fun j_C (w : Buf K) =>
    let C_bot_col := ptr s.C_bot (VB.idx 0 j_C)
    let work_j_C : K :=
      loop (j_Q + 1) (fun k acc => acc + R_bot_col (k : Int) * C_bot_col (k : Int)) 0
    Function.update w (j_C : Int) (work_j_C + s.C_top (VT.idx j_Q j_C))) s.work
  let C_top1 := loop ncols_C (fun j_C (C : Buf K) =>
    Function.update C (VT.idx j_Q j_C)
      (C (VT.idx j_Q j_C) - tau (j_Q : Int) * work1 (j_C : Int))) s.C_top
  ⟨C_top1, GER (-(tau (j_Q : Int))) R_bot_col 1 work1 1 VB s.C_bot, work1⟩

/-- View overload of `CombineNative::apply_pair (applyType, R_bot, tau, C_top, C_bot, work)`,
lines 735-792. -/
def apply_pair_view (applyType : ApplyType) (VR VT VB : View) (R_bot tau C_top C_bot
    work : Buf K) : ApplyState K :=
  let ncols_C := VT.dim1
  let ncols_Q := VR.dim1
  let work0 := loop ncols_C (fun i (w : Buf K) => Function.update w (i : Int) 0) work
  if applyType = ApplyType.NoTranspose then
    loopDown ncols_Q (apply_pair_step VR VT VB R_bot tau) ⟨C_top, C_bot, work0⟩
  else
    loop ncols_Q (apply_pair_step VR VT VB R_bot tau) ⟨C_top, C_bot, work0⟩

/-- Raw-buffer overload `CombineNative::apply_pair (applyType, ncols_C, ncols_Q, R_bot,
ldr_bot, tau, C_top, ldc_top, C_bot, ldc_bot, work)`, lines 701-733: the views of `C_top`
and `C_bot` are cut to the row range `(0, ncols_C)`. -/
def apply_pair (applyType : ApplyType) (ncols_C ncols_Q : Nat) (R_bot : Buf K) (ldr_bot : Nat)
    (tau : Buf K) (C_top : Buf K) (ldc_top : Nat) (C_bot : Buf K) (ldc_bot : Nat)
    (work : Buf K) : ApplyState K :=
  let R_bot_full := View.ofPtr ldr_bot ncols_Q
  let C_top_full := View.ofPtr ldc_top ncols_C
  let C_bot_full := View.ofPtr ldc_bot ncols_C
  let R_bot_view := R_bot_full.rows 0 ncols_Q
  let C_top_view := C_top_full.rows 0 ncols_C
  let C_bot_view := C_bot_full.rows 0 ncols_C
  apply_pair_view applyType R_bot_view C_top_view C_bot_view R_bot tau C_top C_bot work

/-! ## Logical matrices and the reflector algebra

The theorems read the logical matrices out of the buffers and compare the sweeps of the
kernel with the matrix-level operations below. -/

/-- The logical `m × n` matrix held column-major, with leading dimension `ld`, in `b`. -/
def readMat (b : Buf K) (ld m n : Nat) : Matrix (Fin m) (Fin n) K :=
  fun i j => b (((i : Nat) : Int) + ((j : Nat) : Int) * (ld : Int))

/-- The logical vector `b[0 .. n)`. -/
def readVec (b : Buf K) (n : Nat) : Fin n → K := fun i => b ((i : Nat) : Int)

/-- The row vector `w = vᵀ · C_bot + C_top[j, :]` of the reflector with top index `j` and
tail `v`. -/
def reflW {m q c : Nat} (v : Fin m → K) (j : Fin q) (Ct : Matrix (Fin q) (Fin c) K)
    (Cb : Matrix (Fin m) (Fin c) K) : Fin c → K :=
  fun i => (∑ k, v k * Cb k i) + Ct j i

/-- Top block after the reflector `(t, j, v)`: row `j` becomes `C_top[j, :] - t · w`. -/
def reflTop {m q c : Nat} (t : K) (v : Fin m → K) (j : Fin q) (Ct : Matrix (Fin q) (Fin c) K)
    (Cb : Matrix (Fin m) (Fin c) K) : Matrix (Fin q) (Fin c) K :=
  fun r i => if r = j then Ct r i - t * reflW v j Ct Cb i else Ct r i

/-- Bottom block after the reflector `(t, j, v)`: `C_bot - t · v · wᵀ`. -/
def reflBot {m q c : Nat} (t : K) (v : Fin m → K) (j : Fin q) (Ct : Matrix (Fin q) (Fin c) K)
    (Cb : Matrix (Fin m) (Fin c) K) : Matrix (Fin m) (Fin c) K :=
  fun k i => Cb k i + v k * (-t * reflW v j Ct Cb i)

/-- Matrix-level reflector `j` of `apply_inner`: tail `A[:, j]`, scalar `tau[j]`; indices
`j ≥ ncols_Q` do nothing. -/
def applyInnerMatStep {m q c : Nat} (A : Matrix (Fin m) (Fin q) K) (tau : Fin q → K) (j : Nat)
    (C : Matrix (Fin q) (Fin c) K × Matrix (Fin m) (Fin c) K) :
    Matrix (Fin q) (Fin c) K × Matrix (Fin m) (Fin c) K :=
  if h : j < q then
    (reflTop (tau ⟨j, h⟩) (fun k => A k ⟨j, h⟩) ⟨j, h⟩ C.1 C.2,
      reflBot (tau ⟨j, h⟩) (fun k => A k ⟨j, h⟩) ⟨j, h⟩ C.1 C.2)
  else C

/-- The logical pair `(C_top, C_bot)` held by the buffers of an `apply_*` state. -/
def ApplyState.read (s : ApplyState K) (ldt ldb q m c : Nat) :
    Matrix (Fin q) (Fin c) K × Matrix (Fin m) (Fin c) K :=
  (readMat s.C_top ldt q c, readMat s.C_bot ldb m c)

/-- Offsets of a column-major buffer that hold no entry of the logical `rows × cols` matrix
(padding rows `[rows, ld)` and whatever lies past the last column). -/
def Padding (ld rows cols : Nat) (p : Int) : Prop :=
  ∀ r i : Nat, r < rows → i < cols → (r : Int) + (i : Int) * (ld : Int) ≠ p

/-! ## Householder matrices on the stacked space (the words of §4.3 and of the glossary)

`H_j = I - tau[j] · v_j · v_jᵀ` acts on the `ncols_Q + m` stacked rows of `[C_top; C_bot]`;
`v_j` has `1` in top row `j`, `0` in the other top rows and `A[:, j]` in the bottom rows. -/

/-- The Householder vector `v_j` on the stacked space. -/
def houseVec {m q : Nat} (A : Matrix (Fin m) (Fin q) K) (j : Fin q) : Fin q ⊕ Fin m → K :=
  Sum.elim (fun r => if r = j then 1 else 0) (fun k => A k j)

/-- The Householder matrix `H_j = I - tau[j] · v_j · v_jᵀ` (the identity for `j ≥ ncols_Q`). -/
def houseMat {m q : Nat} (A : Matrix (Fin m) (Fin q) K) (tau : Fin q → K) (j : Nat) :
    Matrix (Fin q ⊕ Fin m) (Fin q ⊕ Fin m) K :=
  if h : j < q then
    1 - tau ⟨j, h⟩ • Matrix.vecMulVec (houseVec A ⟨j, h⟩) (houseVec A ⟨j, h⟩)
  else 1

/-- The product `H_{n-1} · ... · H_1 · H_0` (reflector 0 applied first). -/
def houseProdUp {m q : Nat} (A : Matrix (Fin m) (Fin q) K) (tau : Fin q → K) :
    Nat → Matrix (Fin q ⊕ Fin m) (Fin q ⊕ Fin m) K
  | 0 => 1
  | n + 1 => houseMat A tau n * houseProdUp A tau n

/-- The product `H_0 · H_1 · ... · H_{n-1}` (reflector `n - 1` applied first). -/
def houseProdDown {m q : Nat} (A : Matrix (Fin m) (Fin q) K) (tau : Fin q → K) :
    Nat → Matrix (Fin q ⊕ Fin m) (Fin q ⊕ Fin m) K
  | 0 => 1
  | n + 1 => houseProdDown A tau n * houseMat A tau n

/-! ## Matrix-level factorization steps -/

/-- `LARFG` on a logical vector: the contract of `LARFG (m + 1, alpha, x, 1, tau)` read on
the `m` entries of the tail. -/
def larfgVec {m : Nat} (sqrt : K → K) (alpha : K) (x : Fin m → K) : K × (Fin m → K) × K :=
  if ∀ i, x i = 0 then (alpha, x, 0)
  else
    let beta : K := -((if 0 ≤ alpha then 1 else -1) * sqrt (alpha * alpha + ∑ i, x i * x i))
    (beta, fun i => x i / (alpha - beta), (beta - alpha) / beta)

/-- The logical data of a factorization: the `n × n` factor `R`, the `m × n` reflector
storage `A` and the scalars `tau`. -/
structure FactorMat (K : Type) (m n : Nat) where
  R : Matrix (Fin n) (Fin n) K
  A : Matrix (Fin m) (Fin n) K
  tau : Fin n → K

/-- The logical data held by the buffers of a `factor_inner` state. -/
def InnerState.read (s : InnerState K) (ldr lda m n : Nat) : FactorMat K m n :=
  ⟨readMat s.R ldr n n, readMat s.A lda m n, readVec s.tau n⟩

/-- Reflector-generation phase of a column step (`lapack.LARFG (len + 1, &R_kk, A_1k, 1,
&tau[k])`) on the buffers: `p_kk` is the offset of the diagonal entry, `p_1k` the offset of the
first entry of column `k` of the reflector storage.  The column steps of `factor_inner` and
`factor_pair` and their closing `LARFG` calls unfold to it. -/
def larfgPhase (sqrt : K → K) (len : Nat) (p_kk p_1k k : Int) (s : InnerState K) :
    InnerState K :=
  let r := LARFG sqrt (len + 1) (s.R p_kk) (ptr s.A p_1k)
  ⟨Function.update s.R p_kk r.1, poke s.A p_1k len r.2.1, Function.update s.tau k r.2.2, s.work⟩

/-- Trailing-update phase of a column step (`GEMV`, the `work`/`R` loop, `GER`) on the
buffers: `V` is the view of the trailing block and `p_kj j` the offset of `R(k, j)`. -/
def trailPhase (p_1k : Int) (V : View) (p_kj : Nat → Int) (k n : Nat) (s : InnerState K) :
    Except Err (InnerState K) :=
  match GEMV 'T' 1 V s.A (ptr s.A p_1k) 1 0 s.work 1 with
  | Except.error e => Except.error e
  | Except.ok work1 =>
    let rw := loopFrom (k + 1) n (fun j (st : Buf K × Buf K) =>
      let q : Int := (j : Int) - (k : Int) - 1
      let w2 := Function.update st.2 q (st.2 q + st.1 (p_kj j))
      (Function.update st.1 (p_kj j) (st.1 (p_kj j) - s.tau (k : Int) * w2 q), w2)) (s.R, work1)
    Except.ok ⟨rw.1, GER (-(s.tau (k : Int))) (ptr s.A p_1k) 1 rw.2 1 V s.A, s.tau, rw.2⟩

/-- Matrix-level reflector generation for column `k` over the first `len` rows of the
reflector storage (`len = m` for `factor_inner`, `len = k + 1` for `factor_pair`). -/
def larfgMatStep {m n : Nat} (sqrt : K → K) (len k : Nat) (s : FactorMat K m n) :
    FactorMat K m n :=
  if h : k < n then
    let r := larfgVec sqrt (s.R ⟨k, h⟩ ⟨k, h⟩)
      (fun i => if (i : Nat) < len then s.A i ⟨k, h⟩ else 0)
    { R := fun a j => if a = ⟨k, h⟩ ∧ j = ⟨k, h⟩ then r.1 else s.R a j
      A := fun i j => if j = ⟨k, h⟩ ∧ (i : Nat) < len then r.2.1 i else s.A i j
      tau := Function.update s.tau ⟨k, h⟩ r.2.2 }
  else s

/-- Matrix-level trailing update of column step `k`: the reflector stored in the first `len`
rows of column `k`, with scalar `tau[k]`, is applied to the columns `j > k` of `[R; A]`. -/
def trailMatStep {m n : Nat} (len k : Nat) (s : FactorMat K m n) : FactorMat K m n :=
  if h : k < n then
    { R := fun a j =>
        if (⟨k, h⟩ : Fin n) < j then
          reflTop (s.tau ⟨k, h⟩) (fun i => if (i : Nat) < len then s.A i ⟨k, h⟩ else 0)
            ⟨k, h⟩ s.R s.A a j
        else s.R a j
      A := fun i j =>
        if (⟨k, h⟩ : Fin n) < j then
          reflBot (s.tau ⟨k, h⟩) (fun i => if (i : Nat) < len then s.A i ⟨k, h⟩ else 0)
            ⟨k, h⟩ s.R s.A i j
        else s.A i j
      tau := s.tau }
  else s

/-- Matrix-level column step `k`: reflector generation, then the trailing update. -/
def factorMatStep {m n : Nat} (sqrt : K → K) (len k : Nat) (s : FactorMat K m n) :
    FactorMat K m n :=
  trailMatStep len k (larfgMatStep sqrt len k s)

/-- The property of the square root that the contract of `LARFG` relies on. -/
def IsSqrt (sqrt : K → K) : Prop := ∀ a : K, 0 ≤ a → 0 ≤ sqrt a ∧ sqrt a * sqrt a = a

/-- The buffers of a `factor_pair` state seen as those of a `factor_inner` state
(`R_top` as `R`, `R_bot` as the reflector storage). -/
def PairState.toInner (s : PairState K) : InnerState K := ⟨s.R_top, s.R_bot, s.tau, s.work⟩

/-- The converse renaming of the buffers. -/
def InnerState.toPair (s : InnerState K) : PairState K := ⟨s.R, s.A, s.tau, s.work⟩

/-- Matrix-level reflector `j` of `apply_pair` on square operands, as the code computes it:
the row vector `w` uses the column of `R_bot` cut to its first `j + 1` rows, the update of
`C_bot` uses the whole column; indices `j ≥ n` do nothing. -/
def applyPairMatStep {n c : Nat} (B : Matrix (Fin n) (Fin n) K) (tau : Fin n → K) (j : Nat)
    (C : Matrix (Fin n) (Fin c) K × Matrix (Fin n) (Fin c) K) :
    Matrix (Fin n) (Fin c) K × Matrix (Fin n) (Fin c) K :=
  if h : j < n then
    (fun r i =>
        if r = ⟨j, h⟩ then
          C.1 r i - tau ⟨j, h⟩
            * reflW (fun k => if (k : Nat) < j + 1 then B k ⟨j, h⟩ else 0) ⟨j, h⟩ C.1 C.2 i
        else C.1 r i,
      fun k i =>
        C.2 k i + B k ⟨j, h⟩ * (-(tau ⟨j, h⟩)
          * reflW (fun k => if (k : Nat) < j + 1 then B k ⟨j, h⟩ else 0) ⟨j, h⟩ C.1 C.2 i))
  else C

/-! ## Diagnostic predicate -/

/-- Primary template, `CombineNative::QR_produces_R_factor_with_nonnegative_diagonal ()`,
lines 99-102: `false && combine_default_type::QR_produces_R_factor_with_nonnegative_diagonal ()`;
the argument is what the `CombineDefault` predicate returns. -/
def CombineNative.QR_produces_R_factor_with_nonnegative_diagonal (combine_default : Bool) :
    Bool :=
  false && combine_default

/-- Real-arithmetic specialisation, lines 231-234 (same body). -/
def CombineNativeReal.QR_produces_R_factor_with_nonnegative_diagonal (combine_default : Bool) :
    Bool :=
  false && combine_default

/-- Complex-arithmetic specialisation, lines 332-335 (same body). -/
def CombineNativeComplex.QR_produces_R_factor_with_nonnegative_diagonal
    (combine_default : Bool) : Bool :=
  false && combine_default

/-- Sum of squares of the entries of column `j` of a square logical matrix on or above the
diagonal. -/
def upperColSq {n : Nat} (M : Matrix (Fin n) (Fin n) K) (j : Fin n) : K :=
  ∑ i : Fin n, if (i : Nat) ≤ (j : Nat) then M i j * M i j else 0

/-! ## `factor_first` -/

/-- Modelled from the spec: column step `i` of the LAPACK `GEQR2` sweep that
`CombineDefault::factor_first` (declared in `Tsqr_CombineDefault.hpp`) performs (§4.6): the
reflector `H(i)` is generated by `LARFG` from `A(i, i)` and `A(i+1 .. nrows, i)`, then
applied from the left to `A(i .. nrows, i+1 .. ncols)`. -/
def factor_first_step (sqrt : K → K) (nrows ncols lda : Nat) (i : Nat) (s : Buf K × Buf K) :
    Buf K × Buf K :=
  let p_ii : Int := (i : Int) + (i : Int) * (lda : Int)
  let r := LARFG sqrt (nrows - i) (s.1 p_ii) (ptr s.1 (p_ii + 1))
  let A1 := poke (Function.update s.1 p_ii r.1) (p_ii + 1) (nrows - i - 1) r.2.1
  let A2 := loopFrom (i + 1) ncols (fun j (B : Buf K) =>
    let p_ij : Int := (i : Int) + (j : Int) * (lda : Int)
    let w : K := loop (nrows - i - 1)
      (fun k acc => acc + A1 (p_ii + 1 + (k : Int)) * B (p_ij + 1 + (k : Int))) (B p_ij)
    loop (nrows - i - 1) (fun k (C : Buf K) =>
      Function.update C (p_ij + 1 + (k : Int))
        (C (p_ij + 1 + (k : Int)) - r.2.2 * A1 (p_ii + 1 + (k : Int)) * w))
      (Function.update B p_ij (B p_ij - r.2.2 * w))) A1
  (A2, Function.update s.2 (i : Int) r.2.2)

/-- Modelled from the spec: `CombineDefault::factor_first (nrows, ncols, A, lda, tau, work)`
(declared in `Tsqr_CombineDefault.hpp`), by its contract the LAPACK `GEQR2` sweep over the
columns `i < min (nrows, ncols)` of a single tile (§4.6); the result is the pair of buffers
`(A, tau)`, `work` is scratch. -/
def CombineDefault.factor_first (sqrt : K → K) (nrows ncols : Nat) (A : Buf K) (lda : Nat)
    (tau _work : Buf K) : Buf K × Buf K :=
  loop (min nrows ncols) (factor_first_step sqrt nrows ncols lda) (A, tau)

/-- `CombineNative::factor_first (nrows, ncols, A, lda, tau, work)`, lines 236-245:
`return default_.factor_first (nrows, ncols, A, lda, tau, work)`. -/
def factor_first (sqrt : K → K) (nrows ncols : Nat) (A : Buf K) (lda : Nat) (tau work : Buf K) :
    Buf K × Buf K :=
  CombineDefault.factor_first sqrt nrows ncols A lda tau work

/-! ## The literal reflector sweep -/

/-- The loop `for (Ordinal j = j; j != j_end; j += j_step) s = body j s` as written (signed
`Ordinal`, inequality test), cut off after `fuel` iterations: `none` when the loop has not
ended by then. -/
def sweepFrom {σ : Type} (fuel : Nat) (j j_end j_step : Int) (body : Int → σ → σ) (s : σ) :
    Option σ :=
  match fuel with
  | 0 => if j = j_end then some s else none
  | f + 1 =>
    if j = j_end then some s
    else sweepFrom f (j + j_step) j_end j_step body (body j s)

/-- The reflector sweep of `apply_inner` (lines 585-596) and of the view overload of
`apply_pair` (lines 754-765): `j_start`, `j_end` and `j_step` are chosen from `applyType`,
then `for (j = j_start; j != j_end; j += j_step)` runs the body. -/
def reflector_sweep {σ : Type} (applyType : ApplyType) (ncols_Q : Nat) (fuel : Nat)
    (body : Int → σ → σ) (s : σ) : Option σ :=
  let j_start : Int := if applyType = ApplyType.NoTranspose then (ncols_Q : Int) - 1 else 0
  let j_end : Int := if applyType = ApplyType.NoTranspose then -1 else (ncols_Q : Int)
  let j_step : Int := if applyType = ApplyType.NoTranspose then -1 else 1
  sweepFrom fuel j_start j_end j_step body s

/-! ## The public operations with the kernels they call as parameters

Each definition below is the definition of the same name above with the calls
`this->GEMV (...)` and `this->GER (...)` made to the parameters `gemvF` and `gerF`. -/

/-- Type of a kernel called as `this->GEMV (trans, alpha, A, x, incx, beta, y, incy)`. -/
abbrev GemvKernel (K : Type) : Type :=
  Char → K → View → Buf K → Buf K → Int → K → Buf K → Int → Except Err (Buf K)

/-- Type of a kernel called as `this->GER (alpha, x, incx, y, incy, A)`. -/
abbrev GerKernel (K : Type) : Type :=
  K → Buf K → Int → Buf K → Int → View → Buf K → Buf K

/-- The definition `factor_inner_step` with its calls to `GEMV` and `GER` made to the
parameters. -/
def factor_inner_step_with (gemvF : GemvKernel K) (gerF : GerKernel K)
    (sqrt : K → K) (m n ldr lda : Nat) (k : Nat) (s : InnerState K) :
    Except Err (InnerState K) :=
  let A_view := (View.ofPtr lda n).rows 0 m
  let A_1kp1 := A_view.subview 0 m (k + 1) n
  let p_kk : Int := (k : Int) + (k : Int) * (ldr : Int)
  let p_1k : Int := 0 + (k : Int) * (lda : Int)
  let r := LARFG sqrt (m + 1) (s.R p_kk) (ptr s.A p_1k)
  let R1 := Function.update s.R p_kk r.1
  let A1 := poke s.A p_1k m r.2.1
  let tau1 := Function.update s.tau (k : Int) r.2.2
  match gemvF 'T' 1 A_1kp1 A1 (ptr A1 p_1k) 1 0 s.work 1 with
  | Except.error e => Except.error e
  | Except.ok work1 =>
    let rw := loopFrom (k + 1) n (fun j (st : Buf K × Buf K) =>
      let p_kj : Int := (k : Int) + (j : Int) * (ldr : Int)
      let q : Int := (j : Int) - (k : Int) - 1
      let w2 := Function.update st.2 q (st.2 q + st.1 p_kj)
      (Function.update st.1 p_kj (st.1 p_kj - tau1 (k : Int) * w2 q), w2)) (R1, work1)
    Except.ok ⟨rw.1, gerF (-(tau1 (k : Int))) (ptr A1 p_1k) 1 rw.2 1 A_1kp1 A1, tau1, rw.2⟩

/-- The definition `factor_inner` with its calls to `GEMV` and `GER` made to the
parameters. -/
def factor_inner_with (gemvF : GemvKernel K) (gerF : GerKernel K)
    (sqrt : K → K) (m n : Nat) (R : Buf K) (ldr : Nat) (A : Buf K) (lda : Nat)
    (tau work : Buf K) : Except Err (InnerState K) :=
  let work0 := loop n (fun k (w : Buf K) => Function.update w (k : Int) 0) work
  match loopM (n - 1) (factor_inner_step_with gemvF gerF sqrt m n ldr lda)
      ⟨R, A, tau, work0⟩ with
  | Except.error e => Except.error e
  | Except.ok s =>
    let p_nn : Int := ((n : Int) - 1) + ((n : Int) - 1) * (ldr : Int)
    let p_1n : Int := 0 + ((n : Int) - 1) * (lda : Int)
    let r := LARFG sqrt (m + 1) (s.R p_nn) (ptr s.A p_1n)
    Except.ok ⟨Function.update s.R p_nn r.1, poke s.A p_1n m r.2.1,
      Function.update s.tau ((n : Int) - 1) r.2.2, s.work⟩

/-- The definition `apply_inner_step` with its calls to `GER` made to the
parameters. -/
def apply_inner_step_with (gerF : GerKernel K)
    (m ncols_C : Nat) (A : Buf K) (lda : Nat) (tau : Buf K)
    (ldc_top ldc_bot : Nat) (j : Nat) (s : ApplyState K) : ApplyState K :=
  let C_bot_view := (View.ofPtr ldc_bot ncols_C).rows 0 m
  let A_1j := ptr A (0 + (j : Int) * (lda : Int))
  let work1 := loop ncols_C (fun i (w : Buf K) =>
    let w1 := Function.update w (i : Int) 0
    let w2 := loop m (fun k (w3 : Buf K) =>
      Function.update w3 (i : Int)
        (w3 (i : Int) + A_1j (k : Int) * s.C_bot (C_bot_view.idx k i))) w1
    Function.update w2 (i : Int)
      (w2 (i : Int) + s.C_top ((j : Int) + (i : Int) * (ldc_top : Int)))) s.work
  let C_top1 := loop ncols_C (fun k (C : Buf K) =>
    let p : Int := (j : Int) + (k : Int) * (ldc_top : Int)
    Function.update C p (C p - tau (j : Int) * work1 (k : Int))) s.C_top
  ⟨C_top1, gerF (-(tau (j : Int))) A_1j 1 work1 1 C_bot_view s.C_bot, work1⟩

/-- The definition `apply_inner` with its calls to `GER` made to the
parameters. -/
def apply_inner_with (gerF : GerKernel K)
    (applyType : ApplyType) (m ncols_C ncols_Q : Nat) (A : Buf K) (lda : Nat)
    (tau : Buf K) (C_top : Buf K) (ldc_top : Nat) (C_bot : Buf K) (ldc_bot : Nat)
    (work : Buf K) : ApplyState K :=
  let work0 := loop ncols_C (fun i (w : Buf K) => Function.update w (i : Int) 0) work
  if applyType = ApplyType.NoTranspose then
    loopDown ncols_Q (apply_inner_step_with gerF m ncols_C A lda tau ldc_top ldc_bot)
      ⟨C_top, C_bot, work0⟩
  else
    loop ncols_Q (apply_inner_step_with gerF m ncols_C A lda tau ldc_top ldc_bot)
      ⟨C_top, C_bot, work0⟩

/-- The definition `factor_pair_step` with its calls to `GEMV` and `GER` made to the
parameters. -/
def factor_pair_step_with (gemvF : GemvKernel K) (gerF : GerKernel K)
    (sqrt : K → K) (VT VB : View) (k : Nat) (s : PairState K) :
    Except Err (PairState K) :=
  let n := VT.dim0
  let R_bot_1kp1 := VB.subview 0 (k + 1) (k + 1) n
  let p_kk : Int := VT.idx k k
  let p_1k : Int := VB.idx 0 k
  let r := LARFG sqrt (k + 2) (s.R_top p_kk) (ptr s.R_bot p_1k)
  let R_top1 := Function.update s.R_top p_kk r.1
  let R_bot1 := poke s.R_bot p_1k (k + 1) r.2.1
  let tau1 := Function.update s.tau (k : Int) r.2.2
  match gemvF 'T' 1 R_bot_1kp1 R_bot1 (ptr R_bot1 p_1k) 1 0 s.work 1 with
  | Except.error e => Except.error e
  | Except.ok work1 =>
    let rw := loopFrom (k + 1) n (fun j (st : Buf K × Buf K) =>
      let p_kj : Int := VT.idx k j
      let q : Int := (j : Int) - (k : Int) - 1
      let w2 := Function.update st.2 q (st.2 q + st.1 p_kj)
      (Function.update st.1 p_kj (st.1 p_kj - tau1 (k : Int) * w2 q), w2)) (R_top1, work1)
    Except.ok ⟨rw.1, gerF (-(tau1 (k : Int))) (ptr R_bot1 p_1k) 1 rw.2 1 R_bot_1kp1 R_bot1,
      tau1, rw.2⟩

/-- The definition `factor_pair_view` with its calls to `GEMV` and `GER` made to the
parameters. -/
def factor_pair_view_with (gemvF : GemvKernel K) (gerF : GerKernel K)
    (sqrt : K → K) (VT VB : View) (R_top R_bot tau work : Buf K) :
    Except Err (PairState K) :=
  let n := VT.dim0
  let work0 := loop n (fun k (w : Buf K) => Function.update w (k : Int) 0) work
  match loopM (n - 1) (factor_pair_step_with gemvF gerF sqrt VT VB)
      ⟨R_top, R_bot, tau, work0⟩ with
  | Except.error e => Except.error e
  | Except.ok s =>
    let p_nn : Int := VT.idx ((n : Int) - 1) ((n : Int) - 1)
    let p_1n : Int := VB.idx 0 ((n : Int) - 1)
    let r := LARFG sqrt (n + 1) (s.R_top p_nn) (ptr s.R_bot p_1n)
    Except.ok ⟨Function.update s.R_top p_nn r.1, poke s.R_bot p_1n n r.2.1,
      Function.update s.tau ((n : Int) - 1) r.2.2, s.work⟩

/-- The definition `factor_pair` with its calls to `GEMV` and `GER` made to the
parameters. -/
def factor_pair_with (gemvF : GemvKernel K) (gerF : GerKernel K)
    (sqrt : K → K) (n : Nat) (R_top : Buf K) (ldr_top : Nat) (R_bot : Buf K)
    (ldr_bot : Nat) (tau work : Buf K) : Except Err (PairState K) :=
  let R_top_full := View.ofPtr ldr_top n
  let R_bot_full := View.ofPtr ldr_bot n
  if ldr_top = n then
    if ldr_bot = n then
      factor_pair_view_with gemvF gerF sqrt R_top_full R_bot_full R_top R_bot tau work
    else
      let R_bot_view := R_bot_full.rows 0 n
      factor_pair_view_with gemvF gerF sqrt R_top_full R_bot_view R_top R_bot tau work
  else
    let R_top_view := R_top_full.rows 0 n
    if ldr_bot = n then
      factor_pair_view_with gemvF gerF sqrt R_top_view R_bot_full R_top R_bot tau work
    else
      let R_bot_view := R_bot_full.rows 0 n
      factor_pair_view_with gemvF gerF sqrt R_top_view R_bot_view R_top R_bot tau work

/-- The definition `apply_pair_step` with its calls to `GER` made to the
parameters. -/
def apply_pair_step_with (gerF : GerKernel K)
    (VR VT VB : View) (R_bot tau : Buf K) (j_Q : Nat) (s : ApplyState K) :
    ApplyState K :=
  let ncols_C := VT.dim1
  let R_bot_col := ptr R_bot (VR.idx 0 j_Q)
  let work1 := loop ncols_C (fun j_C (w : Buf K) =>
    let C_bot_col := ptr s.C_bot (VB.idx 0 j_C)
    let work_j_C : K :=
      loop (j_Q + 1) (fun k acc => acc + R_bot_col (k : Int) * C_bot_col (k : Int)) 0
    Function.update w (j_C : Int) (work_j_C + s.C_top (VT.idx j_Q j_C))) s.work
  let C_top1 := loop ncols_C (fun j_C (C : Buf K) =>
    Function.update C (VT.idx j_Q j_C)
      (C (VT.idx j_Q j_C) - tau (j_Q : Int) * work1 (j_C : Int))) s.C_top
  ⟨C_top1, gerF (-(tau (j_Q : Int))) R_bot_col 1 work1 1 VB s.C_bot, work1⟩

/-- The definition `apply_pair_view` with its calls to `GER` made to the
parameters. -/
def apply_pair_view_with (gerF : GerKernel K)
    (applyType : ApplyType) (VR VT VB : View) (R_bot tau C_top C_bot
    work : Buf K) : ApplyState K :=
  let ncols_C := VT.dim1
  let ncols_Q := VR.dim1
  let work0 := loop ncols_C (fun i (w : Buf K) => Function.update w (i : Int) 0) work
  if applyType = ApplyType.NoTranspose then
    loopDown ncols_Q (apply_pair_step_with gerF VR VT VB R_bot tau) ⟨C_top, C_bot, work0⟩
  else
    loop ncols_Q (apply_pair_step_with gerF VR VT VB R_bot tau) ⟨C_top, C_bot, work0⟩

/-- The definition `apply_pair` with its calls to `GER` made to the
parameters. -/
def apply_pair_with (gerF : GerKernel K)
    (applyType : ApplyType) (ncols_C ncols_Q : Nat) (R_bot : Buf K) (ldr_bot : Nat)
    (tau : Buf K) (C_top : Buf K) (ldc_top : Nat) (C_bot : Buf K) (ldc_bot : Nat)
    (work : Buf K) : ApplyState K :=
  let R_bot_full := View.ofPtr ldr_bot ncols_Q
  let C_top_full := View.ofPtr ldc_top ncols_C
  let C_bot_full := View.ofPtr ldc_bot ncols_C
  let R_bot_view := R_bot_full.rows 0 ncols_Q
  let C_top_view := C_top_full.rows 0 ncols_C
  let C_bot_view := C_bot_full.rows 0 ncols_C
  apply_pair_view_with gerF applyType R_bot_view C_top_view C_bot_view R_bot tau C_top C_bot work

/-- Two scratch arrays that agree on the entries `[0, N)`. -/
def AgreeBelow (N : Nat) (w w2 : Buf K) : Prop := ∀ t : Nat, t < N → w (t : Int) = w2 (t : Int)

/-- Reference step of the truncated reflector application, after the words of the claim on
`apply_pair`: for reflector `j_Q`, `w[j_C] = Σ_{k ≤ j_Q} R_bot[k, j_Q] · C_bot[k, j_C]
+ C_top[j_Q, j_C]`, then `C_top[j_Q, j_C] -= tau[j_Q] · w[j_C]`, then
`C_bot[k, j_C] -= tau[j_Q] · R_bot[k, j_Q] · w[j_C]` for `k ≤ j_Q` only; indices `j_Q ≥ n`
do nothing. -/
def apply_pair_truncated_reference_step {n c : Nat} (R_bot : Matrix (Fin n) (Fin n) K)
    (tau : Fin n → K) (j_Q : Nat)
    (C : Matrix (Fin n) (Fin c) K × Matrix (Fin n) (Fin c) K) :
    Matrix (Fin n) (Fin c) K × Matrix (Fin n) (Fin c) K :=
  if h : j_Q < n then
    let w : Fin c → K := fun j_C =>
      (∑ k : Fin n, if (k : Nat) ≤ j_Q then R_bot k ⟨j_Q, h⟩ * C.2 k j_C else 0)
        + C.1 ⟨j_Q, h⟩ j_C
    (fun r j_C => if r = ⟨j_Q, h⟩ then C.1 r j_C - tau ⟨j_Q, h⟩ * w j_C else C.1 r j_C,
      fun k j_C =>
        if (k : Nat) ≤ j_Q then C.2 k j_C - tau ⟨j_Q, h⟩ * R_bot k ⟨j_Q, h⟩ * w j_C
        else C.2 k j_C)
  else C

/-- The truncated reference of `apply_pair`: the reference steps swept in the `applyType`
order (`j_Q = n - 1, ..., 0` for `NoTranspose`, `j_Q = 0, ..., n - 1` otherwise). -/
def apply_pair_truncated_reference {n c : Nat} (applyType : ApplyType)
    (R_bot : Matrix (Fin n) (Fin n) K) (tau : Fin n → K)
    (C : Matrix (Fin n) (Fin c) K × Matrix (Fin n) (Fin c) K) :
    Matrix (Fin n) (Fin c) K × Matrix (Fin n) (Fin c) K :=
  if applyType = ApplyType.NoTranspose then
    loopDown n (apply_pair_truncated_reference_step R_bot tau) C
  else loop n (apply_pair_truncated_reference_step R_bot tau) C

/-! ## Elements accessed by the factorizations

The index expressions of the factorizations, collected in program order: every element a
routine reads or writes, as the array and the offset into it.  The offsets are the same
expressions as in the definitions above. -/

section LoopLemmas

variable {σ : Type}

theorem loop_succ (n : Nat) (body : Nat → σ → σ) (s : σ) :
    loop (n + 1) body s = body n (loop n body s) := rfl

theorem loopDown_succ (n : Nat) (body : Nat → σ → σ) (s : σ) :
    loopDown (n + 1) body s = loopDown n body (body n s) := rfl

/-- An accumulation loop is the finite sum of its summands. -/
theorem loop_sum (n : Nat) (f : Nat → K) (a : K) :
    loop n (fun i acc => acc + f i) a = a + ∑ i in Finset.range n, f i := by
  induction n with
  | zero => simp [loop]
  | succ n ih => rw [loop_succ, ih, Finset.sum_range_succ, add_assoc]

/-- A loop that rewrites one buffer entry per iteration, each from its own old value:
entries that no iteration addresses are kept. -/
theorem loop_update_frame {α : Type} (n : Nat) (f : Nat → Int) (h : Nat → α → α)
    (B : Int → α) (p : Int)
    (hp : ∀ i, i < n → f i ≠ p) :
    loop n (fun i (B : Int → α) => Function.update B (f i) (h i (B (f i)))) B p = B p := by
  induction n with
  | zero => rfl
  | succ n ih =>
    rw [loop_succ, Function.update_noteq (hp n (Nat.lt_succ_self n)).symm]
    exact ih (fun i hi => hp i (Nat.lt_succ_of_lt hi))

/-- A loop that rewrites one buffer entry per iteration, each from its own old value:
the entry addressed by iteration `i` (and by no other) gets `h i` of its old value. -/
theorem loop_update_at {α : Type} (n : Nat) (f : Nat → Int) (h : Nat → α → α)
    (B : Int → α) (i : Nat) (hi : i < n) (hinj : ∀ a, a < n → f a = f i → a = i) :
    loop n (fun i (B : Int → α) => Function.update B (f i) (h i (B (f i)))) B (f i)
      = h i (B (f i)) := by
  induction n with
  | zero => omega
  | succ n ih =>
    rw [loop_succ]
    by_cases hin : i = n
    · subst hin
      rw [Function.update_same]
      congr 1
      exact loop_update_frame i f h B (f i) (fun a ha hfa => by
        have := hinj a (Nat.lt_succ_of_lt ha) hfa; omega)
    · have hlt : i < n := by omega
      have hne : f i ≠ f n := fun hfe => by
        have := hinj n (Nat.lt_succ_self n) hfe.symm; omega
      rw [Function.update_noteq hne]
      exact ih hlt (fun a ha => hinj a (Nat.lt_succ_of_lt ha))

end LoopLemmas

section ViewLemmas

/-- A view whose column stride is at least its number of rows (`lda ≥ m`, §3). -/
theorem View.idx_inj (V : View) (hV : V.dim0 ≤ V.ld) (i j a b : Nat) (hi : i < V.dim0)
    (ha : a < V.dim0) (h : V.idx i j = V.idx a b) : i = a ∧ j = b := by
  unfold View.idx at h
  have h1 : i + j * V.ld = a + b * V.ld := by
    have : ((i + j * V.ld : Nat) : Int) = ((a + b * V.ld : Nat) : Int) := by
      push_cast; linarith
    exact_mod_cast this
  have hj : j = b := by
    rcases Nat.lt_trichotomy j b with hlt | heq | hgt
    · have : (j + 1) * V.ld ≤ b * V.ld := Nat.mul_le_mul_right _ hlt
      have e : (j + 1) * V.ld = j * V.ld + V.ld := by ring
      omega
    · exact heq
    · have : (b + 1) * V.ld ≤ j * V.ld := Nat.mul_le_mul_right _ hgt
      have e : (b + 1) * V.ld = b * V.ld + V.ld := by ring
      omega
  subst hj
  exact ⟨by omega, rfl⟩

end ViewLemmas

section GERLemmas

/-- The column index into `y` that the unit-stride branch of `GER` uses for column `j`. -/
theorem GER_unit_loop (alpha : K) (x y : Buf K) (incy : Int) (V : View) (A : Buf K)
    (jy0 : Int) (hV : V.dim0 ≤ V.ld) (c : Nat) :
    (loop c (fun j (st : Buf K × Int) =>
      ((if y (st.2 - 1) ≠ 0 then
          loop V.dim0 (fun i (B : Buf K) =>
            Function.update B (V.idx i j) (B (V.idx i j) + x (i : Int) * (alpha * y (st.2 - 1))))
            st.1
        else st.1), st.2 + incy)) (A, jy0)).2 = jy0 + (c : Int) * incy
    ∧ (∀ p, (∀ i j : Nat, i < V.dim0 → j < c → V.idx i j ≠ p) →
      (loop c (fun j (st : Buf K × Int) =>
      ((if y (st.2 - 1) ≠ 0 then
          loop V.dim0 (fun i (B : Buf K) =>
            Function.update B (V.idx i j) (B (V.idx i j) + x (i : Int) * (alpha * y (st.2 - 1))))
            st.1
        else st.1), st.2 + incy)) (A, jy0)).1 p = A p)
    ∧ (∀ i j : Nat, i < V.dim0 → j < c →
      (loop c (fun j (st : Buf K × Int) =>
      ((if y (st.2 - 1) ≠ 0 then
          loop V.dim0 (fun i (B : Buf K) =>
            Function.update B (V.idx i j) (B (V.idx i j) + x (i : Int) * (alpha * y (st.2 - 1))))
            st.1
        else st.1), st.2 + incy)) (A, jy0)).1 (V.idx i j)
        = A (V.idx i j) + x (i : Int) * (alpha * y (jy0 + (j : Int) * incy - 1))) := by
  induction c with
  | zero => exact ⟨by simp [loop], fun p _ => rfl, fun i j _ hj => by omega⟩
  | succ c ih =>
    obtain ⟨ih1, ih2, ih3⟩ := ih
    rw [loop_succ]
    refine ⟨?_, ?_, ?_⟩
    · simp only [ih1]; push_cast; ring
    · intro p hp
      have hframe := ih2 p (fun i j hi hj => hp i j hi (Nat.lt_succ_of_lt hj))
      simp only [ih1]
      split_ifs with hy
      · rw [loop_update_frame V.dim0 (fun i => V.idx i c)
          (fun i b => b + x (i : Int) * (alpha * y (jy0 + (c : Int) * incy - 1))) _ p
          (fun i hi => hp i c hi (Nat.lt_succ_self c))]
        exact hframe
      · exact hframe
    · intro i j hi hj
      simp only [ih1]
      by_cases hjc : j = c
      · subst hjc
        have hold := ih2 (V.idx i j) (fun a b ha hb hab =>
          absurd (View.idx_inj V hV a b i j ha hi hab).2 (Nat.ne_of_lt hb))
        split_ifs with hy
        · rw [loop_update_at V.dim0 (fun i => V.idx i j)
            (fun i b => b + x (i : Int) * (alpha * y (jy0 + (j : Int) * incy - 1))) _ i hi
            (fun a ha hab => (View.idx_inj V hV a j i j ha hi hab).1)]
          rw [hold]
        · rw [hold]
          have hy0 : y (jy0 + (j : Int) * incy - 1) = 0 := by simpa using hy
          rw [hy0]; ring
      · have hlt : j < c := lt_of_le_of_ne (Nat.le_of_lt_succ hj) hjc
        have hold := ih3 i j hi hlt
        split_ifs with hy
        · rw [loop_update_frame V.dim0 (fun i => V.idx i c)
            (fun i b => b + x (i : Int) * (alpha * y (jy0 + (c : Int) * incy - 1))) _ _
            (fun a ha hab => absurd (View.idx_inj V hV a c i j ha hi hab).2 (Ne.symm hjc))]
          exact hold
        · exact hold

/-- Unit-stride `GER`: the entry `(i, j)` of the view after the update. -/
theorem GER_unit_at (alpha : K) (x y : Buf K) (incy : Int) (V : View) (A : Buf K)
    (hV : V.dim0 ≤ V.ld) (i j : Nat) (hi : i < V.dim0) (hj : j < V.dim1) :
    GER alpha x 1 y incy V A (V.idx i j) = A (V.idx i j) + x (i : Int) *
      (alpha * y ((if incy > 0 then 1 else 1 - ((V.dim1 : Int) - 1) * incy)
        + (j : Int) * incy - 1)) := by
  unfold GER
  simp only [if_true]
  exact (GER_unit_loop alpha x y incy V A _ hV V.dim1).2.2 i j hi hj

/-- Unit-stride `GER`: buffer entries outside the view are kept. -/
theorem GER_unit_frame (alpha : K) (x y : Buf K) (incy : Int) (V : View) (A : Buf K)
    (hV : V.dim0 ≤ V.ld) (p : Int)
    (hp : ∀ i j : Nat, i < V.dim0 → j < V.dim1 → V.idx i j ≠ p) :
    GER alpha x 1 y incy V A p = A p := by
  unfold GER
  simp only [if_true]
  exact (GER_unit_loop alpha x y incy V A _ hV V.dim1).2.1 p hp

end GERLemmas

/-- C9: with `incx = 1` and any nonzero `incy`, `GER` performs the rank-1 update
`A(i,j) ← A(i,j) + alpha · x[i] · y_j` on every entry of the `m × n` view, where
`y_j = y[j · incy]` for `incy > 0` and `y_j = y[(n - 1 - j) · |incy|]` for `incy < 0`;
buffer entries outside the view are kept. -/
theorem C9_GER_unit_stride_rank1 (alpha : K) (x y : Buf K) (incy : Int) (hincy : incy ≠ 0)
    (V : View) (A : Buf K) (hV : V.dim0 ≤ V.ld) :
    (∀ i j : Nat, i < V.dim0 → j < V.dim1 →
      GER alpha x 1 y incy V A (V.idx i j) = A (V.idx i j) + alpha * x (i : Int) *
        (if incy > 0 then y ((j : Int) * incy)
          else y (((V.dim1 : Int) - 1 - (j : Int)) * |incy|)))
    ∧ (∀ p : Int, (∀ i j : Nat, i < V.dim0 → j < V.dim1 → V.idx i j ≠ p) →
      GER alpha x 1 y incy V A p = A p) := by
  refine ⟨fun i j hi hj => ?_, fun p hp => GER_unit_frame alpha x y incy V A hV p hp⟩
  rw [GER_unit_at alpha x y incy V A hV i j hi hj]
  by_cases hpos : incy > 0
  · simp only [hpos, if_true]
    have e : (1 : Int) + (j : Int) * incy - 1 = (j : Int) * incy := by ring
    rw [e]; ring
  · simp only [hpos, if_false]
    have hneg : incy < 0 := lt_of_le_of_ne (not_lt.mp hpos) hincy
    have e : (1 : Int) - ((V.dim1 : Int) - 1) * incy + (j : Int) * incy - 1
        = ((V.dim1 : Int) - 1 - (j : Int)) * |incy| := by
      rw [abs_of_neg hneg]; ring
    rw [e]; ring

/-- Witness for C9: a `2 × 2` view with stride 3 and `incy = -2`. -/
theorem C9_GER_unit_stride_rank1_witness :
    (∀ i j : Nat, i < 2 → j < 2 →
      GER (2 : ℚ) (fun p => (p : ℚ) + 1) 1 (fun p => (p : ℚ)) (-2) ⟨0, 2, 2, 3⟩ (fun _ => 1)
          ((⟨0, 2, 2, 3⟩ : View).idx i j)
        = (fun _ => (1 : ℚ)) ((⟨0, 2, 2, 3⟩ : View).idx i j)
          + 2 * (fun p : Int => (p : ℚ) + 1) (i : Int) *
          (if (-2 : Int) > 0 then (fun p : Int => (p : ℚ)) ((j : Int) * (-2))
            else (fun p : Int => (p : ℚ))
              ((((⟨0, 2, 2, 3⟩ : View).dim1 : Int) - 1 - (j : Int)) * |(-2 : Int)|)))
    ∧ (∀ p : Int, (∀ i j : Nat, i < 2 → j < 2 → (⟨0, 2, 2, 3⟩ : View).idx i j ≠ p) →
      GER (2 : ℚ) (fun p => (p : ℚ) + 1) 1 (fun p => (p : ℚ)) (-2) ⟨0, 2, 2, 3⟩ (fun _ => 1) p
        = (fun _ => (1 : ℚ)) p) :=
  C9_GER_unit_stride_rank1 (2 : ℚ) (fun p => (p : ℚ) + 1) (fun p => (p : ℚ)) (-2) (by decide)
    ⟨0, 2, 2, 3⟩ (fun _ => 1) (by decide)

section ApplyInnerLemmas

/-- Column-major addressing with `ld` at least the number of rows is injective. -/
theorem colmajor_inj (ld i j a b : Nat) (hi : i < ld) (ha : a < ld)
    (h : (i : Int) + (j : Int) * (ld : Int) = (a : Int) + (b : Int) * (ld : Int)) :
    i = a ∧ j = b := by
  have h1 : i + j * ld = a + b * ld := by exact_mod_cast h
  have hj : j = b := by
    rcases Nat.lt_trichotomy j b with hlt | heq | hgt
    · have : (j + 1) * ld ≤ b * ld := Nat.mul_le_mul_right _ hlt
      have e : (j + 1) * ld = j * ld + ld := by ring
      omega
    · exact heq
    · have : (b + 1) * ld ≤ j * ld := Nat.mul_le_mul_right _ hgt
      have e : (b + 1) * ld = b * ld + ld := by ring
      omega
  subst hj
  exact ⟨by omega, rfl⟩

/-- A loop that accumulates into one buffer entry. -/
theorem loop_accum (n : Nat) (a : Nat → K) (w : Buf K) (i : Int) :
    loop n (fun k (w3 : Buf K) => Function.update w3 i (w3 i + a k)) w
      = Function.update w i (w i + ∑ k in Finset.range n, a k) := by
  induction n with
  | zero => simp [loop]
  | succ n ih =>
    rw [loop_succ, ih, Function.update_same, Function.update_idem, Finset.sum_range_succ,
      add_assoc]

/-- Unit strides on both vectors: `GER` adds `x[i] · (alpha · y[j])` to entry `(i, j)`. -/
theorem GER_unit_unit_at (alpha : K) (x y : Buf K) (V : View) (A : Buf K)
    (hV : V.dim0 ≤ V.ld) (i j : Nat) (hi : i < V.dim0) (hj : j < V.dim1) :
    GER alpha x 1 y 1 V A (V.idx i j) = A (V.idx i j) + x (i : Int) * (alpha * y (j : Int)) := by
  rw [GER_unit_at alpha x y 1 V A hV i j hi hj]
  have e : (if (1 : Int) > 0 then (1 : Int) else 1 - ((V.dim1 : Int) - 1) * 1) + (j : Int) * 1 - 1
      = (j : Int) := by
    simp
  rw [e]

/-- The scratch vector after the first loop of an `apply_inner` step. -/
theorem apply_inner_step_work (m c : Nat) (A : Buf K) (lda : Nat) (tau : Buf K)
    (ldt ldb : Nat) (j : Nat) (s : ApplyState K) (i : Nat) (hi : i < c) :
    (apply_inner_step m c A lda tau ldt ldb j s).work (i : Int)
      = (∑ k in Finset.range m, A ((k : Int) + (j : Int) * (lda : Int))
          * s.C_bot ((k : Int) + (i : Int) * (ldb : Int)))
        + s.C_top ((j : Int) + (i : Int) * (ldt : Int)) := by
  unfold apply_inner_step
  simp only [loop_accum, Function.update_same, Function.update_idem, zero_add]
  rw [loop_update_at c (fun i : Nat => (i : Int))
    (fun i _ => (∑ k in Finset.range m, ptr A ((j : Int) * (lda : Int)) (k : Int)
          * s.C_bot (((View.ofPtr ldb c).rows 0 m).idx k i))
        + s.C_top ((j : Int) + (i : Int) * (ldt : Int))) s.work i hi
    (fun a _ h => by simpa using h)]
  congr 1
  apply Finset.sum_congr rfl
  intro k _
  simp only [ptr, View.idx, View.rows, View.subview, View.ofPtr]
  congr 2 <;> push_cast <;> ring

/-- Row `j` of `C_top` after an `apply_inner` step. -/
theorem apply_inner_step_top_at (m c : Nat) (A : Buf K) (lda : Nat) (tau : Buf K)
    (ldt ldb : Nat) (j : Nat) (s : ApplyState K) (hld : 0 < ldt) (i : Nat) (hi : i < c) :
    (apply_inner_step m c A lda tau ldt ldb j s).C_top ((j : Int) + (i : Int) * (ldt : Int))
      = s.C_top ((j : Int) + (i : Int) * (ldt : Int))
        - tau (j : Int) * (apply_inner_step m c A lda tau ldt ldb j s).work (i : Int) := by
  have e : (apply_inner_step m c A lda tau ldt ldb j s).C_top
      = loop c (fun k (C : Buf K) =>
          Function.update C ((j : Int) + (k : Int) * (ldt : Int))
            (C ((j : Int) + (k : Int) * (ldt : Int))
              - tau (j : Int) * (apply_inner_step m c A lda tau ldt ldb j s).work (k : Int)))
          s.C_top := rfl
  rw [e]
  exact loop_update_at c (fun k : Nat => (j : Int) + (k : Int) * (ldt : Int))
    (fun k b => b - tau (j : Int) * (apply_inner_step m c A lda tau ldt ldb j s).work (k : Int))
    s.C_top i hi (fun a _ h => by
      have h2 : (a : Int) * (ldt : Int) = (i : Int) * (ldt : Int) := by simpa using h
      have h3 : a * ldt = i * ldt := by exact_mod_cast h2
      exact Nat.eq_of_mul_eq_mul_right hld h3)

/-- Entries of `C_top` outside row `j` are kept by an `apply_inner` step. -/
theorem apply_inner_step_top_frame (m c : Nat) (A : Buf K) (lda : Nat) (tau : Buf K)
    (ldt ldb : Nat) (j : Nat) (s : ApplyState K) (p : Int)
    (hp : ∀ i : Nat, i < c → (j : Int) + (i : Int) * (ldt : Int) ≠ p) :
    (apply_inner_step m c A lda tau ldt ldb j s).C_top p = s.C_top p := by
  have e : (apply_inner_step m c A lda tau ldt ldb j s).C_top
      = loop c (fun k (C : Buf K) =>
          Function.update C ((j : Int) + (k : Int) * (ldt : Int))
            (C ((j : Int) + (k : Int) * (ldt : Int))
              - tau (j : Int) * (apply_inner_step m c A lda tau ldt ldb j s).work (k : Int)))
          s.C_top := rfl
  rw [e]
  exact loop_update_frame c (fun k : Nat => (j : Int) + (k : Int) * (ldt : Int))
    (fun k b => b - tau (j : Int) * (apply_inner_step m c A lda tau ldt ldb j s).work (k : Int))
    s.C_top p hp

/-- Entry `(k, i)` of `C_bot` after an `apply_inner` step. -/
theorem apply_inner_step_bot_at (m c : Nat) (A : Buf K) (lda : Nat) (tau : Buf K)
    (ldt ldb : Nat) (j : Nat) (s : ApplyState K) (hld : m ≤ ldb) (k i : Nat) (hk : k < m)
    (hi : i < c) :
    (apply_inner_step m c A lda tau ldt ldb j s).C_bot ((k : Int) + (i : Int) * (ldb : Int))
      = s.C_bot ((k : Int) + (i : Int) * (ldb : Int))
        + A ((k : Int) + (j : Int) * (lda : Int))
          * (-(tau (j : Int)) * (apply_inner_step m c A lda tau ldt ldb j s).work (i : Int)) := by
  have e : (apply_inner_step m c A lda tau ldt ldb j s).C_bot
      = GER (-(tau (j : Int))) (ptr A (0 + (j : Int) * (lda : Int))) 1
          (apply_inner_step m c A lda tau ldt ldb j s).work 1 ((View.ofPtr ldb c).rows 0 m)
          s.C_bot := rfl
  have hidx : ((View.ofPtr ldb c).rows 0 m).idx k i = (k : Int) + (i : Int) * (ldb : Int) := by
    simp [View.idx, View.rows, View.subview, View.ofPtr]
  rw [e, ← hidx, GER_unit_unit_at _ _ _ _ _ (by simpa [View.rows, View.subview, View.ofPtr] using hld)
    k i (by simpa [View.rows, View.subview, View.ofPtr] using hk)
    (by simpa [View.rows, View.subview, View.ofPtr] using hi)]
  simp only [ptr]
  congr 3
  ring

/-- Entries of the `C_bot` buffer outside the logical `m × ncols_C` block are kept. -/
theorem apply_inner_step_bot_frame (m c : Nat) (A : Buf K) (lda : Nat) (tau : Buf K)
    (ldt ldb : Nat) (j : Nat) (s : ApplyState K) (hld : m ≤ ldb) (p : Int)
    (hp : ∀ k i : Nat, k < m → i < c → (k : Int) + (i : Int) * (ldb : Int) ≠ p) :
    (apply_inner_step m c A lda tau ldt ldb j s).C_bot p = s.C_bot p := by
  have e : (apply_inner_step m c A lda tau ldt ldb j s).C_bot
      = GER (-(tau (j : Int))) (ptr A (0 + (j : Int) * (lda : Int))) 1
          (apply_inner_step m c A lda tau ldt ldb j s).work 1 ((View.ofPtr ldb c).rows 0 m)
          s.C_bot := rfl
  rw [e]
  apply GER_unit_frame _ _ _ _ _ _ (by simpa [View.rows, View.subview, View.ofPtr] using hld)
  intro k i hk hi
  have hidx : ((View.ofPtr ldb c).rows 0 m).idx k i = (k : Int) + (i : Int) * (ldb : Int) := by
    simp [View.idx, View.rows, View.subview, View.ofPtr]
  rw [hidx]
  exact hp k i (by simpa [View.rows, View.subview, View.ofPtr] using hk)
    (by simpa [View.rows, View.subview, View.ofPtr] using hi)

/-- The scratch vector of an `apply_inner` step is the row vector `w` of the reflector. -/
theorem apply_inner_step_work_read (m c q : Nat) (A : Buf K) (lda : Nat) (tau : Buf K)
    (ldt ldb : Nat) (j : Nat) (hj : j < q) (s : ApplyState K) (i : Fin c) :
    (apply_inner_step m c A lda tau ldt ldb j s).work ((i : Nat) : Int)
      = reflW (fun k => readMat A lda m q k ⟨j, hj⟩) ⟨j, hj⟩ (readMat s.C_top ldt q c)
          (readMat s.C_bot ldb m c) i := by
  rw [apply_inner_step_work m c A lda tau ldt ldb j s i i.2, Finset.sum_range]
  rfl

/-- One step of `apply_inner` acts on the logical matrices as the reflector `j`. -/
theorem apply_inner_step_read (m c q : Nat) (A : Buf K) (lda : Nat) (tau : Buf K)
    (ldt ldb : Nat) (j : Nat) (hj : j < q) (hldt : q ≤ ldt) (hldb : m ≤ ldb)
    (s : ApplyState K) :
    (apply_inner_step m c A lda tau ldt ldb j s).read ldt ldb q m c
      = applyInnerMatStep (readMat A lda m q) (readVec tau q) j (s.read ldt ldb q m c) := by
  rw [applyInnerMatStep, dif_pos hj]
  unfold ApplyState.read
  refine Prod.ext ?_ ?_
  · funext r i
    simp only [reflTop]
    by_cases hr : r = ⟨j, hj⟩
    · subst hr
      rw [if_pos rfl, ← apply_inner_step_work_read m c q A lda tau ldt ldb j hj s i]
      exact apply_inner_step_top_at m c A lda tau ldt ldb j s (by omega) i i.2
    · rw [if_neg hr]
      refine apply_inner_step_top_frame m c A lda tau ldt ldb j s _ (fun a _ h => hr ?_)
      have := (colmajor_inj ldt j a r i (by omega) (by omega) h).1
      exact Fin.ext this.symm
  · funext k i
    simp only [reflBot]
    rw [← apply_inner_step_work_read m c q A lda tau ldt ldb j hj s i]
    exact apply_inner_step_bot_at m c A lda tau ldt ldb j s hldb k i k.2 i.2

/-- The ascending sweep of `apply_inner` on the logical matrices. -/
theorem apply_inner_loop_read (m c q : Nat) (A : Buf K) (lda : Nat) (tau : Buf K)
    (ldt ldb : Nat) (hldt : q ≤ ldt) (hldb : m ≤ ldb) (s : ApplyState K) (n : Nat)
    (hn : n ≤ q) :
    (loop n (apply_inner_step m c A lda tau ldt ldb) s).read ldt ldb q m c
      = loop n (applyInnerMatStep (readMat A lda m q) (readVec tau q)) (s.read ldt ldb q m c) := by
  induction n with
  | zero => rfl
  | succ n ih =>
    rw [loop_succ, loop_succ, apply_inner_step_read m c q A lda tau ldt ldb n (by omega) hldt hldb,
      ih (by omega)]

/-- The descending sweep of `apply_inner` on the logical matrices. -/
theorem apply_inner_loopDown_read (m c q : Nat) (A : Buf K) (lda : Nat) (tau : Buf K)
    (ldt ldb : Nat) (hldt : q ≤ ldt) (hldb : m ≤ ldb) (n : Nat) (hn : n ≤ q)
    (s : ApplyState K) :
    (loopDown n (apply_inner_step m c A lda tau ldt ldb) s).read ldt ldb q m c
      = loopDown n (applyInnerMatStep (readMat A lda m q) (readVec tau q))
          (s.read ldt ldb q m c) := by
  induction n generalizing s with
  | zero => rfl
  | succ n ih =>
    rw [loopDown_succ, loopDown_succ, ih (by omega),
      apply_inner_step_read m c q A lda tau ldt ldb n (by omega) hldt hldb]

/-- The whole of `apply_inner` on the logical matrices: ascending sweep for `Transpose`,
descending sweep for `NoTranspose`. -/
theorem apply_inner_read (applyType : ApplyType) (m c q : Nat) (A : Buf K) (lda : Nat)
    (tau C_top : Buf K) (ldt : Nat) (C_bot : Buf K) (ldb : Nat) (work : Buf K)
    (hldt : q ≤ ldt) (hldb : m ≤ ldb) :
    (apply_inner applyType m c q A lda tau C_top ldt C_bot ldb work).read ldt ldb q m c
      = if applyType = ApplyType.NoTranspose then
          loopDown q (applyInnerMatStep (readMat A lda m q) (readVec tau q))
            (readMat C_top ldt q c, readMat C_bot ldb m c)
        else
          loop q (applyInnerMatStep (readMat A lda m q) (readVec tau q))
            (readMat C_top ldt q c, readMat C_bot ldb m c) := by
  unfold apply_inner
  by_cases h : applyType = ApplyType.NoTranspose
  · simp only [h, if_true]
    rw [apply_inner_loopDown_read m c q A lda tau ldt ldb hldt hldb q le_rfl]
    rfl
  · simp only [h, if_false]
    rw [apply_inner_loop_read m c q A lda tau ldt ldb hldt hldb _ q le_rfl]
    rfl

end ApplyInnerLemmas

section ReflectorAlgebra

variable {m q c : Nat}

/-- The row vector `w` after one application of a reflector, in terms of the one before. -/
theorem reflW_refl (t : K) (v : Fin m → K) (j : Fin q) (Ct : Matrix (Fin q) (Fin c) K)
    (Cb : Matrix (Fin m) (Fin c) K) (i : Fin c) :
    reflW v j (reflTop t v j Ct Cb) (reflBot t v j Ct Cb) i
      = reflW v j Ct Cb i * (1 - t * (1 + ∑ k, v k * v k)) := by
  have h1 : (∑ k, v k * reflBot t v j Ct Cb k i)
      = (∑ k, v k * Cb k i) + (-t * reflW v j Ct Cb i) * ∑ k, v k * v k := by
    simp only [reflBot, mul_add, Finset.sum_add_distrib, Finset.mul_sum]
    congr 1
    apply Finset.sum_congr rfl
    intro k _
    ring
  have h2 : reflTop t v j Ct Cb j i = Ct j i - t * reflW v j Ct Cb i := by
    simp [reflTop]
  have h3 : reflW v j (reflTop t v j Ct Cb) (reflBot t v j Ct Cb) i
      = (∑ k, v k * reflBot t v j Ct Cb k i) + reflTop t v j Ct Cb j i := rfl
  have h4 : reflW v j Ct Cb i = (∑ k, v k * Cb k i) + Ct j i := rfl
  rw [h3, h1, h2, h4]
  ring

/-- A valid Householder reflector (`t = 0` or `t · (1 + |v|²) = 2`) is an involution: top. -/
theorem reflTop_involutive (t : K) (v : Fin m → K) (j : Fin q) (Ct : Matrix (Fin q) (Fin c) K)
    (Cb : Matrix (Fin m) (Fin c) K) (ht : t = 0 ∨ t * (1 + ∑ k, v k * v k) = 2) :
    reflTop t v j (reflTop t v j Ct Cb) (reflBot t v j Ct Cb) = Ct := by
  funext r i
  have hw := reflW_refl t v j Ct Cb i
  by_cases hr : r = j
  · subst hr
    have e : reflTop t v r (reflTop t v r Ct Cb) (reflBot t v r Ct Cb) r i
        = (Ct r i - t * reflW v r Ct Cb i)
          - t * reflW v r (reflTop t v r Ct Cb) (reflBot t v r Ct Cb) i := by
      simp [reflTop]
    rw [e, hw]
    rcases ht with h0 | h2
    · subst h0; ring
    · have : t * reflW v r Ct Cb i * (2 - t * (1 + ∑ k, v k * v k)) = 0 := by
        rw [h2]; ring
      linear_combination (-1 : K) * this
  · simp [reflTop, hr]

/-- A valid Householder reflector is an involution: bottom block. -/
theorem reflBot_involutive (t : K) (v : Fin m → K) (j : Fin q) (Ct : Matrix (Fin q) (Fin c) K)
    (Cb : Matrix (Fin m) (Fin c) K) (ht : t = 0 ∨ t * (1 + ∑ k, v k * v k) = 2) :
    reflBot t v j (reflTop t v j Ct Cb) (reflBot t v j Ct Cb) = Cb := by
  funext k i
  have hw := reflW_refl t v j Ct Cb i
  have e : reflBot t v j (reflTop t v j Ct Cb) (reflBot t v j Ct Cb) k i
      = (Cb k i + v k * (-t * reflW v j Ct Cb i))
        + v k * (-t * reflW v j (reflTop t v j Ct Cb) (reflBot t v j Ct Cb) i) := rfl
  rw [e, hw]
  rcases ht with h0 | h2
  · subst h0; ring
  · have : v k * t * reflW v j Ct Cb i * (2 - t * (1 + ∑ k, v k * v k)) = 0 := by
      rw [h2]; ring
    linear_combination (-1 : K) * this

/-- A matrix-level step of `apply_inner` with a valid reflector undoes itself. -/
theorem applyInnerMatStep_involutive (A : Matrix (Fin m) (Fin q) K) (tau : Fin q → K) (j : Nat)
    (hv : ∀ h : j < q, tau ⟨j, h⟩ = 0 ∨ tau ⟨j, h⟩ * (1 + ∑ k, A k ⟨j, h⟩ * A k ⟨j, h⟩) = 2)
    (C : Matrix (Fin q) (Fin c) K × Matrix (Fin m) (Fin c) K) :
    applyInnerMatStep A tau j (applyInnerMatStep A tau j C) = C := by
  unfold applyInnerMatStep
  by_cases h : j < q
  · simp only [dif_pos h]
    rw [reflTop_involutive _ _ _ _ _ (hv h), reflBot_involutive _ _ _ _ _ (hv h)]
  · simp only [dif_neg h]

/-- The descending sweep undoes the ascending sweep when every reflector is valid. -/
theorem applyInnerMat_round_trip (A : Matrix (Fin m) (Fin q) K) (tau : Fin q → K)
    (hv : ∀ j : Fin q, tau j = 0 ∨ tau j * (1 + ∑ k, A k j * A k j) = 2) (n : Nat)
    (C : Matrix (Fin q) (Fin c) K × Matrix (Fin m) (Fin c) K) :
    loopDown n (applyInnerMatStep A tau) (loop n (applyInnerMatStep A tau) C) = C := by
  induction n with
  | zero => rfl
  | succ n ih =>
    rw [loop_succ, loopDown_succ, applyInnerMatStep_involutive A tau n (fun h => hv ⟨n, h⟩), ih]

end ReflectorAlgebra

section ApplyInnerFrame

omit [LinearOrderedField K] in
/-- Two buffers with the same logical matrix and the same padding are equal. -/
theorem buf_eq_of_read (b1 b2 : Buf K) (ld rows cols : Nat)
    (hread : readMat b1 ld rows cols = readMat b2 ld rows cols)
    (hframe : ∀ p, Padding ld rows cols p → b1 p = b2 p) : b1 = b2 := by
  funext p
  by_cases h : ∃ r i : Nat, r < rows ∧ i < cols ∧ (r : Int) + (i : Int) * (ld : Int) = p
  · obtain ⟨r, i, hr, hi, rfl⟩ := h
    exact congrFun (congrFun hread ⟨r, hr⟩) ⟨i, hi⟩
  · exact hframe p (fun r i hr hi he => h ⟨r, i, hr, hi, he⟩)

/-- An `apply_inner` step keeps the padding of both buffers. -/
theorem apply_inner_step_frame (m c q : Nat) (A : Buf K) (lda : Nat) (tau : Buf K)
    (ldt ldb : Nat) (j : Nat) (hj : j < q) (hldb : m ≤ ldb) (s : ApplyState K) (p : Int) :
    (Padding ldt q c p → (apply_inner_step m c A lda tau ldt ldb j s).C_top p = s.C_top p)
    ∧ (Padding ldb m c p → (apply_inner_step m c A lda tau ldt ldb j s).C_bot p = s.C_bot p) :=
  ⟨fun hp => apply_inner_step_top_frame m c A lda tau ldt ldb j s p (fun i hi => hp j i hj hi),
    fun hp => apply_inner_step_bot_frame m c A lda tau ldt ldb j s hldb p hp⟩

/-- The ascending sweep of `apply_inner` keeps the padding of both buffers. -/
theorem apply_inner_loop_frame (m c q : Nat) (A : Buf K) (lda : Nat) (tau : Buf K)
    (ldt ldb : Nat) (hldb : m ≤ ldb) (s : ApplyState K) (p : Int) (n : Nat) (hn : n ≤ q) :
    (Padding ldt q c p → (loop n (apply_inner_step m c A lda tau ldt ldb) s).C_top p = s.C_top p)
    ∧ (Padding ldb m c p →
        (loop n (apply_inner_step m c A lda tau ldt ldb) s).C_bot p = s.C_bot p) := by
  induction n with
  | zero => exact ⟨fun _ => rfl, fun _ => rfl⟩
  | succ n ih =>
    have hs := apply_inner_step_frame m c q A lda tau ldt ldb n (by omega) hldb
      (loop n (apply_inner_step m c A lda tau ldt ldb) s) p
    have ih2 := ih (by omega)
    rw [loop_succ]
    exact ⟨fun hp => (hs.1 hp).trans (ih2.1 hp), fun hp => (hs.2 hp).trans (ih2.2 hp)⟩

/-- The descending sweep of `apply_inner` keeps the padding of both buffers. -/
theorem apply_inner_loopDown_frame (m c q : Nat) (A : Buf K) (lda : Nat) (tau : Buf K)
    (ldt ldb : Nat) (hldb : m ≤ ldb) (p : Int) (n : Nat) (hn : n ≤ q) (s : ApplyState K) :
    (Padding ldt q c p →
        (loopDown n (apply_inner_step m c A lda tau ldt ldb) s).C_top p = s.C_top p)
    ∧ (Padding ldb m c p →
        (loopDown n (apply_inner_step m c A lda tau ldt ldb) s).C_bot p = s.C_bot p) := by
  induction n generalizing s with
  | zero => exact ⟨fun _ => rfl, fun _ => rfl⟩
  | succ n ih =>
    have hs := apply_inner_step_frame m c q A lda tau ldt ldb n (by omega) hldb s p
    have ih2 := ih (by omega) (apply_inner_step m c A lda tau ldt ldb n s)
    rw [loopDown_succ]
    exact ⟨fun hp => (ih2.1 hp).trans (hs.1 hp), fun hp => (ih2.2 hp).trans (hs.2 hp)⟩

/-- The whole of `apply_inner` keeps the padding of `C_top` and `C_bot`. -/
theorem apply_inner_frame (applyType : ApplyType) (m c q : Nat) (A : Buf K) (lda : Nat)
    (tau C_top : Buf K) (ldt : Nat) (C_bot : Buf K) (ldb : Nat) (work : Buf K)
    (hldb : m ≤ ldb) (p : Int) :
    (Padding ldt q c p →
        (apply_inner applyType m c q A lda tau C_top ldt C_bot ldb work).C_top p = C_top p)
    ∧ (Padding ldb m c p →
        (apply_inner applyType m c q A lda tau C_top ldt C_bot ldb work).C_bot p = C_bot p) := by
  unfold apply_inner
  by_cases h : applyType = ApplyType.NoTranspose
  · simp only [h, if_true]
    exact apply_inner_loopDown_frame m c q A lda tau ldt ldb hldb p q le_rfl _
  · simp only [h, if_false]
    exact apply_inner_loop_frame m c q A lda tau ldt ldb hldb _ p q le_rfl

end ApplyInnerFrame

/-- C3: `apply_inner (Transpose)` followed by `apply_inner (NoTranspose)` with the same `A`
and `tau` returns `C_top` and `C_bot` exactly as they were (whole buffers, padding
included), in exact arithmetic, whenever every reflector is a valid Householder reflector:
`tau[j] = 0` or `tau[j] · (1 + Σ_k A[k,j]²) = 2`.  The scratch buffers of the two calls
are arbitrary. -/
theorem C3_apply_inner_round_trip (m ncols_C ncols_Q : Nat) (A : Buf K) (lda : Nat)
    (tau C_top : Buf K) (ldc_top : Nat) (C_bot : Buf K) (ldc_bot : Nat) (work work2 : Buf K)
    (hldt : ncols_Q ≤ ldc_top) (hldb : m ≤ ldc_bot)
    (hvalid : ∀ j : Nat, j < ncols_Q → tau (j : Int) = 0 ∨
      tau (j : Int) * (1 + ∑ k in Finset.range m,
        A ((k : Int) + (j : Int) * (lda : Int)) ^ 2) = 2) :
    (apply_inner ApplyType.NoTranspose m ncols_C ncols_Q A lda tau
        (apply_inner ApplyType.Transpose m ncols_C ncols_Q A lda tau C_top ldc_top C_bot ldc_bot
          work).C_top ldc_top
        (apply_inner ApplyType.Transpose m ncols_C ncols_Q A lda tau C_top ldc_top C_bot ldc_bot
          work).C_bot ldc_bot work2).C_top = C_top
    ∧ (apply_inner ApplyType.NoTranspose m ncols_C ncols_Q A lda tau
        (apply_inner ApplyType.Transpose m ncols_C ncols_Q A lda tau C_top ldc_top C_bot ldc_bot
          work).C_top ldc_top
        (apply_inner ApplyType.Transpose m ncols_C ncols_Q A lda tau C_top ldc_top C_bot ldc_bot
          work).C_bot ldc_bot work2).C_bot = C_bot := by
  have hv : ∀ j : Fin ncols_Q, readVec tau ncols_Q j = 0 ∨ readVec tau ncols_Q j
      * (1 + ∑ k, readMat A lda m ncols_Q k j * readMat A lda m ncols_Q k j) = 2 := by
    intro j
    have h := hvalid j j.2
    rw [Finset.sum_range] at h
    simpa [readVec, readMat, sq] using h
  have h1 := apply_inner_read ApplyType.Transpose m ncols_C ncols_Q A lda tau C_top ldc_top
    C_bot ldc_bot work hldt hldb
  have h2 := apply_inner_read ApplyType.NoTranspose m ncols_C ncols_Q A lda tau
    (apply_inner ApplyType.Transpose m ncols_C ncols_Q A lda tau C_top ldc_top C_bot ldc_bot
      work).C_top ldc_top
    (apply_inner ApplyType.Transpose m ncols_C ncols_Q A lda tau C_top ldc_top C_bot ldc_bot
      work).C_bot ldc_bot work2 hldt hldb
  have h1' : (readMat (apply_inner ApplyType.Transpose m ncols_C ncols_Q A lda tau C_top ldc_top
      C_bot ldc_bot work).C_top ldc_top ncols_Q ncols_C,
      readMat (apply_inner ApplyType.Transpose m ncols_C ncols_Q A lda tau C_top ldc_top
      C_bot ldc_bot work).C_bot ldc_bot m ncols_C)
      = loop ncols_Q (applyInnerMatStep (readMat A lda m ncols_Q) (readVec tau ncols_Q))
          (readMat C_top ldc_top ncols_Q ncols_C, readMat C_bot ldc_bot m ncols_C) := by
    simpa [ApplyState.read] using h1
  simp only [if_true] at h2
  rw [h1', applyInnerMat_round_trip _ _ hv] at h2
  have f1 := fun p => apply_inner_frame ApplyType.Transpose m ncols_C ncols_Q A lda tau C_top
    ldc_top C_bot ldc_bot work hldb p
  have f2 := fun p => apply_inner_frame ApplyType.NoTranspose m ncols_C ncols_Q A lda tau
    (apply_inner ApplyType.Transpose m ncols_C ncols_Q A lda tau C_top ldc_top C_bot ldc_bot
      work).C_top ldc_top
    (apply_inner ApplyType.Transpose m ncols_C ncols_Q A lda tau C_top ldc_top C_bot ldc_bot
      work).C_bot ldc_bot work2 hldb p
  constructor
  · exact buf_eq_of_read _ _ ldc_top ncols_Q ncols_C (congrArg Prod.fst h2)
      (fun p hp => ((f2 p).1 hp).trans ((f1 p).1 hp))
  · exact buf_eq_of_read _ _ ldc_bot m ncols_C (congrArg Prod.snd h2)
      (fun p hp => ((f2 p).2 hp).trans ((f1 p).2 hp))

/-- Witness for C3: `m = ncols_Q = ncols_C = 1`, `A = [1]`, `tau = [1]` (a valid reflector,
`1 · (1 + 1²) = 2`), `C_top = [3]`, `C_bot = [5]`. -/
theorem C3_apply_inner_round_trip_witness :
    (∀ j : Nat, j < 1 → (fun _ : Int => (1 : ℚ)) (j : Int) = 0 ∨
      (fun _ : Int => (1 : ℚ)) (j : Int) * (1 + ∑ k in Finset.range 1,
        (fun _ : Int => (1 : ℚ)) ((k : Int) + (j : Int) * ((1 : Nat) : Int)) ^ 2) = 2)
    ∧ (apply_inner ApplyType.NoTranspose 1 1 1 (fun _ => (1 : ℚ)) 1 (fun _ => 1)
        (apply_inner ApplyType.Transpose 1 1 1 (fun _ => (1 : ℚ)) 1 (fun _ => 1) (fun _ => 3) 1
          (fun _ => 5) 1 (fun _ => 0)).C_top 1
        (apply_inner ApplyType.Transpose 1 1 1 (fun _ => (1 : ℚ)) 1 (fun _ => 1) (fun _ => 3) 1
          (fun _ => 5) 1 (fun _ => 0)).C_bot 1 (fun _ => 7)).C_top = (fun _ => 3)
    ∧ (apply_inner ApplyType.NoTranspose 1 1 1 (fun _ => (1 : ℚ)) 1 (fun _ => 1)
        (apply_inner ApplyType.Transpose 1 1 1 (fun _ => (1 : ℚ)) 1 (fun _ => 1) (fun _ => 3) 1
          (fun _ => 5) 1 (fun _ => 0)).C_top 1
        (apply_inner ApplyType.Transpose 1 1 1 (fun _ => (1 : ℚ)) 1 (fun _ => 1) (fun _ => 3) 1
          (fun _ => 5) 1 (fun _ => 0)).C_bot 1 (fun _ => 7)).C_bot = (fun _ => 5) :=
  have hv : ∀ j : Nat, j < 1 → (fun _ : Int => (1 : ℚ)) (j : Int) = 0 ∨
      (fun _ : Int => (1 : ℚ)) (j : Int) * (1 + ∑ k in Finset.range 1,
        (fun _ : Int => (1 : ℚ)) ((k : Int) + (j : Int) * ((1 : Nat) : Int)) ^ 2) = 2 :=
    fun j _ => Or.inr (by norm_num)
  ⟨hv, C3_apply_inner_round_trip 1 1 1 (fun _ => (1 : ℚ)) 1 (fun _ => 1) (fun _ => 3) 1
    (fun _ => 5) 1 (fun _ => 0) (fun _ => 7) (by decide) (by decide) hv⟩

section HouseholderProduct

variable {m q c : Nat}

/-- Entry of `H_j · S` for a stacked matrix `S`. -/
theorem houseMat_mul_apply (A : Matrix (Fin m) (Fin q) K) (tau : Fin q → K) (j : Nat)
    (hj : j < q) (S : Matrix (Fin q ⊕ Fin m) (Fin c) K) (a : Fin q ⊕ Fin m) (i : Fin c) :
    (houseMat A tau j * S) a i
      = S a i - tau ⟨j, hj⟩ * houseVec A ⟨j, hj⟩ a * ∑ b, houseVec A ⟨j, hj⟩ b * S b i := by
  rw [houseMat, dif_pos hj, Matrix.sub_mul, Matrix.one_mul, Matrix.sub_apply, Matrix.smul_mul,
    Matrix.smul_apply, Matrix.mul_apply]
  simp only [Matrix.vecMulVec_apply, smul_eq_mul, Finset.mul_sum]
  congr 1
  apply Finset.sum_congr rfl
  intro b _
  ring

/-- The stacked sum `v_jᵀ · [C_top; C_bot]` is the row vector `w` of the reflector. -/
theorem houseVec_sum (A : Matrix (Fin m) (Fin q) K) (j : Fin q)
    (C : Matrix (Fin q) (Fin c) K × Matrix (Fin m) (Fin c) K) (i : Fin c) :
    ∑ b, houseVec A j b * Matrix.fromRows C.1 C.2 b i = reflW (fun k => A k j) j C.1 C.2 i := by
  rw [Fintype.sum_sum_type]
  simp only [houseVec, Sum.elim_inl, Sum.elim_inr, Matrix.fromRows_apply_inl,
    Matrix.fromRows_apply_inr, ite_mul, one_mul, zero_mul, Finset.sum_ite_eq',
    Finset.mem_univ, if_true, reflW]
  ring

/-- A matrix-level step of `apply_inner` is the product with `H_j`. -/
theorem applyInnerMatStep_eq_houseMat (A : Matrix (Fin m) (Fin q) K) (tau : Fin q → K)
    (j : Nat) (C : Matrix (Fin q) (Fin c) K × Matrix (Fin m) (Fin c) K) :
    Matrix.fromRows (applyInnerMatStep A tau j C).1 (applyInnerMatStep A tau j C).2
      = houseMat A tau j * Matrix.fromRows C.1 C.2 := by
  by_cases hj : j < q
  · funext a i
    rw [houseMat_mul_apply A tau j hj, houseVec_sum]
    simp only [applyInnerMatStep, dif_pos hj]
    cases a with
    | inl r =>
      simp only [Matrix.fromRows_apply_inl, reflTop, houseVec, Sum.elim_inl]
      by_cases hr : r = ⟨j, hj⟩
      · simp [hr]
      · simp [hr]
    | inr k =>
      simp only [Matrix.fromRows_apply_inr, reflBot, houseVec, Sum.elim_inr]
      ring
  · simp only [applyInnerMatStep, houseMat, dif_neg hj, Matrix.one_mul]

/-- The ascending matrix-level sweep is the product `H_{n-1} · ... · H_0`. -/
theorem applyInnerMat_loop_eq_prod (A : Matrix (Fin m) (Fin q) K) (tau : Fin q → K)
    (C : Matrix (Fin q) (Fin c) K × Matrix (Fin m) (Fin c) K) (n : Nat) :
    Matrix.fromRows (loop n (applyInnerMatStep A tau) C).1 (loop n (applyInnerMatStep A tau) C).2
      = houseProdUp A tau n * Matrix.fromRows C.1 C.2 := by
  induction n with
  | zero => simp [loop, houseProdUp]
  | succ n ih => rw [loop_succ, applyInnerMatStep_eq_houseMat, ih, houseProdUp, Matrix.mul_assoc]

/-- The descending matrix-level sweep is the product `H_0 · ... · H_{n-1}`. -/
theorem applyInnerMat_loopDown_eq_prod (A : Matrix (Fin m) (Fin q) K) (tau : Fin q → K)
    (n : Nat) (C : Matrix (Fin q) (Fin c) K × Matrix (Fin m) (Fin c) K) :
    Matrix.fromRows (loopDown n (applyInnerMatStep A tau) C).1
        (loopDown n (applyInnerMatStep A tau) C).2
      = houseProdDown A tau n * Matrix.fromRows C.1 C.2 := by
  induction n generalizing C with
  | zero => simp [loopDown, houseProdDown]
  | succ n ih =>
    rw [loopDown_succ, ih, applyInnerMatStep_eq_houseMat, houseProdDown, Matrix.mul_assoc]

end HouseholderProduct

/-- C6: `apply_inner` applies the product of the Householder reflectors
`H_j = I - tau[j] · v_j · v_jᵀ` in the order fixed by `applyType`: on the logical stacked
matrix `[C_top; C_bot]`, `Transpose` returns `H_{ncols_Q-1} · ... · H_1 · H_0 · [C_top; C_bot]`
(reflector 0 applied first) and `NoTranspose` returns
`H_0 · H_1 · ... · H_{ncols_Q-1} · [C_top; C_bot]` (reflector `ncols_Q - 1` applied first). -/
theorem C6_apply_inner_reflector_product (m ncols_C ncols_Q : Nat) (A : Buf K) (lda : Nat)
    (tau C_top : Buf K) (ldc_top : Nat) (C_bot : Buf K) (ldc_bot : Nat) (work : Buf K)
    (hldt : ncols_Q ≤ ldc_top) (hldb : m ≤ ldc_bot) :
    Matrix.fromRows
        (readMat (apply_inner ApplyType.Transpose m ncols_C ncols_Q A lda tau C_top ldc_top C_bot
          ldc_bot work).C_top ldc_top ncols_Q ncols_C)
        (readMat (apply_inner ApplyType.Transpose m ncols_C ncols_Q A lda tau C_top ldc_top C_bot
          ldc_bot work).C_bot ldc_bot m ncols_C)
      = houseProdUp (readMat A lda m ncols_Q) (readVec tau ncols_Q) ncols_Q
        * Matrix.fromRows (readMat C_top ldc_top ncols_Q ncols_C)
            (readMat C_bot ldc_bot m ncols_C)
    ∧ Matrix.fromRows
        (readMat (apply_inner ApplyType.NoTranspose m ncols_C ncols_Q A lda tau C_top ldc_top
          C_bot ldc_bot work).C_top ldc_top ncols_Q ncols_C)
        (readMat (apply_inner ApplyType.NoTranspose m ncols_C ncols_Q A lda tau C_top ldc_top
          C_bot ldc_bot work).C_bot ldc_bot m ncols_C)
      = houseProdDown (readMat A lda m ncols_Q) (readVec tau ncols_Q) ncols_Q
        * Matrix.fromRows (readMat C_top ldc_top ncols_Q ncols_C)
            (readMat C_bot ldc_bot m ncols_C) := by
  have h1 := apply_inner_read ApplyType.Transpose m ncols_C ncols_Q A lda tau C_top ldc_top
    C_bot ldc_bot work hldt hldb
  have h2 := apply_inner_read ApplyType.NoTranspose m ncols_C ncols_Q A lda tau C_top ldc_top
    C_bot ldc_bot work hldt hldb
  simp only [if_true] at h2
  have e1 : ApplyType.Transpose ≠ ApplyType.NoTranspose := by decide
  simp only [e1, if_false] at h1
  constructor
  · have := applyInnerMat_loop_eq_prod (readMat A lda m ncols_Q) (readVec tau ncols_Q)
      (readMat C_top ldc_top ncols_Q ncols_C, readMat C_bot ldc_bot m ncols_C) ncols_Q
    rw [← h1] at this
    exact this
  · have := applyInnerMat_loopDown_eq_prod (readMat A lda m ncols_Q) (readVec tau ncols_Q)
      ncols_Q (readMat C_top ldc_top ncols_Q ncols_C, readMat C_bot ldc_bot m ncols_C)
    rw [← h2] at this
    exact this

/-- Witness for C6: `m = 1`, `ncols_Q = ncols_C = 2`, leading dimensions 2 and 1. -/
theorem C6_apply_inner_reflector_product_witness :
    Matrix.fromRows
        (readMat (apply_inner ApplyType.Transpose 1 2 2 (fun p => (p : ℚ)) 1 (fun _ => 1)
          (fun p => (p : ℚ) + 1) 2 (fun _ => 2) 1 (fun _ => 0)).C_top 2 2 2)
        (readMat (apply_inner ApplyType.Transpose 1 2 2 (fun p => (p : ℚ)) 1 (fun _ => 1)
          (fun p => (p : ℚ) + 1) 2 (fun _ => 2) 1 (fun _ => 0)).C_bot 1 1 2)
      = houseProdUp (readMat (fun p => (p : ℚ)) 1 1 2) (readVec (fun _ => 1) 2) 2
        * Matrix.fromRows (readMat (fun p => (p : ℚ) + 1) 2 2 2) (readMat (fun _ => 2) 1 1 2)
    ∧ Matrix.fromRows
        (readMat (apply_inner ApplyType.NoTranspose 1 2 2 (fun p => (p : ℚ)) 1 (fun _ => 1)
          (fun p => (p : ℚ) + 1) 2 (fun _ => 2) 1 (fun _ => 0)).C_top 2 2 2)
        (readMat (apply_inner ApplyType.NoTranspose 1 2 2 (fun p => (p : ℚ)) 1 (fun _ => 1)
          (fun p => (p : ℚ) + 1) 2 (fun _ => 2) 1 (fun _ => 0)).C_bot 1 1 2)
      = houseProdDown (readMat (fun p => (p : ℚ)) 1 1 2) (readVec (fun _ => 1) 2) 2
        * Matrix.fromRows (readMat (fun p => (p : ℚ) + 1) 2 2 2) (readMat (fun _ => 2) 1 1 2) :=
  C6_apply_inner_reflector_product 1 2 2 (fun p => (p : ℚ)) 1 (fun _ => 1)
    (fun p => (p : ℚ) + 1) 2 (fun _ => 2) 1 (fun _ => 0) (by decide) (by decide)

section ReadLemmas

omit [LinearOrderedField K] in
/-- Writing one logical entry of a column-major buffer. -/
theorem readMat_update (b : Buf K) (ld rows cols : Nat) (a j : Nat) (ha : a < rows)
    (hld : rows ≤ ld) (x : K) (a2 : Fin rows) (j2 : Fin cols) :
    readMat (Function.update b ((a : Int) + (j : Int) * (ld : Int)) x) ld rows cols a2 j2
      = if (a2 : Nat) = a ∧ (j2 : Nat) = j then x else readMat b ld rows cols a2 j2 := by
  unfold readMat
  by_cases h : (a2 : Nat) = a ∧ (j2 : Nat) = j
  · rw [if_pos h, h.1, h.2, Function.update_same]
  · rw [if_neg h, Function.update_noteq]
    intro he
    have := colmajor_inj ld a2 j2 a j (by have := a2.2; omega) (by omega) he
    exact h this

omit [LinearOrderedField K] in
/-- Writing one logical entry keeps the padding. -/
theorem update_padding (b : Buf K) (ld rows cols : Nat) (a j : Nat) (ha : a < rows)
    (hj : j < cols) (x : K) (p : Int) (hp : Padding ld rows cols p) :
    Function.update b ((a : Int) + (j : Int) * (ld : Int)) x p = b p :=
  Function.update_noteq (fun he => hp a j ha hj he.symm) _ _

omit [LinearOrderedField K] in
/-- Writing one entry of a logical vector. -/
theorem readVec_update (b : Buf K) (n : Nat) (k : Nat) (hk : k < n) (x : K) :
    readVec (Function.update b (k : Int) x) n = Function.update (readVec b n) ⟨k, hk⟩ x := by
  funext i
  unfold readVec
  by_cases h : i = ⟨k, hk⟩
  · subst h
    simp
  · have h2 : ((i : Nat) : Int) ≠ (k : Int) := by
      intro he
      exact h (Fin.ext (by exact_mod_cast he))
    rw [Function.update_noteq h2, Function.update_noteq h]

end ReadLemmas

section FactorStepLemmas

/-- With unit strides `GEMV` does not raise and forwards to `gemv`. -/
theorem GEMV_unit (trans : Char) (alpha : K) (V : View) (A x : Buf K) (beta : K) (y : Buf K) :
    GEMV trans alpha V A x 1 beta y 1 = Except.ok (gemv trans alpha V A x beta y) := by
  simp [GEMV]

/-- Transposed `gemv`: entry `j` of the result. -/
theorem gemv_T_at (alpha : K) (V : View) (A x : Buf K) (beta : K) (y : Buf K) (j : Nat)
    (hj : j < V.dim1) :
    gemv 'T' alpha V A x beta y (j : Int)
      = alpha * (∑ i in Finset.range V.dim0, A (V.idx i j) * x (i : Int)) + beta * y (j : Int) := by
  have hT : ¬ ('T' = 'N' ∨ 'T' = 'n') := by decide
  unfold gemv
  rw [if_neg hT]
  simp only [loop_sum, zero_add]
  exact loop_update_at V.dim1 (fun j : Nat => (j : Int))
    (fun j b => alpha * (∑ i in Finset.range V.dim0, A (V.idx i j) * x (i : Int)) + beta * b)
    y j hj (fun a _ h => by simpa using h)

/-- Transposed `gemv`: entries of `y` past the result are kept. -/
theorem gemv_T_frame (alpha : K) (V : View) (A x : Buf K) (beta : K) (y : Buf K) (p : Int)
    (hp : ∀ j : Nat, j < V.dim1 → (j : Int) ≠ p) :
    gemv 'T' alpha V A x beta y p = y p := by
  have hT : ¬ ('T' = 'N' ∨ 'T' = 'n') := by decide
  unfold gemv
  rw [if_neg hT]
  simp only [loop_sum, zero_add]
  exact loop_update_frame V.dim1 (fun j : Nat => (j : Int))
    (fun j b => alpha * (∑ i in Finset.range V.dim0, A (V.idx i j) * x (i : Int)) + beta * b)
    y p hp

/-- The loop `work[j-k-1] += R_kj; R_kj -= tau[k] * work[j-k-1]` of the factorizations, with
`f t` the offset of `R_kj` and `g t` the offset into `work` at iteration `t`. -/
theorem rw_loop (f g : Nat → Int) (c : K) (R w : Buf K) (n : Nat)
    (hf : ∀ a b, a < n → b < n → f a = f b → a = b)
    (hg : ∀ a b, a < n → b < n → g a = g b → a = b) :
    (∀ t, t < n → (loop n (fun t (st : Buf K × Buf K) =>
        (Function.update st.1 (f t) (st.1 (f t)
            - c * (Function.update st.2 (g t) (st.2 (g t) + st.1 (f t))) (g t)),
          Function.update st.2 (g t) (st.2 (g t) + st.1 (f t)))) (R, w)).1 (f t)
        = R (f t) - c * (w (g t) + R (f t)))
    ∧ (∀ p, (∀ t, t < n → f t ≠ p) → (loop n (fun t (st : Buf K × Buf K) =>
        (Function.update st.1 (f t) (st.1 (f t)
            - c * (Function.update st.2 (g t) (st.2 (g t) + st.1 (f t))) (g t)),
          Function.update st.2 (g t) (st.2 (g t) + st.1 (f t)))) (R, w)).1 p = R p)
    ∧ (∀ t, t < n → (loop n (fun t (st : Buf K × Buf K) =>
        (Function.update st.1 (f t) (st.1 (f t)
            - c * (Function.update st.2 (g t) (st.2 (g t) + st.1 (f t))) (g t)),
          Function.update st.2 (g t) (st.2 (g t) + st.1 (f t)))) (R, w)).2 (g t)
        = w (g t) + R (f t))
    ∧ (∀ p, (∀ t, t < n → g t ≠ p) → (loop n (fun t (st : Buf K × Buf K) =>
        (Function.update st.1 (f t) (st.1 (f t)
            - c * (Function.update st.2 (g t) (st.2 (g t) + st.1 (f t))) (g t)),
          Function.update st.2 (g t) (st.2 (g t) + st.1 (f t)))) (R, w)).2 p = w p) := by
  induction n with
  | zero =>
    exact ⟨fun t ht => absurd ht (Nat.not_lt_zero t), fun _ _ => rfl,
      fun t ht => absurd ht (Nat.not_lt_zero t), fun _ _ => rfl⟩
  | succ n ih =>
    obtain ⟨ih1, ih2, ih3, ih4⟩ := ih
      (fun a b ha hb => hf a b (Nat.lt_succ_of_lt ha) (Nat.lt_succ_of_lt hb))
      (fun a b ha hb => hg a b (Nat.lt_succ_of_lt ha) (Nat.lt_succ_of_lt hb))
    have hfn : ∀ t, t < n → f t ≠ f n := fun t ht he =>
      absurd (hf t n (Nat.lt_succ_of_lt ht) (Nat.lt_succ_self n) he) (Nat.ne_of_lt ht)
    have hgn : ∀ t, t < n → g t ≠ g n := fun t ht he =>
      absurd (hg t n (Nat.lt_succ_of_lt ht) (Nat.lt_succ_self n) he) (Nat.ne_of_lt ht)
    have eR := ih2 (f n) hfn
    have ew := ih4 (g n) hgn
    rw [loop_succ]
    generalize loop n _ (R, w) = res at ih1 ih2 ih3 ih4 eR ew ⊢
    simp only [Function.update_same]
    refine ⟨?_, ?_, ?_, ?_⟩
    · intro t ht
      by_cases htn : t = n
      · subst htn
        rw [Function.update_same, eR, ew]
      · have hlt : t < n := lt_of_le_of_ne (Nat.le_of_lt_succ ht) htn
        rw [Function.update_noteq (hfn t hlt)]
        exact ih1 t hlt
    · intro p hp
      rw [Function.update_noteq (hp n (Nat.lt_succ_self n)).symm]
      exact ih2 p (fun t ht => hp t (Nat.lt_succ_of_lt ht))
    · intro t ht
      by_cases htn : t = n
      · subst htn
        rw [Function.update_same, eR, ew]
      · have hlt : t < n := lt_of_le_of_ne (Nat.le_of_lt_succ ht) htn
        rw [Function.update_noteq (hgn t hlt)]
        exact ih3 t hlt
    · intro p hp
      rw [Function.update_noteq (hp n (Nat.lt_succ_self n)).symm]
      exact ih4 p (fun t ht => hp t (Nat.lt_succ_of_lt ht))

end FactorStepLemmas

section PhaseLemmas

/-- The column step of `factor_inner` is reflector generation followed by the trailing
update. -/
theorem factor_inner_step_eq (sqrt : K → K) (m n ldr lda k : Nat) (s : InnerState K) :
    factor_inner_step sqrt m n ldr lda k s
      = trailPhase (0 + (k : Int) * (lda : Int)) (((View.ofPtr lda n).rows 0 m).subview 0 m (k + 1) n)
          (fun j => (k : Int) + (j : Int) * (ldr : Int)) k n
          (larfgPhase sqrt m ((k : Int) + (k : Int) * (ldr : Int)) (0 + (k : Int) * (lda : Int))
            (k : Int) s) := rfl

/-- The closing `LARFG` call of `factor_inner` is a reflector generation. -/
theorem factor_inner_eq (sqrt : K → K) (m n : Nat) (R : Buf K) (ldr : Nat) (A : Buf K)
    (lda : Nat) (tau work : Buf K) :
    factor_inner sqrt m n R ldr A lda tau work
      = match loopM (n - 1) (factor_inner_step sqrt m n ldr lda)
          ⟨R, A, tau, loop n (fun k (w : Buf K) => Function.update w (k : Int) 0) work⟩ with
        | Except.error e => Except.error e
        | Except.ok s => Except.ok (larfgPhase sqrt m
            (((n : Int) - 1) + ((n : Int) - 1) * (ldr : Int)) (0 + ((n : Int) - 1) * (lda : Int))
            ((n : Int) - 1) s) := rfl

omit [LinearOrderedField K] in
/-- Two logical factorization states with equal fields are equal. -/
theorem FactorMat.ext3 {m n : Nat} (s t : FactorMat K m n) (hR : s.R = t.R) (hA : s.A = t.A)
    (ht : s.tau = t.tau) : s = t := by
  cases s; cases t; simp only [FactorMat.mk.injEq]; exact ⟨hR, hA, ht⟩

end PhaseLemmas

section TruncLemmas

/-- A sum over the first `len` of `m` indices. -/
theorem sum_trunc (m len : Nat) (hlen : len ≤ m) (f : Nat → K) :
    ∑ i : Fin m, (if (i : Nat) < len then f i else 0) = ∑ i in Finset.range len, f i := by
  rw [← Finset.sum_range (fun i => if i < len then f i else 0)]
  rw [← Finset.sum_subset (Finset.range_subset.2 hlen) (fun i _ hi => by
    rw [if_neg]
    simpa using hi)]
  apply Finset.sum_congr rfl
  intro i hi
  rw [if_pos (Finset.mem_range.1 hi)]

/-- `LARFG` over `len` tail entries of a buffer agrees with `larfgVec` on the logical column
cut to its first `len` rows. -/
theorem LARFG_read_trunc (sqrt : K → K) (m len : Nat) (hlen : len ≤ m) (alpha : K) (x : Buf K) :
    (LARFG sqrt (len + 1) alpha x).1
        = (larfgVec sqrt alpha (fun i : Fin m => if (i : Nat) < len then x (i : Nat) else 0)).1
    ∧ (LARFG sqrt (len + 1) alpha x).2.2
        = (larfgVec sqrt alpha (fun i : Fin m => if (i : Nat) < len then x (i : Nat) else 0)).2.2
    ∧ (∀ i : Fin m, (i : Nat) < len → (LARFG sqrt (len + 1) alpha x).2.1 ((i : Nat) : Int)
        = (larfgVec sqrt alpha
            (fun i : Fin m => if (i : Nat) < len then x (i : Nat) else 0)).2.1 i) := by
  have hz : (∀ i : Nat, i < len + 1 - 1 → x (i : Int) = 0)
      ↔ (∀ i : Fin m, (if (i : Nat) < len then x (i : Nat) else 0) = 0) := by
    constructor
    · intro h i
      by_cases hi : (i : Nat) < len
      · rw [if_pos hi]; exact h i (by omega)
      · rw [if_neg hi]
    · intro h i hi
      have := h ⟨i, by omega⟩
      rwa [if_pos (by simpa using hi)] at this
  have hs : loop (len + 1 - 1) (fun i acc => acc + x (i : Int) * x (i : Int)) (0 : K)
      = ∑ i : Fin m, (if (i : Nat) < len then x (i : Nat) else 0)
          * (if (i : Nat) < len then x (i : Nat) else 0) := by
    rw [loop_sum, zero_add, Nat.add_sub_cancel,
      ← sum_trunc m len hlen (fun i => x (i : Int) * x (i : Int))]
    apply Finset.sum_congr rfl
    intro i _
    by_cases hi : (i : Nat) < len
    · simp [hi]
    · simp [hi]
  unfold LARFG larfgVec
  by_cases h : ∀ i : Nat, i < len + 1 - 1 → x (i : Int) = 0
  · rw [if_pos h, if_pos (hz.mp h)]
    refine ⟨rfl, rfl, fun i hi => ?_⟩
    simp [hi]
  · rw [if_neg h, if_neg (fun h2 => h (hz.mpr h2))]
    simp only [hs]
    refine ⟨trivial, trivial, fun i hi => ?_⟩
    have hi2 : (0 : Int) ≤ ((i : Nat) : Int) ∧ ((i : Nat) : Int) < ((len + 1 - 1 : Nat) : Int) := by
      constructor <;> omega
    rw [if_pos hi2, if_pos hi]

omit [LinearOrderedField K] in
/-- Overwriting the first `len` rows of column `k` of a column-major buffer. -/
theorem readMat_poke_len (b : Buf K) (ld rows cols len : Nat) (k : Nat) (hld : rows ≤ ld)
    (hlen : len ≤ rows) (x : Buf K) (i : Fin rows) (j : Fin cols) :
    readMat (poke b (0 + (k : Int) * (ld : Int)) len x) ld rows cols i j
      = if (j : Nat) = k ∧ (i : Nat) < len then x ((i : Nat) : Int)
        else readMat b ld rows cols i j := by
  unfold readMat poke
  have hi := i.2
  by_cases h : (j : Nat) = k ∧ (i : Nat) < len
  · rw [if_pos h, h.1, if_pos (by constructor <;> omega)]
    congr 1
    ring
  · rw [if_neg h, if_neg]
    rintro ⟨h1, h2⟩
    have h3 : (0 : Int) ≤ (i : Int) + (j : Int) * (ld : Int) - (0 + (k : Int) * (ld : Int)) := by
      omega
    obtain ⟨a, ha⟩ := Int.eq_ofNat_of_zero_le h3
    have ha2 : a < len := by omega
    have := colmajor_inj ld i j a k (by omega) (by omega) (by omega)
    exact h ⟨this.2, by omega⟩

omit [LinearOrderedField K] in
/-- Overwriting the first `len` rows of a column keeps the padding. -/
theorem poke_len_padding (b : Buf K) (ld rows cols len : Nat) (k : Nat) (hk : k < cols)
    (hlen : len ≤ rows) (x : Buf K) (p : Int) (hp : Padding ld rows cols p) :
    poke b (0 + (k : Int) * (ld : Int)) len x p = b p := by
  unfold poke
  rw [if_neg]
  rintro ⟨h1, h2⟩
  have h3 : (0 : Int) ≤ p - (0 + (k : Int) * (ld : Int)) := by omega
  obtain ⟨a, ha⟩ := Int.eq_ofNat_of_zero_le h3
  exact hp a k (by omega) hk (by omega)

/-- Reflector generation on the buffers is `larfgMatStep` on the logical data. -/
theorem larfgPhase_read (sqrt : K → K) (m n ldr lda len k : Nat) (hk : k < n) (hldr : n ≤ ldr)
    (hlda : m ≤ lda) (hlen : len ≤ m) (s : InnerState K) :
    (larfgPhase sqrt len ((k : Int) + (k : Int) * (ldr : Int)) (0 + (k : Int) * (lda : Int))
        (k : Int) s).read ldr lda m n
      = larfgMatStep sqrt len k (s.read ldr lda m n) := by
  have hx : (fun i : Fin m => if (i : Nat) < len
        then ptr s.A (0 + (k : Int) * (lda : Int)) ((i : Nat) : Int) else 0)
      = (fun i : Fin m => if (i : Nat) < len then readMat s.A lda m n i ⟨k, hk⟩ else 0) := by
    funext i
    simp only [ptr, readMat]
    congr 2
    ring
  obtain ⟨e1, e2, e3⟩ := LARFG_read_trunc sqrt m len hlen
    (s.R ((k : Int) + (k : Int) * (ldr : Int))) (ptr s.A (0 + (k : Int) * (lda : Int)))
  rw [hx] at e1 e2 e3
  apply FactorMat.ext3
  · funext a j
    simp only [larfgPhase, InnerState.read, larfgMatStep, dif_pos hk]
    rw [readMat_update s.R ldr n n k k hk hldr, e1]
    have hc : ((a : Nat) = k ∧ (j : Nat) = k) ↔ (a = ⟨k, hk⟩ ∧ j = ⟨k, hk⟩) := by
      simp [Fin.ext_iff]
    simp only [hc]
    rfl
  · funext i j
    simp only [larfgPhase, InnerState.read, larfgMatStep, dif_pos hk]
    rw [readMat_poke_len s.A lda m n len k hlda hlen]
    have hc : ((j : Nat) = k ∧ (i : Nat) < len) ↔ (j = ⟨k, hk⟩ ∧ (i : Nat) < len) := by
      simp [Fin.ext_iff]
    simp only [hc]
    by_cases h : j = ⟨k, hk⟩ ∧ (i : Nat) < len
    · rw [if_pos h, if_pos h, e3 i h.2]
      rfl
    · rw [if_neg h, if_neg h]
  · simp only [larfgPhase, InnerState.read, larfgMatStep, dif_pos hk]
    rw [readVec_update s.tau n k hk, e2]
    rfl

end TruncLemmas

section TrailLemmas

/-- The `work`/`R` loop of a column step, in the shape it has inside `trailPhase`. -/
theorem trail_rw_loop (p_kj : Nat → Int) (c : K) (k n : Nat) (R w : Buf K)
    (hf : ∀ a b, a < n - (k + 1) → b < n - (k + 1) → p_kj (k + 1 + a) = p_kj (k + 1 + b) → a = b) :
    (∀ t, t < n - (k + 1) → (loopFrom (k + 1) n (fun j (st : Buf K × Buf K) =>
        let q : Int := (j : Int) - (k : Int) - 1
        let w2 := Function.update st.2 q (st.2 q + st.1 (p_kj j))
        (Function.update st.1 (p_kj j) (st.1 (p_kj j) - c * w2 q), w2)) (R, w)).1
          (p_kj (k + 1 + t))
        = R (p_kj (k + 1 + t)) - c * (w (t : Int) + R (p_kj (k + 1 + t))))
    ∧ (∀ p, (∀ t, t < n - (k + 1) → p_kj (k + 1 + t) ≠ p) →
        (loopFrom (k + 1) n (fun j (st : Buf K × Buf K) =>
        let q : Int := (j : Int) - (k : Int) - 1
        let w2 := Function.update st.2 q (st.2 q + st.1 (p_kj j))
        (Function.update st.1 (p_kj j) (st.1 (p_kj j) - c * w2 q), w2)) (R, w)).1 p = R p)
    ∧ (∀ t, t < n - (k + 1) → (loopFrom (k + 1) n (fun j (st : Buf K × Buf K) =>
        let q : Int := (j : Int) - (k : Int) - 1
        let w2 := Function.update st.2 q (st.2 q + st.1 (p_kj j))
        (Function.update st.1 (p_kj j) (st.1 (p_kj j) - c * w2 q), w2)) (R, w)).2 (t : Int)
        = w (t : Int) + R (p_kj (k + 1 + t))) := by
  have hg : ∀ a b : Nat, a < n - (k + 1) → b < n - (k + 1) →
      ((k + 1 + a : Nat) : Int) - (k : Int) - 1 = ((k + 1 + b : Nat) : Int) - (k : Int) - 1 →
      a = b := by
    intro a b _ _ h
    push_cast at h
    omega
  have hq : ∀ t : Nat, ((k + 1 + t : Nat) : Int) - (k : Int) - 1 = (t : Int) := by
    intro t; push_cast; ring
  obtain ⟨h1, h2, h3, _⟩ := rw_loop (fun t => p_kj (k + 1 + t))
    (fun t => ((k + 1 + t : Nat) : Int) - (k : Int) - 1) c R w (n - (k + 1)) hf hg
  refine ⟨fun t ht => ?_, h2, fun t ht => ?_⟩
  · have := h1 t ht
    beta_reduce at this
    rw [hq t] at this
    exact this
  · have := h3 t ht
    beta_reduce at this
    rw [hq t] at this
    exact this

/-- The trailing update on the buffers is `trailMatStep` on the logical data; the padding
of `R` and of the reflector storage and the whole of `tau` are kept. -/
theorem trailPhase_read (m n ldr lda len k : Nat) (hk : k < n) (hldr : n ≤ ldr)
    (hlda : m ≤ lda) (hlen : len ≤ m) (V : View)
    (hoff : V.off = ((k + 1 : Nat) : Int) * (lda : Int)) (hd0 : V.dim0 = len)
    (hd1 : V.dim1 = n - (k + 1)) (hld : V.ld = lda) (s : InnerState K) :
    ∃ s2, trailPhase (0 + (k : Int) * (lda : Int)) V
          (fun j => (k : Int) + (j : Int) * (ldr : Int)) k n s = Except.ok s2
      ∧ s2.read ldr lda m n = trailMatStep len k (s.read ldr lda m n)
      ∧ (∀ p, Padding ldr n n p → s2.R p = s.R p)
      ∧ (∀ p, Padding lda m n p → s2.A p = s.A p)
      ∧ s2.tau = s.tau := by
  have hidx : ∀ i t : Nat, V.idx i t = (i : Int) + ((k + 1 + t : Nat) : Int) * (lda : Int) := by
    intro i t
    simp only [View.idx, hoff, hld]
    push_cast
    ring
  have hVld : V.dim0 ≤ V.ld := by omega
  have hwork1 : ∀ t : Nat, t < n - (k + 1) →
      gemv 'T' 1 V s.A (ptr s.A (0 + (k : Int) * (lda : Int))) 0 s.work (t : Int)
        = ∑ i in Finset.range len, s.A ((i : Int) + (k : Int) * (lda : Int))
            * s.A ((i : Int) + ((k + 1 + t : Nat) : Int) * (lda : Int)) := by
    intro t ht
    rw [gemv_T_at _ _ _ _ _ _ t (by omega), hd0]
    simp only [one_mul, zero_mul, add_zero, hidx, ptr]
    apply Finset.sum_congr rfl
    intro i _
    rw [mul_comm]
    congr 2
    ring
  have hf : ∀ a b : Nat, a < n - (k + 1) → b < n - (k + 1) →
      (k : Int) + ((k + 1 + a : Nat) : Int) * (ldr : Int)
        = (k : Int) + ((k + 1 + b : Nat) : Int) * (ldr : Int) → a = b := by
    intro a b _ _ h
    have := (colmajor_inj ldr k (k + 1 + a) k (k + 1 + b) (by omega) (by omega) h).2
    omega
  obtain ⟨h1, h2, h3⟩ := trail_rw_loop (fun j : Nat => (k : Int) + (j : Int) * (ldr : Int))
    (s.tau (k : Int)) k n s.R (gemv 'T' 1 V s.A (ptr s.A (0 + (k : Int) * (lda : Int))) 0 s.work) hf
  unfold trailPhase
  rw [GEMV_unit]
  refine ⟨_, rfl, ?_, ?_, ?_, rfl⟩
  · -- logical data
    simp only []
    generalize loopFrom (k + 1) n _ (s.R, _) = res at h1 h2 h3 ⊢
    -- the row vector `w` of the reflector, read from the scratch buffer
    have hw : ∀ j : Fin n, k < (j : Nat) → res.2 (((j : Nat) - (k + 1) : Nat) : Int)
        = reflW (fun i : Fin m => if (i : Nat) < len then readMat s.A lda m n i ⟨k, hk⟩ else 0)
            ⟨k, hk⟩ (readMat s.R ldr n n) (readMat s.A lda m n) j := by
      intro j hj
      have hjn := j.2
      have ej : k + 1 + ((j : Nat) - (k + 1)) = (j : Nat) := by omega
      rw [h3 _ (by omega), hwork1 _ (by omega), ej]
      simp only [reflW, readMat]
      congr 1
      rw [← sum_trunc m len hlen]
      apply Finset.sum_congr rfl
      intro i _
      by_cases hi : (i : Nat) < len
      · simp [hi]
      · simp [hi]
    apply FactorMat.ext3
    · funext a j
      simp only [InnerState.read, trailMatStep, dif_pos hk, reflTop]
      have hjn := j.2
      have han := a.2
      by_cases hc : (⟨k, hk⟩ : Fin n) < j ∧ a = ⟨k, hk⟩
      · obtain ⟨hc1, hc2⟩ := hc
        have hkj : k < (j : Nat) := hc1
        have ej : k + 1 + ((j : Nat) - (k + 1)) = (j : Nat) := by omega
        rw [if_pos hc1, if_pos hc2, ← hw j hkj]
        have := h1 ((j : Nat) - (k + 1)) (by omega)
        rw [ej] at this
        subst hc2
        simp only [readMat, readVec]
        rw [this]
        rw [h3 _ (by omega), ej]
      · have hfr : readMat res.1 ldr n n a j = readMat s.R ldr n n a j := by
          simp only [readMat]
          apply h2
          intro t ht he
          have := colmajor_inj ldr k (k + 1 + t) a j (by omega) (by omega) he
          apply hc
          constructor
          · show k < (j : Nat)
            omega
          · exact Fin.ext this.1.symm
        rw [hfr]
        by_cases hc1 : (⟨k, hk⟩ : Fin n) < j
        · rw [if_pos hc1, if_neg (fun h => hc ⟨hc1, h⟩)]
        · rw [if_neg hc1]
    · funext i j
      simp only [InnerState.read, trailMatStep, dif_pos hk, reflBot]
      have hjn := j.2
      have him := i.2
      by_cases hc1 : (⟨k, hk⟩ : Fin n) < j
      · have hkj : k < (j : Nat) := hc1
        have ej : k + 1 + ((j : Nat) - (k + 1)) = (j : Nat) := by omega
        rw [if_pos hc1, ← hw j hkj]
        by_cases hi : (i : Nat) < len
        · have hix := hidx i ((j : Nat) - (k + 1))
          rw [ej] at hix
          simp only [readMat, readVec]
          rw [← hix, GER_unit_unit_at _ _ _ _ _ hVld _ _ (by omega) (by omega), if_pos hi]
          simp only [ptr]
          congr 3
          ring
        · rw [if_neg hi, zero_mul, add_zero]
          simp only [readMat]
          apply GER_unit_frame _ _ _ _ _ _ hVld
          intro i2 t hi2 ht he
          rw [hidx] at he
          have := colmajor_inj lda i2 (k + 1 + t) i j (by omega) (by omega) he
          omega
      · rw [if_neg hc1]
        simp only [readMat]
        apply GER_unit_frame _ _ _ _ _ _ hVld
        intro i2 t hi2 ht he
        rw [hidx] at he
        have := colmajor_inj lda i2 (k + 1 + t) i j (by omega) (by omega) he
        apply hc1
        show k < (j : Nat)
        omega
    · simp only [InnerState.read, trailMatStep, dif_pos hk]
  · intro p hp
    simp only []
    apply h2
    intro t ht he
    exact hp k (k + 1 + t) hk (by omega) he
  · intro p hp
    simp only []
    apply GER_unit_frame _ _ _ _ _ _ hVld
    intro i t hi ht he
    rw [hidx] at he
    exact hp i (k + 1 + t) (by omega) (by omega) he

end TrailLemmas

section FactorInnerRead

/-- The last iteration of a nonempty counting loop. -/
theorem loop_pred {σ : Type} (n : Nat) (hn : 1 ≤ n) (body : Nat → σ → σ) (s : σ) :
    loop n body s = body (n - 1) (loop (n - 1) body s) := by
  cases n with
  | zero => omega
  | succ c => rfl

/-- At the last column there is no trailing block: the trailing update does nothing. -/
theorem trailMatStep_last {m n : Nat} (len k : Nat) (hk : k + 1 = n) (s : FactorMat K m n) :
    trailMatStep len k s = s := by
  have hkn : k < n := by omega
  have hno : ∀ j : Fin n, ¬ ((⟨k, hkn⟩ : Fin n) < j) := by
    intro j hj
    have h1 : k < (j : Nat) := hj
    have := j.2
    omega
  apply FactorMat.ext3
  · funext a j
    simp only [trailMatStep, dif_pos hkn, if_neg (hno j)]
  · funext i j
    simp only [trailMatStep, dif_pos hkn, if_neg (hno j)]
  · simp only [trailMatStep, dif_pos hkn]

/-- Reflector generation keeps the padding of `R` and of the reflector storage, and every
entry of `tau` but `tau[k]`. -/
theorem larfgPhase_frame (sqrt : K → K) (m n ldr lda len k : Nat) (hk : k < n)
    (hlen : len ≤ m) (s : InnerState K) :
    (∀ p, Padding ldr n n p →
      (larfgPhase sqrt len ((k : Int) + (k : Int) * (ldr : Int)) (0 + (k : Int) * (lda : Int))
        (k : Int) s).R p = s.R p)
    ∧ (∀ p, Padding lda m n p →
      (larfgPhase sqrt len ((k : Int) + (k : Int) * (ldr : Int)) (0 + (k : Int) * (lda : Int))
        (k : Int) s).A p = s.A p)
    ∧ (∀ p : Int, p ≠ (k : Int) →
      (larfgPhase sqrt len ((k : Int) + (k : Int) * (ldr : Int)) (0 + (k : Int) * (lda : Int))
        (k : Int) s).tau p = s.tau p) := by
  refine ⟨fun p hp => ?_, fun p hp => ?_, fun p hp => ?_⟩
  · exact update_padding s.R ldr n n k k hk hk _ p hp
  · exact poke_len_padding s.A lda m n len k hk hlen _ p hp
  · exact Function.update_noteq hp _ _

/-- One column step of `factor_inner` returns, and acts on the logical data as
`factorMatStep` with reflectors of full length `m`. -/
theorem factor_inner_step_read (sqrt : K → K) (m n ldr lda k : Nat) (hk : k < n)
    (hldr : n ≤ ldr) (hlda : m ≤ lda) (s : InnerState K) :
    ∃ s2, factor_inner_step sqrt m n ldr lda k s = Except.ok s2
      ∧ s2.read ldr lda m n = factorMatStep sqrt m k (s.read ldr lda m n)
      ∧ (∀ p, Padding ldr n n p → s2.R p = s.R p)
      ∧ (∀ p, Padding lda m n p → s2.A p = s.A p)
      ∧ (∀ p : Int, p ≠ (k : Int) → s2.tau p = s.tau p) := by
  rw [factor_inner_step_eq]
  obtain ⟨s2, h1, h2, h3, h4, h5⟩ := trailPhase_read m n ldr lda m k hk hldr hlda le_rfl
    (((View.ofPtr lda n).rows 0 m).subview 0 m (k + 1) n)
    (by simp [View.rows, View.subview, View.ofPtr]) (by simp [View.rows, View.subview, View.ofPtr])
    (by simp [View.rows, View.subview, View.ofPtr]) (by simp [View.rows, View.subview, View.ofPtr])
    (larfgPhase sqrt m ((k : Int) + (k : Int) * (ldr : Int)) (0 + (k : Int) * (lda : Int))
      (k : Int) s)
  obtain ⟨f1, f2, f3⟩ := larfgPhase_frame sqrt m n ldr lda m k hk le_rfl s
  refine ⟨s2, h1, ?_, fun p hp => (h3 p hp).trans (f1 p hp), fun p hp => (h4 p hp).trans (f2 p hp),
    fun p hp => ?_⟩
  · rw [h2, larfgPhase_read sqrt m n ldr lda m k hk hldr hlda le_rfl]
    rfl
  · rw [h5]
    exact f3 p hp

/-- The column sweep of `factor_inner` returns, and acts on the logical data as the
matrix-level sweep. -/
theorem factor_inner_loop_read (sqrt : K → K) (m n ldr lda : Nat) (hldr : n ≤ ldr)
    (hlda : m ≤ lda) (s : InnerState K) (c : Nat) (hc : c ≤ n) :
    ∃ s2, loopM c (factor_inner_step sqrt m n ldr lda) s = Except.ok s2
      ∧ s2.read ldr lda m n = loop c (factorMatStep sqrt m) (s.read ldr lda m n)
      ∧ (∀ p, Padding ldr n n p → s2.R p = s.R p)
      ∧ (∀ p, Padding lda m n p → s2.A p = s.A p)
      ∧ (∀ p : Int, (n : Int) ≤ p ∨ p < 0 → s2.tau p = s.tau p) := by
  induction c with
  | zero => exact ⟨s, rfl, rfl, fun _ _ => rfl, fun _ _ => rfl, fun _ _ => rfl⟩
  | succ c ih =>
    obtain ⟨s1, h1, h2, h3, h4, h5⟩ := ih (by omega)
    obtain ⟨s2, g1, g2, g3, g4, g5⟩ :=
      factor_inner_step_read sqrt m n ldr lda c (by omega) hldr hlda s1
    refine ⟨s2, ?_, ?_, fun p hp => (g3 p hp).trans (h3 p hp),
      fun p hp => (g4 p hp).trans (h4 p hp), fun p hp => ?_⟩
    · simp only [loopM, h1]
      exact g1
    · rw [g2, h2, loop_succ]
    · rw [g5 p (by omega), h5 p hp]

/-- The whole of `factor_inner` returns, and acts on the logical data as `n` matrix-level
column steps; the padding of `R` and `A` is kept. -/
theorem factor_inner_read (sqrt : K → K) (m n : Nat) (hn : 1 ≤ n) (R : Buf K) (ldr : Nat)
    (A : Buf K) (lda : Nat) (tau work : Buf K) (hldr : n ≤ ldr) (hlda : m ≤ lda) :
    ∃ s2, factor_inner sqrt m n R ldr A lda tau work = Except.ok s2
      ∧ s2.read ldr lda m n = loop n (factorMatStep sqrt m)
          ⟨readMat R ldr n n, readMat A lda m n, readVec tau n⟩
      ∧ (∀ p, Padding ldr n n p → s2.R p = R p)
      ∧ (∀ p, Padding lda m n p → s2.A p = A p)
      ∧ (∀ p : Int, (n : Int) ≤ p ∨ p < 0 → s2.tau p = tau p) := by
  obtain ⟨s1, h1, h2, h3, h4, h5⟩ := factor_inner_loop_read sqrt m n ldr lda hldr hlda
    ⟨R, A, tau, loop n (fun k (w : Buf K) => Function.update w (k : Int) 0) work⟩ (n - 1)
    (by omega)
  have hk : n - 1 < n := by omega
  have e : ((n : Int) - 1) = ((n - 1 : Nat) : Int) := by omega
  rw [factor_inner_eq, h1]
  refine ⟨_, rfl, ?_, ?_, ?_, ?_⟩
  · simp only [e]
    rw [larfgPhase_read sqrt m n ldr lda m (n - 1) hk hldr hlda le_rfl, h2]
    have key := loop_pred n hn (factorMatStep (m := m) (n := n) sqrt m)
      ⟨readMat R ldr n n, readMat A lda m n, readVec tau n⟩
    rw [key]
    conv_rhs => rw [factorMatStep, trailMatStep_last m (n - 1) (by omega)]
    rfl
  · intro p hp
    simp only [e]
    rw [(larfgPhase_frame sqrt m n ldr lda m (n - 1) hk le_rfl s1).1 p hp]
    exact h3 p hp
  · intro p hp
    simp only [e]
    rw [(larfgPhase_frame sqrt m n ldr lda m (n - 1) hk le_rfl s1).2.1 p hp]
    exact h4 p hp
  · intro p hp
    simp only [e]
    rw [(larfgPhase_frame sqrt m n ldr lda m (n - 1) hk le_rfl s1).2.2 p (by omega)]
    exact h5 p hp

end FactorInnerRead

section LarfgAlgebra

/-- The reflector generated by `LARFG` maps `(alpha, x)` to `(beta, 0)`: with
`w = vᵀ x + alpha`, `alpha - tau · w = beta` and `x - tau · w · v = 0`. -/
theorem larfgVec_annihilate (sqrt : K → K) (hs : IsSqrt sqrt) {m : Nat} (alpha : K)
    (x : Fin m → K) :
    alpha - (larfgVec sqrt alpha x).2.2 * ((∑ i, (larfgVec sqrt alpha x).2.1 i * x i) + alpha)
        = (larfgVec sqrt alpha x).1
    ∧ ∀ i, x i + (larfgVec sqrt alpha x).2.1 i
        * (-(larfgVec sqrt alpha x).2.2
            * ((∑ i, (larfgVec sqrt alpha x).2.1 i * x i) + alpha)) = 0 := by
  by_cases hz : ∀ i, x i = 0
  · have e : larfgVec sqrt alpha x = (alpha, x, 0) := by
      unfold larfgVec
      rw [if_pos hz]
    rw [e]
    refine ⟨by simp, fun i => ?_⟩
    simp [hz i]
  · obtain ⟨S, hS⟩ : ∃ S, S = ∑ i, x i * x i := ⟨_, rfl⟩
    have hS0 : 0 ≤ S := by
      rw [hS]
      exact Finset.sum_nonneg (fun i _ => mul_self_nonneg (x i))
    have hSne : S ≠ 0 := by
      intro h0
      apply hz
      intro i
      have := (Finset.sum_eq_zero_iff_of_nonneg (fun i _ => mul_self_nonneg (x i))).1
        (hS ▸ h0) i (Finset.mem_univ i)
      exact mul_self_eq_zero.1 this
    have hSpos : 0 < S := lt_of_le_of_ne hS0 (Ne.symm hSne)
    have hN : 0 < alpha * alpha + S := add_pos_of_nonneg_of_pos (mul_self_nonneg alpha) hSpos
    obtain ⟨hrt0, hrt⟩ := hs (alpha * alpha + S) hN.le
    have hrtne : sqrt (alpha * alpha + S) ≠ 0 := by
      intro h0
      rw [h0, mul_zero] at hrt
      exact absurd hrt.symm (ne_of_gt hN)
    have hrtpos : 0 < sqrt (alpha * alpha + S) := lt_of_le_of_ne hrt0 (Ne.symm hrtne)
    obtain ⟨beta, hbeta⟩ : ∃ beta : K,
        beta = -((if 0 ≤ alpha then 1 else -1) * sqrt (alpha * alpha + S)) := ⟨_, rfl⟩
    have hbb : beta * beta = alpha * alpha + S := by
      rw [hbeta]
      by_cases ha : 0 ≤ alpha
      · rw [if_pos ha]; linear_combination hrt
      · rw [if_neg ha]; linear_combination hrt
    have hd : alpha - beta ≠ 0 := by
      rw [hbeta]
      by_cases ha : 0 ≤ alpha
      · rw [if_pos ha]
        have : 0 < alpha - -(1 * sqrt (alpha * alpha + S)) := by linarith
        exact ne_of_gt this
      · rw [if_neg ha]
        have ha' : alpha < 0 := not_le.1 ha
        have : alpha - -(-1 * sqrt (alpha * alpha + S)) < 0 := by linarith
        exact ne_of_lt this
    have hb : beta ≠ 0 := by
      intro h0
      rw [h0, mul_zero] at hbb
      exact absurd hbb.symm (ne_of_gt hN)
    have e : larfgVec sqrt alpha x
        = (beta, fun i => x i / (alpha - beta), (beta - alpha) / beta) := by
      unfold larfgVec
      rw [if_neg hz, hbeta, hS]
    have hsum : (∑ i, x i / (alpha - beta) * x i) = S / (alpha - beta) := by
      rw [hS, Finset.sum_div]
      apply Finset.sum_congr rfl
      intro i _
      ring
    have key : (beta - alpha) / beta * (S / (alpha - beta) + alpha) = alpha - beta := by
      field_simp
      linear_combination (alpha - beta) * hbb
    rw [e]
    simp only [hsum]
    refine ⟨by rw [key]; ring, fun i => ?_⟩
    have : x i + x i / (alpha - beta)
        * (-((beta - alpha) / beta) * (S / (alpha - beta) + alpha))
        = x i - x i / (alpha - beta) * ((beta - alpha) / beta * (S / (alpha - beta) + alpha)) := by
      ring
    rw [this, key, div_mul_cancel₀ _ hd, sub_self]

end LarfgAlgebra

section FactorMatLemmas

variable {m n : Nat}

/-- A matrix-level column step with reflectors of full length `m`, written out. -/
theorem factorMatStep_full (sqrt : K → K) (k : Nat) (hk : k < n) (s : FactorMat K m n) :
    factorMatStep sqrt m k s =
      { R := fun a j =>
          if j = ⟨k, hk⟩ then
            (if a = ⟨k, hk⟩ then (larfgVec sqrt (s.R ⟨k, hk⟩ ⟨k, hk⟩) (fun i => s.A i ⟨k, hk⟩)).1
              else s.R a j)
          else if (⟨k, hk⟩ : Fin n) < j then
            reflTop (larfgVec sqrt (s.R ⟨k, hk⟩ ⟨k, hk⟩) (fun i => s.A i ⟨k, hk⟩)).2.2
              (larfgVec sqrt (s.R ⟨k, hk⟩ ⟨k, hk⟩) (fun i => s.A i ⟨k, hk⟩)).2.1 ⟨k, hk⟩
              s.R s.A a j
          else s.R a j
        A := fun i j =>
          if j = ⟨k, hk⟩ then
            (larfgVec sqrt (s.R ⟨k, hk⟩ ⟨k, hk⟩) (fun i => s.A i ⟨k, hk⟩)).2.1 i
          else if (⟨k, hk⟩ : Fin n) < j then
            reflBot (larfgVec sqrt (s.R ⟨k, hk⟩ ⟨k, hk⟩) (fun i => s.A i ⟨k, hk⟩)).2.2
              (larfgVec sqrt (s.R ⟨k, hk⟩ ⟨k, hk⟩) (fun i => s.A i ⟨k, hk⟩)).2.1 ⟨k, hk⟩
              s.R s.A i j
          else s.A i j
        tau := Function.update s.tau ⟨k, hk⟩
          (larfgVec sqrt (s.R ⟨k, hk⟩ ⟨k, hk⟩) (fun i => s.A i ⟨k, hk⟩)).2.2 } := by
  have hv : ∀ f : Fin m → K, (fun i : Fin m => if (i : Nat) < m then f i else 0) = f :=
    fun f => funext (fun i => if_pos i.2)
  apply FactorMat.ext3
  · funext a j
    simp only [factorMatStep, trailMatStep, larfgMatStep, dif_pos hk, hv, Function.update_same,
      reflTop, reflW]
    by_cases hj : j = ⟨k, hk⟩
    · subst hj
      simp
    · by_cases hlt : (⟨k, hk⟩ : Fin n) < j
      · simp [hj, hlt, Fin.is_lt]
      · simp [hj, hlt]
  · funext i j
    simp only [factorMatStep, trailMatStep, larfgMatStep, dif_pos hk, hv, Function.update_same,
      reflBot, reflW]
    by_cases hj : j = ⟨k, hk⟩
    · subst hj
      simp [Fin.is_lt]
    · by_cases hlt : (⟨k, hk⟩ : Fin n) < j
      · simp [hj, hlt, Fin.is_lt]
      · simp [hj, hlt]
  · simp only [factorMatStep, trailMatStep, larfgMatStep, dif_pos hk, hv]

/-- A matrix-level column step `c` keeps the columns `j < c` of the reflector storage and of
`R`, and the scalars `tau[j]`, `j < c`. -/
theorem factorMatStep_keep (sqrt : K → K) (len c : Nat) (s : FactorMat K m n) (j : Fin n)
    (hj : (j : Nat) < c) :
    (∀ i, (factorMatStep sqrt len c s).A i j = s.A i j)
    ∧ (∀ a, (factorMatStep sqrt len c s).R a j = s.R a j)
    ∧ (factorMatStep sqrt len c s).tau j = s.tau j := by
  by_cases hc : c < n
  · have hne : j ≠ ⟨c, hc⟩ := fun h => by rw [h] at hj; exact lt_irrefl _ hj
    have hnl : ¬ ((⟨c, hc⟩ : Fin n) < j) := fun h => by
      have h1 : c < (j : Nat) := h
      omega
    refine ⟨fun i => ?_, fun a => ?_, ?_⟩
    · simp [factorMatStep, trailMatStep, larfgMatStep, dif_pos hc, hne, hnl]
    · simp [factorMatStep, trailMatStep, larfgMatStep, dif_pos hc, hne, hnl]
    · simp [factorMatStep, trailMatStep, larfgMatStep, dif_pos hc, Function.update_noteq hne]
  · simp [factorMatStep, trailMatStep, larfgMatStep, dif_neg hc]

/-- Column `k` of the reflector storage and `tau[k]` are final after column step `k`. -/
theorem factorMat_loop_stable (sqrt : K → K) (len : Nat → Nat) (s : FactorMat K m n)
    (k : Fin n) (c : Nat) (hc : (k : Nat) + 1 ≤ c) :
    (∀ i, (loop c (fun k s => factorMatStep sqrt (len k) k s) s).A i k
        = (loop ((k : Nat) + 1) (fun k s => factorMatStep sqrt (len k) k s) s).A i k)
    ∧ (loop c (fun k s => factorMatStep sqrt (len k) k s) s).tau k
        = (loop ((k : Nat) + 1) (fun k s => factorMatStep sqrt (len k) k s) s).tau k := by
  induction c with
  | zero => omega
  | succ c ih =>
    by_cases hck : (k : Nat) + 1 = c + 1
    · rw [hck]
      exact ⟨fun _ => rfl, rfl⟩
    · have ih2 := ih (by omega)
      have hk := factorMatStep_keep sqrt (len c) c
        (loop c (fun k s => factorMatStep sqrt (len k) k s) s) k (by omega)
      rw [loop_succ]
      exact ⟨fun i => (hk.1 i).trans (ih2.1 i), hk.2.2.trans ih2.2⟩

end FactorMatLemmas

section InnerQR

variable {m n : Nat}

/-- Simulation of the factorization by the application of its own reflectors: after `c`
column steps of the factorization and `c` reflectors applied to the input `(R, A)`, the top
block equals the current `R`, the first `c` columns of the bottom block are zero and the
other columns equal the current reflector storage; `R` stays upper triangular. -/
theorem factorInner_apply_invariant (sqrt : K → K) (hs : IsSqrt sqrt) (F0 : FactorMat K m n)
    (hlow : ∀ a j : Fin n, j < a → F0.R a j = 0) (Aout : Matrix (Fin m) (Fin n) K)
    (tauout : Fin n → K) (c : Nat) (hc : c ≤ n)
    (hA : ∀ k : Fin n, (k : Nat) < c → ∀ i,
      Aout i k = (loop ((k : Nat) + 1) (factorMatStep sqrt m) F0).A i k)
    (htau : ∀ k : Fin n, (k : Nat) < c →
      tauout k = (loop ((k : Nat) + 1) (factorMatStep sqrt m) F0).tau k) :
    (loop c (applyInnerMatStep Aout tauout) (F0.R, F0.A)).1 = (loop c (factorMatStep sqrt m) F0).R
    ∧ (∀ i j, (loop c (applyInnerMatStep Aout tauout) (F0.R, F0.A)).2 i j
        = if (j : Nat) < c then 0 else (loop c (factorMatStep sqrt m) F0).A i j)
    ∧ (∀ a j : Fin n, j < a → (loop c (factorMatStep sqrt m) F0).R a j = 0) := by
  induction c with
  | zero => exact ⟨rfl, fun i j => by simp [loop], hlow⟩
  | succ c ih =>
    have hcn : c < n := by omega
    obtain ⟨ih1, ih2, ih3⟩ := ih (by omega) (fun k hk => hA k (by omega))
      (fun k hk => htau k (by omega))
    have hAc := hA ⟨c, hcn⟩ (Nat.lt_succ_self c)
    have htc := htau ⟨c, hcn⟩ (Nat.lt_succ_self c)
    simp only [loop_succ] at hAc htc ⊢
    generalize loop c (factorMatStep sqrt m) F0 = F at ih1 ih2 ih3 hAc htc ⊢
    generalize loop c (applyInnerMatStep Aout tauout) (F0.R, F0.A) = G at ih1 ih2 ⊢
    rw [factorMatStep_full sqrt c hcn F] at hAc htc ⊢
    simp only [if_true, Function.update_same] at hAc htc
    obtain ⟨an1, an2⟩ := larfgVec_annihilate sqrt hs (F.R ⟨c, hcn⟩ ⟨c, hcn⟩)
      (fun i => F.A i ⟨c, hcn⟩)
    generalize larfgVec sqrt (F.R ⟨c, hcn⟩ ⟨c, hcn⟩) (fun i => F.A i ⟨c, hcn⟩) = r
      at hAc htc an1 an2 ⊢
    have hAc' : (fun i => Aout i ⟨c, hcn⟩) = r.2.1 := funext hAc
    -- the row vector `w` of reflector `c` on the partially reduced input
    have hW : ∀ j : Fin n, reflW r.2.1 ⟨c, hcn⟩ F.R G.2 j
        = if (j : Nat) < c then 0
          else if j = ⟨c, hcn⟩ then (∑ i, r.2.1 i * F.A i ⟨c, hcn⟩) + F.R ⟨c, hcn⟩ ⟨c, hcn⟩
          else reflW r.2.1 ⟨c, hcn⟩ F.R F.A j := by
      intro j
      simp only [reflW, ih2]
      by_cases hj : (j : Nat) < c
      · have hz : F.R ⟨c, hcn⟩ j = 0 := ih3 ⟨c, hcn⟩ j hj
        simp [hj, hz]
      · by_cases hjc : j = ⟨c, hcn⟩
        · subst hjc
          simp
        · simp [hj, hjc]
    simp only [applyInnerMatStep, dif_pos hcn, htc, hAc']
    refine ⟨?_, ?_, ?_⟩
    · funext a j
      simp only [reflTop, ih1, hW]
      by_cases hj : (j : Nat) < c
      · have hne : j ≠ ⟨c, hcn⟩ := fun h => by rw [h] at hj; exact lt_irrefl _ hj
        have hnl : ¬ ((⟨c, hcn⟩ : Fin n) < j) := fun h => by
          have h1 : c < (j : Nat) := h
          omega
        simp [hj, hne, hnl]
      · by_cases hjc : j = ⟨c, hcn⟩
        · subst hjc
          by_cases ha : a = ⟨c, hcn⟩
          · subst ha
            simp only [lt_irrefl, if_false, if_true]
            exact an1
          · simp [ha]
        · have hlt : (⟨c, hcn⟩ : Fin n) < j := by
            have h1 : c ≠ (j : Nat) := fun h => hjc (Fin.ext h.symm)
            show c < (j : Nat)
            omega
          simp [hj, hjc, hlt, reflTop]
    · intro i j
      simp only [reflBot, ih1, hW, ih2]
      by_cases hj : (j : Nat) < c
      · have hj2 : (j : Nat) < c + 1 := by omega
        simp [hj, hj2]
      · by_cases hjc : j = ⟨c, hcn⟩
        · subst hjc
          simp only [lt_irrefl, if_false, if_true, Nat.lt_succ_self]
          exact an2 i
        · have hlt : (⟨c, hcn⟩ : Fin n) < j := by
            have h1 : c ≠ (j : Nat) := fun h => hjc (Fin.ext h.symm)
            show c < (j : Nat)
            omega
          have hj2 : ¬ (j : Nat) < c + 1 := by
            have h1 : c < (j : Nat) := hlt
            omega
          simp [hj, hjc, hlt, hj2, reflBot]
    · intro a j hja
      have hja' : (j : Nat) < (a : Nat) := hja
      by_cases hjc : j = ⟨c, hcn⟩
      · have ha : a ≠ ⟨c, hcn⟩ := fun h => by
          rw [h, hjc] at hja
          exact lt_irrefl _ hja
        simp [hjc, ha]
        rw [← hjc]
        exact ih3 a j hja
      · by_cases hlt : (⟨c, hcn⟩ : Fin n) < j
        · have ha : a ≠ ⟨c, hcn⟩ := fun h => by
            have h1 : c < (j : Nat) := hlt
            rw [h] at hja'
            simp at hja'
            omega
          simp [hjc, hlt, reflTop, ha, ih3 a j hja]
        · simp [hjc, hlt, ih3 a j hja]

end InnerQR

/-- `factor_inner` followed by `apply_inner (Transpose)` on the input composite, over any
ordered field with a square root: the top block is the upper triangle of the output `R`
and the bottom block is zero. -/
theorem factor_inner_apply_inner_qr (sqrt : K → K) (hs : IsSqrt sqrt) (m n : Nat) (hn : 1 ≤ n)
    (R : Buf K) (ldr : Nat) (A : Buf K) (lda : Nat) (tau work work2 : Buf K) (hldr : n ≤ ldr)
    (hlda : m ≤ lda)
    (hR : ∀ i j : Nat, j < i → i < n → R ((i : Int) + (j : Int) * (ldr : Int)) = 0) :
    ∃ out, factor_inner sqrt m n R ldr A lda tau work = Except.ok out
      ∧ (∀ i j : Nat, i < n → j < n →
          (apply_inner ApplyType.Transpose m n n out.A lda out.tau R ldr A lda work2).C_top
              ((i : Int) + (j : Int) * (ldr : Int))
            = if i ≤ j then out.R ((i : Int) + (j : Int) * (ldr : Int)) else 0)
      ∧ (∀ i j : Nat, i < m → j < n →
          (apply_inner ApplyType.Transpose m n n out.A lda out.tau R ldr A lda work2).C_bot
              ((i : Int) + (j : Int) * (lda : Int)) = 0) := by
  obtain ⟨out, h1, h2, _, _, _⟩ :=
    factor_inner_read sqrt m n hn R ldr A lda tau work hldr hlda
  refine ⟨out, h1, ?_⟩
  have hap := apply_inner_read ApplyType.Transpose m n n out.A lda out.tau R ldr A lda work2
    hldr hlda
  have e1 : ApplyType.Transpose ≠ ApplyType.NoTranspose := by decide
  simp only [e1, if_false] at hap
  have hAout : readMat out.A lda m n
      = (loop n (factorMatStep sqrt m) ⟨readMat R ldr n n, readMat A lda m n, readVec tau n⟩).A :=
    congrArg FactorMat.A h2
  have hTout : readVec out.tau n
      = (loop n (factorMatStep sqrt m) ⟨readMat R ldr n n, readMat A lda m n, readVec tau n⟩).tau :=
    congrArg FactorMat.tau h2
  have hRout : readMat out.R ldr n n
      = (loop n (factorMatStep sqrt m) ⟨readMat R ldr n n, readMat A lda m n, readVec tau n⟩).R :=
    congrArg FactorMat.R h2
  obtain ⟨i1, i2, i3⟩ := factorInner_apply_invariant sqrt hs
    ⟨readMat R ldr n n, readMat A lda m n, readVec tau n⟩
    (fun a j hja => hR a j hja a.2) (readMat out.A lda m n) (readVec out.tau n) n le_rfl
    (fun k _ i => by
      rw [hAout]
      exact (factorMat_loop_stable sqrt (fun _ => m) _ k n k.2).1 i)
    (fun k _ => by
      rw [hTout]
      exact (factorMat_loop_stable sqrt (fun _ => m) _ k n k.2).2)
  simp only [] at i1 i2
  rw [← hap] at i1 i2
  rw [← hRout] at i1 i3
  constructor
  · intro i j hi hj
    have := congrFun (congrFun i1 ⟨i, hi⟩) ⟨j, hj⟩
    simp only [ApplyState.read, readMat] at this
    rw [this]
    by_cases hij : i ≤ j
    · rw [if_pos hij]
    · rw [if_neg hij]
      exact i3 ⟨i, hi⟩ ⟨j, hj⟩ (by show j < i; omega)
  · intro i j hi hj
    have := i2 ⟨i, hi⟩ ⟨j, hj⟩
    simp only [ApplyState.read, readMat] at this
    rw [this, if_pos hj]

/-- The real square root has the property `LARFG` relies on. -/
theorem isSqrt_real : IsSqrt Real.sqrt :=
  fun a ha => ⟨Real.sqrt_nonneg a, Real.mul_self_sqrt ha⟩

/-- C1: `factor_inner` computes a QR factorization of the stacked matrix `[R; A]`.  In
exact real arithmetic, with `LARFG` by its LAPACK contract, for `n ≥ 1`, an upper-triangular
`R_in` (zero below the diagonal) and any `m × n` block `A_in`, `factor_inner` returns and
`apply_inner (Transpose, m, ncols_C = n, ncols_Q = n, A_out, tau, C_top = R_in, C_bot = A_in)`
yields `C_top` equal to the upper triangle of `R_out` (zero below the diagonal) and `C_bot`
equal to the `m × n` zero matrix. -/
theorem C1_factor_inner_is_qr (m n : Nat) (hn : 1 ≤ n) (R : Buf ℝ) (ldr : Nat) (A : Buf ℝ)
    (lda : Nat) (tau work work2 : Buf ℝ) (hldr : n ≤ ldr) (hlda : m ≤ lda)
    (hR : ∀ i j : Nat, j < i → i < n → R ((i : Int) + (j : Int) * (ldr : Int)) = 0) :
    ∃ out, factor_inner Real.sqrt m n R ldr A lda tau work = Except.ok out
      ∧ (∀ i j : Nat, i < n → j < n →
          (apply_inner ApplyType.Transpose m n n out.A lda out.tau R ldr A lda work2).C_top
              ((i : Int) + (j : Int) * (ldr : Int))
            = if i ≤ j then out.R ((i : Int) + (j : Int) * (ldr : Int)) else 0)
      ∧ (∀ i j : Nat, i < m → j < n →
          (apply_inner ApplyType.Transpose m n n out.A lda out.tau R ldr A lda work2).C_bot
              ((i : Int) + (j : Int) * (lda : Int)) = 0) :=
  factor_inner_apply_inner_qr Real.sqrt isSqrt_real m n hn R ldr A lda tau work work2 hldr hlda hR

/-- Witness for C1: `m = 2`, `n = 2`, `R_in = [[3, 1], [0, 4]]` (column-major `[3, 0, 1, 4]`),
`A_in = [[4, 1], [0, 3]]`, leading dimensions 2. -/
theorem C1_factor_inner_is_qr_witness :
    ∃ out, factor_inner Real.sqrt 2 2
        (fun p => if p = 0 then 3 else if p = 2 then 1 else if p = 3 then 4 else 0) 2
        (fun p => if p = 0 then 4 else if p = 2 then 1 else if p = 3 then 3 else 0) 2
        (fun _ => 0) (fun _ => 0) = Except.ok out
      ∧ (∀ i j : Nat, i < 2 → j < 2 →
          (apply_inner ApplyType.Transpose 2 2 2 out.A 2 out.tau
            (fun p => if p = 0 then 3 else if p = 2 then 1 else if p = 3 then 4 else 0) 2
            (fun p => if p = 0 then 4 else if p = 2 then 1 else if p = 3 then 3 else 0) 2
            (fun _ => 0)).C_top ((i : Int) + (j : Int) * ((2 : Nat) : Int))
            = if i ≤ j then out.R ((i : Int) + (j : Int) * ((2 : Nat) : Int)) else 0)
      ∧ (∀ i j : Nat, i < 2 → j < 2 →
          (apply_inner ApplyType.Transpose 2 2 2 out.A 2 out.tau
            (fun p => if p = 0 then 3 else if p = 2 then 1 else if p = 3 then 4 else 0) 2
            (fun p => if p = 0 then 4 else if p = 2 then 1 else if p = 3 then 3 else 0) 2
            (fun _ => 0)).C_bot ((i : Int) + (j : Int) * ((2 : Nat) : Int)) = 0) :=
  C1_factor_inner_is_qr 2 2 (by decide)
    (fun p => if p = 0 then 3 else if p = 2 then 1 else if p = 3 then 4 else 0) 2
    (fun p => if p = 0 then 4 else if p = 2 then 1 else if p = 3 then 3 else 0) 2
    (fun _ => 0) (fun _ => 0) (fun _ => 0) (by decide) (by decide)
    (fun i j hji hi => by
      have hi1 : i = 1 := by omega
      have hj0 : j = 0 := by omega
      subst hi1 hj0
      norm_num)

section FactorPairRead

/-- The column step of the view overload of `factor_pair` is reflector generation over
`k + 1` rows followed by the trailing update. -/
theorem factor_pair_step_eq (sqrt : K → K) (VT VB : View) (k : Nat) (s : PairState K) :
    factor_pair_step sqrt VT VB k s
      = match trailPhase (VB.idx 0 k) (VB.subview 0 (k + 1) (k + 1) VT.dim0)
          (fun j => VT.idx k j) k VT.dim0
          (larfgPhase sqrt (k + 1) (VT.idx k k) (VB.idx 0 k) (k : Int) s.toInner) with
        | Except.error e => Except.error e
        | Except.ok t => Except.ok t.toPair := by
  unfold factor_pair_step trailPhase
  simp only [GEMV_unit]
  rfl

/-- The raw-buffer overload of `factor_pair` runs the view overload on the `n × n` views with
column strides `ldr_top` and `ldr_bot`, whichever branch of the dispatch is taken. -/
theorem factor_pair_eq_view (sqrt : K → K) (n : Nat) (R_top : Buf K) (ldr_top : Nat)
    (R_bot : Buf K) (ldr_bot : Nat) (tau work : Buf K) :
    factor_pair sqrt n R_top ldr_top R_bot ldr_bot tau work
      = factor_pair_view sqrt ⟨0, n, n, ldr_top⟩ ⟨0, n, n, ldr_bot⟩ R_top R_bot tau work := by
  unfold factor_pair
  have e1 : ∀ ld : Nat, (View.ofPtr ld n).rows 0 n = ⟨0, n, n, ld⟩ := by
    intro ld
    simp [View.ofPtr, View.rows, View.subview]
  have e2 : ∀ ld : Nat, ld = n → View.ofPtr ld n = ⟨0, n, n, ld⟩ := by
    intro ld h
    simp [View.ofPtr, h]
  by_cases h1 : ldr_top = n
  · by_cases h2 : ldr_bot = n
    · simp only [h1, h2, if_true, e2 n rfl]
    · simp only [h1, h2, if_true, if_false, e2 n rfl, e1]
  · by_cases h2 : ldr_bot = n
    · simp only [h1, h2, if_true, if_false, e2 n rfl, e1]
    · simp only [h1, h2, if_false, e1]

/-- One column step of `factor_pair` returns, and acts on the logical data as
`factorMatStep` with a reflector of length `k + 1` below the diagonal entry. -/
theorem factor_pair_step_read (sqrt : K → K) (n ldt ldb k : Nat) (hk : k < n)
    (hldt : n ≤ ldt) (hldb : n ≤ ldb) (s : PairState K) :
    ∃ s2, factor_pair_step sqrt ⟨0, n, n, ldt⟩ ⟨0, n, n, ldb⟩ k s = Except.ok s2
      ∧ s2.toInner.read ldt ldb n n = factorMatStep sqrt (k + 1) k (s.toInner.read ldt ldb n n)
      ∧ (∀ p, Padding ldt n n p → s2.R_top p = s.R_top p)
      ∧ (∀ p, Padding ldb n n p → s2.R_bot p = s.R_bot p)
      ∧ (∀ p : Int, p ≠ (k : Int) → s2.tau p = s.tau p) := by
  rw [factor_pair_step_eq]
  have e1 : (⟨0, n, n, ldt⟩ : View).idx k k = (k : Int) + (k : Int) * (ldt : Int) := by
    simp [View.idx]
  have e2 : (⟨0, n, n, ldb⟩ : View).idx 0 k = 0 + (k : Int) * (ldb : Int) := by
    simp [View.idx]
  have e3 : (fun j : Nat => (⟨0, n, n, ldt⟩ : View).idx k j)
      = (fun j : Nat => (k : Int) + (j : Int) * (ldt : Int)) := by
    funext j
    simp [View.idx]
  simp only [e1, e2, e3]
  obtain ⟨s2, h1, h2, h3, h4, h5⟩ := trailPhase_read n n ldt ldb (k + 1) k hk hldt hldb
    (by omega) ((⟨0, n, n, ldb⟩ : View).subview 0 (k + 1) (k + 1) n)
    (by simp [View.subview]) (by simp [View.subview]) (by simp [View.subview])
    (by simp [View.subview])
    (larfgPhase sqrt (k + 1) ((k : Int) + (k : Int) * (ldt : Int)) (0 + (k : Int) * (ldb : Int))
      (k : Int) s.toInner)
  obtain ⟨f1, f2, f3⟩ := larfgPhase_frame sqrt n n ldt ldb (k + 1) k hk (by omega) s.toInner
  rw [h1]
  refine ⟨s2.toPair, rfl, ?_, fun p hp => (h3 p hp).trans (f1 p hp),
    fun p hp => (h4 p hp).trans (f2 p hp), fun p hp => ?_⟩
  · have : s2.toPair.toInner = s2 := rfl
    rw [this, h2, larfgPhase_read sqrt n n ldt ldb (k + 1) k hk hldt hldb (by omega)]
    rfl
  · show s2.tau p = s.tau p
    rw [h5]
    exact f3 p hp

/-- The column sweep of `factor_pair` returns, and acts on the logical data as the
matrix-level sweep with reflector lengths `k + 1`. -/
theorem factor_pair_loop_read (sqrt : K → K) (n ldt ldb : Nat) (hldt : n ≤ ldt)
    (hldb : n ≤ ldb) (s : PairState K) (c : Nat) (hc : c ≤ n) :
    ∃ s2, loopM c (factor_pair_step sqrt ⟨0, n, n, ldt⟩ ⟨0, n, n, ldb⟩) s = Except.ok s2
      ∧ s2.toInner.read ldt ldb n n
          = loop c (fun k t => factorMatStep sqrt (k + 1) k t) (s.toInner.read ldt ldb n n)
      ∧ (∀ p, Padding ldt n n p → s2.R_top p = s.R_top p)
      ∧ (∀ p, Padding ldb n n p → s2.R_bot p = s.R_bot p)
      ∧ (∀ p : Int, (n : Int) ≤ p ∨ p < 0 → s2.tau p = s.tau p) := by
  induction c with
  | zero => exact ⟨s, rfl, rfl, fun _ _ => rfl, fun _ _ => rfl, fun _ _ => rfl⟩
  | succ c ih =>
    obtain ⟨s1, h1, h2, h3, h4, h5⟩ := ih (by omega)
    obtain ⟨s2, g1, g2, g3, g4, g5⟩ :=
      factor_pair_step_read sqrt n ldt ldb c (by omega) hldt hldb s1
    refine ⟨s2, ?_, ?_, fun p hp => (g3 p hp).trans (h3 p hp),
      fun p hp => (g4 p hp).trans (h4 p hp), fun p hp => ?_⟩
    · simp only [loopM, h1]
      exact g1
    · rw [g2, h2, loop_succ]
    · rw [g5 p (by omega), h5 p hp]

/-- The whole of the public `factor_pair` returns, and acts on the logical data as `n`
matrix-level column steps with reflector lengths `k + 1`; the padding of both buffers is
kept. -/
theorem factor_pair_read (sqrt : K → K) (n : Nat) (hn : 1 ≤ n) (R_top : Buf K) (ldt : Nat)
    (R_bot : Buf K) (ldb : Nat) (tau work : Buf K) (hldt : n ≤ ldt) (hldb : n ≤ ldb) :
    ∃ s2, factor_pair sqrt n R_top ldt R_bot ldb tau work = Except.ok s2
      ∧ s2.toInner.read ldt ldb n n = loop n (fun k t => factorMatStep sqrt (k + 1) k t)
          ⟨readMat R_top ldt n n, readMat R_bot ldb n n, readVec tau n⟩
      ∧ (∀ p, Padding ldt n n p → s2.R_top p = R_top p)
      ∧ (∀ p, Padding ldb n n p → s2.R_bot p = R_bot p)
      ∧ (∀ p : Int, (n : Int) ≤ p ∨ p < 0 → s2.tau p = tau p) := by
  obtain ⟨s1, h1, h2, h3, h4, h5⟩ := factor_pair_loop_read sqrt n ldt ldb hldt hldb
    ⟨R_top, R_bot, tau, loop n (fun k (w : Buf K) => Function.update w (k : Int) 0) work⟩ (n - 1)
    (by omega)
  have hk : n - 1 < n := by omega
  have e : ((n : Int) - 1) = ((n - 1 : Nat) : Int) := by omega
  have e1 : (⟨0, n, n, ldt⟩ : View).idx ((n - 1 : Nat) : Int) ((n - 1 : Nat) : Int)
      = ((n - 1 : Nat) : Int) + ((n - 1 : Nat) : Int) * (ldt : Int) := by
    simp [View.idx]
  have e2 : (⟨0, n, n, ldb⟩ : View).idx 0 ((n - 1 : Nat) : Int)
      = 0 + ((n - 1 : Nat) : Int) * (ldb : Int) := by
    simp [View.idx]
  have hfin : factor_pair sqrt n R_top ldt R_bot ldb tau work
      = Except.ok (larfgPhase sqrt n
          (((n - 1 : Nat) : Int) + ((n - 1 : Nat) : Int) * (ldt : Int))
          (0 + ((n - 1 : Nat) : Int) * (ldb : Int)) ((n - 1 : Nat) : Int) s1.toInner).toPair := by
    rw [factor_pair_eq_view]
    unfold factor_pair_view
    simp only [h1, e, e1, e2]
    rfl
  rw [hfin]
  have hto : ∀ t : InnerState K, t.toPair.toInner = t := fun _ => rfl
  refine ⟨_, rfl, ?_, ?_, ?_, ?_⟩
  · have key := loop_pred n hn (fun k (t : FactorMat K n n) => factorMatStep sqrt (k + 1) k t)
      ⟨readMat R_top ldt n n, readMat R_bot ldb n n, readVec tau n⟩
    rw [key]
    conv_rhs => rw [factorMatStep, trailMatStep_last (n - 1 + 1) (n - 1) (by omega),
      Nat.sub_add_cancel hn]
    rw [hto, larfgPhase_read sqrt n n ldt ldb n (n - 1) hk hldt hldb le_rfl, h2]
    rfl
  · intro p hp
    exact ((larfgPhase_frame sqrt n n ldt ldb n (n - 1) hk le_rfl s1.toInner).1 p
      hp).trans (h3 p hp)
  · intro p hp
    exact ((larfgPhase_frame sqrt n n ldt ldb n (n - 1) hk le_rfl s1.toInner).2.1 p
      hp).trans (h4 p hp)
  · intro p hp
    exact ((larfgPhase_frame sqrt n n ldt ldb n (n - 1) hk le_rfl s1.toInner).2.2 p
      (by omega)).trans (h5 p hp)

end FactorPairRead

section PairVersusInner

variable {m n : Nat}

/-- A matrix-level column step does not read `tau`: states that agree on `R`, on the
reflector storage and on `tau[0 .. c)` agree after step `c` on `R`, on the reflector storage
and on `tau[0 .. c]`. -/
theorem factorMatStep_congr (sqrt : K → K) (len c : Nat) (s t : FactorMat K m n)
    (hR : s.R = t.R) (hA : s.A = t.A) (ht : ∀ j : Fin n, (j : Nat) < c → s.tau j = t.tau j) :
    (factorMatStep sqrt len c s).R = (factorMatStep sqrt len c t).R
    ∧ (factorMatStep sqrt len c s).A = (factorMatStep sqrt len c t).A
    ∧ (∀ j : Fin n, (j : Nat) < c + 1 →
        (factorMatStep sqrt len c s).tau j = (factorMatStep sqrt len c t).tau j) := by
  by_cases hc : c < n
  · refine ⟨?_, ?_, ?_⟩
    · simp only [factorMatStep, trailMatStep, larfgMatStep, dif_pos hc, hR, hA,
        Function.update_same]
    · simp only [factorMatStep, trailMatStep, larfgMatStep, dif_pos hc, hR, hA,
        Function.update_same]
    · intro j hj
      simp only [factorMatStep, trailMatStep, larfgMatStep, dif_pos hc, hR, hA]
      by_cases hjc : j = ⟨c, hc⟩
      · rw [hjc, Function.update_same, Function.update_same]
      · rw [Function.update_noteq hjc, Function.update_noteq hjc]
        apply ht
        have hne : (j : Nat) ≠ c := fun h => hjc (Fin.ext h)
        exact lt_of_le_of_ne (Nat.le_of_lt_succ hj) hne
  · refine ⟨?_, ?_, ?_⟩
    · simp only [factorMatStep, trailMatStep, larfgMatStep, dif_neg hc, hR]
    · simp only [factorMatStep, trailMatStep, larfgMatStep, dif_neg hc, hA]
    · intro j _
      simp only [factorMatStep, trailMatStep, larfgMatStep, dif_neg hc]
      exact ht j (by have := j.2; omega)

/-- The matrix-level sweep does not depend on the initial contents of `tau`. -/
theorem factorMat_loop_congr (sqrt : K → K) (len : Nat → Nat) (s t : FactorMat K m n)
    (hR : s.R = t.R) (hA : s.A = t.A) (c : Nat) :
    (loop c (fun k u => factorMatStep sqrt (len k) k u) s).R
        = (loop c (fun k u => factorMatStep sqrt (len k) k u) t).R
    ∧ (loop c (fun k u => factorMatStep sqrt (len k) k u) s).A
        = (loop c (fun k u => factorMatStep sqrt (len k) k u) t).A
    ∧ (∀ j : Fin n, (j : Nat) < c →
        (loop c (fun k u => factorMatStep sqrt (len k) k u) s).tau j
          = (loop c (fun k u => factorMatStep sqrt (len k) k u) t).tau j) := by
  induction c with
  | zero => exact ⟨hR, hA, fun j hj => absurd hj (Nat.not_lt_zero _)⟩
  | succ c ih =>
    obtain ⟨i1, i2, i3⟩ := ih
    simp only [loop_succ]
    exact factorMatStep_congr sqrt (len c) c _ _ i1 i2 i3

/-- A zero entry of the tail stays zero in the reflector generated by `LARFG`. -/
theorem larfgVec_zero_entry (sqrt : K → K) (alpha : K) (x : Fin m → K) (i : Fin m)
    (hx : x i = 0) : (larfgVec sqrt alpha x).2.1 i = 0 := by
  unfold larfgVec
  by_cases hz : ∀ i, x i = 0
  · rw [if_pos hz]
    exact hx
  · rw [if_neg hz]
    simp only []
    rw [hx, zero_div]

/-- The trailing update only looks at the cut column: two cut lengths that give the same
vector give the same update. -/
theorem trailMatStep_len_eq (len len2 c : Nat) (hc : c < n) (s : FactorMat K m n)
    (h : (fun i : Fin m => if (i : Nat) < len then s.A i ⟨c, hc⟩ else 0)
      = (fun i : Fin m => if (i : Nat) < len2 then s.A i ⟨c, hc⟩ else 0)) :
    trailMatStep len c s = trailMatStep len2 c s := by
  unfold trailMatStep
  simp only [dif_pos hc, h]

/-- On a reflector storage that is zero below the diagonal, the column step with the
truncated reflector (length `c + 1`) is the column step with the full reflector, and the
storage stays zero below the diagonal. -/
theorem factorMatStep_trunc_eq (sqrt : K → K) (c : Nat) (hc : c < n) (s : FactorMat K n n)
    (hlow : ∀ i j : Fin n, (j : Nat) < (i : Nat) → s.A i j = 0) :
    factorMatStep sqrt (c + 1) c s = factorMatStep sqrt n c s
    ∧ (∀ i j : Fin n, (j : Nat) < (i : Nat) → (factorMatStep sqrt n c s).A i j = 0) := by
  have hx : (fun i : Fin n => if (i : Nat) < c + 1 then s.A i ⟨c, hc⟩ else 0)
      = (fun i : Fin n => if (i : Nat) < n then s.A i ⟨c, hc⟩ else 0) := by
    funext i
    rw [if_pos i.2]
    by_cases hi : (i : Nat) < c + 1
    · rw [if_pos hi]
    · rw [if_neg hi]
      exact (hlow i ⟨c, hc⟩ (by show c < (i : Nat); omega)).symm
  have hxn : (fun i : Fin n => if (i : Nat) < n then s.A i ⟨c, hc⟩ else 0)
      = (fun i : Fin n => s.A i ⟨c, hc⟩) := funext (fun i => if_pos i.2)
  have hv0 : ∀ i : Fin n, ¬ (i : Nat) < c + 1 →
      (larfgVec sqrt (s.R ⟨c, hc⟩ ⟨c, hc⟩) (fun i => s.A i ⟨c, hc⟩)).2.1 i = 0 := by
    intro i hi
    exact larfgVec_zero_entry sqrt _ _ i (hlow i ⟨c, hc⟩ (by show c < (i : Nat); omega))
  have hl : larfgMatStep sqrt (c + 1) c s = larfgMatStep sqrt n c s := by
    apply FactorMat.ext3
    · simp only [larfgMatStep, dif_pos hc, hx]
    · funext i j
      simp only [larfgMatStep, dif_pos hc, hx, hxn]
      by_cases hj : j = ⟨c, hc⟩
      · by_cases hi : (i : Nat) < c + 1
        · simp [hj, hi]
        · subst hj
          simp only [hi, and_false, if_false, i.2, and_true, if_true]
          rw [hv0 i hi]
          exact hlow i ⟨c, hc⟩ (by show c < (i : Nat); omega)
      · simp [hj]
    · simp only [larfgMatStep, dif_pos hc, hx]
  have hcol : ∀ i : Fin n, (larfgMatStep sqrt n c s).A i ⟨c, hc⟩
      = (larfgVec sqrt (s.R ⟨c, hc⟩ ⟨c, hc⟩) (fun i => s.A i ⟨c, hc⟩)).2.1 i := by
    intro i
    simp only [larfgMatStep, dif_pos hc, hxn, i.2, and_self, if_true]
  have hfull := factorMatStep_full sqrt c hc s
  constructor
  · unfold factorMatStep
    rw [hl]
    apply trailMatStep_len_eq (c + 1) n c hc
    funext i
    rw [if_pos i.2]
    by_cases hi : (i : Nat) < c + 1
    · rw [if_pos hi]
    · rw [if_neg hi, hcol i, hv0 i hi]
  · intro i j hji
    rw [hfull]
    simp only []
    by_cases hj : j = ⟨c, hc⟩
    · rw [if_pos hj]
      apply larfgVec_zero_entry
      rw [← hj]
      exact hlow i j hji
    · rw [if_neg hj]
      by_cases hlt : (⟨c, hc⟩ : Fin n) < j
      · rw [if_pos hlt]
        have hci : ¬ (i : Nat) < c + 1 := by
          have h1 : c < (j : Nat) := hlt
          omega
        simp only [reflBot]
        rw [hv0 i hci, hlow i j hji]
        ring
      · rw [if_neg hlt]
        exact hlow i j hji

/-- On an upper-triangular bottom factor the truncated sweep of `factor_pair` is the full
sweep of `factor_inner` with `m = n`. -/
theorem factorMat_loop_trunc_eq (sqrt : K → K) (s : FactorMat K n n)
    (hlow : ∀ i j : Fin n, (j : Nat) < (i : Nat) → s.A i j = 0) (c : Nat) (hc : c ≤ n) :
    loop c (fun k t => factorMatStep sqrt (k + 1) k t) s = loop c (factorMatStep sqrt n) s
    ∧ (∀ i j : Fin n, (j : Nat) < (i : Nat) → (loop c (factorMatStep sqrt n) s).A i j = 0) := by
  induction c with
  | zero => exact ⟨rfl, hlow⟩
  | succ c ih =>
    obtain ⟨i1, i2⟩ := ih (by omega)
    obtain ⟨g1, g2⟩ := factorMatStep_trunc_eq sqrt c (by omega) _ i2
    simp only [loop_succ]
    exact ⟨by rw [i1, g1], g2⟩

end PairVersusInner

section PairTheorems

omit [LinearOrderedField K] in
/-- The rows `[n, ld)` of a column-major buffer are padding of its logical `n × n` matrix. -/
theorem padding_of_row_ge (ld n i j : Nat) (hi : n ≤ i) (hild : i < ld) :
    Padding ld n n ((i : Int) + (j : Int) * (ld : Int)) := by
  intro r c hr _ he
  have := (colmajor_inj ld r c i j (by omega) hild he).1
  omega

omit [LinearOrderedField K] in
/-- Two `tau` buffers that agree on `[0, n)` and outside of it are equal. -/
theorem tau_eq_of_read (t1 t2 : Buf K) (n : Nat) (hread : readVec t1 n = readVec t2 n)
    (hframe : ∀ p : Int, (n : Int) ≤ p ∨ p < 0 → t1 p = t2 p) : t1 = t2 := by
  funext p
  by_cases h : (n : Int) ≤ p ∨ p < 0
  · exact hframe p h
  · have h0 : 0 ≤ p := by omega
    obtain ⟨k, rfl⟩ := Int.eq_ofNat_of_zero_le h0
    exact congrFun hread ⟨k, by omega⟩

/-- `factor_pair` and `factor_inner` with `m = n` on the same buffers, over any field and
any stand-in for the square root: when `R_bot` is zero below the diagonal both return, with
equal buffers `R_top`/`R`, `R_bot`/`A` and `tau`. -/
theorem factor_pair_eq_factor_inner (sqrt : K → K) (n : Nat) (hn : 1 ≤ n)
    (R_top : Buf K) (ldr_top : Nat) (R_bot : Buf K) (ldr_bot : Nat) (tau work work2 : Buf K)
    (hldt : n ≤ ldr_top) (hldb : n ≤ ldr_bot)
    (hlow : ∀ i j : Nat, j < i → i < n →
      R_bot ((i : Int) + (j : Int) * (ldr_bot : Int)) = 0) :
    ∃ sp si, factor_pair sqrt n R_top ldr_top R_bot ldr_bot tau work = Except.ok sp
      ∧ factor_inner sqrt n n R_top ldr_top R_bot ldr_bot tau work2 = Except.ok si
      ∧ sp.R_top = si.R ∧ sp.R_bot = si.A ∧ sp.tau = si.tau := by
  obtain ⟨sp, p1, p2, p3, p4, p5⟩ :=
    factor_pair_read sqrt n hn R_top ldr_top R_bot ldr_bot tau work hldt hldb
  obtain ⟨si, q1, q2, q3, q4, q5⟩ :=
    factor_inner_read sqrt n n hn R_top ldr_top R_bot ldr_bot tau work2 hldt hldb
  have heq := (factorMat_loop_trunc_eq sqrt
    ⟨readMat R_top ldr_top n n, readMat R_bot ldr_bot n n, readVec tau n⟩
    (fun i j hji => hlow i j hji i.2) n le_rfl).1
  rw [heq, ← q2] at p2
  refine ⟨sp, si, p1, q1, ?_, ?_, ?_⟩
  · exact buf_eq_of_read _ _ ldr_top n n (congrArg FactorMat.R p2)
      (fun p hp => (p3 p hp).trans (q3 p hp).symm)
  · exact buf_eq_of_read _ _ ldr_bot n n (congrArg FactorMat.A p2)
      (fun p hp => (p4 p hp).trans (q4 p hp).symm)
  · exact tau_eq_of_read _ _ n (congrArg FactorMat.tau p2)
      (fun p hp => (p5 p hp).trans (q5 p hp).symm)

end PairTheorems

/-- C7: the public `factor_pair` is independent of the leading dimensions.  For `n ≥ 1`, any
`ldr_top, ldr_bot ≥ n` in either run (equal to `n` or greater), two runs on buffers that hold
the same logical `n × n` matrices `R_top` and `R_bot` both return, produce identical logical
`R_top`, `R_bot` and `tau[0 .. n)`, and leave every padding entry (row index in `[n, ld)` of
any column) unchanged.  `LARFG` may use any function as its square root; `tau` and `work`
may differ between the runs. -/
theorem C7_factor_pair_leading_dimension_independent (sqrt : K → K) (n : Nat) (hn : 1 ≤ n)
    (R_top : Buf K) (ldr_top : Nat) (R_bot : Buf K) (ldr_bot : Nat) (tau work : Buf K)
    (R_top2 : Buf K) (ldr_top2 : Nat) (R_bot2 : Buf K) (ldr_bot2 : Nat) (tau2 work2 : Buf K)
    (h1 : n ≤ ldr_top) (h2 : n ≤ ldr_bot) (h3 : n ≤ ldr_top2) (h4 : n ≤ ldr_bot2)
    (htop : ∀ i j : Nat, i < n → j < n →
      R_top ((i : Int) + (j : Int) * (ldr_top : Int))
        = R_top2 ((i : Int) + (j : Int) * (ldr_top2 : Int)))
    (hbot : ∀ i j : Nat, i < n → j < n →
      R_bot ((i : Int) + (j : Int) * (ldr_bot : Int))
        = R_bot2 ((i : Int) + (j : Int) * (ldr_bot2 : Int))) :
    ∃ s s2, factor_pair sqrt n R_top ldr_top R_bot ldr_bot tau work = Except.ok s
      ∧ factor_pair sqrt n R_top2 ldr_top2 R_bot2 ldr_bot2 tau2 work2 = Except.ok s2
      ∧ (∀ i j : Nat, i < n → j < n →
          s.R_top ((i : Int) + (j : Int) * (ldr_top : Int))
            = s2.R_top ((i : Int) + (j : Int) * (ldr_top2 : Int)))
      ∧ (∀ i j : Nat, i < n → j < n →
          s.R_bot ((i : Int) + (j : Int) * (ldr_bot : Int))
            = s2.R_bot ((i : Int) + (j : Int) * (ldr_bot2 : Int)))
      ∧ (∀ k : Nat, k < n → s.tau (k : Int) = s2.tau (k : Int))
      ∧ (∀ i j : Nat, n ≤ i → i < ldr_top → j < n →
          s.R_top ((i : Int) + (j : Int) * (ldr_top : Int))
            = R_top ((i : Int) + (j : Int) * (ldr_top : Int)))
      ∧ (∀ i j : Nat, n ≤ i → i < ldr_bot → j < n →
          s.R_bot ((i : Int) + (j : Int) * (ldr_bot : Int))
            = R_bot ((i : Int) + (j : Int) * (ldr_bot : Int)))
      ∧ (∀ i j : Nat, n ≤ i → i < ldr_top2 → j < n →
          s2.R_top ((i : Int) + (j : Int) * (ldr_top2 : Int))
            = R_top2 ((i : Int) + (j : Int) * (ldr_top2 : Int)))
      ∧ (∀ i j : Nat, n ≤ i → i < ldr_bot2 → j < n →
          s2.R_bot ((i : Int) + (j : Int) * (ldr_bot2 : Int))
            = R_bot2 ((i : Int) + (j : Int) * (ldr_bot2 : Int))) := by
  obtain ⟨s, p1, p2, p3, p4, _⟩ :=
    factor_pair_read sqrt n hn R_top ldr_top R_bot ldr_bot tau work h1 h2
  obtain ⟨s2, q1, q2, q3, q4, _⟩ :=
    factor_pair_read sqrt n hn R_top2 ldr_top2 R_bot2 ldr_bot2 tau2 work2 h3 h4
  have eR : readMat R_top ldr_top n n = readMat R_top2 ldr_top2 n n := by
    funext i j
    exact htop i j i.2 j.2
  have eA : readMat R_bot ldr_bot n n = readMat R_bot2 ldr_bot2 n n := by
    funext i j
    exact hbot i j i.2 j.2
  obtain ⟨c1, c2, c3⟩ := factorMat_loop_congr sqrt (fun k => k + 1)
    (⟨readMat R_top ldr_top n n, readMat R_bot ldr_bot n n, readVec tau n⟩ : FactorMat K n n)
    ⟨readMat R_top2 ldr_top2 n n, readMat R_bot2 ldr_bot2 n n, readVec tau2 n⟩ eR eA n
  rw [← p2, ← q2] at c1 c2 c3
  refine ⟨s, s2, p1, q1, ?_, ?_, ?_, ?_, ?_, ?_, ?_⟩
  · intro i j hi hj
    exact congrFun (congrFun c1 ⟨i, hi⟩) ⟨j, hj⟩
  · intro i j hi hj
    exact congrFun (congrFun c2 ⟨i, hi⟩) ⟨j, hj⟩
  · intro k hk
    exact c3 ⟨k, hk⟩ hk
  · intro i j hi hild _
    exact p3 _ (padding_of_row_ge ldr_top n i j hi hild)
  · intro i j hi hild _
    exact p4 _ (padding_of_row_ge ldr_bot n i j hi hild)
  · intro i j hi hild _
    exact q3 _ (padding_of_row_ge ldr_top2 n i j hi hild)
  · intro i j hi hild _
    exact q4 _ (padding_of_row_ge ldr_bot2 n i j hi hild)

/-- C8: `factor_pair` is a sparsity-exploiting refinement of `factor_inner`.  In exact real
arithmetic with `LARFG` by its LAPACK contract, for `n ≥ 1`, any `R_top` and any `R_bot`
whose strictly lower triangle is zero, `factor_pair (n, R_top, R_bot)` and
`factor_inner (m = n, n, R = R_top, A = R_bot)` both return and produce the same `R_top`,
the same `R_bot` and the same `tau` (equal buffers). -/
theorem C8_factor_pair_refines_factor_inner (n : Nat) (hn : 1 ≤ n) (R_top : Buf ℝ)
    (ldr_top : Nat) (R_bot : Buf ℝ) (ldr_bot : Nat) (tau work work2 : Buf ℝ)
    (hldt : n ≤ ldr_top) (hldb : n ≤ ldr_bot)
    (hlow : ∀ i j : Nat, j < i → i < n →
      R_bot ((i : Int) + (j : Int) * (ldr_bot : Int)) = 0) :
    ∃ sp si, factor_pair Real.sqrt n R_top ldr_top R_bot ldr_bot tau work = Except.ok sp
      ∧ factor_inner Real.sqrt n n R_top ldr_top R_bot ldr_bot tau work2 = Except.ok si
      ∧ sp.R_top = si.R ∧ sp.R_bot = si.A ∧ sp.tau = si.tau :=
  factor_pair_eq_factor_inner Real.sqrt n hn R_top ldr_top R_bot ldr_bot tau work work2 hldt hldb
    hlow

/-- C4 (code at the failing input): `ncols_Q = 2`, `ncols_C = 1`, `R_bot = [[0, 0], [0, 1]]`
(upper triangular), `tau = [0, 1]` (both reflectors valid: `tau[0] = 0` and
`1 · (1 + 0² + 1²) = 2`), `C_top = [0, 1]ᵀ`, `C_bot = [0, 0]ᵀ`, all leading dimensions 2.
The public `apply_pair (Transpose)` followed by `apply_pair (NoTranspose)` returns
`C_top[1] = 0`, not the original `1`. -/
theorem C4_apply_pair_round_trip_fails :
    (apply_pair ApplyType.NoTranspose 1 2 (fun p => if p = 3 then (1 : ℚ) else 0) 2
        (fun p => if p = 1 then 1 else 0)
        (apply_pair ApplyType.Transpose 1 2 (fun p => if p = 3 then (1 : ℚ) else 0) 2
          (fun p => if p = 1 then 1 else 0) (fun p => if p = 1 then 1 else 0) 2 (fun _ => 0) 2
          (fun _ => 0)).C_top 2
        (apply_pair ApplyType.Transpose 1 2 (fun p => if p = 3 then (1 : ℚ) else 0) 2
          (fun p => if p = 1 then 1 else 0) (fun p => if p = 1 then 1 else 0) 2 (fun _ => 0) 2
          (fun _ => 0)).C_bot 2 (fun _ => 0)).C_top 1 = 0
    ∧ (fun p : Int => if p = 1 then (1 : ℚ) else 0) 1 = 1 := by
  constructor
  · simp [apply_pair, apply_pair_view, apply_pair_step, GER, loop, loopDown, View.idx, View.rows,
      View.subview, View.ofPtr, ptr, Function.update]
  · simp

/-- C5 (code at the failing input): `ncols_Q = ncols_C = 2`, leading dimensions 2,
`R_bot = [[0, 0], [1, 0]]` (a nonzero entry below the diagonal), `tau = [1, 0]`,
`C_top = [[1, 0], [0, 0]]`, `C_bot = 0`.  The step of the view overload for `j_Q = 0`
(on the views the public `apply_pair` builds) changes `C_bot[1, 0]` from `0` to `-1`,
and so does the whole public call with `Transpose`. -/
theorem C5_apply_pair_step_writes_below_row_jQ :
    (apply_pair_step ((View.ofPtr 2 2).rows 0 2) ((View.ofPtr 2 2).rows 0 2)
        ((View.ofPtr 2 2).rows 0 2) (fun p => if p = 1 then (1 : ℚ) else 0)
        (fun p => if p = 0 then 1 else 0) 0
        ⟨fun p => if p = 0 then 1 else 0, fun _ => 0, fun _ => 0⟩).C_bot
        (((View.ofPtr 2 2).rows 0 2).idx 1 0) = -1
    ∧ (apply_pair ApplyType.Transpose 2 2 (fun p => if p = 1 then (1 : ℚ) else 0) 2
        (fun p => if p = 0 then 1 else 0) (fun p => if p = 0 then 1 else 0) 2 (fun _ => 0) 2
        (fun _ => 0)).C_bot 1 = -1 := by
  constructor
  · simp [apply_pair_step, GER, loop, View.idx, View.rows, View.subview, View.ofPtr, ptr,
      Function.update]
  · simp [apply_pair, apply_pair_view, apply_pair_step, GER, loop, View.idx, View.rows,
      View.subview, View.ofPtr, ptr, Function.update]

section ApplyPairLemmas

/-- On square operands the public `apply_pair` runs the view overload on the `n × n` views
with column strides `ldr_bot`, `ldc_top` and `ldc_bot`. -/
theorem apply_pair_eq_view (applyType : ApplyType) (n : Nat) (R_bot : Buf K) (ldr_bot : Nat)
    (tau C_top : Buf K) (ldc_top : Nat) (C_bot : Buf K) (ldc_bot : Nat) (work : Buf K) :
    apply_pair applyType n n R_bot ldr_bot tau C_top ldc_top C_bot ldc_bot work
      = apply_pair_view applyType ⟨0, n, n, ldr_bot⟩ ⟨0, n, n, ldc_top⟩ ⟨0, n, n, ldc_bot⟩
          R_bot tau C_top C_bot work := by
  have e1 : ∀ ld : Nat, (View.ofPtr ld n).rows 0 n = ⟨0, n, n, ld⟩ := by
    intro ld
    simp [View.ofPtr, View.rows, View.subview]
  unfold apply_pair
  simp only [e1]

/-- The scratch vector after the first loop of an `apply_pair` step on square operands. -/
theorem apply_pair_step_work (n ldr ldt ldb : Nat) (R_bot tau : Buf K) (j : Nat)
    (s : ApplyState K) (i : Nat) (hi : i < n) :
    (apply_pair_step ⟨0, n, n, ldr⟩ ⟨0, n, n, ldt⟩ ⟨0, n, n, ldb⟩ R_bot tau j s).work (i : Int)
      = (∑ k in Finset.range (j + 1), R_bot ((k : Int) + (j : Int) * (ldr : Int))
          * s.C_bot ((k : Int) + (i : Int) * (ldb : Int)))
        + s.C_top ((j : Int) + (i : Int) * (ldt : Int)) := by
  unfold apply_pair_step
  simp only [loop_sum, zero_add]
  rw [loop_update_at n (fun i : Nat => (i : Int))
    (fun i _ => (∑ k in Finset.range (j + 1),
          ptr R_bot ((⟨0, n, n, ldr⟩ : View).idx 0 j) (k : Int)
            * ptr s.C_bot ((⟨0, n, n, ldb⟩ : View).idx 0 i) (k : Int))
        + s.C_top ((⟨0, n, n, ldt⟩ : View).idx j i)) s.work i hi
    (fun a _ h => by simpa using h)]
  simp only [ptr, View.idx, zero_add]
  congr 1
  apply Finset.sum_congr rfl
  intro k _
  congr 2 <;> ring

/-- Row `j` of `C_top` after an `apply_pair` step on square operands. -/
theorem apply_pair_step_top_at (n ldr ldt ldb : Nat) (R_bot tau : Buf K) (j : Nat)
    (s : ApplyState K) (hld : 0 < ldt) (i : Nat) (hi : i < n) :
    (apply_pair_step ⟨0, n, n, ldr⟩ ⟨0, n, n, ldt⟩ ⟨0, n, n, ldb⟩ R_bot tau j s).C_top
        ((j : Int) + (i : Int) * (ldt : Int))
      = s.C_top ((j : Int) + (i : Int) * (ldt : Int)) - tau (j : Int)
        * (apply_pair_step ⟨0, n, n, ldr⟩ ⟨0, n, n, ldt⟩ ⟨0, n, n, ldb⟩ R_bot tau j s).work
            (i : Int) := by
  have e : (apply_pair_step ⟨0, n, n, ldr⟩ ⟨0, n, n, ldt⟩ ⟨0, n, n, ldb⟩ R_bot tau j s).C_top
      = loop n (fun k (C : Buf K) =>
          Function.update C ((⟨0, n, n, ldt⟩ : View).idx j k)
            (C ((⟨0, n, n, ldt⟩ : View).idx j k) - tau (j : Int)
              * (apply_pair_step ⟨0, n, n, ldr⟩ ⟨0, n, n, ldt⟩ ⟨0, n, n, ldb⟩ R_bot tau j
                  s).work (k : Int))) s.C_top := rfl
  have hidx : ∀ k : Nat, (⟨0, n, n, ldt⟩ : View).idx j k = (j : Int) + (k : Int) * (ldt : Int) := by
    intro k
    simp [View.idx]
  rw [e, ← hidx i]
  exact loop_update_at n (fun k : Nat => (⟨0, n, n, ldt⟩ : View).idx j k)
    (fun k b => b - tau (j : Int)
      * (apply_pair_step ⟨0, n, n, ldr⟩ ⟨0, n, n, ldt⟩ ⟨0, n, n, ldb⟩ R_bot tau j s).work
          (k : Int))
    s.C_top i hi (fun a _ h => by
      beta_reduce at h
      rw [hidx, hidx] at h
      have h2 : (a : Int) * (ldt : Int) = (i : Int) * (ldt : Int) := by linarith
      have h3 : a * ldt = i * ldt := by exact_mod_cast h2
      exact Nat.eq_of_mul_eq_mul_right hld h3)

/-- Entries of `C_top` outside row `j` are kept by an `apply_pair` step on square operands. -/
theorem apply_pair_step_top_frame (n ldr ldt ldb : Nat) (R_bot tau : Buf K) (j : Nat)
    (s : ApplyState K) (p : Int)
    (hp : ∀ i : Nat, i < n → (j : Int) + (i : Int) * (ldt : Int) ≠ p) :
    (apply_pair_step ⟨0, n, n, ldr⟩ ⟨0, n, n, ldt⟩ ⟨0, n, n, ldb⟩ R_bot tau j s).C_top p
      = s.C_top p := by
  have e : (apply_pair_step ⟨0, n, n, ldr⟩ ⟨0, n, n, ldt⟩ ⟨0, n, n, ldb⟩ R_bot tau j s).C_top
      = loop n (fun k (C : Buf K) =>
          Function.update C ((⟨0, n, n, ldt⟩ : View).idx j k)
            (C ((⟨0, n, n, ldt⟩ : View).idx j k) - tau (j : Int)
              * (apply_pair_step ⟨0, n, n, ldr⟩ ⟨0, n, n, ldt⟩ ⟨0, n, n, ldb⟩ R_bot tau j
                  s).work (k : Int))) s.C_top := rfl
  rw [e]
  exact loop_update_frame n (fun k : Nat => (⟨0, n, n, ldt⟩ : View).idx j k)
    (fun k b => b - tau (j : Int)
      * (apply_pair_step ⟨0, n, n, ldr⟩ ⟨0, n, n, ldt⟩ ⟨0, n, n, ldb⟩ R_bot tau j s).work
          (k : Int))
    s.C_top p (fun i hi => by
      have := hp i hi
      simpa [View.idx] using this)

/-- Entry `(k, i)` of `C_bot` after an `apply_pair` step on square operands: every row `k`
of the view is updated, with the whole column `j` of `R_bot`. -/
theorem apply_pair_step_bot_at (n ldr ldt ldb : Nat) (R_bot tau : Buf K) (j : Nat)
    (s : ApplyState K) (hld : n ≤ ldb) (k i : Nat) (hk : k < n) (hi : i < n) :
    (apply_pair_step ⟨0, n, n, ldr⟩ ⟨0, n, n, ldt⟩ ⟨0, n, n, ldb⟩ R_bot tau j s).C_bot
        ((k : Int) + (i : Int) * (ldb : Int))
      = s.C_bot ((k : Int) + (i : Int) * (ldb : Int))
        + R_bot ((k : Int) + (j : Int) * (ldr : Int)) * (-(tau (j : Int))
          * (apply_pair_step ⟨0, n, n, ldr⟩ ⟨0, n, n, ldt⟩ ⟨0, n, n, ldb⟩ R_bot tau j s).work
              (i : Int)) := by
  have e : (apply_pair_step ⟨0, n, n, ldr⟩ ⟨0, n, n, ldt⟩ ⟨0, n, n, ldb⟩ R_bot tau j s).C_bot
      = GER (-(tau (j : Int))) (ptr R_bot ((⟨0, n, n, ldr⟩ : View).idx 0 j)) 1
          (apply_pair_step ⟨0, n, n, ldr⟩ ⟨0, n, n, ldt⟩ ⟨0, n, n, ldb⟩ R_bot tau j s).work 1
          ⟨0, n, n, ldb⟩ s.C_bot := rfl
  have hidx : (⟨0, n, n, ldb⟩ : View).idx k i = (k : Int) + (i : Int) * (ldb : Int) := by
    simp [View.idx]
  rw [e, ← hidx, GER_unit_unit_at _ _ _ _ _ hld k i hk hi]
  simp only [ptr, View.idx, zero_add]
  congr 3
  ring

/-- Entries of the `C_bot` buffer outside the logical block are kept. -/
theorem apply_pair_step_bot_frame (n ldr ldt ldb : Nat) (R_bot tau : Buf K) (j : Nat)
    (s : ApplyState K) (hld : n ≤ ldb) (p : Int) (hp : Padding ldb n n p) :
    (apply_pair_step ⟨0, n, n, ldr⟩ ⟨0, n, n, ldt⟩ ⟨0, n, n, ldb⟩ R_bot tau j s).C_bot p
      = s.C_bot p := by
  have e : (apply_pair_step ⟨0, n, n, ldr⟩ ⟨0, n, n, ldt⟩ ⟨0, n, n, ldb⟩ R_bot tau j s).C_bot
      = GER (-(tau (j : Int))) (ptr R_bot ((⟨0, n, n, ldr⟩ : View).idx 0 j)) 1
          (apply_pair_step ⟨0, n, n, ldr⟩ ⟨0, n, n, ldt⟩ ⟨0, n, n, ldb⟩ R_bot tau j s).work 1
          ⟨0, n, n, ldb⟩ s.C_bot := rfl
  rw [e]
  apply GER_unit_frame _ _ _ _ _ _ hld
  intro k i hk hi
  have := hp k i hk hi
  simpa [View.idx] using this

end ApplyPairLemmas

section ApplyPairRead

/-- The scratch vector of an `apply_pair` step is the row vector `w` of the reflector cut to
its first `j + 1` rows. -/
theorem apply_pair_step_work_read (n ldr ldt ldb : Nat) (R_bot tau : Buf K) (j : Nat)
    (hj : j < n) (s : ApplyState K) (i : Fin n) :
    (apply_pair_step ⟨0, n, n, ldr⟩ ⟨0, n, n, ldt⟩ ⟨0, n, n, ldb⟩ R_bot tau j s).work
        ((i : Nat) : Int)
      = reflW (fun k : Fin n => if (k : Nat) < j + 1 then readMat R_bot ldr n n k ⟨j, hj⟩ else 0)
          ⟨j, hj⟩ (readMat s.C_top ldt n n) (readMat s.C_bot ldb n n) i := by
  rw [apply_pair_step_work n ldr ldt ldb R_bot tau j s i i.2]
  simp only [reflW, readMat]
  congr 1
  rw [← sum_trunc n (j + 1) (by omega)]
  apply Finset.sum_congr rfl
  intro k _
  by_cases hk : (k : Nat) < j + 1
  · simp [hk]
  · simp [hk]

/-- One step of `apply_pair` on square operands acts on the logical matrices as
`applyPairMatStep`. -/
theorem apply_pair_step_read (n ldr ldt ldb : Nat) (R_bot tau : Buf K) (j : Nat) (hj : j < n)
    (hldt : n ≤ ldt) (hldb : n ≤ ldb) (s : ApplyState K) :
    (apply_pair_step ⟨0, n, n, ldr⟩ ⟨0, n, n, ldt⟩ ⟨0, n, n, ldb⟩ R_bot tau j s).read
        ldt ldb n n n
      = applyPairMatStep (readMat R_bot ldr n n) (readVec tau n) j (s.read ldt ldb n n n) := by
  rw [applyPairMatStep, dif_pos hj]
  unfold ApplyState.read
  refine Prod.ext ?_ ?_
  · funext r i
    simp only []
    by_cases hr : r = ⟨j, hj⟩
    · subst hr
      rw [if_pos rfl, ← apply_pair_step_work_read n ldr ldt ldb R_bot tau j hj s i]
      exact apply_pair_step_top_at n ldr ldt ldb R_bot tau j s (by omega) i i.2
    · rw [if_neg hr]
      refine apply_pair_step_top_frame n ldr ldt ldb R_bot tau j s _ (fun a _ h => hr ?_)
      have := (colmajor_inj ldt j a r i (by omega) (by have := r.2; omega) h).1
      exact Fin.ext this.symm
  · funext k i
    simp only []
    rw [← apply_pair_step_work_read n ldr ldt ldb R_bot tau j hj s i]
    exact apply_pair_step_bot_at n ldr ldt ldb R_bot tau j s hldb k i k.2 i.2

/-- The ascending sweep of `apply_pair` on the logical matrices (square operands). -/
theorem apply_pair_loop_read (n ldr ldt ldb : Nat) (R_bot tau : Buf K) (hldt : n ≤ ldt)
    (hldb : n ≤ ldb) (s : ApplyState K) (c : Nat) (hc : c ≤ n) :
    (loop c (apply_pair_step ⟨0, n, n, ldr⟩ ⟨0, n, n, ldt⟩ ⟨0, n, n, ldb⟩ R_bot tau) s).read
        ldt ldb n n n
      = loop c (applyPairMatStep (readMat R_bot ldr n n) (readVec tau n))
          (s.read ldt ldb n n n) := by
  induction c with
  | zero => rfl
  | succ c ih =>
    rw [loop_succ, loop_succ, apply_pair_step_read n ldr ldt ldb R_bot tau c (by omega) hldt hldb,
      ih (by omega)]

/-- The descending sweep of `apply_pair` on the logical matrices (square operands). -/
theorem apply_pair_loopDown_read (n ldr ldt ldb : Nat) (R_bot tau : Buf K) (hldt : n ≤ ldt)
    (hldb : n ≤ ldb) (c : Nat) (hc : c ≤ n) (s : ApplyState K) :
    (loopDown c (apply_pair_step ⟨0, n, n, ldr⟩ ⟨0, n, n, ldt⟩ ⟨0, n, n, ldb⟩ R_bot tau) s).read
        ldt ldb n n n
      = loopDown c (applyPairMatStep (readMat R_bot ldr n n) (readVec tau n))
          (s.read ldt ldb n n n) := by
  induction c generalizing s with
  | zero => rfl
  | succ c ih =>
    rw [loopDown_succ, loopDown_succ, ih (by omega),
      apply_pair_step_read n ldr ldt ldb R_bot tau c (by omega) hldt hldb]

/-- The public `apply_pair` on square operands, on the logical matrices. -/
theorem apply_pair_read (applyType : ApplyType) (n : Nat) (R_bot : Buf K) (ldr : Nat)
    (tau C_top : Buf K) (ldt : Nat) (C_bot : Buf K) (ldb : Nat) (work : Buf K)
    (hldt : n ≤ ldt) (hldb : n ≤ ldb) :
    (apply_pair applyType n n R_bot ldr tau C_top ldt C_bot ldb work).read ldt ldb n n n
      = if applyType = ApplyType.NoTranspose then
          loopDown n (applyPairMatStep (readMat R_bot ldr n n) (readVec tau n))
            (readMat C_top ldt n n, readMat C_bot ldb n n)
        else
          loop n (applyPairMatStep (readMat R_bot ldr n n) (readVec tau n))
            (readMat C_top ldt n n, readMat C_bot ldb n n) := by
  rw [apply_pair_eq_view]
  unfold apply_pair_view
  by_cases h : applyType = ApplyType.NoTranspose
  · simp only [h, if_true]
    rw [apply_pair_loopDown_read n ldr ldt ldb R_bot tau hldt hldb n le_rfl]
    rfl
  · simp only [h, if_false]
    rw [apply_pair_loop_read n ldr ldt ldb R_bot tau hldt hldb _ n le_rfl]
    rfl

/-- With an upper-triangular `R_bot` the cut column is the whole column: the step of
`apply_pair` is the step of `apply_inner` with `m = n`. -/
theorem applyPairMatStep_eq_inner {n c : Nat} (B : Matrix (Fin n) (Fin n) K) (tau : Fin n → K)
    (hB : ∀ i j : Fin n, (j : Nat) < (i : Nat) → B i j = 0) (j : Nat)
    (C : Matrix (Fin n) (Fin c) K × Matrix (Fin n) (Fin c) K) :
    applyPairMatStep B tau j C = applyInnerMatStep B tau j C := by
  unfold applyPairMatStep applyInnerMatStep
  by_cases hj : j < n
  · have hv : (fun k : Fin n => if (k : Nat) < j + 1 then B k ⟨j, hj⟩ else 0)
        = (fun k : Fin n => B k ⟨j, hj⟩) := by
      funext k
      by_cases hk : (k : Nat) < j + 1
      · rw [if_pos hk]
      · rw [if_neg hk]
        exact (hB k ⟨j, hj⟩ (by show j < (k : Nat); omega)).symm
    simp only [dif_pos hj, hv]
    rfl
  · simp only [dif_neg hj]

/-- With an upper-triangular `R_bot` the ascending sweeps of `apply_pair` and `apply_inner`
agree on the logical matrices. -/
theorem applyPairMat_loop_eq_inner {n c : Nat} (B : Matrix (Fin n) (Fin n) K) (tau : Fin n → K)
    (hB : ∀ i j : Fin n, (j : Nat) < (i : Nat) → B i j = 0)
    (C : Matrix (Fin n) (Fin c) K × Matrix (Fin n) (Fin c) K) (k : Nat) :
    loop k (applyPairMatStep B tau) C = loop k (applyInnerMatStep B tau) C := by
  induction k with
  | zero => rfl
  | succ k ih => rw [loop_succ, loop_succ, ih, applyPairMatStep_eq_inner B tau hB]

end ApplyPairRead

/-- `factor_pair` followed by the public `apply_pair (Transpose)` on the input pair, over any
ordered field with a square root: the top block is the upper triangle of the output `R_top`
and the bottom block is zero. -/
theorem factor_pair_apply_pair_qr (sqrt : K → K) (hs : IsSqrt sqrt) (n : Nat) (hn : 1 ≤ n)
    (R_top : Buf K) (ldr_top : Nat) (R_bot : Buf K) (ldr_bot : Nat) (tau work work2 : Buf K)
    (hldt : n ≤ ldr_top) (hldb : n ≤ ldr_bot)
    (htop : ∀ i j : Nat, j < i → i < n →
      R_top ((i : Int) + (j : Int) * (ldr_top : Int)) = 0)
    (hbot : ∀ i j : Nat, j < i → i < n →
      R_bot ((i : Int) + (j : Int) * (ldr_bot : Int)) = 0) :
    ∃ out, factor_pair sqrt n R_top ldr_top R_bot ldr_bot tau work = Except.ok out
      ∧ (∀ i j : Nat, i < n → j < n →
          (apply_pair ApplyType.Transpose n n out.R_bot ldr_bot out.tau R_top ldr_top R_bot
            ldr_bot work2).C_top ((i : Int) + (j : Int) * (ldr_top : Int))
            = if i ≤ j then out.R_top ((i : Int) + (j : Int) * (ldr_top : Int)) else 0)
      ∧ (∀ i j : Nat, i < n → j < n →
          (apply_pair ApplyType.Transpose n n out.R_bot ldr_bot out.tau R_top ldr_top R_bot
            ldr_bot work2).C_bot ((i : Int) + (j : Int) * (ldr_bot : Int)) = 0) := by
  obtain ⟨out, h1, h2, _, _, _⟩ :=
    factor_pair_read sqrt n hn R_top ldr_top R_bot ldr_bot tau work hldt hldb
  refine ⟨out, h1, ?_⟩
  obtain ⟨t1, t2⟩ := factorMat_loop_trunc_eq sqrt
    ⟨readMat R_top ldr_top n n, readMat R_bot ldr_bot n n, readVec tau n⟩
    (fun i j hji => hbot i j hji i.2) n le_rfl
  rw [t1] at h2
  have hAout : readMat out.R_bot ldr_bot n n
      = (loop n (factorMatStep sqrt n)
          ⟨readMat R_top ldr_top n n, readMat R_bot ldr_bot n n, readVec tau n⟩).A :=
    congrArg FactorMat.A h2
  have hTout : readVec out.tau n
      = (loop n (factorMatStep sqrt n)
          ⟨readMat R_top ldr_top n n, readMat R_bot ldr_bot n n, readVec tau n⟩).tau :=
    congrArg FactorMat.tau h2
  have hRout : readMat out.R_top ldr_top n n
      = (loop n (factorMatStep sqrt n)
          ⟨readMat R_top ldr_top n n, readMat R_bot ldr_bot n n, readVec tau n⟩).R :=
    congrArg FactorMat.R h2
  have hap := apply_pair_read ApplyType.Transpose n out.R_bot ldr_bot out.tau R_top ldr_top
    R_bot ldr_bot work2 hldt hldb
  have e1 : ApplyType.Transpose ≠ ApplyType.NoTranspose := by decide
  simp only [e1, if_false] at hap
  rw [applyPairMat_loop_eq_inner _ _ (by rw [hAout]; exact t2)] at hap
  obtain ⟨i1, i2, i3⟩ := factorInner_apply_invariant sqrt hs
    ⟨readMat R_top ldr_top n n, readMat R_bot ldr_bot n n, readVec tau n⟩
    (fun a j hja => htop a j hja a.2) (readMat out.R_bot ldr_bot n n) (readVec out.tau n) n
    le_rfl
    (fun k _ i => by
      rw [hAout]
      exact (factorMat_loop_stable sqrt (fun _ => n) _ k n k.2).1 i)
    (fun k _ => by
      rw [hTout]
      exact (factorMat_loop_stable sqrt (fun _ => n) _ k n k.2).2)
  simp only [] at i1 i2
  rw [← hap] at i1 i2
  rw [← hRout] at i1 i3
  constructor
  · intro i j hi hj
    have := congrFun (congrFun i1 ⟨i, hi⟩) ⟨j, hj⟩
    simp only [ApplyState.read, readMat] at this
    rw [this]
    by_cases hij : i ≤ j
    · rw [if_pos hij]
    · rw [if_neg hij]
      exact i3 ⟨i, hi⟩ ⟨j, hj⟩ (by show j < i; omega)
  · intro i j hi hj
    have := i2 ⟨i, hi⟩ ⟨j, hj⟩
    simp only [ApplyState.read, readMat] at this
    rw [this, if_pos hj]

/-- C2: `factor_pair` computes a QR factorization of the stacked pair `[R_top; R_bot]`.  In
exact real arithmetic with `LARFG` by its LAPACK contract, for `n ≥ 1` and upper-triangular
`R_top_in`, `R_bot_in` (zero below the diagonal), `factor_pair` returns and
`apply_pair (Transpose, ncols_C = n, ncols_Q = n, R_bot_out, tau, C_top = R_top_in,
C_bot = R_bot_in)` yields `C_top` equal to the upper triangle of `R_top_out` (zero below the
diagonal) and `C_bot` equal to the `n × n` zero matrix. -/
theorem C2_factor_pair_is_qr (n : Nat) (hn : 1 ≤ n) (R_top : Buf ℝ) (ldr_top : Nat)
    (R_bot : Buf ℝ) (ldr_bot : Nat) (tau work work2 : Buf ℝ) (hldt : n ≤ ldr_top)
    (hldb : n ≤ ldr_bot)
    (htop : ∀ i j : Nat, j < i → i < n →
      R_top ((i : Int) + (j : Int) * (ldr_top : Int)) = 0)
    (hbot : ∀ i j : Nat, j < i → i < n →
      R_bot ((i : Int) + (j : Int) * (ldr_bot : Int)) = 0) :
    ∃ out, factor_pair Real.sqrt n R_top ldr_top R_bot ldr_bot tau work = Except.ok out
      ∧ (∀ i j : Nat, i < n → j < n →
          (apply_pair ApplyType.Transpose n n out.R_bot ldr_bot out.tau R_top ldr_top R_bot
            ldr_bot work2).C_top ((i : Int) + (j : Int) * (ldr_top : Int))
            = if i ≤ j then out.R_top ((i : Int) + (j : Int) * (ldr_top : Int)) else 0)
      ∧ (∀ i j : Nat, i < n → j < n →
          (apply_pair ApplyType.Transpose n n out.R_bot ldr_bot out.tau R_top ldr_top R_bot
            ldr_bot work2).C_bot ((i : Int) + (j : Int) * (ldr_bot : Int)) = 0) :=
  factor_pair_apply_pair_qr Real.sqrt isSqrt_real n hn R_top ldr_top R_bot ldr_bot tau work work2
    hldt hldb htop hbot

/-- Witness for C2: `n = 2`, `R_top_in = [[3, 1], [0, 4]]`, `R_bot_in = [[4, 1], [0, 3]]`
(column-major `[3, 0, 1, 4]` and `[4, 0, 1, 3]`), leading dimensions 2. -/
theorem C2_factor_pair_is_qr_witness :
    ∃ out, factor_pair Real.sqrt 2
        (fun p => if p = 0 then 3 else if p = 2 then 1 else if p = 3 then 4 else 0) 2
        (fun p => if p = 0 then 4 else if p = 2 then 1 else if p = 3 then 3 else 0) 2
        (fun _ => 0) (fun _ => 0) = Except.ok out
      ∧ (∀ i j : Nat, i < 2 → j < 2 →
          (apply_pair ApplyType.Transpose 2 2 out.R_bot 2 out.tau
            (fun p => if p = 0 then 3 else if p = 2 then 1 else if p = 3 then 4 else 0) 2
            (fun p => if p = 0 then 4 else if p = 2 then 1 else if p = 3 then 3 else 0) 2
            (fun _ => 0)).C_top ((i : Int) + (j : Int) * ((2 : Nat) : Int))
            = if i ≤ j then out.R_top ((i : Int) + (j : Int) * ((2 : Nat) : Int)) else 0)
      ∧ (∀ i j : Nat, i < 2 → j < 2 →
          (apply_pair ApplyType.Transpose 2 2 out.R_bot 2 out.tau
            (fun p => if p = 0 then 3 else if p = 2 then 1 else if p = 3 then 4 else 0) 2
            (fun p => if p = 0 then 4 else if p = 2 then 1 else if p = 3 then 3 else 0) 2
            (fun _ => 0)).C_bot ((i : Int) + (j : Int) * ((2 : Nat) : Int)) = 0) :=
  C2_factor_pair_is_qr 2 (by decide)
    (fun p => if p = 0 then 3 else if p = 2 then 1 else if p = 3 then 4 else 0) 2
    (fun p => if p = 0 then 4 else if p = 2 then 1 else if p = 3 then 3 else 0) 2
    (fun _ => 0) (fun _ => 0) (fun _ => 0) (by decide) (by decide)
    (fun i j hji hi => by
      have hi1 : i = 1 := by omega
      have hj0 : j = 0 := by omega
      subst hi1 hj0
      norm_num)
    (fun i j hji hi => by
      have hi1 : i = 1 := by omega
      have hj0 : j = 0 := by omega
      subst hi1 hj0
      norm_num)

/-- Witness for C7: `n = 2`; the first run is tight (`ldr_top = ldr_bot = 2`), the second has
`ldr_top = 3` and `ldr_bot = 2`; both hold `R_top = [[1, 3], [2, 4]]` and
`R_bot = [[0, 2], [1, 3]]`.  The square root is replaced by the identity function. -/
theorem C7_factor_pair_leading_dimension_independent_witness :
    ∃ s s2, factor_pair (fun x : ℚ => x) 2 (fun p => 1 + (p : ℚ)) 2 (fun p => (p : ℚ)) 2
          (fun _ => 0) (fun _ => 0) = Except.ok s
      ∧ factor_pair (fun x : ℚ => x) 2 (fun p => 1 + ((p % 3 : Int) : ℚ) + 2 * ((p / 3 : Int) : ℚ))
          3 (fun p => (p : ℚ)) 2 (fun _ => 5) (fun _ => 7) = Except.ok s2
      ∧ (∀ i j : Nat, i < 2 → j < 2 →
          s.R_top ((i : Int) + (j : Int) * ((2 : Nat) : Int))
            = s2.R_top ((i : Int) + (j : Int) * ((3 : Nat) : Int)))
      ∧ (∀ i j : Nat, i < 2 → j < 2 →
          s.R_bot ((i : Int) + (j : Int) * ((2 : Nat) : Int))
            = s2.R_bot ((i : Int) + (j : Int) * ((2 : Nat) : Int)))
      ∧ (∀ k : Nat, k < 2 → s.tau (k : Int) = s2.tau (k : Int))
      ∧ (∀ i j : Nat, 2 ≤ i → i < 3 → j < 2 →
          s2.R_top ((i : Int) + (j : Int) * ((3 : Nat) : Int))
            = (fun p : Int => 1 + ((p % 3 : Int) : ℚ) + 2 * ((p / 3 : Int) : ℚ))
                ((i : Int) + (j : Int) * ((3 : Nat) : Int))) := by
  obtain ⟨s, s2, h1, h2, h3, h4, h5, _, _, h8, _⟩ :=
    C7_factor_pair_leading_dimension_independent (fun x : ℚ => x) 2 (by decide)
      (fun p => 1 + (p : ℚ)) 2 (fun p => (p : ℚ)) 2 (fun _ => 0) (fun _ => 0)
      (fun p => 1 + ((p % 3 : Int) : ℚ) + 2 * ((p / 3 : Int) : ℚ)) 3 (fun p => (p : ℚ)) 2
      (fun _ => 5) (fun _ => 7) (by decide) (by decide) (by decide) (by decide)
      (fun i j hi hj => by
        interval_cases i <;> interval_cases j <;> norm_num)
      (fun i j _ _ => rfl)
  exact ⟨s, s2, h1, h2, h3, h4, h5, h8⟩

/-- Witness for C8: `n = 2`, `R_top = [[3, 1], [2, 4]]`, `R_bot = [[4, 1], [0, 3]]` (zero
below the diagonal), leading dimensions 2. -/
theorem C8_factor_pair_refines_factor_inner_witness :
    ∃ sp si, factor_pair Real.sqrt 2
          (fun p => if p = 0 then 3 else if p = 1 then 2 else if p = 2 then 1 else 4) 2
          (fun p => if p = 0 then 4 else if p = 2 then 1 else if p = 3 then 3 else 0) 2
          (fun _ => 0) (fun _ => 0) = Except.ok sp
      ∧ factor_inner Real.sqrt 2 2
          (fun p => if p = 0 then 3 else if p = 1 then 2 else if p = 2 then 1 else 4) 2
          (fun p => if p = 0 then 4 else if p = 2 then 1 else if p = 3 then 3 else 0) 2
          (fun _ => 0) (fun _ => 1) = Except.ok si
      ∧ sp.R_top = si.R ∧ sp.R_bot = si.A ∧ sp.tau = si.tau :=
  C8_factor_pair_refines_factor_inner 2 (by decide)
    (fun p => if p = 0 then 3 else if p = 1 then 2 else if p = 2 then 1 else 4) 2
    (fun p => if p = 0 then 4 else if p = 2 then 1 else if p = 3 then 3 else 0) 2
    (fun _ => 0) (fun _ => 0) (fun _ => 1) (by decide) (by decide)
    (fun i j hji hi => by
      have hi1 : i = 1 := by omega
      have hj0 : j = 0 := by omega
      subst hi1 hj0
      norm_num)

/-- C11: `GEMV` raises `std::logic_error` exactly when `incx ≠ 1` or `incy ≠ 1`.  The fault is
decided by the strides alone, before `y` is read or written (it is the same for every `y`,
and a fault carries no updated `y`); with `incx = incy = 1` the routine does not raise and
returns the result of `KokkosBlas::gemv`. -/
theorem C11_GEMV_raises_iff_stride_not_one (trans : Char) (alpha : K) (V : View) (A x : Buf K)
    (incx : Int) (beta : K) (y : Buf K) (incy : Int) :
    (GEMV trans alpha V A x incx beta y incy = Except.error Err.logic_error
        ↔ (incx ≠ 1 ∨ incy ≠ 1))
    ∧ ((incx ≠ 1 ∨ incy ≠ 1) → ∀ (A2 x2 y2 : Buf K),
        GEMV trans alpha V A2 x2 incx beta y2 incy = Except.error Err.logic_error)
    ∧ ((incx = 1 ∧ incy = 1) →
        GEMV trans alpha V A x incx beta y incy = Except.ok (gemv trans alpha V A x beta y)) := by
  refine ⟨?_, ?_, ?_⟩
  · unfold GEMV
    by_cases h : incx ≠ 1 ∨ incy ≠ 1
    · simp only [h, if_true]
    · simp only [h, if_false, iff_false]
      intro he
      cases he
  · intro h A2 x2 y2
    unfold GEMV
    rw [if_pos h]
  · rintro ⟨h1, h2⟩
    rw [h1, h2]
    exact GEMV_unit trans alpha V A x beta y

/-- C19: the diagnostic predicate returns `false` in the primary template and in the real
and complex specialisations of `CombineNative`, whatever the `CombineDefault` predicate
returns. -/
theorem C19_QR_produces_R_factor_with_nonnegative_diagonal_false (combine_default : Bool) :
    CombineNative.QR_produces_R_factor_with_nonnegative_diagonal combine_default = false
    ∧ CombineNativeReal.QR_produces_R_factor_with_nonnegative_diagonal combine_default = false
    ∧ CombineNativeComplex.QR_produces_R_factor_with_nonnegative_diagonal combine_default
        = false :=
  ⟨rfl, rfl, rfl⟩

section EmptyProblem

omit [LinearOrderedField K] in
/-- A sweep whose every step keeps `C_top` and `C_bot` keeps them. -/
theorem loop_keeps_C (step : Nat → ApplyState K → ApplyState K)
    (h : ∀ j s, (step j s).C_top = s.C_top ∧ (step j s).C_bot = s.C_bot) (n : Nat)
    (s : ApplyState K) :
    (loop n step s).C_top = s.C_top ∧ (loop n step s).C_bot = s.C_bot := by
  induction n with
  | zero => exact ⟨rfl, rfl⟩
  | succ n ih =>
    rw [loop_succ]
    exact ⟨(h n _).1.trans ih.1, (h n _).2.trans ih.2⟩

omit [LinearOrderedField K] in
/-- A descending sweep whose every step keeps `C_top` and `C_bot` keeps them. -/
theorem loopDown_keeps_C (step : Nat → ApplyState K → ApplyState K)
    (h : ∀ j s, (step j s).C_top = s.C_top ∧ (step j s).C_bot = s.C_bot) (n : Nat)
    (s : ApplyState K) :
    (loopDown n step s).C_top = s.C_top ∧ (loopDown n step s).C_bot = s.C_bot := by
  induction n generalizing s with
  | zero => exact ⟨rfl, rfl⟩
  | succ n ih =>
    rw [loopDown_succ]
    exact ⟨(ih _).1.trans (h n s).1, (ih _).2.trans (h n s).2⟩

/-- `GER` on a view without columns writes nothing. -/
theorem GER_no_columns (alpha : K) (x : Buf K) (incx : Int) (y : Buf K) (incy : Int) (V : View)
    (hV : V.dim1 = 0) (A : Buf K) : GER alpha x incx y incy V A = A := by
  unfold GER
  simp only [hV]
  split_ifs <;> rfl

/-- With `ncols_C = 0` a step of `apply_inner` keeps `C_top` and `C_bot`. -/
theorem apply_inner_step_no_columns (m : Nat) (A : Buf K) (lda : Nat) (tau : Buf K)
    (ldt ldb : Nat) (j : Nat) (s : ApplyState K) :
    (apply_inner_step m 0 A lda tau ldt ldb j s).C_top = s.C_top
    ∧ (apply_inner_step m 0 A lda tau ldt ldb j s).C_bot = s.C_bot := by
  constructor
  · rfl
  · have e : (apply_inner_step m 0 A lda tau ldt ldb j s).C_bot
        = GER (-(tau (j : Int))) (ptr A (0 + (j : Int) * (lda : Int))) 1
            (apply_inner_step m 0 A lda tau ldt ldb j s).work 1 ((View.ofPtr ldb 0).rows 0 m)
            s.C_bot := rfl
    rw [e]
    exact GER_no_columns _ _ _ _ _ _ rfl _

/-- With a `C_top` view without columns a step of `apply_pair` keeps `C_top` and `C_bot`,
provided the `C_bot` view has no columns either. -/
theorem apply_pair_step_no_columns (VR VT VB : View) (hT : VT.dim1 = 0) (hB : VB.dim1 = 0)
    (R_bot tau : Buf K) (j : Nat) (s : ApplyState K) :
    (apply_pair_step VR VT VB R_bot tau j s).C_top = s.C_top
    ∧ (apply_pair_step VR VT VB R_bot tau j s).C_bot = s.C_bot := by
  constructor
  · have e : (apply_pair_step VR VT VB R_bot tau j s).C_top
        = loop VT.dim1 (fun j_C (C : Buf K) =>
            Function.update C (VT.idx j j_C)
              (C (VT.idx j j_C) - tau (j : Int)
                * (apply_pair_step VR VT VB R_bot tau j s).work (j_C : Int))) s.C_top := rfl
    rw [e, hT]
    rfl
  · have e : (apply_pair_step VR VT VB R_bot tau j s).C_bot
        = GER (-(tau (j : Int))) (ptr R_bot (VR.idx 0 j)) 1
            (apply_pair_step VR VT VB R_bot tau j s).work 1 VB s.C_bot := rfl
    rw [e]
    exact GER_no_columns _ _ _ _ _ _ hB _

end EmptyProblem

/-- C16: `apply_inner` and the public `apply_pair` are no-ops on an empty problem: for either
`applyType` and all other arguments, if `ncols_Q = 0` or `ncols_C = 0` they return with the
buffers `C_top` and `C_bot` unchanged. -/
theorem C16_apply_noop_on_empty_problem (applyType : ApplyType) (m ncols_C ncols_Q : Nat)
    (A : Buf K) (lda : Nat) (R_bot : Buf K) (ldr_bot : Nat) (tau C_top : Buf K) (ldc_top : Nat)
    (C_bot : Buf K) (ldc_bot : Nat) (work : Buf K) (h : ncols_Q = 0 ∨ ncols_C = 0) :
    (apply_inner applyType m ncols_C ncols_Q A lda tau C_top ldc_top C_bot ldc_bot work).C_top
        = C_top
    ∧ (apply_inner applyType m ncols_C ncols_Q A lda tau C_top ldc_top C_bot ldc_bot work).C_bot
        = C_bot
    ∧ (apply_pair applyType ncols_C ncols_Q R_bot ldr_bot tau C_top ldc_top C_bot ldc_bot
        work).C_top = C_top
    ∧ (apply_pair applyType ncols_C ncols_Q R_bot ldr_bot tau C_top ldc_top C_bot ldc_bot
        work).C_bot = C_bot := by
  rcases h with hq | hc
  · subst hq
    refine ⟨?_, ?_, ?_, ?_⟩
    · unfold apply_inner; split_ifs <;> rfl
    · unfold apply_inner; split_ifs <;> rfl
    · unfold apply_pair apply_pair_view; split_ifs <;> rfl
    · unfold apply_pair apply_pair_view; split_ifs <;> rfl
  · subst hc
    have hi := apply_inner_step_no_columns (K := K) m A lda tau ldc_top ldc_bot
    have hp := apply_pair_step_no_columns (K := K) ((View.ofPtr ldr_bot ncols_Q).rows 0 ncols_Q)
      ((View.ofPtr ldc_top 0).rows 0 0) ((View.ofPtr ldc_bot 0).rows 0 0)
      rfl rfl R_bot tau
    refine ⟨?_, ?_, ?_, ?_⟩
    · unfold apply_inner
      split_ifs
      · exact (loopDown_keeps_C _ hi ncols_Q _).1
      · exact (loop_keeps_C _ hi ncols_Q _).1
    · unfold apply_inner
      split_ifs
      · exact (loopDown_keeps_C _ hi ncols_Q _).2
      · exact (loop_keeps_C _ hi ncols_Q _).2
    · unfold apply_pair apply_pair_view
      split_ifs
      · exact (loopDown_keeps_C _ hp _ _).1
      · exact (loop_keeps_C _ hp _ _).1
    · unfold apply_pair apply_pair_view
      split_ifs
      · exact (loopDown_keeps_C _ hp _ _).2
      · exact (loop_keeps_C _ hp _ _).2

/-- Witness for C16: `ncols_C = 0` with `ncols_Q = 2`, `m = 3`, `NoTranspose`. -/
theorem C16_apply_noop_on_empty_problem_witness :
    (apply_inner ApplyType.NoTranspose 3 0 2 (fun p => (p : ℚ)) 3 (fun _ => 1)
        (fun p => (p : ℚ) + 1) 2 (fun _ => 2) 3 (fun _ => 0)).C_top = (fun p : Int => (p : ℚ) + 1)
    ∧ (apply_inner ApplyType.NoTranspose 3 0 2 (fun p => (p : ℚ)) 3 (fun _ => 1)
        (fun p => (p : ℚ) + 1) 2 (fun _ => 2) 3 (fun _ => 0)).C_bot = (fun _ => 2)
    ∧ (apply_pair ApplyType.NoTranspose 0 2 (fun p => (p : ℚ) * 2) 2 (fun _ => 1)
        (fun p => (p : ℚ) + 1) 2 (fun _ => 2) 3 (fun _ => 0)).C_top = (fun p : Int => (p : ℚ) + 1)
    ∧ (apply_pair ApplyType.NoTranspose 0 2 (fun p => (p : ℚ) * 2) 2 (fun _ => 1)
        (fun p => (p : ℚ) + 1) 2 (fun _ => 2) 3 (fun _ => 0)).C_bot = (fun _ => 2) :=
  C16_apply_noop_on_empty_problem ApplyType.NoTranspose 3 0 2 (fun p => (p : ℚ)) 3
    (fun p => (p : ℚ) * 2) 2 (fun _ => 1) (fun p => (p : ℚ) + 1) 2 (fun _ => 2) 3 (fun _ => 0)
    (Or.inr rfl)

section ZeroTail

variable {m n : Nat}

/-- With a zero (cut) column the column step only sets `tau[c] = 0`. -/
theorem factorMatStep_zero_col (sqrt : K → K) (len c : Nat) (hc : c < n) (s : FactorMat K m n)
    (hz : ∀ i : Fin m, (i : Nat) < len → s.A i ⟨c, hc⟩ = 0) :
    factorMatStep sqrt len c s = ⟨s.R, s.A, Function.update s.tau ⟨c, hc⟩ 0⟩ := by
  have hx : (fun i : Fin m => if (i : Nat) < len then s.A i ⟨c, hc⟩ else 0)
      = (fun _ : Fin m => (0 : K)) := by
    funext i
    by_cases hi : (i : Nat) < len
    · rw [if_pos hi, hz i hi]
    · rw [if_neg hi]
  have hl : larfgVec sqrt (s.R ⟨c, hc⟩ ⟨c, hc⟩) (fun _ : Fin m => (0 : K))
      = (s.R ⟨c, hc⟩ ⟨c, hc⟩, fun _ : Fin m => (0 : K), 0) := by
    unfold larfgVec
    rw [if_pos (fun _ => rfl)]
  have h1 : larfgMatStep sqrt len c s = ⟨s.R, s.A, Function.update s.tau ⟨c, hc⟩ 0⟩ := by
    apply FactorMat.ext3
    · funext a j
      simp only [larfgMatStep, dif_pos hc, hx, hl]
      by_cases h : a = ⟨c, hc⟩ ∧ j = ⟨c, hc⟩
      · rw [if_pos h, h.1, h.2]
      · rw [if_neg h]
    · funext i j
      simp only [larfgMatStep, dif_pos hc, hx, hl]
      by_cases h : j = ⟨c, hc⟩ ∧ (i : Nat) < len
      · rw [if_pos h, h.1, hz i h.2]
      · rw [if_neg h]
    · simp only [larfgMatStep, dif_pos hc, hx, hl]
  unfold factorMatStep
  rw [h1]
  apply FactorMat.ext3
  · funext a j
    simp only [trailMatStep, dif_pos hc, Function.update_same, reflTop, zero_mul, sub_zero,
      ite_self]
  · funext i j
    simp only [trailMatStep, dif_pos hc, Function.update_same, reflBot, neg_zero, zero_mul,
      mul_zero, add_zero, ite_self]
  · simp only [trailMatStep, dif_pos hc]

/-- With zero (cut) columns throughout, the sweep keeps `R` and the reflector storage and
sets `tau[0 .. c)` to zero. -/
theorem factorMat_loop_zero (sqrt : K → K) (len : Nat → Nat) (s : FactorMat K m n)
    (hz : ∀ (c : Nat) (hc : c < n) (i : Fin m), (i : Nat) < len c → s.A i ⟨c, hc⟩ = 0)
    (c : Nat) (hc : c ≤ n) :
    (loop c (fun k t => factorMatStep sqrt (len k) k t) s).R = s.R
    ∧ (loop c (fun k t => factorMatStep sqrt (len k) k t) s).A = s.A
    ∧ (∀ j : Fin n, (j : Nat) < c →
        (loop c (fun k t => factorMatStep sqrt (len k) k t) s).tau j = 0) := by
  induction c with
  | zero => exact ⟨rfl, rfl, fun j hj => absurd hj (Nat.not_lt_zero _)⟩
  | succ c ih =>
    obtain ⟨i1, i2, i3⟩ := ih (by omega)
    have hcn : c < n := by omega
    rw [loop_succ]
    rw [factorMatStep_zero_col sqrt (len c) c hcn _ (fun i hi => by rw [i2]; exact hz c hcn i hi)]
    refine ⟨i1, i2, fun j hj => ?_⟩
    simp only []
    by_cases hjc : j = ⟨c, hcn⟩
    · rw [hjc, Function.update_same]
    · rw [Function.update_noteq hjc]
      apply i3
      have hne : (j : Nat) ≠ c := fun h => hjc (Fin.ext h)
      exact lt_of_le_of_ne (Nat.le_of_lt_succ hj) hne

end ZeroTail

/-- C12: `factor_pair` with a zero bottom factor is the identity.  With `LARFG` by its
contract (a zero tail gives `tau = 0` and leaves `alpha` and the tail unchanged; any function
may stand for the square root), for `n ≥ 1` and every `R_top`, if every entry in the upper
triangle of `R_bot` (diagonal included) is zero, then `factor_pair` returns, leaves the
buffers `R_top` and `R_bot` unchanged and sets `tau[k] = 0` for every `k < n`. -/
theorem C12_factor_pair_zero_bottom_is_identity (sqrt : K → K) (n : Nat) (hn : 1 ≤ n)
    (R_top : Buf K) (ldr_top : Nat) (R_bot : Buf K) (ldr_bot : Nat) (tau work : Buf K)
    (hldt : n ≤ ldr_top) (hldb : n ≤ ldr_bot)
    (hz : ∀ i j : Nat, i ≤ j → j < n → R_bot ((i : Int) + (j : Int) * (ldr_bot : Int)) = 0) :
    ∃ out, factor_pair sqrt n R_top ldr_top R_bot ldr_bot tau work = Except.ok out
      ∧ out.R_top = R_top ∧ out.R_bot = R_bot
      ∧ ∀ k : Nat, k < n → out.tau (k : Int) = 0 := by
  obtain ⟨out, h1, h2, h3, h4, _⟩ :=
    factor_pair_read sqrt n hn R_top ldr_top R_bot ldr_bot tau work hldt hldb
  obtain ⟨z1, z2, z3⟩ := factorMat_loop_zero sqrt (fun k => k + 1)
    (⟨readMat R_top ldr_top n n, readMat R_bot ldr_bot n n, readVec tau n⟩ : FactorMat K n n)
    (fun c hc i hi => hz i c (Nat.le_of_lt_succ hi) hc) n le_rfl
  rw [← h2] at z1 z2 z3
  exact ⟨out, h1, buf_eq_of_read _ _ ldr_top n n z1 h3, buf_eq_of_read _ _ ldr_bot n n z2 h4,
    fun k hk => z3 ⟨k, hk⟩ hk⟩

/-- Witness for C12: `n = 2`, `R_top = [[4, 3], [0, 5]]` (column-major `[4, 0, 3, 5]`),
`R_bot = 0`: `R_top` comes back and `tau = [0, 0]`. -/
theorem C12_factor_pair_zero_bottom_is_identity_witness :
    ∃ out, factor_pair (fun x : ℚ => x) 2
          (fun p => if p = 0 then 4 else if p = 2 then 3 else if p = 3 then 5 else 0) 2
          (fun _ => 0) 2 (fun _ => 7) (fun _ => 9) = Except.ok out
      ∧ out.R_top
          = (fun p : Int => if p = 0 then (4 : ℚ) else if p = 2 then 3 else if p = 3 then 5 else 0)
      ∧ out.R_bot = (fun _ : Int => (0 : ℚ))
      ∧ ∀ k : Nat, k < 2 → out.tau (k : Int) = 0 :=
  C12_factor_pair_zero_bottom_is_identity (fun x : ℚ => x) 2 (by decide)
    (fun p => if p = 0 then 4 else if p = 2 then 3 else if p = 3 then 5 else 0) 2
    (fun _ => 0) 2 (fun _ => 7) (fun _ => 9) (by decide) (by decide) (fun _ _ _ _ => rfl)

/-- C13: `factor_inner` with a zero block `A` is the identity.  With `LARFG` by its contract
(any function may stand for the square root), for `m ≥ 0`, `n ≥ 1` and every `n × n` matrix
`R`, if `A` is the `m × n` zero matrix then `factor_inner` returns, leaves the buffers `R`
and `A` unchanged (so `A` is still zero) and sets `tau[k] = 0` for every `k < n`. -/
theorem C13_factor_inner_zero_block_is_identity (sqrt : K → K) (m n : Nat) (hn : 1 ≤ n)
    (R : Buf K) (ldr : Nat) (A : Buf K) (lda : Nat) (tau work : Buf K) (hldr : n ≤ ldr)
    (hlda : m ≤ lda)
    (hz : ∀ i j : Nat, i < m → j < n → A ((i : Int) + (j : Int) * (lda : Int)) = 0) :
    ∃ out, factor_inner sqrt m n R ldr A lda tau work = Except.ok out
      ∧ out.R = R ∧ out.A = A
      ∧ (∀ i j : Nat, i < m → j < n → out.A ((i : Int) + (j : Int) * (lda : Int)) = 0)
      ∧ ∀ k : Nat, k < n → out.tau (k : Int) = 0 := by
  obtain ⟨out, h1, h2, h3, h4, _⟩ :=
    factor_inner_read sqrt m n hn R ldr A lda tau work hldr hlda
  obtain ⟨z1, z2, z3⟩ := factorMat_loop_zero sqrt (fun _ => m)
    (⟨readMat R ldr n n, readMat A lda m n, readVec tau n⟩ : FactorMat K m n)
    (fun c hc i _ => hz i c i.2 hc) n le_rfl
  rw [← h2] at z1 z2 z3
  have hA : out.A = A := buf_eq_of_read _ _ lda m n z2 h4
  exact ⟨out, h1, buf_eq_of_read _ _ ldr n n z1 h3, hA,
    fun i j hi hj => by rw [hA]; exact hz i j hi hj, fun k hk => z3 ⟨k, hk⟩ hk⟩

/-- Witness for C13: `R = I_3` (`n = 3`, column-major with `ldr = 3`) and `A = 0` with
`m = 2`. -/
theorem C13_factor_inner_zero_block_is_identity_witness :
    ∃ out, factor_inner (fun x : ℚ => x) 2 3
          (fun p => if p = 0 ∨ p = 4 ∨ p = 8 then 1 else 0) 3 (fun _ => 0) 2
          (fun _ => 7) (fun _ => 9) = Except.ok out
      ∧ out.R = (fun p : Int => if p = 0 ∨ p = 4 ∨ p = 8 then (1 : ℚ) else 0)
      ∧ out.A = (fun _ : Int => (0 : ℚ))
      ∧ (∀ i j : Nat, i < 2 → j < 3 → out.A ((i : Int) + (j : Int) * ((2 : Nat) : Int)) = 0)
      ∧ ∀ k : Nat, k < 3 → out.tau (k : Int) = 0 :=
  C13_factor_inner_zero_block_is_identity (fun x : ℚ => x) 2 3 (by decide)
    (fun p => if p = 0 ∨ p = 4 ∨ p = 8 then 1 else 0) 3 (fun _ => 0) 2
    (fun _ => 7) (fun _ => 9) (by decide) (by decide) (fun _ _ _ _ => rfl)

/-- Reflector generation of length 2: the tail is the single entry `x[0]`. -/
theorem LARFG_two (sqrt : K → K) (alpha : K) (x : Buf K) :
    LARFG sqrt 2 alpha x
      = if x 0 = 0 then (alpha, x, 0)
        else
          (-((if 0 ≤ alpha then 1 else -1) * sqrt (alpha * alpha + x 0 * x 0)),
            fun p => if 0 ≤ p ∧ p < 1 then
              x p / (alpha - -((if 0 ≤ alpha then 1 else -1) * sqrt (alpha * alpha + x 0 * x 0)))
              else x p,
            (-((if 0 ≤ alpha then 1 else -1) * sqrt (alpha * alpha + x 0 * x 0)) - alpha)
              / -((if 0 ≤ alpha then 1 else -1) * sqrt (alpha * alpha + x 0 * x 0))) := by
  have hc : (∀ i : Nat, i < 2 - 1 → x (i : Int) = 0) ↔ x 0 = 0 := by
    constructor
    · intro h
      exact h 0 (by decide)
    · intro h i hi
      have hi0 : i = 0 := by omega
      rw [hi0]
      exact h
  unfold LARFG
  by_cases h : x 0 = 0
  · rw [if_pos (hc.2 h), if_pos h]
  · rw [if_neg (fun hh => h (hc.1 hh)), if_neg h]
    simp [loop]

/-- For `n = 1` the raw-buffer `factor_pair` is one `LARFG` of length 2 on
`(R_top[0], R_bot[0 ..])` after zeroing `work[0]`. -/
theorem factor_pair_one (sqrt : K → K) (R_top : Buf K) (ldr_top : Nat) (R_bot : Buf K)
    (ldr_bot : Nat) (tau work : Buf K) :
    factor_pair sqrt 1 R_top ldr_top R_bot ldr_bot tau work
      = Except.ok ⟨Function.update R_top 0 (LARFG sqrt 2 (R_top 0) (ptr R_bot 0)).1,
          poke R_bot 0 1 (LARFG sqrt 2 (R_top 0) (ptr R_bot 0)).2.1,
          Function.update tau 0 (LARFG sqrt 2 (R_top 0) (ptr R_bot 0)).2.2,
          Function.update work 0 0⟩ := by
  rw [factor_pair_eq_view]
  simp [factor_pair_view, loopM, loop, View.idx]

/-- C14: boundary `n = 1` of `factor_pair`, in exact real arithmetic.  The routine returns
and is exactly one reflector generation `LARFG` of length 2 on
`(alpha, x) = (R_top[0,0], R_bot[0,0])` (besides zeroing `work[0]`): every other entry of
`R_top`, `R_bot` and `tau` is kept.  If `x = 0` then `tau[0] = 0` and both entries are
unchanged; if `x ≠ 0` then `R_top[0,0]` becomes
`beta = -sign(alpha) * sqrt (alpha^2 + x^2)` with `sign(0) = +1`, `tau[0] = (beta - alpha)/beta`
and `R_bot[0,0]` becomes `x/(alpha - beta)`; for `alpha ≥ 0` and `x ≠ 0` the new diagonal
`R_top[0,0]` is strictly negative. -/
theorem C14_factor_pair_single_column (R_top : Buf ℝ) (ldr_top : Nat) (R_bot : Buf ℝ)
    (ldr_bot : Nat) (tau work : Buf ℝ) :
    ∃ out, factor_pair Real.sqrt 1 R_top ldr_top R_bot ldr_bot tau work = Except.ok out
      ∧ out.R_top = Function.update R_top 0 (LARFG Real.sqrt 2 (R_top 0) (ptr R_bot 0)).1
      ∧ out.R_bot = Function.update R_bot 0 ((LARFG Real.sqrt 2 (R_top 0) (ptr R_bot 0)).2.1 0)
      ∧ out.tau = Function.update tau 0 (LARFG Real.sqrt 2 (R_top 0) (ptr R_bot 0)).2.2
      ∧ out.work = Function.update work 0 0
      ∧ (R_bot 0 = 0 → out.tau 0 = 0 ∧ out.R_top 0 = R_top 0 ∧ out.R_bot 0 = R_bot 0)
      ∧ (R_bot 0 ≠ 0 →
          out.R_top 0
            = -((if 0 ≤ R_top 0 then 1 else -1) * Real.sqrt (R_top 0 ^ 2 + R_bot 0 ^ 2))
          ∧ out.tau 0 = (out.R_top 0 - R_top 0) / out.R_top 0
          ∧ out.R_bot 0 = R_bot 0 / (R_top 0 - out.R_top 0))
      ∧ (0 ≤ R_top 0 → R_bot 0 ≠ 0 → out.R_top 0 < 0) := by
  have hp : ptr R_bot 0 0 = R_bot 0 := by simp [ptr]
  have hL := LARFG_two Real.sqrt (R_top 0) (ptr R_bot 0)
  rw [hp] at hL
  have hpoke : ∀ x : Buf ℝ, poke R_bot 0 1 x = Function.update R_bot 0 (x 0) := by
    intro x
    funext q
    unfold poke
    by_cases hq : q = 0
    · rw [hq, Function.update_same, if_pos (by constructor <;> norm_num), sub_zero]
    · rw [Function.update_noteq hq, if_neg]
      intro hh
      apply hq
      have h2 : q < 0 + ((1 : Nat) : Int) := hh.2
      have h3 : q < 1 := by simpa using h2
      omega
  refine ⟨_, factor_pair_one Real.sqrt R_top ldr_top R_bot ldr_bot tau work, rfl, hpoke _, rfl,
    rfl, ?_, ?_, ?_⟩
  · intro hx
    rw [if_pos hx] at hL
    simp only [Function.update_same, hpoke, hL, hp]
    exact ⟨trivial, trivial, trivial⟩
  · intro hx
    rw [if_neg hx] at hL
    simp only [Function.update_same, hpoke, hL, hp]
    refine ⟨?_, trivial, ?_⟩
    · rw [pow_two, pow_two]
    · simp
  · intro ha hx
    rw [if_neg hx] at hL
    simp only [Function.update_same, hL, if_pos ha, one_mul]
    have hpos : 0 < R_top 0 * R_top 0 + R_bot 0 * R_bot 0 := by
      have h1 : 0 < R_bot 0 * R_bot 0 := mul_self_pos.2 hx
      have h2 : 0 ≤ R_top 0 * R_top 0 := mul_self_nonneg _
      linarith
    have := Real.sqrt_pos.2 hpos
    linarith

/-- Witness for C14: `alpha = 3`, `x = 4` (both hypotheses `0 ≤ alpha` and `x ≠ 0` hold): the
routine returns and the new diagonal is strictly negative. -/
theorem C14_factor_pair_single_column_witness :
    (0 : ℝ) ≤ 3 ∧ (4 : ℝ) ≠ 0
      ∧ ∃ out, factor_pair Real.sqrt 1 (fun _ => (3 : ℝ)) 1 (fun _ => (4 : ℝ)) 1 (fun _ => 0)
            (fun _ => 0) = Except.ok out
          ∧ out.R_top 0 < 0 := by
  obtain ⟨out, h, _, _, _, _, _, _, h7⟩ :=
    C14_factor_pair_single_column (fun _ => (3 : ℝ)) 1 (fun _ => (4 : ℝ)) 1 (fun _ => 0)
      (fun _ => 0)
  exact ⟨by norm_num, by norm_num, out, h, h7 (by norm_num) (by norm_num)⟩

/-- For `n = 0` both loops of `factor_inner` are empty and the closing `LARFG` runs on
`R[(n-1) + (n-1)*ldr] = R[-1 - ldr]`, `A[(n-1)*lda ..] = A[-lda ..]` and `tau[n-1] = tau[-1]`. -/
theorem factor_inner_zero_cols (sqrt : K → K) (m : Nat) (R : Buf K) (ldr : Nat) (A : Buf K)
    (lda : Nat) (tau work : Buf K) :
    factor_inner sqrt m 0 R ldr A lda tau work
      = Except.ok
          ⟨Function.update R (-1 + -1 * (ldr : Int))
              (LARFG sqrt (m + 1) (R (-1 + -1 * (ldr : Int))) (ptr A (-1 * (lda : Int)))).1,
            poke A (-1 * (lda : Int)) m
              (LARFG sqrt (m + 1) (R (-1 + -1 * (ldr : Int))) (ptr A (-1 * (lda : Int)))).2.1,
            Function.update tau (-1)
              (LARFG sqrt (m + 1) (R (-1 + -1 * (ldr : Int))) (ptr A (-1 * (lda : Int)))).2.2,
            work⟩ := by
  simp [factor_inner, loopM, loop]

/-- For `n = 0` both loops of `factor_pair` are empty and the closing `LARFG` (of length 1)
runs on `R_top (-1, -1)`, `&R_bot (0, -1)` and `tau[-1]`. -/
theorem factor_pair_zero_cols (sqrt : K → K) (R_top : Buf K) (ldr_top : Nat) (R_bot : Buf K)
    (ldr_bot : Nat) (tau work : Buf K) :
    factor_pair sqrt 0 R_top ldr_top R_bot ldr_bot tau work
      = Except.ok
          ⟨Function.update R_top (-1 + -1 * (ldr_top : Int))
              (LARFG sqrt 1 (R_top (-1 + -1 * (ldr_top : Int)))
                (ptr R_bot (-1 * (ldr_bot : Int)))).1,
            poke R_bot (-1 * (ldr_bot : Int)) 0
              (LARFG sqrt 1 (R_top (-1 + -1 * (ldr_top : Int)))
                (ptr R_bot (-1 * (ldr_bot : Int)))).2.1,
            Function.update tau (-1)
              (LARFG sqrt 1 (R_top (-1 + -1 * (ldr_top : Int)))
                (ptr R_bot (-1 * (ldr_bot : Int)))).2.2,
            work⟩ := by
  rw [factor_pair_eq_view]
  simp [factor_pair_view, loopM, loop, View.idx]

/-- C17 (code at the failing input `n = 0`): the closing reflector generation of
`factor_inner` and `factor_pair` is not guarded by `n ≥ 1`.  With `m = 1`, `n = 0`,
`ldr = lda = 1` (a well-shaped empty problem: `R`, `A`, `tau`, `work` hold no entry), memory
before `R` holding `4`, memory before `A` holding `3`, and the square root returning `5` on
`4² + 3²`, `factor_inner` returns after overwriting `R[-2]` with `-5`, `A[-1]` with `1/3` and
`tau[-1]` with `9/5`; `factor_pair` with `n = 0` and `ldr_top = ldr_bot = 0` overwrites
`tau[-1]` (holding `7`) with `0`. -/
theorem C17_factor_empty_problem_touches_memory_before_buffers :
    (∃ out, factor_inner (fun _ : ℚ => 5) 1 0 (fun _ => 4) 1 (fun _ => 3) 1 (fun _ => 7)
          (fun _ => 9) = Except.ok out
        ∧ out.R (-2) = -5 ∧ out.A (-1) = 1 / 3 ∧ out.tau (-1) = 9 / 5)
    ∧ (∃ out, factor_pair (fun _ : ℚ => 5) 0 (fun _ => 4) 0 (fun _ => 3) 0 (fun _ => 7)
          (fun _ => 9) = Except.ok out
        ∧ out.tau (-1) = 0) := by
  constructor
  · refine ⟨_, factor_inner_zero_cols _ 1 _ 1 _ 1 _ _, ?_, ?_, ?_⟩
    · simp [LARFG, loop, ptr]
    · simp [LARFG, loop, ptr, poke]
      norm_num
    · simp [LARFG, loop, ptr]
      norm_num
  · refine ⟨_, factor_pair_zero_cols _ _ 0 _ 0 _ _, ?_⟩
    simp [LARFG]

/-- C18 (code at the failing input): `ncols_Q = 1`, `ncols_C = 2`, all leading dimensions 1,
so `R_bot` holds one entry (`R_bot[0] = 1`, a valid reflector with `tau[0] = 1`) and `C_top`,
`C_bot` hold two entries each (`C_top = [1, 1]`, `C_bot = [0, 0]`).  The public `apply_pair`
cuts the one-row view of `C_bot` to the row range `(0, 2)`, `GER` then reads `R_bot[1]`
(past the buffer: the result changes with the value stored there) and writes `C_bot[2]`
(past the buffer: it goes from `0` to `-1`). -/
theorem C18_apply_pair_wide_C_leaves_buffers :
    ((View.ofPtr 1 2).rows 0 2).dim0 = 2
    ∧ (apply_pair ApplyType.Transpose 2 1 (fun p => if p = 0 ∨ p = 1 then (1 : ℚ) else 0) 1
        (fun p => if p = 0 then 1 else 0) (fun p => if p = 0 ∨ p = 1 then 1 else 0) 1
        (fun _ => 0) 1 (fun _ => 0)).C_bot 2 = -1
    ∧ (apply_pair ApplyType.Transpose 2 1 (fun p => if p = 0 ∨ p = 1 then (1 : ℚ) else 0) 1
        (fun p => if p = 0 then 1 else 0) (fun p => if p = 0 ∨ p = 1 then 1 else 0) 1
        (fun _ => 0) 1 (fun _ => 0)).C_bot 1 = -2
    ∧ (apply_pair ApplyType.Transpose 2 1 (fun p => if p = 0 then (1 : ℚ) else 0) 1
        (fun p => if p = 0 then 1 else 0) (fun p => if p = 0 ∨ p = 1 then 1 else 0) 1
        (fun _ => 0) 1 (fun _ => 0)).C_bot 1 = -1 := by
  refine ⟨rfl, ?_, ?_, ?_⟩
  · simp [apply_pair, apply_pair_view, apply_pair_step, GER, loop, View.idx, View.rows,
      View.subview, View.ofPtr, ptr, Function.update]
  · simp [apply_pair, apply_pair_view, apply_pair_step, GER, loop, View.idx, View.rows,
      View.subview, View.ofPtr, ptr, Function.update]
    norm_num
  · simp [apply_pair, apply_pair_view, apply_pair_step, GER, loop, View.idx, View.rows,
      View.subview, View.ofPtr, ptr, Function.update]

section LarfgNorm

/-- The two cases of the contract of `LARFG`: a zero tail is left alone; otherwise the new
leading entry `beta` has `beta² = alpha² + |x|²`, and `beta` and `alpha - beta` are nonzero. -/
theorem larfgVec_cases (sqrt : K → K) (hs : IsSqrt sqrt) {m : Nat} (alpha : K) (x : Fin m → K) :
    ((∀ i, x i = 0) ∧ larfgVec sqrt alpha x = (alpha, x, 0))
    ∨ ∃ beta : K, larfgVec sqrt alpha x
          = (beta, fun i => x i / (alpha - beta), (beta - alpha) / beta)
        ∧ beta * beta = alpha * alpha + ∑ i, x i * x i ∧ alpha - beta ≠ 0 ∧ beta ≠ 0 := by
  by_cases hz : ∀ i, x i = 0
  · left
    refine ⟨hz, ?_⟩
    unfold larfgVec
    rw [if_pos hz]
  · right
    obtain ⟨S, hS⟩ : ∃ S, S = ∑ i, x i * x i := ⟨_, rfl⟩
    have hS0 : 0 ≤ S := by
      rw [hS]
      exact Finset.sum_nonneg (fun i _ => mul_self_nonneg (x i))
    have hSne : S ≠ 0 := by
      intro h0
      apply hz
      intro i
      have := (Finset.sum_eq_zero_iff_of_nonneg (fun i _ => mul_self_nonneg (x i))).1
        (hS ▸ h0) i (Finset.mem_univ i)
      exact mul_self_eq_zero.1 this
    have hSpos : 0 < S := lt_of_le_of_ne hS0 (Ne.symm hSne)
    have hN : 0 < alpha * alpha + S := add_pos_of_nonneg_of_pos (mul_self_nonneg alpha) hSpos
    obtain ⟨hrt0, hrt⟩ := hs (alpha * alpha + S) hN.le
    have hrtne : sqrt (alpha * alpha + S) ≠ 0 := by
      intro h0
      rw [h0, mul_zero] at hrt
      exact absurd hrt.symm (ne_of_gt hN)
    have hrtpos : 0 < sqrt (alpha * alpha + S) := lt_of_le_of_ne hrt0 (Ne.symm hrtne)
    obtain ⟨beta, hbeta⟩ : ∃ beta : K,
        beta = -((if 0 ≤ alpha then 1 else -1) * sqrt (alpha * alpha + S)) := ⟨_, rfl⟩
    have hbb : beta * beta = alpha * alpha + S := by
      rw [hbeta]
      by_cases ha : 0 ≤ alpha
      · rw [if_pos ha]; linear_combination hrt
      · rw [if_neg ha]; linear_combination hrt
    have hd : alpha - beta ≠ 0 := by
      rw [hbeta]
      by_cases ha : 0 ≤ alpha
      · rw [if_pos ha]
        have : 0 < alpha - -(1 * sqrt (alpha * alpha + S)) := by linarith
        exact ne_of_gt this
      · rw [if_neg ha]
        have ha2 : alpha < 0 := not_le.1 ha
        have : alpha - -(-1 * sqrt (alpha * alpha + S)) < 0 := by linarith
        exact ne_of_lt this
    have hb : beta ≠ 0 := by
      intro h0
      rw [h0, mul_zero] at hbb
      exact absurd hbb.symm (ne_of_gt hN)
    refine ⟨beta, ?_, hS ▸ hbb, hd, hb⟩
    unfold larfgVec
    rw [if_neg hz, hbeta, hS]

/-- The leading entry produced by `LARFG` carries the norm of `(alpha, x)`. -/
theorem larfgVec_norm (sqrt : K → K) (hs : IsSqrt sqrt) {m : Nat} (alpha : K) (x : Fin m → K) :
    (larfgVec sqrt alpha x).1 * (larfgVec sqrt alpha x).1 = alpha * alpha + ∑ i, x i * x i := by
  rcases larfgVec_cases sqrt hs alpha x with ⟨hz, e⟩ | ⟨beta, e, hbb, _, _⟩
  · rw [e]
    have : (∑ i, x i * x i) = 0 := Finset.sum_eq_zero (fun i _ => by rw [hz i, mul_zero])
    rw [this, add_zero]
  · rw [e]
    exact hbb

/-- The reflector produced by `LARFG` is valid: `tau = 0` or `tau · (1 + |v|²) = 2`. -/
theorem larfgVec_valid (sqrt : K → K) (hs : IsSqrt sqrt) {m : Nat} (alpha : K) (x : Fin m → K) :
    (larfgVec sqrt alpha x).2.2 = 0
    ∨ (larfgVec sqrt alpha x).2.2
        * (1 + ∑ i, (larfgVec sqrt alpha x).2.1 i * (larfgVec sqrt alpha x).2.1 i) = 2 := by
  rcases larfgVec_cases sqrt hs alpha x with ⟨_, e⟩ | ⟨beta, e, hbb, hd, hb⟩
  · left
    rw [e]
  · right
    rw [e]
    simp only []
    have hsum : (∑ i, x i / (alpha - beta) * (x i / (alpha - beta)))
        = (∑ i, x i * x i) / ((alpha - beta) * (alpha - beta)) := by
      rw [Finset.sum_div]
      apply Finset.sum_congr rfl
      intro i _
      field_simp
    rw [hsum]
    have hS : (∑ i, x i * x i) = beta * beta - alpha * alpha := by rw [hbb]; ring
    rw [hS]
    field_simp
    ring

/-- A valid reflector keeps the sum of squares of the pair `(r, a)` it acts on. -/
theorem refl_isometry {m : Nat} (t : K) (v a : Fin m → K) (r : K)
    (ht : t = 0 ∨ t * (1 + ∑ k, v k * v k) = 2) :
    (r - t * ((∑ k, v k * a k) + r)) * (r - t * ((∑ k, v k * a k) + r))
      + ∑ k, (a k + v k * (-t * ((∑ k, v k * a k) + r)))
          * (a k + v k * (-t * ((∑ k, v k * a k) + r)))
      = r * r + ∑ k, a k * a k := by
  obtain ⟨w, hw⟩ : ∃ w, w = (∑ k, v k * a k) + r := ⟨_, rfl⟩
  rw [← hw]
  have hexp : (∑ k, (a k + v k * (-t * w)) * (a k + v k * (-t * w)))
      = (∑ k, a k * a k) + 2 * (-t * w) * (∑ k, v k * a k)
        + (-t * w) * (-t * w) * (∑ k, v k * v k) := by
    rw [Finset.mul_sum, Finset.mul_sum, ← Finset.sum_add_distrib, ← Finset.sum_add_distrib]
    apply Finset.sum_congr rfl
    intro k _
    ring
  rw [hexp]
  have hva : (∑ k, v k * a k) = w - r := by rw [hw]; ring
  rw [hva]
  rcases ht with h0 | h2
  · rw [h0]
    ring
  · have : t * w * w * (t * (1 + ∑ k, v k * v k) - 2) = 0 := by
      rw [h2]; ring
    linear_combination this

end LarfgNorm

section PairNorm

variable {m n : Nat}

/-- Entries of a matrix-level column step with cut length `len`, written out: column `c`
of `R` gets the new leading entry, the columns `j > c` get the reflector. -/
theorem factorMatStep_entries (sqrt : K → K) (len c : Nat) (hc : c < n) (s : FactorMat K m n) :
    (∀ a : Fin n, (factorMatStep sqrt len c s).R a ⟨c, hc⟩
        = if a = ⟨c, hc⟩ then
            (larfgVec sqrt (s.R ⟨c, hc⟩ ⟨c, hc⟩)
              (fun i => if (i : Nat) < len then s.A i ⟨c, hc⟩ else 0)).1
          else s.R a ⟨c, hc⟩)
    ∧ (∀ (j : Fin n), c < (j : Nat) → ∀ a : Fin n, (factorMatStep sqrt len c s).R a j
        = if a = ⟨c, hc⟩ then
            s.R ⟨c, hc⟩ j
              - (larfgVec sqrt (s.R ⟨c, hc⟩ ⟨c, hc⟩)
                  (fun i => if (i : Nat) < len then s.A i ⟨c, hc⟩ else 0)).2.2
                * ((∑ k, (larfgVec sqrt (s.R ⟨c, hc⟩ ⟨c, hc⟩)
                    (fun i => if (i : Nat) < len then s.A i ⟨c, hc⟩ else 0)).2.1 k * s.A k j)
                  + s.R ⟨c, hc⟩ j)
          else s.R a j)
    ∧ (∀ (j : Fin n), c < (j : Nat) → ∀ i : Fin m, (factorMatStep sqrt len c s).A i j
        = s.A i j
          + (larfgVec sqrt (s.R ⟨c, hc⟩ ⟨c, hc⟩)
              (fun i => if (i : Nat) < len then s.A i ⟨c, hc⟩ else 0)).2.1 i
            * (-(larfgVec sqrt (s.R ⟨c, hc⟩ ⟨c, hc⟩)
                  (fun i => if (i : Nat) < len then s.A i ⟨c, hc⟩ else 0)).2.2
                * ((∑ k, (larfgVec sqrt (s.R ⟨c, hc⟩ ⟨c, hc⟩)
                    (fun i => if (i : Nat) < len then s.A i ⟨c, hc⟩ else 0)).2.1 k * s.A k j)
                  + s.R ⟨c, hc⟩ j))) := by
  obtain ⟨x, hx⟩ : ∃ x : Fin m → K,
      x = fun i : Fin m => if (i : Nat) < len then s.A i ⟨c, hc⟩ else 0 :=
    ⟨_, rfl⟩
  rw [← hx]
  have hv : (fun i : Fin m =>
      if (i : Nat) < len then (larfgVec sqrt (s.R ⟨c, hc⟩ ⟨c, hc⟩) x).2.1 i else 0)
      = (larfgVec sqrt (s.R ⟨c, hc⟩ ⟨c, hc⟩) x).2.1 := by
    funext i
    by_cases hi : (i : Nat) < len
    · rw [if_pos hi]
    · rw [if_neg hi]
      symm
      apply larfgVec_zero_entry
      rw [hx]
      exact if_neg hi
  have hnlt : ¬ ((⟨c, hc⟩ : Fin n) < ⟨c, hc⟩) := lt_irrefl _
  have hv2 : ∀ k : Fin m,
      (if (k : Nat) < len then
          if True ∧ (k : Nat) < len then (larfgVec sqrt (s.R ⟨c, hc⟩ ⟨c, hc⟩) x).2.1 k
          else s.A k ⟨c, hc⟩
        else 0) = (larfgVec sqrt (s.R ⟨c, hc⟩ ⟨c, hc⟩) x).2.1 k := by
    intro k
    by_cases hk : (k : Nat) < len
    · rw [if_pos hk, if_pos ⟨trivial, hk⟩]
    · rw [if_neg hk]
      exact (congrFun hv k).symm.trans (if_neg hk) |>.symm
  refine ⟨fun a => ?_, fun j hj a => ?_, fun j hj i => ?_⟩
  · simp only [factorMatStep, trailMatStep, larfgMatStep, dif_pos hc, ← hx, if_neg hnlt,
      and_true]
  · have hlt : (⟨c, hc⟩ : Fin n) < j := hj
    have hne : j ≠ ⟨c, hc⟩ := fun h => by rw [h] at hj; exact lt_irrefl _ hj
    simp only [factorMatStep, trailMatStep, larfgMatStep, dif_pos hc, ← hx, if_pos hlt,
      reflTop, reflW, hne, and_false, false_and, if_false, Function.update_same, and_self,
      if_true]
    by_cases ha : a = ⟨c, hc⟩
    · simp only [if_pos ha, ha, hv2]
    · simp only [if_neg ha]
  · have hlt : (⟨c, hc⟩ : Fin n) < j := hj
    have hne : j ≠ ⟨c, hc⟩ := fun h => by rw [h] at hj; exact lt_irrefl _ hj
    simp only [factorMatStep, trailMatStep, larfgMatStep, dif_pos hc, ← hx, if_pos hlt,
      reflBot, reflW, hne, and_false, false_and, if_false, Function.update_same, and_self,
      if_true]
    simp only [hv2]

/-- Column step `c` of `factor_pair` on column `c` itself: the upper part of the column of
`R` takes over the squares of the upper part of the column of the reflector storage. -/
theorem factorMatStep_pair_colSq_diag (sqrt : K → K) (hs : IsSqrt sqrt) (c : Nat) (hc : c < n)
    (s : FactorMat K n n) :
    upperColSq (factorMatStep sqrt (c + 1) c s).R ⟨c, hc⟩
      = upperColSq s.R ⟨c, hc⟩ + upperColSq s.A ⟨c, hc⟩ := by
  obtain ⟨e1, _, _⟩ := factorMatStep_entries sqrt (c + 1) c hc s
  have hnorm := larfgVec_norm sqrt hs (s.R ⟨c, hc⟩ ⟨c, hc⟩)
    (fun i : Fin n => if (i : Nat) < c + 1 then s.A i ⟨c, hc⟩ else 0)
  generalize (larfgVec sqrt (s.R ⟨c, hc⟩ ⟨c, hc⟩)
    (fun i : Fin n => if (i : Nat) < c + 1 then s.A i ⟨c, hc⟩ else 0)).1 = b at e1 hnorm
  have hA : upperColSq s.A ⟨c, hc⟩
      = ∑ i : Fin n, (if (i : Nat) < c + 1 then s.A i ⟨c, hc⟩ else 0)
          * (if (i : Nat) < c + 1 then s.A i ⟨c, hc⟩ else 0) := by
    unfold upperColSq
    apply Finset.sum_congr rfl
    intro i _
    by_cases hi : (i : Nat) ≤ c
    · rw [if_pos hi, if_pos (Nat.lt_succ_of_le hi)]
    · rw [if_neg hi, if_neg (fun h => hi (Nat.le_of_lt_succ h)), mul_zero]
  have hR : upperColSq (factorMatStep sqrt (c + 1) c s).R ⟨c, hc⟩ - upperColSq s.R ⟨c, hc⟩
      = ∑ a : Fin n, if a = ⟨c, hc⟩ then b * b - s.R ⟨c, hc⟩ ⟨c, hc⟩ * s.R ⟨c, hc⟩ ⟨c, hc⟩
          else 0 := by
    unfold upperColSq
    rw [← Finset.sum_sub_distrib]
    apply Finset.sum_congr rfl
    intro a _
    rw [e1 a]
    by_cases ha : a = ⟨c, hc⟩
    · simp only [ha, if_true, le_refl]
    · rw [if_neg ha, if_neg ha, sub_self]
  simp only [Finset.sum_ite_eq', Finset.mem_univ, if_true] at hR
  rw [hA]
  linear_combination hR + hnorm

/-- Column step `c` of `factor_pair` on a later column `j > c`: the reflector keeps the sum
of the squares of the upper parts of the columns of `R` and of the reflector storage. -/
theorem factorMatStep_pair_colSq_trail (sqrt : K → K) (hs : IsSqrt sqrt) (c : Nat) (hc : c < n)
    (s : FactorMat K n n) (j : Fin n) (hj : c < (j : Nat)) :
    upperColSq (factorMatStep sqrt (c + 1) c s).R j
        + upperColSq (factorMatStep sqrt (c + 1) c s).A j
      = upperColSq s.R j + upperColSq s.A j := by
  obtain ⟨_, e2, e3⟩ := factorMatStep_entries sqrt (c + 1) c hc s
  have hval := larfgVec_valid sqrt hs (s.R ⟨c, hc⟩ ⟨c, hc⟩)
    (fun i : Fin n => if (i : Nat) < c + 1 then s.A i ⟨c, hc⟩ else 0)
  have hv0 : ∀ k : Fin n, (j : Nat) < (k : Nat) →
      (larfgVec sqrt (s.R ⟨c, hc⟩ ⟨c, hc⟩)
        (fun i : Fin n => if (i : Nat) < c + 1 then s.A i ⟨c, hc⟩ else 0)).2.1 k = 0 := by
    intro k hk
    apply larfgVec_zero_entry
    exact if_neg (by omega)
  generalize (larfgVec sqrt (s.R ⟨c, hc⟩ ⟨c, hc⟩)
    (fun i : Fin n => if (i : Nat) < c + 1 then s.A i ⟨c, hc⟩ else 0)).2.2 = t
    at e2 e3 hval
  generalize (larfgVec sqrt (s.R ⟨c, hc⟩ ⟨c, hc⟩)
    (fun i : Fin n => if (i : Nat) < c + 1 then s.A i ⟨c, hc⟩ else 0)).2.1 = v
    at e2 e3 hval hv0
  have hsum : (∑ k : Fin n, v k * s.A k j)
      = ∑ k : Fin n, v k * (if (k : Nat) ≤ (j : Nat) then s.A k j else 0) := by
    apply Finset.sum_congr rfl
    intro k _
    by_cases hk : (k : Nat) ≤ (j : Nat)
    · rw [if_pos hk]
    · rw [if_neg hk, hv0 k (by omega), zero_mul, zero_mul]
  have hiso := refl_isometry t v (fun k : Fin n => if (k : Nat) ≤ (j : Nat) then s.A k j else 0)
    (s.R ⟨c, hc⟩ j) hval
  simp only [] at hiso
  rw [← hsum] at hiso
  have hA2 : upperColSq (factorMatStep sqrt (c + 1) c s).A j
      = ∑ k : Fin n, ((if (k : Nat) ≤ (j : Nat) then s.A k j else 0)
            + v k * (-t * ((∑ k, v k * s.A k j) + s.R ⟨c, hc⟩ j)))
          * ((if (k : Nat) ≤ (j : Nat) then s.A k j else 0)
            + v k * (-t * ((∑ k, v k * s.A k j) + s.R ⟨c, hc⟩ j))) := by
    unfold upperColSq
    apply Finset.sum_congr rfl
    intro k _
    rw [e3 j hj k]
    by_cases hk : (k : Nat) ≤ (j : Nat)
    · rw [if_pos hk, if_pos hk]
    · rw [if_neg hk, if_neg hk, hv0 k (by omega)]
      ring
  have hA1 : upperColSq s.A j
      = ∑ k : Fin n, (if (k : Nat) ≤ (j : Nat) then s.A k j else 0)
          * (if (k : Nat) ≤ (j : Nat) then s.A k j else 0) := by
    unfold upperColSq
    apply Finset.sum_congr rfl
    intro k _
    by_cases hk : (k : Nat) ≤ (j : Nat)
    · simp only [if_pos hk]
    · simp only [if_neg hk, mul_zero]
  have hR : upperColSq (factorMatStep sqrt (c + 1) c s).R j - upperColSq s.R j
      = ∑ a : Fin n, if a = ⟨c, hc⟩ then
          (s.R ⟨c, hc⟩ j - t * ((∑ k, v k * s.A k j) + s.R ⟨c, hc⟩ j))
            * (s.R ⟨c, hc⟩ j - t * ((∑ k, v k * s.A k j) + s.R ⟨c, hc⟩ j))
            - s.R ⟨c, hc⟩ j * s.R ⟨c, hc⟩ j
          else 0 := by
    unfold upperColSq
    rw [← Finset.sum_sub_distrib]
    apply Finset.sum_congr rfl
    intro a _
    rw [e2 j hj a]
    by_cases ha : a = ⟨c, hc⟩
    · have hcj : ((⟨c, hc⟩ : Fin n) : Nat) ≤ (j : Nat) := le_of_lt hj
      simp only [ha, if_true, if_pos hcj]
    · rw [if_neg ha, if_neg ha, sub_self]
  simp only [Finset.sum_ite_eq', Finset.mem_univ, if_true] at hR
  rw [hA2, hA1]
  linear_combination hR + hiso

end PairNorm

section PairNormLoop

variable {n : Nat}

/-- Column sums along the sweep of `factor_pair`: a finished column `j < c` of `R` carries
the squares of the upper parts of column `j` of both inputs; an unfinished column carries
them in `R` and the reflector storage together. -/
theorem factorPair_loop_colSq (sqrt : K → K) (hs : IsSqrt sqrt) (F0 : FactorMat K n n)
    (c : Nat) (hc : c ≤ n) (j : Fin n) :
    (if (j : Nat) < c then
        upperColSq (loop c (fun k t => factorMatStep sqrt (k + 1) k t) F0).R j
      else
        upperColSq (loop c (fun k t => factorMatStep sqrt (k + 1) k t) F0).R j
          + upperColSq (loop c (fun k t => factorMatStep sqrt (k + 1) k t) F0).A j)
      = upperColSq F0.R j + upperColSq F0.A j := by
  induction c with
  | zero => rw [if_neg (Nat.not_lt_zero _)]; rfl
  | succ c ih =>
    have hcn : c < n := hc
    have ih2 := ih (le_of_lt hcn)
    rw [loop_succ]
    generalize loop c (fun k t => factorMatStep sqrt (k + 1) k t) F0 = F at ih2 ⊢
    by_cases h1 : (j : Nat) < c
    · rw [if_pos h1] at ih2
      rw [if_pos (Nat.lt_succ_of_lt h1), ← ih2]
      unfold upperColSq
      apply Finset.sum_congr rfl
      intro i _
      rw [(factorMatStep_keep sqrt (c + 1) c F j h1).2.1 i]
    · rw [if_neg h1] at ih2
      by_cases h2 : (j : Nat) = c
      · have hj : j = ⟨c, hcn⟩ := Fin.ext h2
        rw [if_pos (by rw [h2]; exact Nat.lt_succ_self c), ← ih2, hj]
        exact factorMatStep_pair_colSq_diag sqrt hs c hcn F
      · have h3 : c < (j : Nat) := lt_of_le_of_ne (not_lt.1 h1) (Ne.symm h2)
        rw [if_neg (by intro h; exact h2 (le_antisymm (Nat.le_of_lt_succ h) (not_lt.1 h1))),
          ← ih2]
        exact factorMatStep_pair_colSq_trail sqrt hs c hcn F j h3

/-- A sum over the rows `i ≤ j` of `Fin n`, for `j < n`, as a sum over `range (j + 1)`. -/
theorem sum_upper_range (f : Nat → K) (j : Nat) (hj : j < n) :
    (∑ i : Fin n, if (i : Nat) ≤ j then f (i : Nat) else 0)
      = ∑ i in Finset.range (j + 1), f i := by
  rw [Fin.sum_univ_eq_sum_range (fun i => if i ≤ j then f i else 0) n]
  rw [← Finset.sum_subset (Finset.range_subset.2 (Nat.succ_le_of_lt hj))
    (fun i _ hi => if_neg (fun h => hi (Finset.mem_range.2 (Nat.lt_succ_of_le h))))]
  apply Finset.sum_congr rfl
  intro i hi
  rw [if_pos (Nat.le_of_lt_succ (Finset.mem_range.1 hi))]

/-- The upper-triangle sum of squares of a logical matrix read off its buffer. -/
theorem upperColSq_readMat (b : Buf K) (ld : Nat) :
    (∑ j : Fin n, upperColSq (readMat b ld n n) j)
      = ∑ j in Finset.range n, ∑ i in Finset.range (j + 1),
          b ((i : Int) + (j : Int) * (ld : Int)) ^ 2 := by
  rw [← Fin.sum_univ_eq_sum_range
    (fun j => ∑ i in Finset.range (j + 1), b ((i : Int) + (j : Int) * (ld : Int)) ^ 2) n]
  apply Finset.sum_congr rfl
  intro j _
  rw [← sum_upper_range (fun i => b ((i : Int) + ((j : Nat) : Int) * (ld : Int)) ^ 2) j j.2]
  unfold upperColSq readMat
  apply Finset.sum_congr rfl
  intro i _
  rw [pow_two]

end PairNormLoop

/-- `factor_pair` keeps the sum of squares of the upper triangles, over any ordered field
with a square root. -/
theorem factor_pair_upper_norm (sqrt : K → K) (hs : IsSqrt sqrt) (n : Nat) (hn : 1 ≤ n)
    (R_top : Buf K) (ldr_top : Nat) (R_bot : Buf K) (ldr_bot : Nat) (tau work : Buf K)
    (hldt : n ≤ ldr_top) (hldb : n ≤ ldr_bot) :
    ∃ out, factor_pair sqrt n R_top ldr_top R_bot ldr_bot tau work = Except.ok out
      ∧ (∑ j in Finset.range n, ∑ i in Finset.range (j + 1),
          out.R_top ((i : Int) + (j : Int) * (ldr_top : Int)) ^ 2)
        = (∑ j in Finset.range n, ∑ i in Finset.range (j + 1),
            R_top ((i : Int) + (j : Int) * (ldr_top : Int)) ^ 2)
          + (∑ j in Finset.range n, ∑ i in Finset.range (j + 1),
            R_bot ((i : Int) + (j : Int) * (ldr_bot : Int)) ^ 2) := by
  obtain ⟨out, h1, h2, _, _, _⟩ :=
    factor_pair_read sqrt n hn R_top ldr_top R_bot ldr_bot tau work hldt hldb
  refine ⟨out, h1, ?_⟩
  have hR : readMat out.R_top ldr_top n n
      = (loop n (fun k t => factorMatStep sqrt (k + 1) k t)
          ⟨readMat R_top ldr_top n n, readMat R_bot ldr_bot n n, readVec tau n⟩).R :=
    congrArg FactorMat.R h2
  rw [← upperColSq_readMat, ← upperColSq_readMat, ← upperColSq_readMat, hR,
    ← Finset.sum_add_distrib]
  apply Finset.sum_congr rfl
  intro j _
  have key := factorPair_loop_colSq sqrt hs
    (⟨readMat R_top ldr_top n n, readMat R_bot ldr_bot n n, readVec tau n⟩ : FactorMat K n n)
    n le_rfl j
  rw [if_pos j.2] at key
  exact key

/-- C15: `factor_pair` preserves the Frobenius norm of the input composite.  In exact real
arithmetic with `LARFG` by its LAPACK contract, for every `n ≥ 1`, leading dimensions `≥ n`
and all `R_top`, `R_bot`, `factor_pair` returns and the sum of the squares of the
upper-triangle entries (`i ≤ j < n`) of the output `R_top` equals the sum of the squares of
the upper-triangle entries of the input `R_top` plus that of the input `R_bot`. -/
theorem C15_factor_pair_preserves_frobenius_norm (n : Nat) (hn : 1 ≤ n) (R_top : Buf ℝ)
    (ldr_top : Nat) (R_bot : Buf ℝ) (ldr_bot : Nat) (tau work : Buf ℝ) (hldt : n ≤ ldr_top)
    (hldb : n ≤ ldr_bot) :
    ∃ out, factor_pair Real.sqrt n R_top ldr_top R_bot ldr_bot tau work = Except.ok out
      ∧ (∑ j in Finset.range n, ∑ i in Finset.range (j + 1),
          out.R_top ((i : Int) + (j : Int) * (ldr_top : Int)) ^ 2)
        = (∑ j in Finset.range n, ∑ i in Finset.range (j + 1),
            R_top ((i : Int) + (j : Int) * (ldr_top : Int)) ^ 2)
          + (∑ j in Finset.range n, ∑ i in Finset.range (j + 1),
            R_bot ((i : Int) + (j : Int) * (ldr_bot : Int)) ^ 2) :=
  factor_pair_upper_norm Real.sqrt isSqrt_real n hn R_top ldr_top R_bot ldr_bot tau work hldt hldb

/-- Witness for C15: `n = 2`, `R_top = diag (3, 4)`, `R_bot = diag (4, 3)` (column-major
`[3, 0, 0, 4]` and `[4, 0, 0, 3]`, leading dimensions 2): the upper triangle of the output
`R_top` has squared Frobenius norm `50 = 9 + 16 + 16 + 9`. -/
theorem C15_factor_pair_preserves_frobenius_norm_witness :
    ∃ out, factor_pair Real.sqrt 2
          (fun p => if p = 0 then 3 else if p = 3 then 4 else 0) 2
          (fun p => if p = 0 then 4 else if p = 3 then 3 else 0) 2
          (fun _ => 0) (fun _ => 0) = Except.ok out
      ∧ (∑ j in Finset.range 2, ∑ i in Finset.range (j + 1),
          out.R_top ((i : Int) + (j : Int) * ((2 : Nat) : Int)) ^ 2) = 50 := by
  obtain ⟨out, h1, h2⟩ := C15_factor_pair_preserves_frobenius_norm 2 (by decide)
    (fun p => if p = 0 then 3 else if p = 3 then 4 else 0) 2
    (fun p => if p = 0 then 4 else if p = 3 then 3 else 0) 2
    (fun _ => 0) (fun _ => 0) (by decide) (by decide)
  refine ⟨out, h1, ?_⟩
  rw [h2]
  simp [Finset.sum_range_succ]
  norm_num

/-- `LARFG` on a tail with a nonzero entry. -/
theorem LARFG_of_ne_zero (sqrt : K → K) (N : Nat) (alpha : K) (x : Buf K) (i : Nat)
    (hi : i < N - 1) (hx : x (i : Int) ≠ 0) :
    LARFG sqrt N alpha x
      = (-((if 0 ≤ alpha then 1 else -1)
            * sqrt (alpha * alpha + loop (N - 1) (fun i acc => acc + x (i : Int) * x (i : Int)) 0)),
          fun p => if 0 ≤ p ∧ p < ((N - 1 : Nat) : Int) then
            x p / (alpha - -((if 0 ≤ alpha then 1 else -1)
              * sqrt (alpha * alpha
                + loop (N - 1) (fun i acc => acc + x (i : Int) * x (i : Int)) 0)))
            else x p,
          (-((if 0 ≤ alpha then 1 else -1)
              * sqrt (alpha * alpha
                + loop (N - 1) (fun i acc => acc + x (i : Int) * x (i : Int)) 0)) - alpha)
            / -((if 0 ≤ alpha then 1 else -1)
              * sqrt (alpha * alpha
                + loop (N - 1) (fun i acc => acc + x (i : Int) * x (i : Int)) 0))) := by
  unfold LARFG
  rw [if_neg (fun h => hx (h i hi))]

/-- The first column step of the `GEQR2` sweep on the `4 × 2` matrix with rows `[1, 1]`,
`[1, 2]`, `[1, 3]`, `[1, 4]`. -/
theorem factor_first_example_step0 (sqrt : K → K) (h4 : sqrt 4 = 2) (tau : Buf K) :
    factor_first_step sqrt 4 2 4 0
        (fun p => if p = 5 then 2 else if p = 6 then 3 else if p = 7 then 4 else 1, tau)
      = (fun p => if p = 0 then -2 else if p = 1 ∨ p = 2 ∨ p = 3 then 1 / 3
          else if p = 4 then -5 else if p = 5 then 0 else if p = 6 then 1 else if p = 7 then 2
          else 1, Function.update tau 0 (3 / 2)) := by
  have hL := LARFG_of_ne_zero sqrt 4 (1 : K)
    (ptr (fun p : Int => if p = 5 then (2 : K) else if p = 6 then 3 else if p = 7 then 4 else 1)
      1) 0 (by decide) (by simp [ptr])
  have hn : (1 : K) * 1 + loop (4 - 1) (fun i acc => acc
      + ptr (fun p : Int => if p = 5 then (2 : K) else if p = 6 then 3 else if p = 7 then 4
          else 1) 1 (i : Int)
        * ptr (fun p : Int => if p = 5 then (2 : K) else if p = 6 then 3 else if p = 7 then 4
          else 1) 1 (i : Int)) 0 = 4 := by
    simp [loop, ptr]
    norm_num
  rw [hn, h4] at hL
  have hA0 : (fun p : Int => if p = 5 then (2 : K) else if p = 6 then 3 else if p = 7 then 4
      else 1) 0 = 1 := by simp
  unfold factor_first_step
  simp only [Nat.cast_zero, zero_mul, add_zero, zero_add, Nat.sub_zero, hA0, hL]
  have h01 : (0 : K) ≤ 1 := zero_le_one
  apply Prod.ext
  · funext p
    simp [loopFrom, loop, poke, ptr, Function.update, h01]
    split_ifs <;> first | (exfalso; omega) | norm_num
  · simp only [if_pos h01]
    norm_num

/-- The `GEQR2` sweep on the `4 × 2` matrix with rows `[1, 1]`, `[1, 2]`, `[1, 3]`, `[1, 4]`
(column-major, `lda = 4`), for any square root with `sqrt 4 = 2` and `sqrt 5 ≠ 0`: the second
reflector is generated from `alpha = 0` and the tail `(1, 2)`. -/
theorem factor_first_example (sqrt : K → K) (h4 : sqrt 4 = 2) (h5 : sqrt 5 ≠ 0)
    (tau work : Buf K) :
    (factor_first sqrt 4 2
        (fun p => if p = 5 then 2 else if p = 6 then 3 else if p = 7 then 4 else 1) 4 tau
        work).1 0 = -2
    ∧ (factor_first sqrt 4 2
        (fun p => if p = 5 then 2 else if p = 6 then 3 else if p = 7 then 4 else 1) 4 tau
        work).1 4 = -5
    ∧ (factor_first sqrt 4 2
        (fun p => if p = 5 then 2 else if p = 6 then 3 else if p = 7 then 4 else 1) 4 tau
        work).1 5 = -sqrt 5
    ∧ (factor_first sqrt 4 2
        (fun p => if p = 5 then 2 else if p = 6 then 3 else if p = 7 then 4 else 1) 4 tau
        work).2 0 = 3 / 2
    ∧ (factor_first sqrt 4 2
        (fun p => if p = 5 then 2 else if p = 6 then 3 else if p = 7 then 4 else 1) 4 tau
        work).2 1 = 1 := by
  have hmin : min 4 2 = 2 := rfl
  have e : factor_first sqrt 4 2
        (fun p => if p = 5 then 2 else if p = 6 then 3 else if p = 7 then 4 else 1) 4 tau work
      = factor_first_step sqrt 4 2 4 1
          (fun p => if p = 0 then -2 else if p = 1 ∨ p = 2 ∨ p = 3 then 1 / 3
            else if p = 4 then -5 else if p = 5 then 0 else if p = 6 then 1
            else if p = 7 then 2 else 1, Function.update tau 0 (3 / 2)) := by
    unfold factor_first CombineDefault.factor_first
    rw [hmin, loop_succ, loop_succ, ← factor_first_example_step0 sqrt h4 tau]
    rfl
  rw [e]
  have hL := LARFG_of_ne_zero sqrt 3 (0 : K)
    (ptr (fun p : Int => if p = 0 then (-2 : K) else if p = 1 ∨ p = 2 ∨ p = 3 then 1 / 3
            else if p = 4 then -5 else if p = 5 then 0 else if p = 6 then 1
            else if p = 7 then 2 else 1) 6) 0 (by decide) (by simp [ptr])
  have hn : (0 : K) * 0 + loop (3 - 1) (fun i acc => acc
      + ptr (fun p : Int => if p = 0 then (-2 : K) else if p = 1 ∨ p = 2 ∨ p = 3 then 1 / 3
            else if p = 4 then -5 else if p = 5 then 0 else if p = 6 then 1
            else if p = 7 then 2 else 1) 6 (i : Int)
        * ptr (fun p : Int => if p = 0 then (-2 : K) else if p = 1 ∨ p = 2 ∨ p = 3 then 1 / 3
            else if p = 4 then -5 else if p = 5 then 0 else if p = 6 then 1
            else if p = 7 then 2 else 1) 6 (i : Int)) 0 = 5 := by
    simp [loop, ptr]
    norm_num
  rw [hn, if_pos (le_refl (0 : K))] at hL
  have hA5 : (fun p : Int => if p = 0 then (-2 : K) else if p = 1 ∨ p = 2 ∨ p = 3 then 1 / 3
            else if p = 4 then -5 else if p = 5 then 0 else if p = 6 then 1
            else if p = 7 then 2 else 1) (((1 : Nat) : Int) + ((1 : Nat) : Int) * ((4 : Nat) : Int))
      = 0 := by simp
  have h56 : (((1 : Nat) : Int) + ((1 : Nat) : Int) * ((4 : Nat) : Int)) + 1 = 6 := by norm_num
  unfold factor_first_step
  simp only [hA5, h56, hL]
  refine ⟨?_, ?_, ?_, ?_, ?_⟩
  · simp [loopFrom, loop, poke, Function.update]
  · simp [loopFrom, loop, poke, Function.update]
  · simp [loopFrom, loop, poke, Function.update]
  · simp [Function.update]
  · simp [Function.update, h5]

/-- The real square root of `4`. -/
theorem real_sqrt_four : Real.sqrt 4 = 2 := by
  rw [show (4 : ℝ) = 2 * 2 by norm_num]
  exact Real.sqrt_mul_self (by norm_num)

/-- C20 (the claim as stated fails): on the `4 × 2` matrix with rows `[1, 1]`, `[1, 2]`,
`[1, 3]`, `[1, 4]`, after the first reflector the second column is `(-5, 0, 1, 2)`, so the
second reflector is generated from `alpha = 0`: `R[1,1]` is `-sqrt 5`, not `sqrt 5`, and
`tau[1]` is `1`, not `1 + 1/sqrt 5`. -/
theorem C20_factor_first_claimed_values_fail :
    (factor_first Real.sqrt 4 2
        (fun p => if p = 5 then 2 else if p = 6 then 3 else if p = 7 then 4 else 1) 4
        (fun _ => 0) (fun _ => 0)).1 5 ≠ Real.sqrt 5
    ∧ (factor_first Real.sqrt 4 2
        (fun p => if p = 5 then 2 else if p = 6 then 3 else if p = 7 then 4 else 1) 4
        (fun _ => 0) (fun _ => 0)).2 1 ≠ 1 + 1 / Real.sqrt 5 := by
  have hpos : 0 < Real.sqrt 5 := Real.sqrt_pos.2 (by norm_num)
  obtain ⟨_, _, h3, _, h5⟩ := factor_first_example Real.sqrt real_sqrt_four (ne_of_gt hpos)
    (fun _ => 0) (fun _ => 0)
  constructor
  · rw [h3]
    intro h
    linarith
  · rw [h5]
    intro h
    have : 0 < 1 / Real.sqrt 5 := one_div_pos.2 hpos
    linarith

/-- C20 (amended): with `factor_first` modelled as the `GEQR2` sweep it delegates to (each
reflector generated by `LARFG` under its LAPACK contract, in exact real arithmetic),
`factor_first (nrows = 4, ncols = 2)` on the column-major matrix with rows `[1, 1]`, `[1, 2]`,
`[1, 3]`, `[1, 4]` yields `R[0,0] = -2`, `R[0,1] = -5`, `R[1,1] = -sqrt 5`, `tau[0] = 3/2` and
`tau[1] = 1`, whatever `tau` and `work` hold on entry. -/
theorem C20_factor_first_example_values (tau work : Buf ℝ) :
    (factor_first Real.sqrt 4 2
        (fun p => if p = 5 then 2 else if p = 6 then 3 else if p = 7 then 4 else 1) 4 tau
        work).1 0 = -2
    ∧ (factor_first Real.sqrt 4 2
        (fun p => if p = 5 then 2 else if p = 6 then 3 else if p = 7 then 4 else 1) 4 tau
        work).1 4 = -5
    ∧ (factor_first Real.sqrt 4 2
        (fun p => if p = 5 then 2 else if p = 6 then 3 else if p = 7 then 4 else 1) 4 tau
        work).1 5 = -Real.sqrt 5
    ∧ (factor_first Real.sqrt 4 2
        (fun p => if p = 5 then 2 else if p = 6 then 3 else if p = 7 then 4 else 1) 4 tau
        work).2 0 = 3 / 2
    ∧ (factor_first Real.sqrt 4 2
        (fun p => if p = 5 then 2 else if p = 6 then 3 else if p = 7 then 4 else 1) 4 tau
        work).2 1 = 1 :=
  factor_first_example Real.sqrt real_sqrt_four (ne_of_gt (Real.sqrt_pos.2 (by norm_num))) tau work

section ReflectorSweep

variable {σ : Type}

omit [LinearOrderedField K] in
/-- The counting loop with its first iteration peeled off. -/
theorem loop_succ_front (n : Nat) (body : Nat → σ → σ) (s : σ) :
    loop (n + 1) body s = loop n (fun i t => body (i + 1) t) (body 0 s) := by
  induction n with
  | zero => rfl
  | succ n ih => rw [loop_succ, ih, loop_succ]

omit [LinearOrderedField K] in
/-- The ascending literal sweep from `a` to `a + k` is the counting loop of `k` iterations. -/
theorem sweepFrom_up (k : Nat) (a : Int) (body : Int → σ → σ) (s : σ) :
    sweepFrom k a (a + (k : Int)) 1 body s
      = some (loop k (fun i t => body (a + (i : Int)) t) s) := by
  induction k generalizing a s with
  | zero =>
    have h : a = a + ((0 : Nat) : Int) := by simp
    unfold sweepFrom
    rw [if_pos h]
    rfl
  | succ k ih =>
    have hne : a ≠ a + ((k + 1 : Nat) : Int) := by
      intro h
      have h2 : ((k + 1 : Nat) : Int) = 0 := by linarith
      have h3 : (0 : Int) < ((k + 1 : Nat) : Int) := by exact_mod_cast Nat.succ_pos k
      omega
    have he : a + ((k + 1 : Nat) : Int) = (a + 1) + (k : Int) := by push_cast; ring
    unfold sweepFrom
    rw [if_neg hne, he, ih (a + 1) (body a s), loop_succ_front]
    have hb : (fun (i : Nat) (t : σ) => body (a + 1 + (i : Int)) t)
        = (fun (i : Nat) (t : σ) => body (a + ((i + 1 : Nat) : Int)) t) := by
      funext i t
      have : a + 1 + (i : Int) = a + ((i + 1 : Nat) : Int) := by push_cast; ring
      rw [this]
    rw [hb]
    simp

omit [LinearOrderedField K] in
/-- The descending literal sweep from `k - 1` to `-1` is the descending loop of `k`
iterations. -/
theorem sweepFrom_down (k : Nat) (body : Int → σ → σ) (s : σ) :
    sweepFrom k ((k : Int) - 1) (-1) (-1) body s
      = some (loopDown k (fun i t => body (i : Int) t) s) := by
  induction k generalizing s with
  | zero =>
    unfold sweepFrom
    rw [if_pos (by simp)]
    rfl
  | succ k ih =>
    have hne : (((k + 1 : Nat) : Int) - 1) ≠ -1 := by
      have h3 : (0 : Int) ≤ (k : Int) := Int.ofNat_nonneg k
      push_cast
      omega
    have he : (((k + 1 : Nat) : Int) - 1) + -1 = (k : Int) - 1 := by push_cast; ring
    have hk : (((k + 1 : Nat) : Int) - 1) = (k : Int) := by push_cast; ring
    unfold sweepFrom
    rw [if_neg hne, he, hk, ih (body (k : Int) s), loopDown_succ]

omit [LinearOrderedField K] in
/-- The literal reflector sweep, given `ncols_Q` iterations, ends and is the descending loop
for `NoTranspose` and the ascending loop otherwise. -/
theorem reflector_sweep_eq_loops (applyType : ApplyType) (ncols_Q : Nat) (body : Int → σ → σ)
    (s : σ) :
    reflector_sweep applyType ncols_Q ncols_Q body s
      = some (if applyType = ApplyType.NoTranspose then
          loopDown ncols_Q (fun i t => body (i : Int) t) s
        else loop ncols_Q (fun i t => body (i : Int) t) s) := by
  unfold reflector_sweep
  by_cases h : applyType = ApplyType.NoTranspose
  · simp only [if_pos h]
    exact sweepFrom_down ncols_Q body s
  · simp only [if_neg h]
    have := sweepFrom_up ncols_Q 0 body s
    simp only [zero_add] at this
    exact this

omit [LinearOrderedField K] in
/-- The indices visited by the ascending loop. -/
theorem loop_visits (n : Nat) :
    loop n (fun i (l : List Int) => l ++ [(i : Int)]) [] = (List.range n).map Int.ofNat := by
  induction n with
  | zero => rfl
  | succ n ih => rw [loop_succ, ih, List.range_succ, List.map_append]; rfl

omit [LinearOrderedField K] in
/-- The indices visited by the descending loop. -/
theorem loopDown_visits (n : Nat) (l0 : List Int) :
    loopDown n (fun i (l : List Int) => l ++ [(i : Int)]) l0
      = l0 ++ (List.range n).reverse.map Int.ofNat := by
  induction n generalizing l0 with
  | zero => simp [loopDown]
  | succ n ih =>
    rw [loopDown_succ, ih, List.range_succ, List.reverse_append, List.map_append,
      List.append_assoc]
    rfl

end ReflectorSweep

section ReflectorSweepFuel

variable {σ : Type}

omit [LinearOrderedField K] in
/-- The ascending literal sweep does not end before it has reached `j_end`. -/
theorem sweepFrom_up_short (f : Nat) (a e : Int) (h : a + (f : Int) < e) (body : Int → σ → σ)
    (s : σ) : sweepFrom f a e 1 body s = none := by
  induction f generalizing a s with
  | zero =>
    unfold sweepFrom
    rw [if_neg (by simp at h; omega)]
  | succ f ih =>
    have h1 : (0 : Int) ≤ (f : Int) := Int.ofNat_nonneg f
    unfold sweepFrom
    rw [if_neg (by push_cast at h; omega)]
    exact ih (a + 1) (by push_cast at h; omega) (body a s)

omit [LinearOrderedField K] in
/-- The descending literal sweep does not end before it has reached `-1`. -/
theorem sweepFrom_down_short (f : Nat) (b : Int) (h : (f : Int) ≤ b) (body : Int → σ → σ)
    (s : σ) : sweepFrom f b (-1) (-1) body s = none := by
  induction f generalizing b s with
  | zero =>
    unfold sweepFrom
    rw [if_neg (by simp at h; omega)]
  | succ f ih =>
    have h1 : (0 : Int) ≤ (f : Int) := Int.ofNat_nonneg f
    unfold sweepFrom
    rw [if_neg (by push_cast at h; omega)]
    exact ih (b + -1) (by push_cast at h; omega) (body b s)

end ReflectorSweepFuel

/-- C28: the reflector sweep of `apply_inner` and `apply_pair` terminates and visits each
reflector once.  For every `ncols_Q ≥ 0` and either `applyType`, the literal loop
`for (j = j_start; j != j_end; j += j_step)` ends after exactly `ncols_Q` iterations (it has
not ended after fewer); the indices it visits are `ncols_Q - 1, ..., 0` for `NoTranspose` and
`0, ..., ncols_Q - 1` for any other `applyType`: `ncols_Q` of them, without repetition, all in
`[0, ncols_Q)`; and running the bodies of `apply_inner` and of the view overload of
`apply_pair` in this sweep gives the results of `apply_inner` and `apply_pair_view`. -/
theorem C28_reflector_sweep_visits_each_index_once (applyType : ApplyType) (ncols_Q : Nat) :
    ∃ visited : List Int,
      reflector_sweep applyType ncols_Q ncols_Q (fun j l => l ++ [j]) [] = some visited
      ∧ visited = (if applyType = ApplyType.NoTranspose then
            (List.range ncols_Q).reverse.map Int.ofNat
          else (List.range ncols_Q).map Int.ofNat)
      ∧ visited.length = ncols_Q ∧ visited.Nodup
      ∧ (∀ j ∈ visited, 0 ≤ j ∧ j < (ncols_Q : Int))
      ∧ (∀ j : Nat, j < ncols_Q → (j : Int) ∈ visited)
      ∧ (∀ fuel : Nat, fuel < ncols_Q →
          reflector_sweep applyType ncols_Q fuel (fun j (l : List Int) => l ++ [j]) [] = none)
      ∧ (∀ (m ncols_C : Nat) (A : Buf K) (lda : Nat) (tau C_top : Buf K) (ldc_top : Nat)
          (C_bot : Buf K) (ldc_bot : Nat) (work : Buf K),
          reflector_sweep applyType ncols_Q ncols_Q
              (fun j s => apply_inner_step m ncols_C A lda tau ldc_top ldc_bot j.toNat s)
              ⟨C_top, C_bot,
                loop ncols_C (fun i (w : Buf K) => Function.update w (i : Int) 0) work⟩
            = some (apply_inner applyType m ncols_C ncols_Q A lda tau C_top ldc_top C_bot
                ldc_bot work))
      ∧ (∀ (VR VT VB : View) (R_bot tau C_top C_bot work : Buf K), VR.dim1 = ncols_Q →
          reflector_sweep applyType ncols_Q ncols_Q
              (fun j s => apply_pair_step VR VT VB R_bot tau j.toNat s)
              ⟨C_top, C_bot,
                loop VT.dim1 (fun i (w : Buf K) => Function.update w (i : Int) 0) work⟩
            = some (apply_pair_view applyType VR VT VB R_bot tau C_top C_bot work)) := by
  have hinj : Function.Injective Int.ofNat := fun a b h => Int.ofNat.inj h
  have hvis : reflector_sweep applyType ncols_Q ncols_Q (fun j (l : List Int) => l ++ [j]) []
      = some (if applyType = ApplyType.NoTranspose then
            (List.range ncols_Q).reverse.map Int.ofNat
          else (List.range ncols_Q).map Int.ofNat) := by
    rw [reflector_sweep_eq_loops]
    by_cases h : applyType = ApplyType.NoTranspose
    · rw [if_pos h, if_pos h, loopDown_visits, List.nil_append]
    · rw [if_neg h, if_neg h, loop_visits]
  refine ⟨_, hvis, rfl, ?_, ?_, ?_, ?_, ?_, ?_, ?_⟩
  · by_cases h : applyType = ApplyType.NoTranspose
    · rw [if_pos h]; simp
    · rw [if_neg h]; simp
  · by_cases h : applyType = ApplyType.NoTranspose
    · rw [if_pos h]
      exact (List.nodup_reverse.2 (List.nodup_range ncols_Q)).map hinj
    · rw [if_neg h]
      exact (List.nodup_range ncols_Q).map hinj
  · intro j hj
    by_cases h : applyType = ApplyType.NoTranspose
    · rw [if_pos h] at hj
      obtain ⟨i, hi, rfl⟩ := List.mem_map.1 hj
      have hi2 : i < ncols_Q := List.mem_range.1 (List.mem_reverse.1 hi)
      exact ⟨Int.ofNat_nonneg i, Int.ofNat_lt.2 hi2⟩
    · rw [if_neg h] at hj
      obtain ⟨i, hi, rfl⟩ := List.mem_map.1 hj
      have hi2 : i < ncols_Q := List.mem_range.1 hi
      exact ⟨Int.ofNat_nonneg i, Int.ofNat_lt.2 hi2⟩
  · intro j hj
    by_cases h : applyType = ApplyType.NoTranspose
    · rw [if_pos h]
      exact List.mem_map.2 ⟨j, List.mem_reverse.2 (List.mem_range.2 hj), rfl⟩
    · rw [if_neg h]
      exact List.mem_map.2 ⟨j, List.mem_range.2 hj, rfl⟩
  · intro fuel hf
    unfold reflector_sweep
    by_cases h : applyType = ApplyType.NoTranspose
    · simp only [if_pos h]
      exact sweepFrom_down_short fuel _ (by omega) _ _
    · simp only [if_neg h]
      exact sweepFrom_up_short fuel 0 _ (by omega) _ _
  · intro m ncols_C A lda tau C_top ldc_top C_bot ldc_bot work
    rw [reflector_sweep_eq_loops]
    simp only [Int.toNat_ofNat]
    rfl
  · intro VR VT VB R_bot tau C_top C_bot work hQ
    rw [reflector_sweep_eq_loops]
    simp only [Int.toNat_ofNat]
    subst hQ
    rfl

/-- Witness for C28: `NoTranspose` with `ncols_Q = 3` visits `2, 1, 0`, and two iterations
are not enough (the hypothesis `fuel < ncols_Q` at `fuel = 2`). -/
theorem C28_reflector_sweep_visits_each_index_once_witness :
    (2 : Nat) < 3
    ∧ reflector_sweep ApplyType.NoTranspose 3 3 (fun j (l : List Int) => l ++ [j]) []
        = some [2, 1, 0]
    ∧ reflector_sweep ApplyType.NoTranspose 3 2 (fun j (l : List Int) => l ++ [j]) [] = none := by
  obtain ⟨visited, h1, h2, _, _, _, _, h7, _, _⟩ :=
    C28_reflector_sweep_visits_each_index_once (K := ℚ) ApplyType.NoTranspose 3
  refine ⟨by decide, ?_, h7 2 (by decide)⟩
  rw [h1, h2]
  rfl

section KernelCalls

omit [LinearOrderedField K] in
/-- A fallible loop whose body always returns, returns. -/
theorem loopM_ok {σ : Type} (body : Nat → σ → Except Err σ)
    (h : ∀ k s, ∃ s2, body k s = Except.ok s2) (n : Nat) (s : σ) :
    ∃ s2, loopM n body s = Except.ok s2 := by
  induction n with
  | zero => exact ⟨s, rfl⟩
  | succ n ih =>
    obtain ⟨s1, h1⟩ := ih
    obtain ⟨s2, h2⟩ := h n s1
    refine ⟨s2, ?_⟩
    simp only [loopM, h1]
    exact h2

/-- The column step of `factor_inner` returns on every state. -/
theorem factor_inner_step_ok (sqrt : K → K) (m n ldr lda k : Nat) (s : InnerState K) :
    ∃ s2, factor_inner_step sqrt m n ldr lda k s = Except.ok s2 := by
  unfold factor_inner_step
  simp only [GEMV_unit]
  exact ⟨_, rfl⟩

/-- The column step of `factor_pair` returns on every state. -/
theorem factor_pair_step_ok (sqrt : K → K) (VT VB : View) (k : Nat) (s : PairState K) :
    ∃ s2, factor_pair_step sqrt VT VB k s = Except.ok s2 := by
  unfold factor_pair_step
  simp only [GEMV_unit]
  exact ⟨_, rfl⟩

/-- `factor_inner` returns on every input. -/
theorem factor_inner_ok (sqrt : K → K) (m n : Nat) (R : Buf K) (ldr : Nat) (A : Buf K)
    (lda : Nat) (tau work : Buf K) :
    ∃ out, factor_inner sqrt m n R ldr A lda tau work = Except.ok out := by
  obtain ⟨s1, h1⟩ := loopM_ok (factor_inner_step sqrt m n ldr lda)
    (factor_inner_step_ok sqrt m n ldr lda) (n - 1)
    ⟨R, A, tau, loop n (fun k (w : Buf K) => Function.update w (k : Int) 0) work⟩
  unfold factor_inner
  simp only [h1]
  exact ⟨_, rfl⟩

/-- The view overload of `factor_pair` returns on every input. -/
theorem factor_pair_view_ok (sqrt : K → K) (VT VB : View) (R_top R_bot tau work : Buf K) :
    ∃ out, factor_pair_view sqrt VT VB R_top R_bot tau work = Except.ok out := by
  obtain ⟨s1, h1⟩ := loopM_ok (factor_pair_step sqrt VT VB)
    (factor_pair_step_ok sqrt VT VB) (VT.dim0 - 1)
    ⟨R_top, R_bot, tau, loop VT.dim0 (fun k (w : Buf K) => Function.update w (k : Int) 0) work⟩
  unfold factor_pair_view
  simp only [h1]
  exact ⟨_, rfl⟩

/-- The raw-buffer overload of `factor_pair` returns on every input. -/
theorem factor_pair_ok (sqrt : K → K) (n : Nat) (R_top : Buf K) (ldr_top : Nat)
    (R_bot : Buf K) (ldr_bot : Nat) (tau work : Buf K) :
    ∃ out, factor_pair sqrt n R_top ldr_top R_bot ldr_bot tau work = Except.ok out := by
  rw [factor_pair_eq_view]
  exact factor_pair_view_ok sqrt _ _ R_top R_bot tau work

/-- With kernels that agree with `GEMV` and `GER` on unit strides the column step of
`factor_inner` is unchanged. -/
theorem factor_inner_step_with_eq (gemvF : GemvKernel K) (gerF : GerKernel K)
    (hgemv : ∀ (trans : Char) (alpha : K) (V : View) (A x : Buf K) (beta : K) (y : Buf K),
      gemvF trans alpha V A x 1 beta y 1 = GEMV trans alpha V A x 1 beta y 1)
    (hger : ∀ (alpha : K) (x y : Buf K) (V : View) (A : Buf K),
      gerF alpha x 1 y 1 V A = GER alpha x 1 y 1 V A)
    (sqrt : K → K) (m n ldr lda : Nat) :
    factor_inner_step_with gemvF gerF sqrt m n ldr lda = factor_inner_step sqrt m n ldr lda := by
  funext k s
  unfold factor_inner_step_with factor_inner_step
  simp only [hgemv, hger]

/-- With kernels that agree with `GEMV` and `GER` on unit strides the column step of
`factor_pair` is unchanged. -/
theorem factor_pair_step_with_eq (gemvF : GemvKernel K) (gerF : GerKernel K)
    (hgemv : ∀ (trans : Char) (alpha : K) (V : View) (A x : Buf K) (beta : K) (y : Buf K),
      gemvF trans alpha V A x 1 beta y 1 = GEMV trans alpha V A x 1 beta y 1)
    (hger : ∀ (alpha : K) (x y : Buf K) (V : View) (A : Buf K),
      gerF alpha x 1 y 1 V A = GER alpha x 1 y 1 V A)
    (sqrt : K → K) (VT VB : View) :
    factor_pair_step_with gemvF gerF sqrt VT VB = factor_pair_step sqrt VT VB := by
  funext k s
  unfold factor_pair_step_with factor_pair_step
  simp only [hgemv, hger]

/-- With a kernel that agrees with `GER` on unit strides the step of `apply_inner` is
unchanged. -/
theorem apply_inner_step_with_eq (gerF : GerKernel K)
    (hger : ∀ (alpha : K) (x y : Buf K) (V : View) (A : Buf K),
      gerF alpha x 1 y 1 V A = GER alpha x 1 y 1 V A)
    (m ncols_C : Nat) (A : Buf K) (lda : Nat) (tau : Buf K) (ldc_top ldc_bot : Nat) :
    apply_inner_step_with gerF m ncols_C A lda tau ldc_top ldc_bot
      = apply_inner_step m ncols_C A lda tau ldc_top ldc_bot := by
  funext j s
  unfold apply_inner_step_with apply_inner_step
  simp only [hger]

/-- With a kernel that agrees with `GER` on unit strides the step of `apply_pair` is
unchanged. -/
theorem apply_pair_step_with_eq (gerF : GerKernel K)
    (hger : ∀ (alpha : K) (x y : Buf K) (V : View) (A : Buf K),
      gerF alpha x 1 y 1 V A = GER alpha x 1 y 1 V A)
    (VR VT VB : View) (R_bot tau : Buf K) :
    apply_pair_step_with gerF VR VT VB R_bot tau = apply_pair_step VR VT VB R_bot tau := by
  funext j s
  unfold apply_pair_step_with apply_pair_step
  simp only [hger]

end KernelCalls

/-- C27: the public operations call `GEMV` and `GER` with unit strides only.  If the kernels
called by `factor_inner`, `factor_pair`, `apply_inner` and `apply_pair` are replaced by any
kernels that agree with `GEMV` and `GER` when `incx = 1` and `incy = 1` (and do anything at
all for other strides), every one of the four operations computes the same result on every
input: the `std::logic_error` branch of `GEMV` and the `incx ≠ 1` branch of `GER` are not
reached.  In particular `factor_inner` and `factor_pair` return (no error) on every
input. -/
theorem C27_public_operations_call_kernels_with_unit_strides (gemvF : GemvKernel K)
    (gerF : GerKernel K)
    (hgemv : ∀ (trans : Char) (alpha : K) (V : View) (A x : Buf K) (beta : K) (y : Buf K),
      gemvF trans alpha V A x 1 beta y 1 = GEMV trans alpha V A x 1 beta y 1)
    (hger : ∀ (alpha : K) (x y : Buf K) (V : View) (A : Buf K),
      gerF alpha x 1 y 1 V A = GER alpha x 1 y 1 V A) :
    (∀ (sqrt : K → K) (m n : Nat) (R : Buf K) (ldr : Nat) (A : Buf K) (lda : Nat)
        (tau work : Buf K),
        factor_inner_with gemvF gerF sqrt m n R ldr A lda tau work
          = factor_inner sqrt m n R ldr A lda tau work
        ∧ ∃ out, factor_inner sqrt m n R ldr A lda tau work = Except.ok out)
    ∧ (∀ (sqrt : K → K) (n : Nat) (R_top : Buf K) (ldr_top : Nat) (R_bot : Buf K)
        (ldr_bot : Nat) (tau work : Buf K),
        factor_pair_with gemvF gerF sqrt n R_top ldr_top R_bot ldr_bot tau work
          = factor_pair sqrt n R_top ldr_top R_bot ldr_bot tau work
        ∧ ∃ out, factor_pair sqrt n R_top ldr_top R_bot ldr_bot tau work = Except.ok out)
    ∧ (∀ (applyType : ApplyType) (m ncols_C ncols_Q : Nat) (A : Buf K) (lda : Nat)
        (tau C_top : Buf K) (ldc_top : Nat) (C_bot : Buf K) (ldc_bot : Nat) (work : Buf K),
        apply_inner_with gerF applyType m ncols_C ncols_Q A lda tau C_top ldc_top C_bot ldc_bot
            work
          = apply_inner applyType m ncols_C ncols_Q A lda tau C_top ldc_top C_bot ldc_bot work)
    ∧ (∀ (applyType : ApplyType) (ncols_C ncols_Q : Nat) (R_bot : Buf K) (ldr_bot : Nat)
        (tau C_top : Buf K) (ldc_top : Nat) (C_bot : Buf K) (ldc_bot : Nat) (work : Buf K),
        apply_pair_with gerF applyType ncols_C ncols_Q R_bot ldr_bot tau C_top ldc_top C_bot
            ldc_bot work
          = apply_pair applyType ncols_C ncols_Q R_bot ldr_bot tau C_top ldc_top C_bot ldc_bot
              work) := by
  refine ⟨?_, ?_, ?_, ?_⟩
  · intro sqrt m n R ldr A lda tau work
    refine ⟨?_, factor_inner_ok sqrt m n R ldr A lda tau work⟩
    unfold factor_inner_with factor_inner
    rw [factor_inner_step_with_eq gemvF gerF hgemv hger]
  · intro sqrt n R_top ldr_top R_bot ldr_bot tau work
    refine ⟨?_, factor_pair_ok sqrt n R_top ldr_top R_bot ldr_bot tau work⟩
    unfold factor_pair_with factor_pair factor_pair_view_with factor_pair_view
    simp only [factor_pair_step_with_eq gemvF gerF hgemv hger]
  · intro applyType m ncols_C ncols_Q A lda tau C_top ldc_top C_bot ldc_bot work
    unfold apply_inner_with apply_inner
    rw [apply_inner_step_with_eq gerF hger]
  · intro applyType ncols_C ncols_Q R_bot ldr_bot tau C_top ldc_top C_bot ldc_bot work
    unfold apply_pair_with apply_pair apply_pair_view_with apply_pair_view
    simp only [apply_pair_step_with_eq gerF hger]

/-- Witness for C27: kernels that agree with `GEMV` and `GER` on unit strides and differ on
every other stride (this `GEMV` stand-in never raises, this `GER` stand-in writes nothing),
on a `2 × 2` problem over `ℚ`. -/
theorem C27_public_operations_call_kernels_with_unit_strides_witness :
    factor_inner_with
        (fun trans alpha V A x incx beta y incy =>
          if incx = 1 ∧ incy = 1 then GEMV trans alpha V A x incx beta y incy else Except.ok y)
        (fun alpha x incx y incy V A =>
          if incx = 1 ∧ incy = 1 then GER alpha x incx y incy V A else A)
        (fun x : ℚ => x) 2 2 (fun _ => 1) 2 (fun _ => 1) 2 (fun _ => 0) (fun _ => 0)
      = factor_inner (fun x : ℚ => x) 2 2 (fun _ => 1) 2 (fun _ => 1) 2 (fun _ => 0)
          (fun _ => 0) :=
  ((C27_public_operations_call_kernels_with_unit_strides
      (fun trans alpha V A x incx beta y incy =>
        if incx = 1 ∧ incy = 1 then GEMV trans alpha V A x incx beta y incy else Except.ok y)
      (fun alpha x incx y incy V A =>
        if incx = 1 ∧ incy = 1 then GER alpha x incx y incy V A else A)
      (fun _ _ _ _ _ _ _ => by simp) (fun _ _ _ _ _ => by simp)).1
    (fun x : ℚ => x) 2 2 (fun _ => 1) 2 (fun _ => 1) 2 (fun _ => 0) (fun _ => 0)).1

section ReflectorValidity

variable {m n : Nat}

/-- Column `c` of the reflector storage and `tau[c]` after the matrix-level column step `c`
with cut length `len`. -/
theorem factorMatStep_col (sqrt : K → K) (len c : Nat) (hc : c < n) (s : FactorMat K m n) :
    (factorMatStep sqrt len c s).tau ⟨c, hc⟩
        = (larfgVec sqrt (s.R ⟨c, hc⟩ ⟨c, hc⟩)
            (fun i : Fin m => if (i : Nat) < len then s.A i ⟨c, hc⟩ else 0)).2.2
    ∧ ∀ i : Fin m, (factorMatStep sqrt len c s).A i ⟨c, hc⟩
        = if (i : Nat) < len then
            (larfgVec sqrt (s.R ⟨c, hc⟩ ⟨c, hc⟩)
              (fun i : Fin m => if (i : Nat) < len then s.A i ⟨c, hc⟩ else 0)).2.1 i
          else s.A i ⟨c, hc⟩ := by
  have hnlt : ¬ ((⟨c, hc⟩ : Fin n) < ⟨c, hc⟩) := lt_irrefl _
  refine ⟨?_, fun i => ?_⟩
  · simp only [factorMatStep, trailMatStep, larfgMatStep, dif_pos hc, Function.update_same]
  · simp only [factorMatStep, trailMatStep, larfgMatStep, dif_pos hc, if_neg hnlt, true_and]

/-- The reflector stored by the matrix-level column step `c` is valid: `tau[c] = 0` or
`tau[c] · (1 + Σ_{i < len} A[i,c]²) = 2`. -/
theorem factorMatStep_valid (sqrt : K → K) (hs : IsSqrt sqrt) (len c : Nat) (hc : c < n)
    (s : FactorMat K m n) :
    (factorMatStep sqrt len c s).tau ⟨c, hc⟩ = 0
    ∨ (factorMatStep sqrt len c s).tau ⟨c, hc⟩
        * (1 + ∑ i : Fin m, if (i : Nat) < len then
            (factorMatStep sqrt len c s).A i ⟨c, hc⟩ * (factorMatStep sqrt len c s).A i ⟨c, hc⟩
          else 0) = 2 := by
  obtain ⟨e1, e2⟩ := factorMatStep_col sqrt len c hc s
  have hval := larfgVec_valid sqrt hs (s.R ⟨c, hc⟩ ⟨c, hc⟩)
    (fun i : Fin m => if (i : Nat) < len then s.A i ⟨c, hc⟩ else 0)
  have hv0 : ∀ i : Fin m, ¬ (i : Nat) < len →
      (larfgVec sqrt (s.R ⟨c, hc⟩ ⟨c, hc⟩)
        (fun i : Fin m => if (i : Nat) < len then s.A i ⟨c, hc⟩ else 0)).2.1 i = 0 := by
    intro i hi
    apply larfgVec_zero_entry
    exact if_neg hi
  rw [e1]
  generalize (larfgVec sqrt (s.R ⟨c, hc⟩ ⟨c, hc⟩)
    (fun i : Fin m => if (i : Nat) < len then s.A i ⟨c, hc⟩ else 0)).2.2 = t at hval
  generalize (larfgVec sqrt (s.R ⟨c, hc⟩ ⟨c, hc⟩)
    (fun i : Fin m => if (i : Nat) < len then s.A i ⟨c, hc⟩ else 0)).2.1 = v at e2 hval hv0
  have hsum : (∑ i : Fin m, if (i : Nat) < len then
        (factorMatStep sqrt len c s).A i ⟨c, hc⟩ * (factorMatStep sqrt len c s).A i ⟨c, hc⟩
      else 0) = ∑ i : Fin m, v i * v i := by
    apply Finset.sum_congr rfl
    intro i _
    by_cases hi : (i : Nat) < len
    · rw [if_pos hi, e2 i, if_pos hi]
    · rw [if_neg hi, hv0 i hi, mul_zero]
  rw [hsum]
  exact hval

/-- Every reflector stored by the matrix-level sweep is valid at the end of the sweep. -/
theorem factorMat_loop_valid (sqrt : K → K) (hs : IsSqrt sqrt) (len : Nat → Nat)
    (F0 : FactorMat K m n) (k : Fin n) :
    (loop n (fun k s => factorMatStep sqrt (len k) k s) F0).tau k = 0
    ∨ (loop n (fun k s => factorMatStep sqrt (len k) k s) F0).tau k
        * (1 + ∑ i : Fin m, if (i : Nat) < len k then
            (loop n (fun k s => factorMatStep sqrt (len k) k s) F0).A i k
              * (loop n (fun k s => factorMatStep sqrt (len k) k s) F0).A i k
          else 0) = 2 := by
  obtain ⟨h1, h2⟩ := factorMat_loop_stable sqrt len F0 k n (Nat.succ_le_of_lt k.2)
  simp only [h1, h2, loop_succ]
  exact factorMatStep_valid sqrt hs (len k) k k.2 _

end ReflectorValidity

section ReflectorValidityBuffers

/-- The reflectors stored by `factor_inner` are valid; `tau[0 .. n)` does not depend on the
contents of `tau` on entry; column `k` and `tau[k]` have their final values after column
step `k`. -/
theorem factor_inner_reflectors (sqrt : K → K) (hs : IsSqrt sqrt) (m n : Nat) (hn : 1 ≤ n)
    (R : Buf K) (ldr : Nat) (A : Buf K) (lda : Nat) (tau work : Buf K) (hldr : n ≤ ldr)
    (hlda : m ≤ lda) :
    ∃ out, factor_inner sqrt m n R ldr A lda tau work = Except.ok out
      ∧ (∀ k : Nat, k < n → out.tau (k : Int) = 0
          ∨ out.tau (k : Int) * (1 + ∑ i in Finset.range m,
              out.A ((i : Int) + (k : Int) * (lda : Int)) ^ 2) = 2)
      ∧ (∀ tau2 : Buf K, ∃ out2, factor_inner sqrt m n R ldr A lda tau2 work = Except.ok out2
          ∧ ∀ k : Nat, k < n → out2.tau (k : Int) = out.tau (k : Int))
      ∧ (∀ c k : Nat, k < c → c ≤ n - 1 →
          ∃ sc, loopM c (factor_inner_step sqrt m n ldr lda)
              ⟨R, A, tau, loop n (fun k (w : Buf K) => Function.update w (k : Int) 0) work⟩
              = Except.ok sc
            ∧ sc.tau (k : Int) = out.tau (k : Int)
            ∧ ∀ i : Nat, i < m → sc.A ((i : Int) + (k : Int) * (lda : Int))
                = out.A ((i : Int) + (k : Int) * (lda : Int))) := by
  obtain ⟨out, h1, h2, _, _, _⟩ := factor_inner_read sqrt m n hn R ldr A lda tau work hldr hlda
  have h2b : out.read ldr lda m n = loop n (fun k s => factorMatStep sqrt ((fun _ => m) k) k s)
      ⟨readMat R ldr n n, readMat A lda m n, readVec tau n⟩ := h2
  refine ⟨out, h1, ?_, ?_, ?_⟩
  · intro k hk
    have hv := factorMat_loop_valid sqrt hs (fun _ => m)
      (⟨readMat R ldr n n, readMat A lda m n, readVec tau n⟩ : FactorMat K m n) ⟨k, hk⟩
    rw [← h2b] at hv
    have e := sum_trunc m m le_rfl
      (fun i => out.A ((i : Int) + (k : Int) * (lda : Int)) ^ 2)
    rw [← e]
    simp only [pow_two]
    exact hv
  · intro tau2
    obtain ⟨out2, g1, g2, _, _, _⟩ :=
      factor_inner_read sqrt m n hn R ldr A lda tau2 work hldr hlda
    have g2b : out2.read ldr lda m n
        = loop n (fun k s => factorMatStep sqrt ((fun _ => m) k) k s)
          ⟨readMat R ldr n n, readMat A lda m n, readVec tau2 n⟩ := g2
    refine ⟨out2, g1, fun k hk => ?_⟩
    have hc := (factorMat_loop_congr sqrt (fun _ => m)
      (⟨readMat R ldr n n, readMat A lda m n, readVec tau2 n⟩ : FactorMat K m n)
      ⟨readMat R ldr n n, readMat A lda m n, readVec tau n⟩ rfl rfl n).2.2 ⟨k, hk⟩ hk
    rw [← g2b, ← h2b] at hc
    exact hc
  · intro c k hkc hcn
    obtain ⟨sc, g1, g2, _, _, _⟩ := factor_inner_loop_read sqrt m n ldr lda hldr hlda
      ⟨R, A, tau, loop n (fun k (w : Buf K) => Function.update w (k : Int) 0) work⟩ c
      (by omega)
    have hk : k < n := by omega
    have g2b : sc.read ldr lda m n
        = loop c (fun k s => factorMatStep sqrt ((fun _ => m) k) k s)
          ⟨readMat R ldr n n, readMat A lda m n, readVec tau n⟩ := g2
    obtain ⟨a1, a2⟩ := factorMat_loop_stable sqrt (fun _ => m)
      (⟨readMat R ldr n n, readMat A lda m n, readVec tau n⟩ : FactorMat K m n) ⟨k, hk⟩ c hkc
    obtain ⟨b1, b2⟩ := factorMat_loop_stable sqrt (fun _ => m)
      (⟨readMat R ldr n n, readMat A lda m n, readVec tau n⟩ : FactorMat K m n) ⟨k, hk⟩ n hk
    rw [← g2b] at a1 a2
    rw [← h2b] at b1 b2
    refine ⟨sc, g1, a2.trans b2.symm, fun i hi => ?_⟩
    exact (a1 ⟨i, hi⟩).trans (b1 ⟨i, hi⟩).symm

/-- The reflectors stored by `factor_pair` are valid; `tau[0 .. n)` does not depend on the
contents of `tau` on entry; column `k` of `R_bot` and `tau[k]` have their final values after
column step `k`. -/
theorem factor_pair_reflectors (sqrt : K → K) (hs : IsSqrt sqrt) (n : Nat) (hn : 1 ≤ n)
    (R_top : Buf K) (ldr_top : Nat) (R_bot : Buf K) (ldr_bot : Nat) (tau work : Buf K)
    (hldt : n ≤ ldr_top) (hldb : n ≤ ldr_bot) :
    ∃ out, factor_pair sqrt n R_top ldr_top R_bot ldr_bot tau work = Except.ok out
      ∧ (∀ k : Nat, k < n → out.tau (k : Int) = 0
          ∨ out.tau (k : Int) * (1 + ∑ i in Finset.range (k + 1),
              out.R_bot ((i : Int) + (k : Int) * (ldr_bot : Int)) ^ 2) = 2)
      ∧ (∀ tau2 : Buf K,
          ∃ out2, factor_pair sqrt n R_top ldr_top R_bot ldr_bot tau2 work = Except.ok out2
            ∧ ∀ k : Nat, k < n → out2.tau (k : Int) = out.tau (k : Int))
      ∧ (∀ c k : Nat, k < c → c ≤ n - 1 →
          ∃ sc, loopM c (factor_pair_step sqrt ⟨0, n, n, ldr_top⟩ ⟨0, n, n, ldr_bot⟩)
              ⟨R_top, R_bot, tau,
                loop n (fun k (w : Buf K) => Function.update w (k : Int) 0) work⟩
              = Except.ok sc
            ∧ sc.tau (k : Int) = out.tau (k : Int)
            ∧ ∀ i : Nat, i < n → sc.R_bot ((i : Int) + (k : Int) * (ldr_bot : Int))
                = out.R_bot ((i : Int) + (k : Int) * (ldr_bot : Int))) := by
  obtain ⟨out, h1, h2, _, _, _⟩ :=
    factor_pair_read sqrt n hn R_top ldr_top R_bot ldr_bot tau work hldt hldb
  refine ⟨out, h1, ?_, ?_, ?_⟩
  · intro k hk
    have hv := factorMat_loop_valid sqrt hs (fun k => k + 1)
      (⟨readMat R_top ldr_top n n, readMat R_bot ldr_bot n n, readVec tau n⟩ : FactorMat K n n)
      ⟨k, hk⟩
    rw [← h2] at hv
    have e := sum_trunc n (k + 1) (Nat.succ_le_of_lt hk)
      (fun i => out.R_bot ((i : Int) + (k : Int) * (ldr_bot : Int)) ^ 2)
    rw [← e]
    simp only [pow_two]
    exact hv
  · intro tau2
    obtain ⟨out2, g1, g2, _, _, _⟩ :=
      factor_pair_read sqrt n hn R_top ldr_top R_bot ldr_bot tau2 work hldt hldb
    refine ⟨out2, g1, fun k hk => ?_⟩
    have hc := (factorMat_loop_congr sqrt (fun k => k + 1)
      (⟨readMat R_top ldr_top n n, readMat R_bot ldr_bot n n, readVec tau2 n⟩ : FactorMat K n n)
      ⟨readMat R_top ldr_top n n, readMat R_bot ldr_bot n n, readVec tau n⟩ rfl rfl n).2.2
      ⟨k, hk⟩ hk
    rw [← g2, ← h2] at hc
    exact hc
  · intro c k hkc hcn
    obtain ⟨sc, g1, g2, _, _, _⟩ := factor_pair_loop_read sqrt n ldr_top ldr_bot hldt hldb
      ⟨R_top, R_bot, tau, loop n (fun k (w : Buf K) => Function.update w (k : Int) 0) work⟩ c
      (by omega)
    have hk : k < n := by omega
    obtain ⟨a1, a2⟩ := factorMat_loop_stable sqrt (fun k => k + 1)
      (⟨readMat R_top ldr_top n n, readMat R_bot ldr_bot n n, readVec tau n⟩ : FactorMat K n n)
      ⟨k, hk⟩ c hkc
    obtain ⟨b1, b2⟩ := factorMat_loop_stable sqrt (fun k => k + 1)
      (⟨readMat R_top ldr_top n n, readMat R_bot ldr_bot n n, readVec tau n⟩ : FactorMat K n n)
      ⟨k, hk⟩ n hk
    have g2b : sc.toInner.read ldr_top ldr_bot n n
        = loop c (fun k t => factorMatStep sqrt (k + 1) k t)
          ⟨readMat R_top ldr_top n n, readMat R_bot ldr_bot n n, readVec tau n⟩ := g2
    rw [← g2b] at a1 a2
    rw [← h2] at b1 b2
    refine ⟨sc, g1, a2.trans b2.symm, fun i hi => ?_⟩
    exact (a1 ⟨i, hi⟩).trans (b1 ⟨i, hi⟩).symm

end ReflectorValidityBuffers

/-- C21: every reflector emitted by a factorization is a valid Householder reflector.  In
exact real arithmetic with `LARFG` by its LAPACK contract, for `n ≥ 1` and leading
dimensions that hold the matrices, `factor_inner` and `factor_pair` return and

* after `factor_inner`, `tau[k] = 0` or `tau[k] · (1 + Σ_{i<m} A_out[i,k]²) = 2` for `k < n`;
* after `factor_pair`, `tau[k] = 0` or `tau[k] · (1 + Σ_{i≤k} R_bot_out[i,k]²) = 2`;
* all of `tau[0 .. n)` is written: it does not depend on what `tau` held on entry;
* column `k` of the reflector storage and `tau[k]` are not modified by a later step: after
  any number `c > k` of column steps they hold their final values. -/
theorem C21_factorization_reflectors_are_valid (m n : Nat) (hn : 1 ≤ n) (R : Buf ℝ)
    (ldr : Nat) (A : Buf ℝ) (lda : Nat) (R_top : Buf ℝ) (ldr_top : Nat) (R_bot : Buf ℝ)
    (ldr_bot : Nat) (tau work : Buf ℝ) (hldr : n ≤ ldr) (hlda : m ≤ lda) (hldt : n ≤ ldr_top)
    (hldb : n ≤ ldr_bot) :
    (∃ out, factor_inner Real.sqrt m n R ldr A lda tau work = Except.ok out
      ∧ (∀ k : Nat, k < n → out.tau (k : Int) = 0
          ∨ out.tau (k : Int) * (1 + ∑ i in Finset.range m,
              out.A ((i : Int) + (k : Int) * (lda : Int)) ^ 2) = 2)
      ∧ (∀ tau2 : Buf ℝ,
          ∃ out2, factor_inner Real.sqrt m n R ldr A lda tau2 work = Except.ok out2
            ∧ ∀ k : Nat, k < n → out2.tau (k : Int) = out.tau (k : Int))
      ∧ (∀ c k : Nat, k < c → c ≤ n - 1 →
          ∃ sc, loopM c (factor_inner_step Real.sqrt m n ldr lda)
              ⟨R, A, tau, loop n (fun k (w : Buf ℝ) => Function.update w (k : Int) 0) work⟩
              = Except.ok sc
            ∧ sc.tau (k : Int) = out.tau (k : Int)
            ∧ ∀ i : Nat, i < m → sc.A ((i : Int) + (k : Int) * (lda : Int))
                = out.A ((i : Int) + (k : Int) * (lda : Int))))
    ∧ (∃ out, factor_pair Real.sqrt n R_top ldr_top R_bot ldr_bot tau work = Except.ok out
      ∧ (∀ k : Nat, k < n → out.tau (k : Int) = 0
          ∨ out.tau (k : Int) * (1 + ∑ i in Finset.range (k + 1),
              out.R_bot ((i : Int) + (k : Int) * (ldr_bot : Int)) ^ 2) = 2)
      ∧ (∀ tau2 : Buf ℝ,
          ∃ out2, factor_pair Real.sqrt n R_top ldr_top R_bot ldr_bot tau2 work = Except.ok out2
            ∧ ∀ k : Nat, k < n → out2.tau (k : Int) = out.tau (k : Int))
      ∧ (∀ c k : Nat, k < c → c ≤ n - 1 →
          ∃ sc, loopM c (factor_pair_step Real.sqrt ⟨0, n, n, ldr_top⟩ ⟨0, n, n, ldr_bot⟩)
              ⟨R_top, R_bot, tau,
                loop n (fun k (w : Buf ℝ) => Function.update w (k : Int) 0) work⟩
              = Except.ok sc
            ∧ sc.tau (k : Int) = out.tau (k : Int)
            ∧ ∀ i : Nat, i < n → sc.R_bot ((i : Int) + (k : Int) * (ldr_bot : Int))
                = out.R_bot ((i : Int) + (k : Int) * (ldr_bot : Int)))) :=
  ⟨factor_inner_reflectors Real.sqrt isSqrt_real m n hn R ldr A lda tau work hldr hlda,
    factor_pair_reflectors Real.sqrt isSqrt_real n hn R_top ldr_top R_bot ldr_bot tau work hldt
      hldb⟩

/-- Witness for C21: `m = n = 2`, `R = R_top = [[3, 1], [0, 4]]`, `A = R_bot = [[4, 1], [0, 3]]`
(column-major, leading dimensions 2): both factorizations return and their reflectors are
valid. -/
theorem C21_factorization_reflectors_are_valid_witness :
    (∃ out, factor_inner Real.sqrt 2 2
          (fun p => if p = 0 then 3 else if p = 2 then 1 else if p = 3 then 4 else 0) 2
          (fun p => if p = 0 then 4 else if p = 2 then 1 else if p = 3 then 3 else 0) 2
          (fun _ => 0) (fun _ => 0) = Except.ok out
      ∧ ∀ k : Nat, k < 2 → out.tau (k : Int) = 0
          ∨ out.tau (k : Int) * (1 + ∑ i in Finset.range 2,
              out.A ((i : Int) + (k : Int) * ((2 : Nat) : Int)) ^ 2) = 2)
    ∧ (∃ out, factor_pair Real.sqrt 2
          (fun p => if p = 0 then 3 else if p = 2 then 1 else if p = 3 then 4 else 0) 2
          (fun p => if p = 0 then 4 else if p = 2 then 1 else if p = 3 then 3 else 0) 2
          (fun _ => 0) (fun _ => 0) = Except.ok out
      ∧ ∀ k : Nat, k < 2 → out.tau (k : Int) = 0
          ∨ out.tau (k : Int) * (1 + ∑ i in Finset.range (k + 1),
              out.R_bot ((i : Int) + (k : Int) * ((2 : Nat) : Int)) ^ 2) = 2) := by
  obtain ⟨⟨o1, a1, a2, _⟩, ⟨o2, b1, b2, _⟩⟩ := C21_factorization_reflectors_are_valid 2 2
    (by decide)
    (fun p => if p = 0 then 3 else if p = 2 then 1 else if p = 3 then 4 else 0) 2
    (fun p => if p = 0 then 4 else if p = 2 then 1 else if p = 3 then 3 else 0) 2
    (fun p => if p = 0 then 3 else if p = 2 then 1 else if p = 3 then 4 else 0) 2
    (fun p => if p = 0 then 4 else if p = 2 then 1 else if p = 3 then 3 else 0) 2
    (fun _ => 0) (fun _ => 0) (by decide) (by decide) (by decide) (by decide)
  exact ⟨⟨o1, a1, a2⟩, ⟨o2, b1, b2⟩⟩

section StepLocality

variable {m n : Nat}

/-- Locality of the matrix-level column step `c` with cut length `len`: it changes only
`R[c, c ..]` and the rows `< len` of the columns `c ..` of the reflector storage, and what
it stores there (and in `tau[c]`) is determined by the same entries. -/
theorem factorMatStep_local (sqrt : K → K) (len c : Nat) (hc : c < n) (s t : FactorMat K m n) :
    (∀ a j : Fin n, ¬ (a = ⟨c, hc⟩ ∧ c ≤ (j : Nat)) →
        (factorMatStep sqrt len c s).R a j = s.R a j)
    ∧ (∀ (i : Fin m) (j : Fin n), ¬ ((i : Nat) < len ∧ c ≤ (j : Nat)) →
        (factorMatStep sqrt len c s).A i j = s.A i j)
    ∧ ((∀ j : Fin n, c ≤ (j : Nat) → s.R ⟨c, hc⟩ j = t.R ⟨c, hc⟩ j) →
        (∀ (i : Fin m) (j : Fin n), (i : Nat) < len → c ≤ (j : Nat) → s.A i j = t.A i j) →
        (∀ j : Fin n, c ≤ (j : Nat) →
            (factorMatStep sqrt len c s).R ⟨c, hc⟩ j = (factorMatStep sqrt len c t).R ⟨c, hc⟩ j)
        ∧ (∀ (i : Fin m) (j : Fin n), (i : Nat) < len → c ≤ (j : Nat) →
            (factorMatStep sqrt len c s).A i j = (factorMatStep sqrt len c t).A i j)
        ∧ (factorMatStep sqrt len c s).tau ⟨c, hc⟩ = (factorMatStep sqrt len c t).tau ⟨c, hc⟩) := by
  have hv0 : ∀ (u : FactorMat K m n) (i : Fin m), ¬ (i : Nat) < len →
      (larfgVec sqrt (u.R ⟨c, hc⟩ ⟨c, hc⟩)
        (fun i : Fin m => if (i : Nat) < len then u.A i ⟨c, hc⟩ else 0)).2.1 i = 0 := by
    intro u i hi
    apply larfgVec_zero_entry
    exact if_neg hi
  refine ⟨fun a j h => ?_, fun i j h => ?_, fun hR hA => ?_⟩
  · rcases lt_trichotomy (j : Nat) c with h1 | h1 | h1
    · exact (factorMatStep_keep sqrt len c s j h1).2.1 a
    · have hj : j = ⟨c, hc⟩ := Fin.ext h1
      subst hj
      rw [(factorMatStep_entries sqrt len c hc s).1 a, if_neg (fun ha => h ⟨ha, le_rfl⟩)]
    · rw [(factorMatStep_entries sqrt len c hc s).2.1 j h1 a,
        if_neg (fun ha => h ⟨ha, le_of_lt h1⟩)]
  · rcases lt_trichotomy (j : Nat) c with h1 | h1 | h1
    · exact (factorMatStep_keep sqrt len c s j h1).1 i
    · have hj : j = ⟨c, hc⟩ := Fin.ext h1
      subst hj
      rw [(factorMatStep_col sqrt len c hc s).2 i, if_neg (fun hi => h ⟨hi, le_rfl⟩)]
    · rw [(factorMatStep_entries sqrt len c hc s).2.2 j h1 i,
        hv0 s i (fun hi => h ⟨hi, le_of_lt h1⟩), zero_mul, add_zero]
  · have hx : (fun i : Fin m => if (i : Nat) < len then s.A i ⟨c, hc⟩ else 0)
        = (fun i : Fin m => if (i : Nat) < len then t.A i ⟨c, hc⟩ else 0) := by
      funext i
      by_cases hi : (i : Nat) < len
      · rw [if_pos hi, if_pos hi, hA i ⟨c, hc⟩ hi le_rfl]
      · rw [if_neg hi, if_neg hi]
    have hr : larfgVec sqrt (s.R ⟨c, hc⟩ ⟨c, hc⟩)
          (fun i : Fin m => if (i : Nat) < len then s.A i ⟨c, hc⟩ else 0)
        = larfgVec sqrt (t.R ⟨c, hc⟩ ⟨c, hc⟩)
          (fun i : Fin m => if (i : Nat) < len then t.A i ⟨c, hc⟩ else 0) := by
      rw [hx, hR ⟨c, hc⟩ le_rfl]
    have hsum : ∀ j : Fin n, c ≤ (j : Nat) →
        (∑ k, (larfgVec sqrt (t.R ⟨c, hc⟩ ⟨c, hc⟩)
            (fun i : Fin m => if (i : Nat) < len then t.A i ⟨c, hc⟩ else 0)).2.1 k * s.A k j)
        = ∑ k, (larfgVec sqrt (t.R ⟨c, hc⟩ ⟨c, hc⟩)
            (fun i : Fin m => if (i : Nat) < len then t.A i ⟨c, hc⟩ else 0)).2.1 k * t.A k j := by
      intro j hj
      apply Finset.sum_congr rfl
      intro k _
      by_cases hk : (k : Nat) < len
      · rw [hA k j hk hj]
      · rw [hv0 t k hk, zero_mul, zero_mul]
    refine ⟨fun j hj => ?_, fun i j hi hj => ?_, ?_⟩
    · rcases Nat.eq_or_lt_of_le hj with h1 | h1
      · have hjc : j = ⟨c, hc⟩ := Fin.ext h1.symm
        subst hjc
        rw [(factorMatStep_entries sqrt len c hc s).1, (factorMatStep_entries sqrt len c hc t).1,
          if_pos rfl, if_pos rfl, hr]
      · rw [(factorMatStep_entries sqrt len c hc s).2.1 j h1,
          (factorMatStep_entries sqrt len c hc t).2.1 j h1, if_pos rfl, if_pos rfl, hr,
          hsum j hj, hR j hj]
    · rcases Nat.eq_or_lt_of_le hj with h1 | h1
      · have hjc : j = ⟨c, hc⟩ := Fin.ext h1.symm
        subst hjc
        rw [(factorMatStep_col sqrt len c hc s).2 i, (factorMatStep_col sqrt len c hc t).2 i,
          if_pos hi, if_pos hi, hr]
      · rw [(factorMatStep_entries sqrt len c hc s).2.2 j h1 i,
          (factorMatStep_entries sqrt len c hc t).2.2 j h1 i, hr, hsum j hj, hR j hj,
          hA i j hi hj]
    · rw [(factorMatStep_col sqrt len c hc s).1, (factorMatStep_col sqrt len c hc t).1, hr]

/-- The matrix-level sweep with nondecreasing cut lengths `len` reads and writes only the
upper triangle of `R` and the rows `< len j` of the columns `j` of the reflector storage:
two runs that agree there (whatever `tau` holds) agree there afterwards and on
`tau[0 .. c)`, and each run leaves every other entry as it was. -/
theorem factorMat_loop_agree (sqrt : K → K) (len : Nat → Nat)
    (hmono : ∀ a b : Nat, a ≤ b → len a ≤ len b) (s t : FactorMat K m n)
    (hR : ∀ a j : Fin n, (a : Nat) ≤ (j : Nat) → s.R a j = t.R a j)
    (hA : ∀ (i : Fin m) (j : Fin n), (i : Nat) < len j → s.A i j = t.A i j)
    (c : Nat) (hc : c ≤ n) :
    (∀ a j : Fin n, (a : Nat) ≤ (j : Nat) →
        (loop c (fun k u => factorMatStep sqrt (len k) k u) s).R a j
          = (loop c (fun k u => factorMatStep sqrt (len k) k u) t).R a j)
    ∧ (∀ (i : Fin m) (j : Fin n), (i : Nat) < len j →
        (loop c (fun k u => factorMatStep sqrt (len k) k u) s).A i j
          = (loop c (fun k u => factorMatStep sqrt (len k) k u) t).A i j)
    ∧ (∀ j : Fin n, (j : Nat) < c →
        (loop c (fun k u => factorMatStep sqrt (len k) k u) s).tau j
          = (loop c (fun k u => factorMatStep sqrt (len k) k u) t).tau j)
    ∧ (∀ a j : Fin n, (j : Nat) < (a : Nat) →
        (loop c (fun k u => factorMatStep sqrt (len k) k u) s).R a j = s.R a j)
    ∧ (∀ (i : Fin m) (j : Fin n), ¬ (i : Nat) < len j →
        (loop c (fun k u => factorMatStep sqrt (len k) k u) s).A i j = s.A i j) := by
  induction c with
  | zero =>
    exact ⟨hR, hA, fun j hj => absurd hj (Nat.not_lt_zero _), fun _ _ _ => rfl,
      fun _ _ _ => rfl⟩
  | succ c ih =>
    have hcn : c < n := hc
    obtain ⟨i1, i2, i3, i4, i5⟩ := ih (le_of_lt hcn)
    simp only [loop_succ]
    generalize loop c (fun k u => factorMatStep sqrt (len k) k u) s = S at i1 i2 i3 i4 i5 ⊢
    generalize loop c (fun k u => factorMatStep sqrt (len k) k u) t = T at i1 i2 i3 ⊢
    obtain ⟨fR, fA, dep⟩ := factorMatStep_local sqrt (len c) c hcn S T
    obtain ⟨gR, gA, _⟩ := factorMatStep_local sqrt (len c) c hcn T S
    obtain ⟨d1, d2, d3⟩ := dep (fun j hj => i1 ⟨c, hcn⟩ j hj)
      (fun i j hi hj => i2 i j (lt_of_lt_of_le hi (hmono c j hj)))
    refine ⟨fun a j haj => ?_, fun i j hij => ?_, fun j hj => ?_, fun a j hja => ?_,
      fun i j hij => ?_⟩
    · by_cases h : a = ⟨c, hcn⟩ ∧ c ≤ (j : Nat)
      · rw [h.1]
        exact d1 j h.2
      · rw [fR a j h, gR a j h]
        exact i1 a j haj
    · by_cases h : (i : Nat) < len c ∧ c ≤ (j : Nat)
      · exact d2 i j h.1 h.2
      · rw [fA i j h, gA i j h]
        exact i2 i j hij
    · by_cases h : (j : Nat) = c
      · have hjc : j = ⟨c, hcn⟩ := Fin.ext h
        rw [hjc]
        exact d3
      · have hlt : (j : Nat) < c := lt_of_le_of_ne (Nat.le_of_lt_succ hj) h
        rw [(factorMatStep_keep sqrt (len c) c S j hlt).2.2,
          (factorMatStep_keep sqrt (len c) c T j hlt).2.2]
        exact i3 j hlt
    · have h : ¬ (a = ⟨c, hcn⟩ ∧ c ≤ (j : Nat)) := by
        rintro ⟨ha, hj⟩
        rw [ha] at hja
        exact absurd hja (not_lt.2 hj)
      rw [fR a j h]
      exact i4 a j hja
    · have h : ¬ ((i : Nat) < len c ∧ c ≤ (j : Nat)) := by
        rintro ⟨hi, hj⟩
        exact hij (lt_of_lt_of_le hi (hmono c j hj))
      rw [fA i j h]
      exact i5 i j hij

end StepLocality

/-- C22: the strict lower triangle of `R` is irrelevant to `factor_inner`.  Over any ordered
field and any stand-in for the square root, for `m ≥ 0`, `n ≥ 1`, `ldr ≥ n`, `lda ≥ m`: two
runs whose inputs agree on `A`, `tau`, `work` and on the upper triangle of `R` (diagonal
included) and differ arbitrarily elsewhere in `R` both return, with the same buffers `A` and
`tau`, the same upper triangle of `R`, and in each run every entry `R[i,j]`, `i > j`, is left
as it was. -/
theorem C22_factor_inner_ignores_strict_lower_triangle (sqrt : K → K) (m n : Nat) (hn : 1 ≤ n)
    (R1 R2 : Buf K) (ldr : Nat) (A : Buf K) (lda : Nat) (tau work : Buf K) (hldr : n ≤ ldr)
    (hlda : m ≤ lda)
    (hup : ∀ i j : Nat, i ≤ j → j < n →
      R1 ((i : Int) + (j : Int) * (ldr : Int)) = R2 ((i : Int) + (j : Int) * (ldr : Int))) :
    ∃ o1 o2, factor_inner sqrt m n R1 ldr A lda tau work = Except.ok o1
      ∧ factor_inner sqrt m n R2 ldr A lda tau work = Except.ok o2
      ∧ o1.A = o2.A ∧ o1.tau = o2.tau
      ∧ (∀ i j : Nat, i ≤ j → j < n →
          o1.R ((i : Int) + (j : Int) * (ldr : Int)) = o2.R ((i : Int) + (j : Int) * (ldr : Int)))
      ∧ (∀ i j : Nat, j < i → i < n →
          o1.R ((i : Int) + (j : Int) * (ldr : Int)) = R1 ((i : Int) + (j : Int) * (ldr : Int))
          ∧ o2.R ((i : Int) + (j : Int) * (ldr : Int))
              = R2 ((i : Int) + (j : Int) * (ldr : Int))) := by
  obtain ⟨o1, a1, a2, _, a4, a5⟩ :=
    factor_inner_read sqrt m n hn R1 ldr A lda tau work hldr hlda
  obtain ⟨o2, b1, b2, _, b4, b5⟩ :=
    factor_inner_read sqrt m n hn R2 ldr A lda tau work hldr hlda
  have a2b : o1.read ldr lda m n = loop n (fun k u => factorMatStep sqrt ((fun _ => m) k) k u)
      ⟨readMat R1 ldr n n, readMat A lda m n, readVec tau n⟩ := a2
  have b2b : o2.read ldr lda m n = loop n (fun k u => factorMatStep sqrt ((fun _ => m) k) k u)
      ⟨readMat R2 ldr n n, readMat A lda m n, readVec tau n⟩ := b2
  obtain ⟨c1, c2, c3, c4, _⟩ := factorMat_loop_agree sqrt (fun _ => m) (fun _ _ _ => le_rfl)
    (⟨readMat R1 ldr n n, readMat A lda m n, readVec tau n⟩ : FactorMat K m n)
    ⟨readMat R2 ldr n n, readMat A lda m n, readVec tau n⟩
    (fun a j haj => hup a j haj j.2) (fun _ _ _ => rfl) n le_rfl
  obtain ⟨_, _, _, d4, _⟩ := factorMat_loop_agree sqrt (fun _ => m) (fun _ _ _ => le_rfl)
    (⟨readMat R2 ldr n n, readMat A lda m n, readVec tau n⟩ : FactorMat K m n)
    ⟨readMat R2 ldr n n, readMat A lda m n, readVec tau n⟩
    (fun _ _ _ => rfl) (fun _ _ _ => rfl) n le_rfl
  rw [← a2b, ← b2b] at c1 c2 c3
  rw [← a2b] at c4
  rw [← b2b] at d4
  refine ⟨o1, o2, a1, b1, ?_, ?_, fun i j hij hj => ?_, fun i j hji hi => ⟨?_, ?_⟩⟩
  · apply buf_eq_of_read o1.A o2.A lda m n
    · funext i j
      exact c2 i j i.2
    · intro p hp
      rw [a4 p hp, b4 p hp]
  · apply tau_eq_of_read o1.tau o2.tau n
    · funext j
      exact c3 j j.2
    · intro p hp
      rw [a5 p hp, b5 p hp]
  · exact c1 ⟨i, lt_of_le_of_lt hij hj⟩ ⟨j, hj⟩ hij
  · exact c4 ⟨i, hi⟩ ⟨j, lt_trans hji hi⟩ hji
  · exact d4 ⟨i, hi⟩ ⟨j, lt_trans hji hi⟩ hji

/-- Witness for C22: `m = 1`, `n = 2`, leading dimensions 2 and 1; the two inputs `R` hold
`5` and `7` in the entry `R[1,0]` below the diagonal and `1` elsewhere. -/
theorem C22_factor_inner_ignores_strict_lower_triangle_witness :
    ∃ o1 o2, factor_inner (fun x : ℚ => x) 1 2 (fun p => if p = 1 then 5 else 1) 2
          (fun _ => 1) 1 (fun _ => 0) (fun _ => 0) = Except.ok o1
      ∧ factor_inner (fun x : ℚ => x) 1 2 (fun p => if p = 1 then 7 else 1) 2
          (fun _ => 1) 1 (fun _ => 0) (fun _ => 0) = Except.ok o2
      ∧ o1.A = o2.A ∧ o1.tau = o2.tau
      ∧ o1.R 1 = 5 ∧ o2.R 1 = 7 := by
  obtain ⟨o1, o2, h1, h2, h3, h4, _, h6⟩ :=
    C22_factor_inner_ignores_strict_lower_triangle (fun x : ℚ => x) 1 2 (by decide)
      (fun p => if p = 1 then 5 else 1) (fun p => if p = 1 then 7 else 1) 2
      (fun _ => 1) 1 (fun _ => 0) (fun _ => 0) (by decide) (by decide)
      (fun i j hij hj => by
        have hne : (i : Int) + (j : Int) * ((2 : Nat) : Int) ≠ 1 := by push_cast; omega
        simp only [if_neg hne])
  have h := h6 1 0 (by decide) (by decide)
  simp at h
  exact ⟨o1, o2, h1, h2, h3, h4, h.1, h.2⟩

/-- One column step of `factor_pair` reads and writes only `R_top[k, k ..]` and the rows
`0 .. k` of the columns `k ..` of `R_bot`. -/
theorem factor_pair_step_local (sqrt : K → K) (n ldt ldb k : Nat) (hk : k < n)
    (hldt : n ≤ ldt) (hldb : n ≤ ldb) (s1 s2 : PairState K)
    (hT : ∀ j : Nat, k ≤ j → j < n →
      s1.R_top ((k : Int) + (j : Int) * (ldt : Int)) = s2.R_top ((k : Int) + (j : Int) * (ldt : Int)))
    (hB : ∀ i j : Nat, i ≤ k → k ≤ j → j < n →
      s1.R_bot ((i : Int) + (j : Int) * (ldb : Int))
        = s2.R_bot ((i : Int) + (j : Int) * (ldb : Int))) :
    ∃ u1 u2, factor_pair_step sqrt ⟨0, n, n, ldt⟩ ⟨0, n, n, ldb⟩ k s1 = Except.ok u1
      ∧ factor_pair_step sqrt ⟨0, n, n, ldt⟩ ⟨0, n, n, ldb⟩ k s2 = Except.ok u2
      ∧ (∀ j : Nat, k ≤ j → j < n →
          u1.R_top ((k : Int) + (j : Int) * (ldt : Int))
            = u2.R_top ((k : Int) + (j : Int) * (ldt : Int)))
      ∧ (∀ i j : Nat, i ≤ k → k ≤ j → j < n →
          u1.R_bot ((i : Int) + (j : Int) * (ldb : Int))
            = u2.R_bot ((i : Int) + (j : Int) * (ldb : Int)))
      ∧ u1.tau (k : Int) = u2.tau (k : Int)
      ∧ (∀ i j : Nat, i < n → j < n → ¬ (i = k ∧ k ≤ j) →
          u1.R_top ((i : Int) + (j : Int) * (ldt : Int))
            = s1.R_top ((i : Int) + (j : Int) * (ldt : Int)))
      ∧ (∀ i j : Nat, i < n → j < n → ¬ (i ≤ k ∧ k ≤ j) →
          u1.R_bot ((i : Int) + (j : Int) * (ldb : Int))
            = s1.R_bot ((i : Int) + (j : Int) * (ldb : Int)))
      ∧ (∀ p, Padding ldt n n p → u1.R_top p = s1.R_top p)
      ∧ (∀ p, Padding ldb n n p → u1.R_bot p = s1.R_bot p)
      ∧ (∀ p : Int, p ≠ (k : Int) → u1.tau p = s1.tau p) := by
  obtain ⟨u1, a1, a2, a3, a4, a5⟩ := factor_pair_step_read sqrt n ldt ldb k hk hldt hldb s1
  obtain ⟨u2, b1, b2, _, _, _⟩ := factor_pair_step_read sqrt n ldt ldb k hk hldt hldb s2
  obtain ⟨fR, fA, dep⟩ := factorMatStep_local sqrt (k + 1) k hk
    (s1.toInner.read ldt ldb n n) (s2.toInner.read ldt ldb n n)
  obtain ⟨d1, d2, d3⟩ := dep (fun j hj => hT j hj j.2)
    (fun i j hi hj => hB i j (Nat.le_of_lt_succ hi) hj j.2)
  rw [← a2] at fR fA d1 d2 d3
  rw [← b2] at d1 d2 d3
  refine ⟨u1, u2, a1, b1, fun j hj hjn => d1 ⟨j, hjn⟩ hj,
    fun i j hi hj hjn => d2 ⟨i, lt_of_le_of_lt hi hk⟩ ⟨j, hjn⟩ (Nat.lt_succ_of_le hi) hj, d3,
    fun i j hi hj h => ?_, fun i j hi hj h => ?_, a3, a4, a5⟩
  · exact fR ⟨i, hi⟩ ⟨j, hj⟩ (fun hh => h ⟨congrArg Fin.val hh.1, hh.2⟩)
  · exact fA ⟨i, hi⟩ ⟨j, hj⟩ (fun hh => h ⟨Nat.le_of_lt_succ hh.1, hh.2⟩)

/-- The whole of `factor_pair` reads and writes only the upper triangles. -/
theorem factor_pair_upper_only (sqrt : K → K) (n : Nat) (hn : 1 ≤ n) (T1 T2 : Buf K)
    (ldt : Nat) (B1 B2 : Buf K) (ldb : Nat) (tau work : Buf K) (hldt : n ≤ ldt)
    (hldb : n ≤ ldb)
    (hT : ∀ i j : Nat, i ≤ j → j < n →
      T1 ((i : Int) + (j : Int) * (ldt : Int)) = T2 ((i : Int) + (j : Int) * (ldt : Int)))
    (hB : ∀ i j : Nat, i ≤ j → j < n →
      B1 ((i : Int) + (j : Int) * (ldb : Int)) = B2 ((i : Int) + (j : Int) * (ldb : Int))) :
    ∃ o1 o2, factor_pair sqrt n T1 ldt B1 ldb tau work = Except.ok o1
      ∧ factor_pair sqrt n T2 ldt B2 ldb tau work = Except.ok o2
      ∧ o1.tau = o2.tau
      ∧ (∀ i j : Nat, i ≤ j → j < n →
          o1.R_top ((i : Int) + (j : Int) * (ldt : Int))
            = o2.R_top ((i : Int) + (j : Int) * (ldt : Int))
          ∧ o1.R_bot ((i : Int) + (j : Int) * (ldb : Int))
            = o2.R_bot ((i : Int) + (j : Int) * (ldb : Int)))
      ∧ (∀ i j : Nat, j < i → i < n →
          o1.R_top ((i : Int) + (j : Int) * (ldt : Int)) = T1 ((i : Int) + (j : Int) * (ldt : Int))
          ∧ o1.R_bot ((i : Int) + (j : Int) * (ldb : Int))
            = B1 ((i : Int) + (j : Int) * (ldb : Int))) := by
  obtain ⟨o1, a1, a2, _, _, a5⟩ := factor_pair_read sqrt n hn T1 ldt B1 ldb tau work hldt hldb
  obtain ⟨o2, b1, b2, _, _, b5⟩ := factor_pair_read sqrt n hn T2 ldt B2 ldb tau work hldt hldb
  obtain ⟨c1, c2, c3, c4, c5⟩ := factorMat_loop_agree sqrt (fun k => k + 1)
    (fun a b hab => Nat.succ_le_succ hab)
    (⟨readMat T1 ldt n n, readMat B1 ldb n n, readVec tau n⟩ : FactorMat K n n)
    ⟨readMat T2 ldt n n, readMat B2 ldb n n, readVec tau n⟩
    (fun a j haj => hT a j haj j.2) (fun i j hij => hB i j (Nat.le_of_lt_succ hij) j.2) n le_rfl
  rw [← a2, ← b2] at c1 c2 c3
  rw [← a2] at c4 c5
  refine ⟨o1, o2, a1, b1, ?_, fun i j hij hj => ⟨?_, ?_⟩, fun i j hji hi => ⟨?_, ?_⟩⟩
  · apply tau_eq_of_read o1.tau o2.tau n
    · funext j
      exact c3 j j.2
    · intro p hp
      rw [a5 p hp, b5 p hp]
  · exact c1 ⟨i, lt_of_le_of_lt hij hj⟩ ⟨j, hj⟩ hij
  · exact c2 ⟨i, lt_of_le_of_lt hij hj⟩ ⟨j, hj⟩ (Nat.lt_succ_of_le hij)
  · exact c4 ⟨i, hi⟩ ⟨j, lt_trans hji hi⟩ hji
  · exact c5 ⟨i, hi⟩ ⟨j, lt_trans hji hi⟩ (fun h => by
      have h2 : i < j + 1 := h
      omega)

/-- C23: `factor_pair` touches only the upper triangles.  Over any ordered field and any
stand-in for the square root, for `n ≥ 1` and leading dimensions `≥ n`:

* two runs whose inputs `R_top` and `R_bot` agree on the upper triangles (diagonal included)
  and differ arbitrarily below them both return, with the same `tau` and the same upper
  triangles of `R_top` and `R_bot` (no entry below the diagonal is read);
* in each run every entry `R_top[i,j]` and `R_bot[i,j]` with `i > j` is left as it was;
* column step `k` reads and writes only `R_top[k, k .. n-1]` and the rows `0 .. k` of the
  columns `k .. n-1` of `R_bot`: two states that agree on these entries (and differ
  arbitrarily elsewhere, `tau` and `work` included) agree on them and on `tau[k]` after the
  step, and the step leaves every other entry of `R_top` and `R_bot`, padding included, and
  every entry of `tau` but `tau[k]` as it was. -/
theorem C23_factor_pair_touches_only_upper_triangles (sqrt : K → K) (n : Nat) (hn : 1 ≤ n)
    (T1 T2 : Buf K) (ldr_top : Nat) (B1 B2 : Buf K) (ldr_bot : Nat) (tau work : Buf K)
    (hldt : n ≤ ldr_top) (hldb : n ≤ ldr_bot)
    (hT : ∀ i j : Nat, i ≤ j → j < n →
      T1 ((i : Int) + (j : Int) * (ldr_top : Int)) = T2 ((i : Int) + (j : Int) * (ldr_top : Int)))
    (hB : ∀ i j : Nat, i ≤ j → j < n →
      B1 ((i : Int) + (j : Int) * (ldr_bot : Int))
        = B2 ((i : Int) + (j : Int) * (ldr_bot : Int))) :
    (∃ o1 o2, factor_pair sqrt n T1 ldr_top B1 ldr_bot tau work = Except.ok o1
      ∧ factor_pair sqrt n T2 ldr_top B2 ldr_bot tau work = Except.ok o2
      ∧ o1.tau = o2.tau
      ∧ (∀ i j : Nat, i ≤ j → j < n →
          o1.R_top ((i : Int) + (j : Int) * (ldr_top : Int))
            = o2.R_top ((i : Int) + (j : Int) * (ldr_top : Int))
          ∧ o1.R_bot ((i : Int) + (j : Int) * (ldr_bot : Int))
            = o2.R_bot ((i : Int) + (j : Int) * (ldr_bot : Int)))
      ∧ (∀ i j : Nat, j < i → i < n →
          o1.R_top ((i : Int) + (j : Int) * (ldr_top : Int))
            = T1 ((i : Int) + (j : Int) * (ldr_top : Int))
          ∧ o1.R_bot ((i : Int) + (j : Int) * (ldr_bot : Int))
            = B1 ((i : Int) + (j : Int) * (ldr_bot : Int))
          ∧ o2.R_top ((i : Int) + (j : Int) * (ldr_top : Int))
            = T2 ((i : Int) + (j : Int) * (ldr_top : Int))
          ∧ o2.R_bot ((i : Int) + (j : Int) * (ldr_bot : Int))
            = B2 ((i : Int) + (j : Int) * (ldr_bot : Int))))
    ∧ (∀ (k : Nat) (s1 s2 : PairState K), k < n →
        (∀ j : Nat, k ≤ j → j < n →
          s1.R_top ((k : Int) + (j : Int) * (ldr_top : Int))
            = s2.R_top ((k : Int) + (j : Int) * (ldr_top : Int))) →
        (∀ i j : Nat, i ≤ k → k ≤ j → j < n →
          s1.R_bot ((i : Int) + (j : Int) * (ldr_bot : Int))
            = s2.R_bot ((i : Int) + (j : Int) * (ldr_bot : Int))) →
        ∃ u1 u2,
          factor_pair_step sqrt ⟨0, n, n, ldr_top⟩ ⟨0, n, n, ldr_bot⟩ k s1 = Except.ok u1
          ∧ factor_pair_step sqrt ⟨0, n, n, ldr_top⟩ ⟨0, n, n, ldr_bot⟩ k s2 = Except.ok u2
          ∧ (∀ j : Nat, k ≤ j → j < n →
              u1.R_top ((k : Int) + (j : Int) * (ldr_top : Int))
                = u2.R_top ((k : Int) + (j : Int) * (ldr_top : Int)))
          ∧ (∀ i j : Nat, i ≤ k → k ≤ j → j < n →
              u1.R_bot ((i : Int) + (j : Int) * (ldr_bot : Int))
                = u2.R_bot ((i : Int) + (j : Int) * (ldr_bot : Int)))
          ∧ u1.tau (k : Int) = u2.tau (k : Int)
          ∧ (∀ i j : Nat, i < n → j < n → ¬ (i = k ∧ k ≤ j) →
              u1.R_top ((i : Int) + (j : Int) * (ldr_top : Int))
                = s1.R_top ((i : Int) + (j : Int) * (ldr_top : Int)))
          ∧ (∀ i j : Nat, i < n → j < n → ¬ (i ≤ k ∧ k ≤ j) →
              u1.R_bot ((i : Int) + (j : Int) * (ldr_bot : Int))
                = s1.R_bot ((i : Int) + (j : Int) * (ldr_bot : Int)))
          ∧ (∀ p, Padding ldr_top n n p → u1.R_top p = s1.R_top p)
          ∧ (∀ p, Padding ldr_bot n n p → u1.R_bot p = s1.R_bot p)
          ∧ (∀ p : Int, p ≠ (k : Int) → u1.tau p = s1.tau p)) := by
  constructor
  · obtain ⟨o1, o2, a1, a2, a3, a4, a5⟩ :=
      factor_pair_upper_only sqrt n hn T1 T2 ldr_top B1 B2 ldr_bot tau work hldt hldb hT hB
    obtain ⟨p2, p1, b1, b2, _, _, b5⟩ :=
      factor_pair_upper_only sqrt n hn T2 T1 ldr_top B2 B1 ldr_bot tau work hldt hldb
        (fun i j hij hj => (hT i j hij hj).symm) (fun i j hij hj => (hB i j hij hj).symm)
    have e : p2 = o2 := by
      have := b1.symm.trans a2
      exact Except.ok.inj this
    rw [e] at b5
    exact ⟨o1, o2, a1, a2, a3, a4, fun i j hji hi =>
      ⟨(a5 i j hji hi).1, (a5 i j hji hi).2, (b5 i j hji hi).1, (b5 i j hji hi).2⟩⟩
  · intro k s1 s2 hk h1 h2
    exact factor_pair_step_local sqrt n ldr_top ldr_bot k hk hldt hldb s1 s2 h1 h2

/-- Witness for C23: `n = 2`, leading dimensions 2; the two inputs hold different values in
the entries `R_top[1,0]` and `R_bot[1,0]` below the diagonal and `1` elsewhere. -/
theorem C23_factor_pair_touches_only_upper_triangles_witness :
    ∃ o1 o2, factor_pair (fun x : ℚ => x) 2 (fun p => if p = 1 then 5 else 1) 2
          (fun p => if p = 1 then 6 else 1) 2 (fun _ => 0) (fun _ => 0) = Except.ok o1
      ∧ factor_pair (fun x : ℚ => x) 2 (fun p => if p = 1 then 7 else 1) 2
          (fun p => if p = 1 then 8 else 1) 2 (fun _ => 0) (fun _ => 0) = Except.ok o2
      ∧ o1.tau = o2.tau
      ∧ o1.R_top 1 = 5 ∧ o1.R_bot 1 = 6 ∧ o2.R_top 1 = 7 ∧ o2.R_bot 1 = 8 := by
  obtain ⟨⟨o1, o2, h1, h2, h3, _, h5⟩, _⟩ :=
    C23_factor_pair_touches_only_upper_triangles (fun x : ℚ => x) 2 (by decide)
      (fun p => if p = 1 then 5 else 1) (fun p => if p = 1 then 7 else 1) 2
      (fun p => if p = 1 then 6 else 1) (fun p => if p = 1 then 8 else 1) 2
      (fun _ => 0) (fun _ => 0) (by decide) (by decide)
      (fun i j hij hj => by
        have hne : (i : Int) + (j : Int) * ((2 : Nat) : Int) ≠ 1 := by push_cast; omega
        simp only [if_neg hne])
      (fun i j hij hj => by
        have hne : (i : Int) + (j : Int) * ((2 : Nat) : Int) ≠ 1 := by push_cast; omega
        simp only [if_neg hne])
  have h := h5 1 0 (by decide) (by decide)
  simp at h
  exact ⟨o1, o2, h1, h2, h3, h.1, h.2.1, h.2.2.1, h.2.2.2⟩

section ScratchIndependence

omit [LinearOrderedField K] in
/-- Two counting loops whose bodies agree on the indices they run over are equal. -/
theorem loop_congr_lt {σ : Type} (n : Nat) (f g : Nat → σ → σ)
    (h : ∀ k, k < n → ∀ s, f k s = g k s) (s : σ) : loop n f s = loop n g s := by
  induction n with
  | zero => rfl
  | succ n ih =>
    rw [loop_succ, loop_succ, ih (fun k hk => h k (Nat.lt_succ_of_lt hk)),
      h n (Nat.lt_succ_self n)]

/-- Transposed `gemv` with `beta = 0` overwrites `y[0 .. dim1)`: what it stores there does
not depend on `y`. -/
theorem gemv_T_zero_agree (alpha : K) (V : View) (A x y y2 : Buf K) :
    AgreeBelow V.dim1 (gemv 'T' alpha V A x 0 y) (gemv 'T' alpha V A x 0 y2) := by
  intro t ht
  rw [gemv_T_at alpha V A x 0 y t ht, gemv_T_at alpha V A x 0 y2 t ht, zero_mul, zero_mul]

/-- Unit-stride `GER` reads `y` only on `[0, dim1)`. -/
theorem GER_unit_congr (alpha : K) (x y y2 : Buf K) (V : View) (A : Buf K)
    (h : AgreeBelow V.dim1 y y2) :
    GER alpha x 1 y 1 V A = GER alpha x 1 y2 1 V A := by
  have key : ∀ c : Nat, c ≤ V.dim1 →
      loop c (fun j (st : Buf K × Int) =>
          ((if y (st.2 - 1) ≠ 0 then
              loop V.dim0 (fun i (B : Buf K) =>
                Function.update B (V.idx i j) (B (V.idx i j) + x (i : Int) * (alpha * y (st.2 - 1))))
                st.1
            else st.1), st.2 + 1)) (A, (1 : Int))
        = loop c (fun j (st : Buf K × Int) =>
          ((if y2 (st.2 - 1) ≠ 0 then
              loop V.dim0 (fun i (B : Buf K) =>
                Function.update B (V.idx i j)
                  (B (V.idx i j) + x (i : Int) * (alpha * y2 (st.2 - 1))))
                st.1
            else st.1), st.2 + 1)) (A, (1 : Int))
      ∧ (loop c (fun j (st : Buf K × Int) =>
          ((if y2 (st.2 - 1) ≠ 0 then
              loop V.dim0 (fun i (B : Buf K) =>
                Function.update B (V.idx i j)
                  (B (V.idx i j) + x (i : Int) * (alpha * y2 (st.2 - 1))))
                st.1
            else st.1), st.2 + 1)) (A, (1 : Int))).2 = 1 + (c : Int) := by
    intro c
    induction c with
    | zero => intro _; exact ⟨rfl, by simp [loop]⟩
    | succ c ih =>
      intro hc
      obtain ⟨i1, i2⟩ := ih (Nat.le_of_succ_le hc)
      rw [loop_succ, loop_succ, i1]
      generalize loop c (fun j (st : Buf K × Int) =>
          ((if y2 (st.2 - 1) ≠ 0 then
              loop V.dim0 (fun i (B : Buf K) =>
                Function.update B (V.idx i j)
                  (B (V.idx i j) + x (i : Int) * (alpha * y2 (st.2 - 1))))
                st.1
            else st.1), st.2 + 1)) (A, (1 : Int)) = S at i2 ⊢
      have e : (1 : Int) + (c : Int) - 1 = (c : Int) := by ring
      simp only [i2, e, h c hc]
      refine ⟨trivial, ?_⟩
      push_cast
      ring
  unfold GER
  simp only [if_true, gt_iff_lt, zero_lt_one]
  exact congrArg Prod.fst (key V.dim1 le_rfl).1

/-- The `work`/`R` loop of a column step reads `work` only on `[0, n - k - 1)`. -/
theorem trail_rw_agree (p_kj : Nat → Int) (c0 : K) (k n : Nat) (R w w2 : Buf K)
    (h : AgreeBelow (n - (k + 1)) w w2) :
    (loopFrom (k + 1) n (fun j (st : Buf K × Buf K) =>
        let q : Int := (j : Int) - (k : Int) - 1
        let w3 := Function.update st.2 q (st.2 q + st.1 (p_kj j))
        (Function.update st.1 (p_kj j) (st.1 (p_kj j) - c0 * w3 q), w3)) (R, w)).1
      = (loopFrom (k + 1) n (fun j (st : Buf K × Buf K) =>
        let q : Int := (j : Int) - (k : Int) - 1
        let w3 := Function.update st.2 q (st.2 q + st.1 (p_kj j))
        (Function.update st.1 (p_kj j) (st.1 (p_kj j) - c0 * w3 q), w3)) (R, w2)).1
    ∧ AgreeBelow (n - (k + 1))
        (loopFrom (k + 1) n (fun j (st : Buf K × Buf K) =>
          let q : Int := (j : Int) - (k : Int) - 1
          let w3 := Function.update st.2 q (st.2 q + st.1 (p_kj j))
          (Function.update st.1 (p_kj j) (st.1 (p_kj j) - c0 * w3 q), w3)) (R, w)).2
        (loopFrom (k + 1) n (fun j (st : Buf K × Buf K) =>
          let q : Int := (j : Int) - (k : Int) - 1
          let w3 := Function.update st.2 q (st.2 q + st.1 (p_kj j))
          (Function.update st.1 (p_kj j) (st.1 (p_kj j) - c0 * w3 q), w3)) (R, w2)).2 := by
  unfold loopFrom
  generalize n - (k + 1) = N at h ⊢
  have key : ∀ c : Nat, c ≤ N →
      (loop c (fun t (st : Buf K × Buf K) =>
        (Function.update st.1 (p_kj (k + 1 + t)) (st.1 (p_kj (k + 1 + t))
            - c0 * Function.update st.2 (((k + 1 + t : Nat) : Int) - (k : Int) - 1)
                (st.2 (((k + 1 + t : Nat) : Int) - (k : Int) - 1) + st.1 (p_kj (k + 1 + t)))
                (((k + 1 + t : Nat) : Int) - (k : Int) - 1)),
          Function.update st.2 (((k + 1 + t : Nat) : Int) - (k : Int) - 1)
            (st.2 (((k + 1 + t : Nat) : Int) - (k : Int) - 1) + st.1 (p_kj (k + 1 + t)))))
        (R, w)).1
      = (loop c (fun t (st : Buf K × Buf K) =>
        (Function.update st.1 (p_kj (k + 1 + t)) (st.1 (p_kj (k + 1 + t))
            - c0 * Function.update st.2 (((k + 1 + t : Nat) : Int) - (k : Int) - 1)
                (st.2 (((k + 1 + t : Nat) : Int) - (k : Int) - 1) + st.1 (p_kj (k + 1 + t)))
                (((k + 1 + t : Nat) : Int) - (k : Int) - 1)),
          Function.update st.2 (((k + 1 + t : Nat) : Int) - (k : Int) - 1)
            (st.2 (((k + 1 + t : Nat) : Int) - (k : Int) - 1) + st.1 (p_kj (k + 1 + t)))))
        (R, w2)).1
      ∧ AgreeBelow N
        (loop c (fun t (st : Buf K × Buf K) =>
        (Function.update st.1 (p_kj (k + 1 + t)) (st.1 (p_kj (k + 1 + t))
            - c0 * Function.update st.2 (((k + 1 + t : Nat) : Int) - (k : Int) - 1)
                (st.2 (((k + 1 + t : Nat) : Int) - (k : Int) - 1) + st.1 (p_kj (k + 1 + t)))
                (((k + 1 + t : Nat) : Int) - (k : Int) - 1)),
          Function.update st.2 (((k + 1 + t : Nat) : Int) - (k : Int) - 1)
            (st.2 (((k + 1 + t : Nat) : Int) - (k : Int) - 1) + st.1 (p_kj (k + 1 + t)))))
        (R, w)).2
        (loop c (fun t (st : Buf K × Buf K) =>
        (Function.update st.1 (p_kj (k + 1 + t)) (st.1 (p_kj (k + 1 + t))
            - c0 * Function.update st.2 (((k + 1 + t : Nat) : Int) - (k : Int) - 1)
                (st.2 (((k + 1 + t : Nat) : Int) - (k : Int) - 1) + st.1 (p_kj (k + 1 + t)))
                (((k + 1 + t : Nat) : Int) - (k : Int) - 1)),
          Function.update st.2 (((k + 1 + t : Nat) : Int) - (k : Int) - 1)
            (st.2 (((k + 1 + t : Nat) : Int) - (k : Int) - 1) + st.1 (p_kj (k + 1 + t)))))
        (R, w2)).2 := by
    intro c
    induction c with
    | zero => intro _; exact ⟨rfl, h⟩
    | succ c ih =>
      intro hc
      obtain ⟨i1, i2⟩ := ih (Nat.le_of_succ_le hc)
      have hq : ((k + 1 + c : Nat) : Int) - (k : Int) - 1 = (c : Int) := by push_cast; ring
      rw [loop_succ, loop_succ]
      generalize loop c (fun t (st : Buf K × Buf K) =>
        (Function.update st.1 (p_kj (k + 1 + t)) (st.1 (p_kj (k + 1 + t))
            - c0 * Function.update st.2 (((k + 1 + t : Nat) : Int) - (k : Int) - 1)
                (st.2 (((k + 1 + t : Nat) : Int) - (k : Int) - 1) + st.1 (p_kj (k + 1 + t)))
                (((k + 1 + t : Nat) : Int) - (k : Int) - 1)),
          Function.update st.2 (((k + 1 + t : Nat) : Int) - (k : Int) - 1)
            (st.2 (((k + 1 + t : Nat) : Int) - (k : Int) - 1) + st.1 (p_kj (k + 1 + t)))))
        (R, w) = S at i1 i2 ⊢
      generalize loop c (fun t (st : Buf K × Buf K) =>
        (Function.update st.1 (p_kj (k + 1 + t)) (st.1 (p_kj (k + 1 + t))
            - c0 * Function.update st.2 (((k + 1 + t : Nat) : Int) - (k : Int) - 1)
                (st.2 (((k + 1 + t : Nat) : Int) - (k : Int) - 1) + st.1 (p_kj (k + 1 + t)))
                (((k + 1 + t : Nat) : Int) - (k : Int) - 1)),
          Function.update st.2 (((k + 1 + t : Nat) : Int) - (k : Int) - 1)
            (st.2 (((k + 1 + t : Nat) : Int) - (k : Int) - 1) + st.1 (p_kj (k + 1 + t)))))
        (R, w2) = S2 at i1 i2 ⊢
      simp only [hq, Function.update_same]
      rw [i1, i2 c hc]
      refine ⟨rfl, fun t ht => ?_⟩
      by_cases htc : (t : Int) = (c : Int)
      · rw [htc, Function.update_same, Function.update_same]
      · rw [Function.update_noteq htc, Function.update_noteq htc]
        exact i2 t ht
  exact key N le_rfl

end ScratchIndependence

section ScratchIndependenceFactor

/-- The trailing-update phase does not read what `work` held on entry: states that differ
only in `work` give results that differ only in `work`. -/
theorem trailPhase_work_indep (p_1k : Int) (V : View) (p_kj : Nat → Int) (k n : Nat)
    (hd1 : V.dim1 = n - (k + 1)) (s s2 : InnerState K) (hR : s.R = s2.R) (hA : s.A = s2.A)
    (ht : s.tau = s2.tau) :
    ∃ u u2, trailPhase p_1k V p_kj k n s = Except.ok u
      ∧ trailPhase p_1k V p_kj k n s2 = Except.ok u2
      ∧ u.R = u2.R ∧ u.A = u2.A ∧ u.tau = u2.tau := by
  have hg : AgreeBelow (n - (k + 1)) (gemv 'T' 1 V s2.A (ptr s2.A p_1k) 0 s.work)
      (gemv 'T' 1 V s2.A (ptr s2.A p_1k) 0 s2.work) := by
    rw [← hd1]
    exact gemv_T_zero_agree 1 V s2.A (ptr s2.A p_1k) s.work s2.work
  obtain ⟨r1, r2⟩ := trail_rw_agree p_kj (s2.tau (k : Int)) k n s2.R _ _ hg
  unfold trailPhase
  simp only [GEMV_unit, hR, hA, ht]
  refine ⟨_, _, rfl, rfl, r1, ?_, rfl⟩
  apply GER_unit_congr
  rw [hd1]
  exact r2

omit [LinearOrderedField K] in
/-- A fallible loop whose body returns and keeps a relation between two runs. -/
theorem loopM_rel {σ : Type} (rel : σ → σ → Prop) (body : Nat → σ → Except Err σ)
    (h : ∀ k s s2, rel s s2 →
      ∃ u u2, body k s = Except.ok u ∧ body k s2 = Except.ok u2 ∧ rel u u2)
    (n : Nat) (s s2 : σ) (hs : rel s s2) :
    ∃ u u2, loopM n body s = Except.ok u ∧ loopM n body s2 = Except.ok u2 ∧ rel u u2 := by
  induction n with
  | zero => exact ⟨s, s2, rfl, rfl, hs⟩
  | succ n ih =>
    obtain ⟨u, u2, h1, h2, h3⟩ := ih
    obtain ⟨v, v2, g1, g2, g3⟩ := h n u u2 h3
    refine ⟨v, v2, ?_, ?_, g3⟩
    · simp only [loopM, h1]
      exact g1
    · simp only [loopM, h2]
      exact g2

/-- A column step of `factor_inner` does not read what `work` held on entry. -/
theorem factor_inner_step_work_indep (sqrt : K → K) (m n ldr lda k : Nat) (s s2 : InnerState K)
    (h : s.R = s2.R ∧ s.A = s2.A ∧ s.tau = s2.tau) :
    ∃ u u2, factor_inner_step sqrt m n ldr lda k s = Except.ok u
      ∧ factor_inner_step sqrt m n ldr lda k s2 = Except.ok u2
      ∧ (u.R = u2.R ∧ u.A = u2.A ∧ u.tau = u2.tau) := by
  rw [factor_inner_step_eq, factor_inner_step_eq]
  apply trailPhase_work_indep
  · simp [View.rows, View.subview, View.ofPtr]
  · simp only [larfgPhase, h.1, h.2.1]
  · simp only [larfgPhase, h.1, h.2.1]
  · simp only [larfgPhase, h.1, h.2.1, h.2.2]

/-- A column step of `factor_pair` does not read what `work` held on entry. -/
theorem factor_pair_step_work_indep (sqrt : K → K) (VT VB : View) (k : Nat) (s s2 : PairState K)
    (h : s.R_top = s2.R_top ∧ s.R_bot = s2.R_bot ∧ s.tau = s2.tau) :
    ∃ u u2, factor_pair_step sqrt VT VB k s = Except.ok u
      ∧ factor_pair_step sqrt VT VB k s2 = Except.ok u2
      ∧ (u.R_top = u2.R_top ∧ u.R_bot = u2.R_bot ∧ u.tau = u2.tau) := by
  obtain ⟨u, u2, h1, h2, h3, h4, h5⟩ := trailPhase_work_indep (VB.idx 0 k)
    (VB.subview 0 (k + 1) (k + 1) VT.dim0) (fun j => VT.idx k j) k VT.dim0
    (by simp [View.subview])
    (larfgPhase sqrt (k + 1) (VT.idx k k) (VB.idx 0 k) (k : Int) s.toInner)
    (larfgPhase sqrt (k + 1) (VT.idx k k) (VB.idx 0 k) (k : Int) s2.toInner)
    (by simp only [larfgPhase, PairState.toInner, h.1, h.2.1])
    (by simp only [larfgPhase, PairState.toInner, h.1, h.2.1])
    (by simp only [larfgPhase, PairState.toInner, h.1, h.2.1, h.2.2])
  rw [factor_pair_step_eq, factor_pair_step_eq, h1, h2]
  exact ⟨u.toPair, u2.toPair, rfl, rfl, h3, h4, h5⟩

/-- `factor_inner` does not read what `work` held on entry. -/
theorem factor_inner_work_indep (sqrt : K → K) (m n : Nat) (R : Buf K) (ldr : Nat) (A : Buf K)
    (lda : Nat) (tau work work2 : Buf K) :
    ∃ o1 o2, factor_inner sqrt m n R ldr A lda tau work = Except.ok o1
      ∧ factor_inner sqrt m n R ldr A lda tau work2 = Except.ok o2
      ∧ o1.R = o2.R ∧ o1.A = o2.A ∧ o1.tau = o2.tau := by
  obtain ⟨u, u2, h1, h2, h3, h4, h5⟩ := loopM_rel
    (fun s s2 : InnerState K => s.R = s2.R ∧ s.A = s2.A ∧ s.tau = s2.tau)
    (factor_inner_step sqrt m n ldr lda) (factor_inner_step_work_indep sqrt m n ldr lda) (n - 1)
    ⟨R, A, tau, loop n (fun k (w : Buf K) => Function.update w (k : Int) 0) work⟩
    ⟨R, A, tau, loop n (fun k (w : Buf K) => Function.update w (k : Int) 0) work2⟩
    ⟨rfl, rfl, rfl⟩
  rw [factor_inner_eq, factor_inner_eq, h1, h2]
  refine ⟨_, _, rfl, rfl, ?_, ?_, ?_⟩
  · simp only [larfgPhase, h3, h4]
  · simp only [larfgPhase, h3, h4]
  · simp only [larfgPhase, h3, h4, h5]

/-- The view overload of `factor_pair` does not read what `work` held on entry. -/
theorem factor_pair_view_work_indep (sqrt : K → K) (VT VB : View)
    (R_top R_bot tau work work2 : Buf K) :
    ∃ o1 o2, factor_pair_view sqrt VT VB R_top R_bot tau work = Except.ok o1
      ∧ factor_pair_view sqrt VT VB R_top R_bot tau work2 = Except.ok o2
      ∧ o1.R_top = o2.R_top ∧ o1.R_bot = o2.R_bot ∧ o1.tau = o2.tau := by
  obtain ⟨u, u2, h1, h2, h3, h4, h5⟩ := loopM_rel
    (fun s s2 : PairState K => s.R_top = s2.R_top ∧ s.R_bot = s2.R_bot ∧ s.tau = s2.tau)
    (factor_pair_step sqrt VT VB) (factor_pair_step_work_indep sqrt VT VB) (VT.dim0 - 1)
    ⟨R_top, R_bot, tau, loop VT.dim0 (fun k (w : Buf K) => Function.update w (k : Int) 0) work⟩
    ⟨R_top, R_bot, tau, loop VT.dim0 (fun k (w : Buf K) => Function.update w (k : Int) 0) work2⟩
    ⟨rfl, rfl, rfl⟩
  unfold factor_pair_view
  simp only [h1, h2, h3, h4, h5]
  exact ⟨_, _, rfl, rfl, rfl, rfl, rfl⟩

end ScratchIndependenceFactor

section ScratchIndependenceApply

omit [LinearOrderedField K] in
/-- A sweep whose steps keep a relation between two runs keeps it. -/
theorem loop_rel {σ : Type} (rel : σ → σ → Prop) (body : Nat → σ → σ)
    (h : ∀ k s s2, rel s s2 → rel (body k s) (body k s2)) (n : Nat) (s s2 : σ)
    (hs : rel s s2) : rel (loop n body s) (loop n body s2) := by
  induction n with
  | zero => exact hs
  | succ n ih => exact h n _ _ ih

omit [LinearOrderedField K] in
/-- A descending sweep whose steps keep a relation between two runs keeps it. -/
theorem loopDown_rel {σ : Type} (rel : σ → σ → Prop) (body : Nat → σ → σ)
    (h : ∀ k s s2, rel s s2 → rel (body k s) (body k s2)) (n : Nat) (s s2 : σ)
    (hs : rel s s2) : rel (loopDown n body s) (loopDown n body s2) := by
  induction n generalizing s s2 with
  | zero => exact hs
  | succ n ih => exact ih _ _ (h n s s2 hs)

/-- A step of `apply_pair` overwrites `work[0 .. ncols_C)` before reading it. -/
theorem apply_pair_step_work_indep (VR VT VB : View) (hdim : VB.dim1 ≤ VT.dim1)
    (R_bot tau : Buf K) (j : Nat) (s s2 : ApplyState K)
    (h : s.C_top = s2.C_top ∧ s.C_bot = s2.C_bot) :
    (apply_pair_step VR VT VB R_bot tau j s).C_top
        = (apply_pair_step VR VT VB R_bot tau j s2).C_top
    ∧ (apply_pair_step VR VT VB R_bot tau j s).C_bot
        = (apply_pair_step VR VT VB R_bot tau j s2).C_bot := by
  have hw : AgreeBelow VT.dim1 (apply_pair_step VR VT VB R_bot tau j s).work
      (apply_pair_step VR VT VB R_bot tau j s2).work := by
    intro t ht
    unfold apply_pair_step
    simp only []
    rw [loop_update_at VT.dim1 (fun i : Nat => (i : Int))
        (fun i _ => loop (j + 1) (fun k acc => acc + ptr R_bot (VR.idx 0 j) (k : Int)
            * ptr s.C_bot (VB.idx 0 i) (k : Int)) 0 + s.C_top (VT.idx j i)) s.work t ht
        (fun a _ h => by simpa using h),
      loop_update_at VT.dim1 (fun i : Nat => (i : Int))
        (fun i _ => loop (j + 1) (fun k acc => acc + ptr R_bot (VR.idx 0 j) (k : Int)
            * ptr s2.C_bot (VB.idx 0 i) (k : Int)) 0 + s2.C_top (VT.idx j i)) s2.work t ht
        (fun a _ h => by simpa using h), h.1, h.2]
  have eT : ∀ u : ApplyState K, (apply_pair_step VR VT VB R_bot tau j u).C_top
      = loop VT.dim1 (fun j_C (C : Buf K) =>
          Function.update C (VT.idx j j_C)
            (C (VT.idx j j_C) - tau (j : Int)
              * (apply_pair_step VR VT VB R_bot tau j u).work (j_C : Int))) u.C_top :=
    fun _ => rfl
  have eB : ∀ u : ApplyState K, (apply_pair_step VR VT VB R_bot tau j u).C_bot
      = GER (-(tau (j : Int))) (ptr R_bot (VR.idx 0 j)) 1
          (apply_pair_step VR VT VB R_bot tau j u).work 1 VB u.C_bot :=
    fun _ => rfl
  constructor
  · rw [eT s, eT s2, h.1]
    apply loop_congr_lt
    intro k hk C
    rw [hw k hk]
  · rw [eB s, eB s2, h.2]
    apply GER_unit_congr
    exact fun t ht => hw t (lt_of_lt_of_le ht hdim)

/-- A step of `apply_inner` overwrites `work[0 .. ncols_C)` before reading it. -/
theorem apply_inner_step_work_indep (m ncols_C : Nat) (A : Buf K) (lda : Nat) (tau : Buf K)
    (ldc_top ldc_bot : Nat) (j : Nat) (s s2 : ApplyState K)
    (h : s.C_top = s2.C_top ∧ s.C_bot = s2.C_bot) :
    (apply_inner_step m ncols_C A lda tau ldc_top ldc_bot j s).C_top
        = (apply_inner_step m ncols_C A lda tau ldc_top ldc_bot j s2).C_top
    ∧ (apply_inner_step m ncols_C A lda tau ldc_top ldc_bot j s).C_bot
        = (apply_inner_step m ncols_C A lda tau ldc_top ldc_bot j s2).C_bot := by
  have hw : AgreeBelow ncols_C (apply_inner_step m ncols_C A lda tau ldc_top ldc_bot j s).work
      (apply_inner_step m ncols_C A lda tau ldc_top ldc_bot j s2).work := by
    intro t ht
    rw [apply_inner_step_work m ncols_C A lda tau ldc_top ldc_bot j s t ht,
      apply_inner_step_work m ncols_C A lda tau ldc_top ldc_bot j s2 t ht, h.1, h.2]
  have eT : ∀ u : ApplyState K, (apply_inner_step m ncols_C A lda tau ldc_top ldc_bot j u).C_top
      = loop ncols_C (fun k (C : Buf K) =>
          Function.update C ((j : Int) + (k : Int) * (ldc_top : Int))
            (C ((j : Int) + (k : Int) * (ldc_top : Int)) - tau (j : Int)
              * (apply_inner_step m ncols_C A lda tau ldc_top ldc_bot j u).work (k : Int)))
          u.C_top :=
    fun _ => rfl
  have eB : ∀ u : ApplyState K, (apply_inner_step m ncols_C A lda tau ldc_top ldc_bot j u).C_bot
      = GER (-(tau (j : Int))) (ptr A (0 + (j : Int) * (lda : Int))) 1
          (apply_inner_step m ncols_C A lda tau ldc_top ldc_bot j u).work 1
          ((View.ofPtr ldc_bot ncols_C).rows 0 m) u.C_bot :=
    fun _ => rfl
  constructor
  · rw [eT s, eT s2, h.1]
    apply loop_congr_lt
    intro k hk C
    rw [hw k hk]
  · rw [eB s, eB s2, h.2]
    apply GER_unit_congr
    exact fun t ht => hw t (by simpa [View.rows, View.subview, View.ofPtr] using ht)

end ScratchIndependenceApply

section ScratchZeroing

/-- The loop `for (k = 0; k < n; ++k) work[k] = ZERO`, in closed form. -/
theorem loop_zero_closed (n : Nat) (w : Buf K) :
    loop n (fun k (w : Buf K) => Function.update w (k : Int) 0) w
      = fun p => if 0 ≤ p ∧ p < (n : Int) then 0 else w p := by
  induction n with
  | zero =>
    funext p
    have h : ¬ (0 ≤ p ∧ p < ((0 : Nat) : Int)) := by push_cast; omega
    rw [if_neg h]
    rfl
  | succ n ih =>
    rw [loop_succ, ih]
    funext p
    by_cases hp : p = (n : Int)
    · rw [hp, Function.update_same, if_pos (by push_cast; omega)]
    · rw [Function.update_noteq hp]
      by_cases h : 0 ≤ p ∧ p < (n : Int)
      · rw [if_pos h, if_pos (by push_cast; omega)]
      · rw [if_neg h, if_neg (by push_cast; omega)]

/-- Zeroing `work[0 .. n)` gives the same array whether or not `work[0 .. n)` was zero. -/
theorem loop_zero_idem (n : Nat) (w : Buf K) :
    loop n (fun k (w : Buf K) => Function.update w (k : Int) 0)
        (fun p => if 0 ≤ p ∧ p < (n : Int) then 0 else w p)
      = loop n (fun k (w : Buf K) => Function.update w (k : Int) 0) w := by
  rw [loop_zero_closed, loop_zero_closed]
  funext p
  by_cases h : 0 ≤ p ∧ p < (n : Int)
  · simp only [if_pos h]
  · simp only [if_neg h]

end ScratchZeroing

/-- C24: the scratch buffer carries no information into a call.  Over any ordered field and
any stand-in for the square root, for every input: two runs of `factor_inner`, of
`factor_pair`, of `apply_inner` or of the public `apply_pair` on the same matrices and `tau`
with arbitrary, different contents of `work` return (the factorizations without error) the
same matrix buffers and the same `tau`; and each of the four starts by zeroing
`work[0 .. n)` (`work[0 .. ncols_C)` for the applications), so a run is the run on the
scratch buffer with these entries zero. -/
theorem C24_scratch_buffer_carries_no_information (sqrt : K → K) (applyType : ApplyType)
    (m n ncols_C ncols_Q : Nat) (R : Buf K) (ldr : Nat) (A : Buf K) (lda : Nat)
    (R_top : Buf K) (ldr_top : Nat) (R_bot : Buf K) (ldr_bot : Nat) (tau C_top : Buf K)
    (ldc_top : Nat) (C_bot : Buf K) (ldc_bot : Nat) (work work2 : Buf K) :
    (∃ o1 o2, factor_inner sqrt m n R ldr A lda tau work = Except.ok o1
      ∧ factor_inner sqrt m n R ldr A lda tau work2 = Except.ok o2
      ∧ o1.R = o2.R ∧ o1.A = o2.A ∧ o1.tau = o2.tau)
    ∧ (∃ o1 o2, factor_pair sqrt n R_top ldr_top R_bot ldr_bot tau work = Except.ok o1
      ∧ factor_pair sqrt n R_top ldr_top R_bot ldr_bot tau work2 = Except.ok o2
      ∧ o1.R_top = o2.R_top ∧ o1.R_bot = o2.R_bot ∧ o1.tau = o2.tau)
    ∧ ((apply_inner applyType m ncols_C ncols_Q A lda tau C_top ldc_top C_bot ldc_bot work).C_top
        = (apply_inner applyType m ncols_C ncols_Q A lda tau C_top ldc_top C_bot ldc_bot
            work2).C_top
      ∧ (apply_inner applyType m ncols_C ncols_Q A lda tau C_top ldc_top C_bot ldc_bot
            work).C_bot
        = (apply_inner applyType m ncols_C ncols_Q A lda tau C_top ldc_top C_bot ldc_bot
            work2).C_bot)
    ∧ ((apply_pair applyType ncols_C ncols_Q R_bot ldr_bot tau C_top ldc_top C_bot ldc_bot
            work).C_top
        = (apply_pair applyType ncols_C ncols_Q R_bot ldr_bot tau C_top ldc_top C_bot ldc_bot
            work2).C_top
      ∧ (apply_pair applyType ncols_C ncols_Q R_bot ldr_bot tau C_top ldc_top C_bot ldc_bot
            work).C_bot
        = (apply_pair applyType ncols_C ncols_Q R_bot ldr_bot tau C_top ldc_top C_bot ldc_bot
            work2).C_bot)
    ∧ factor_inner sqrt m n R ldr A lda tau work
        = factor_inner sqrt m n R ldr A lda tau
            (fun p => if 0 ≤ p ∧ p < (n : Int) then 0 else work p)
    ∧ factor_pair sqrt n R_top ldr_top R_bot ldr_bot tau work
        = factor_pair sqrt n R_top ldr_top R_bot ldr_bot tau
            (fun p => if 0 ≤ p ∧ p < (n : Int) then 0 else work p)
    ∧ apply_inner applyType m ncols_C ncols_Q A lda tau C_top ldc_top C_bot ldc_bot work
        = apply_inner applyType m ncols_C ncols_Q A lda tau C_top ldc_top C_bot ldc_bot
            (fun p => if 0 ≤ p ∧ p < (ncols_C : Int) then 0 else work p)
    ∧ apply_pair applyType ncols_C ncols_Q R_bot ldr_bot tau C_top ldc_top C_bot ldc_bot work
        = apply_pair applyType ncols_C ncols_Q R_bot ldr_bot tau C_top ldc_top C_bot ldc_bot
            (fun p => if 0 ≤ p ∧ p < (ncols_C : Int) then 0 else work p) := by
  refine ⟨factor_inner_work_indep sqrt m n R ldr A lda tau work work2, ?_, ?_, ?_, ?_, ?_, ?_,
    ?_⟩
  · rw [factor_pair_eq_view, factor_pair_eq_view]
    exact factor_pair_view_work_indep sqrt _ _ R_top R_bot tau work work2
  · unfold apply_inner
    by_cases h : applyType = ApplyType.NoTranspose
    · simp only [if_pos h]
      exact loopDown_rel (fun s s2 : ApplyState K => s.C_top = s2.C_top ∧ s.C_bot = s2.C_bot)
        _ (apply_inner_step_work_indep m ncols_C A lda tau ldc_top ldc_bot) ncols_Q _ _
        ⟨rfl, rfl⟩
    · simp only [if_neg h]
      exact loop_rel (fun s s2 : ApplyState K => s.C_top = s2.C_top ∧ s.C_bot = s2.C_bot)
        _ (apply_inner_step_work_indep m ncols_C A lda tau ldc_top ldc_bot) ncols_Q _ _
        ⟨rfl, rfl⟩
  · unfold apply_pair apply_pair_view
    have hdim : (((View.ofPtr ldc_bot ncols_C).rows 0 ncols_C)).dim1
        ≤ (((View.ofPtr ldc_top ncols_C).rows 0 ncols_C)).dim1 := by
      simp [View.rows, View.subview, View.ofPtr]
    by_cases h : applyType = ApplyType.NoTranspose
    · simp only [if_pos h]
      exact loopDown_rel (fun s s2 : ApplyState K => s.C_top = s2.C_top ∧ s.C_bot = s2.C_bot)
        _ (apply_pair_step_work_indep _ _ _ hdim R_bot tau) _ _ _ ⟨rfl, rfl⟩
    · simp only [if_neg h]
      exact loop_rel (fun s s2 : ApplyState K => s.C_top = s2.C_top ∧ s.C_bot = s2.C_bot)
        _ (apply_pair_step_work_indep _ _ _ hdim R_bot tau) _ _ _ ⟨rfl, rfl⟩
  · unfold factor_inner
    rw [loop_zero_idem]
  · rw [factor_pair_eq_view, factor_pair_eq_view]
    unfold factor_pair_view
    simp only []
    rw [loop_zero_idem]
  · unfold apply_inner
    rw [loop_zero_idem]
  · unfold apply_pair apply_pair_view
    have hd : ((View.ofPtr ldc_top ncols_C).rows 0 ncols_C).dim1 = ncols_C := by
      simp [View.rows, View.subview, View.ofPtr]
    simp only [hd]
    rw [loop_zero_idem]

section TruncatedReference

/-- On an upper-triangular `R_bot` the step of `apply_pair`, which updates whole columns of
`C_bot`, is the truncated reference step. -/
theorem applyPairMatStep_eq_reference {n c : Nat} (B : Matrix (Fin n) (Fin n) K)
    (tau : Fin n → K) (hB : ∀ i j : Fin n, (j : Nat) < (i : Nat) → B i j = 0) :
    applyPairMatStep (c := c) B tau = apply_pair_truncated_reference_step B tau := by
  funext j C
  unfold applyPairMatStep apply_pair_truncated_reference_step
  by_cases hj : j < n
  · have hw : ∀ i : Fin c,
        reflW (fun k : Fin n => if (k : Nat) < j + 1 then B k ⟨j, hj⟩ else 0) ⟨j, hj⟩ C.1 C.2 i
          = (∑ k : Fin n, if (k : Nat) ≤ j then B k ⟨j, hj⟩ * C.2 k i else 0)
            + C.1 ⟨j, hj⟩ i := by
      intro i
      unfold reflW
      congr 1
      apply Finset.sum_congr rfl
      intro k _
      have hiff : ((k : Nat) < j + 1) ↔ ((k : Nat) ≤ j) := Nat.lt_succ_iff
      by_cases hk : (k : Nat) ≤ j
      · simp only [hiff, if_pos hk]
      · simp only [hiff, if_neg hk, zero_mul]
    simp only [dif_pos hj, hw]
    refine Prod.ext rfl ?_
    funext k i
    simp only []
    by_cases hk : (k : Nat) ≤ j
    · rw [if_pos hk]
      ring
    · rw [if_neg hk, hB k ⟨j, hj⟩ (not_le.1 hk), zero_mul, add_zero]
  · simp only [dif_neg hj]

/-- The sweeps of `apply_pair` on square operands keep the padding of `C_top` and `C_bot`. -/
theorem apply_pair_sweep_frame (n ldr ldt ldb : Nat) (R_bot tau : Buf K) (hldb : n ≤ ldb)
    (p : Int) (c : Nat) (hc : c ≤ n) (s : ApplyState K) :
    ((Padding ldt n n p →
        (loop c (apply_pair_step ⟨0, n, n, ldr⟩ ⟨0, n, n, ldt⟩ ⟨0, n, n, ldb⟩ R_bot tau) s).C_top p
          = s.C_top p)
      ∧ (Padding ldb n n p →
        (loop c (apply_pair_step ⟨0, n, n, ldr⟩ ⟨0, n, n, ldt⟩ ⟨0, n, n, ldb⟩ R_bot tau) s).C_bot p
          = s.C_bot p))
    ∧ ((Padding ldt n n p →
        (loopDown c (apply_pair_step ⟨0, n, n, ldr⟩ ⟨0, n, n, ldt⟩ ⟨0, n, n, ldb⟩ R_bot tau)
          s).C_top p = s.C_top p)
      ∧ (Padding ldb n n p →
        (loopDown c (apply_pair_step ⟨0, n, n, ldr⟩ ⟨0, n, n, ldt⟩ ⟨0, n, n, ldb⟩ R_bot tau)
          s).C_bot p = s.C_bot p)) := by
  have hstep : ∀ (j : Nat) (u : ApplyState K), j < n →
      (Padding ldt n n p →
        (apply_pair_step ⟨0, n, n, ldr⟩ ⟨0, n, n, ldt⟩ ⟨0, n, n, ldb⟩ R_bot tau j u).C_top p
          = u.C_top p)
      ∧ (Padding ldb n n p →
        (apply_pair_step ⟨0, n, n, ldr⟩ ⟨0, n, n, ldt⟩ ⟨0, n, n, ldb⟩ R_bot tau j u).C_bot p
          = u.C_bot p) := by
    intro j u hj
    exact ⟨fun hp => apply_pair_step_top_frame n ldr ldt ldb R_bot tau j u p
        (fun i hi => hp j i hj hi),
      fun hp => apply_pair_step_bot_frame n ldr ldt ldb R_bot tau j u hldb p hp⟩
  induction c generalizing s with
  | zero => exact ⟨⟨fun _ => rfl, fun _ => rfl⟩, ⟨fun _ => rfl, fun _ => rfl⟩⟩
  | succ c ih =>
    have hcn : c < n := hc
    refine ⟨⟨fun hp => ?_, fun hp => ?_⟩, ⟨fun hp => ?_, fun hp => ?_⟩⟩
    · rw [loop_succ, (hstep c _ hcn).1 hp]
      exact (ih (le_of_lt hcn) s).1.1 hp
    · rw [loop_succ, (hstep c _ hcn).2 hp]
      exact (ih (le_of_lt hcn) s).1.2 hp
    · rw [loopDown_succ, (ih (le_of_lt hcn) _).2.1 hp]
      exact (hstep c s hcn).1 hp
    · rw [loopDown_succ, (ih (le_of_lt hcn) _).2.2 hp]
      exact (hstep c s hcn).2 hp

end TruncatedReference

/-- C25: on square, triangular input `apply_pair` agrees with the truncated reference.  In
exact arithmetic (any ordered field), for every `applyType`, every `n ≥ 0` with
`ncols_Q = ncols_C = n`, leading dimensions `ldc_top, ldc_bot ≥ n`, every `R_bot` whose
strictly lower triangle is zero and every `tau`, `C_top`, `C_bot`, `work`: the logical
`n × n` matrices `C_top` and `C_bot` returned by the public `apply_pair` are those of the
truncated reference (sweep of `j_Q` in the `applyType` order; `w` over `k ≤ j_Q`; update of
`C_bot[k, ·]` for `k ≤ j_Q` only), and the padding of both buffers is left as it was. -/
theorem C25_apply_pair_agrees_with_truncated_reference (applyType : ApplyType) (n : Nat)
    (R_bot : Buf K) (ldr_bot : Nat) (tau C_top : Buf K) (ldc_top : Nat) (C_bot : Buf K)
    (ldc_bot : Nat) (work : Buf K) (hldt : n ≤ ldc_top) (hldb : n ≤ ldc_bot)
    (hlow : ∀ i j : Nat, j < i → i < n →
      R_bot ((i : Int) + (j : Int) * (ldr_bot : Int)) = 0) :
    (apply_pair applyType n n R_bot ldr_bot tau C_top ldc_top C_bot ldc_bot work).read
        ldc_top ldc_bot n n n
      = apply_pair_truncated_reference applyType (readMat R_bot ldr_bot n n) (readVec tau n)
          (readMat C_top ldc_top n n, readMat C_bot ldc_bot n n)
    ∧ (∀ p, Padding ldc_top n n p →
        (apply_pair applyType n n R_bot ldr_bot tau C_top ldc_top C_bot ldc_bot work).C_top p
          = C_top p)
    ∧ (∀ p, Padding ldc_bot n n p →
        (apply_pair applyType n n R_bot ldr_bot tau C_top ldc_top C_bot ldc_bot work).C_bot p
          = C_bot p) := by
  have hB : ∀ i j : Fin n, (j : Nat) < (i : Nat) → readMat R_bot ldr_bot n n i j = 0 :=
    fun i j hji => hlow i j hji i.2
  refine ⟨?_, fun p hp => ?_, fun p hp => ?_⟩
  · rw [apply_pair_read applyType n R_bot ldr_bot tau C_top ldc_top C_bot ldc_bot work hldt hldb,
      applyPairMatStep_eq_reference _ _ hB]
    rfl
  · rw [apply_pair_eq_view]
    unfold apply_pair_view
    by_cases h : applyType = ApplyType.NoTranspose
    · simp only [if_pos h]
      exact (apply_pair_sweep_frame n ldr_bot ldc_top ldc_bot R_bot tau hldb p n le_rfl _).2.1 hp
    · simp only [if_neg h]
      exact (apply_pair_sweep_frame n ldr_bot ldc_top ldc_bot R_bot tau hldb p n le_rfl _).1.1 hp
  · rw [apply_pair_eq_view]
    unfold apply_pair_view
    by_cases h : applyType = ApplyType.NoTranspose
    · simp only [if_pos h]
      exact (apply_pair_sweep_frame n ldr_bot ldc_top ldc_bot R_bot tau hldb p n le_rfl _).2.2 hp
    · simp only [if_neg h]
      exact (apply_pair_sweep_frame n ldr_bot ldc_top ldc_bot R_bot tau hldb p n le_rfl _).1.2 hp

/-- Witness for C25: `n = 2`, `Transpose`, `R_bot = [[1, 2], [0, 3]]` (column-major
`[1, 0, 2, 3]`, strictly lower triangle zero), leading dimensions 2. -/
theorem C25_apply_pair_agrees_with_truncated_reference_witness :
    (apply_pair ApplyType.Transpose 2 2
        (fun p => if p = 0 then (1 : ℚ) else if p = 2 then 2 else if p = 3 then 3 else 0) 2
        (fun _ => 1) (fun _ => 1) 2 (fun _ => 1) 2 (fun _ => 0)).read 2 2 2 2 2
      = apply_pair_truncated_reference ApplyType.Transpose
          (readMat (fun p => if p = 0 then (1 : ℚ) else if p = 2 then 2 else if p = 3 then 3
            else 0) 2 2 2)
          (readVec (fun _ => 1) 2) (readMat (fun _ => 1) 2 2 2, readMat (fun _ => 1) 2 2 2) :=
  (C25_apply_pair_agrees_with_truncated_reference ApplyType.Transpose 2
    (fun p => if p = 0 then (1 : ℚ) else if p = 2 then 2 else if p = 3 then 3 else 0) 2
    (fun _ => 1) (fun _ => 1) 2 (fun _ => 1) 2 (fun _ => 0) (by decide) (by decide)
    (fun i j hji hi => by
      have h1 : (i : Int) + (j : Int) * ((2 : Nat) : Int) = 1 := by push_cast; omega
      rw [h1]
      rfl)).1

section AccessBounds

end AccessBounds

section AccessMembership

end AccessMembership

section AccessMembershipPair

end AccessMembershipPair

section AccessFrames

end AccessFrames

section GERNonUnitLemmas

end GERNonUnitLemmas

end TSQR
